import Mathlib

/-!
# VAST indexing core: bitstreams and the per-event expression evaluator

A shallow embedding of `src/src/vast/bitstream.h` (the CRTP base class
`bitstream_base`, the block-wise `apply` algorithm and the operations
`and_`, `or_`, `xor_`, `nand_`, `nor_` built on it) and of the per-event
evaluator of `src/src/vast/expression.cc`.

Machine words are natural numbers; where the C++ arithmetic is unsigned
64-bit arithmetic that may wrap, the wrap is written out with `% 2 ^ 64`.
-/

namespace vast

/-! ## Constants of `bitvector` -/

/-- Modelled from the spec: `bitvector::block_width` (vast/bitvector.h is not
among the sources). A block is a 64-bit machine word. -/
def block_width : Nat := 64

/-- Modelled from the spec: `bitvector::npos`, the sentinel "no such
position", the largest value of the 64-bit `size_type`. -/
def npos : Nat := 2 ^ 64 - 1

/-- Modelled from the spec: `bitvector::all_one`, the block with all 64 bits
set. -/
def all_one : Nat := 2 ^ 64 - 1

/-- Unsigned 64-bit subtraction `a - b` on `size_type`, wrapping around. -/
def size_sub (a b : Nat) : Nat := (a + 2 ^ 64 - b) % 2 ^ 64

/-! ## Bit sequences (`detail::sequence_range_base::bitsequence`) -/

/-- The enum `sequence_range_base::block_type`. -/
inductive block_type where
  | fill
  | literal
  deriving DecidableEq, Repr

/-- The struct `sequence_range_base::bitsequence`. -/
structure bitsequence where
  type : block_type
  offset : Nat
  data : Nat
  length : Nat
  deriving DecidableEq, Repr

/-- The method `bitsequence::is_fill`. -/
def bitsequence.is_fill (s : bitsequence) : Bool := s.type = block_type.fill

/-- The method `bitsequence::is_literal`. -/
def bitsequence.is_literal (s : bitsequence) : Bool := s.type = block_type.literal

/-! ## The bitstream concept

`apply` is a template over the type `Bitstream`. The operations it uses on
that type (`sequence_range`, `append_impl`, `append_block_impl`,
`size_impl`, default construction) are defined in `bitstream.cc`, which is
not among the sources; the template parameter is therefore a record of
these operations, and their contract is stated separately in
`Bitstream.Contract`. -/

/-- The operations of a concrete bitstream type that `bitstream_base` and
`apply` rely on. `bits` is the sequence of bits the bitstream denotes
(`at(i)` for `i < size()`), used to state what the operations compute. -/
structure Bitstream where
  carrier : Type
  /-- The default-constructed (empty) bitstream. -/
  dflt : carrier
  bits : carrier → List Bool
  size_impl : carrier → Nat
  count_impl : carrier → Nat
  append_impl : carrier → Nat → Bool → carrier
  append_block_impl : carrier → Nat → Nat → carrier
  sequence_range : carrier → List bitsequence

/-- The low `n` bits of a block, least significant bit first. -/
def block_bits (block n : Nat) : List Bool :=
  (List.range n).map (fun j => block.testBit j)

/-- The bits that remain of a sequence of which `l` bits are still to be
consumed: `l` copies of the fill bit for a fill, the low `l` bits of the data
block for a literal. -/
def bitsequence.rem (s : bitsequence) (l : Nat) : List Bool :=
  if s.is_fill then List.replicate l (s.data != 0) else block_bits s.data l

/-- The bits denoted by a list of sequences. -/
def denote : List bitsequence → List Bool
  | [] => []
  | s :: ss => s.rem s.length ++ denote ss

/-- Shape of a sequence of which `l` bits remain. A fill is homogeneous (its
data block is all zeros or all ones) and a multiple of the block width long; a
literal holds at most one block of bits, its unused high bits are zero, and
only the last sequence of a bitstream may be shorter than a block. -/
def cur_ok (s : bitsequence) (l : Nat) (last : Prop) : Prop :=
  0 < l ∧
  (s.type = block_type.fill → (s.data = 0 ∨ s.data = all_one) ∧ block_width ∣ l) ∧
  (s.type = block_type.literal →
    l = s.length ∧ l ≤ block_width ∧ s.data < 2 ^ l ∧ (l < block_width → last))

/-- Shape of a list of sequences, offsets aside. -/
def tail_wf : List bitsequence → Prop
  | [] => True
  | s :: ss => cur_ok s s.length (ss = []) ∧ tail_wf ss

/-- The sequences are laid out back to back starting at bit `off`. -/
def offsets_from : Nat → List bitsequence → Prop
  | _, [] => True
  | off, s :: ss => s.offset = off ∧ offsets_from (off + s.length) ss

/-- Modelled from the spec: the contract of a bitstream encoding (§4.1 and
§4.2 of the specification; the implementations in bitstream.cc and
bitvector.h are not among the sources). `append(n, bit)` adds `n` copies of
`bit`, `appendBlock(block, nbits)` adds the low `nbits ≤ blockWidth` bits of
`block`, `size` and `count` are the length and the population count, and the
sequence iteration is a range of FILL sequences (homogeneous bits, length a
multiple of the block width) and LITERAL sequences (up to one block of mixed
bits) that covers the bits of the bitstream in order. -/
structure Bitstream.Contract (B : Bitstream) : Prop where
  bits_dflt : B.bits B.dflt = []
  size_eq : ∀ x, B.size_impl x = (B.bits x).length
  count_eq : ∀ x, B.count_impl x = (B.bits x).count true
  bits_append : ∀ x n bit, B.bits (B.append_impl x n bit) = B.bits x ++ List.replicate n bit
  bits_append_block : ∀ x block n, n ≤ block_width →
    B.bits (B.append_block_impl x block n) = B.bits x ++ block_bits block n
  seq_wf : ∀ x, tail_wf (B.sequence_range x)
  seq_offsets : ∀ x, offsets_from 0 (B.sequence_range x)
  seq_denote : ∀ x, denote (B.sequence_range x) = B.bits x

/-! ## `bitstream_base` -/

/-- The method `bitstream_base::size`. -/
def Bitstream.size (B : Bitstream) (x : B.carrier) : Nat := B.size_impl x

/-- The method `bitstream_base::count`. -/
def Bitstream.count (B : Bitstream) (x : B.carrier) : Nat := B.count_impl x

/-- The method `bitstream_base::append`: the returned flag and the bitstream
afterwards. -/
def Bitstream.append (B : Bitstream) (x : B.carrier) (n : Nat) (bit : Bool) :
    Bool × B.carrier :=
  if n = 0 ∨ npos - n < B.size x then (false, x)
  else (true, B.append_impl x n bit)

/-- The method `bitstream_base::append_block`: the returned flag and the
bitstream afterwards. The method asserts `bits <= block_width`; `apply` calls
it with the block width or with the length of a literal sequence. -/
def Bitstream.append_block (B : Bitstream) (x : B.carrier) (block bits : Nat) :
    Bool × B.carrier :=
  if npos - bits < B.size x then (false, x)
  else (true, B.append_block_impl x block bits)

/-! ## `apply` -/

/-- The state of the main loop of `apply`: the two sequence iterators (the
sequences not yet passed, the current one first; `[]` is `end()`), the bits
left of the two current sequences, and the result so far. -/
structure apply_state (B : Bitstream) where
  ix : List bitsequence
  iy : List bitsequence
  lx : Nat
  ly : Nat
  result : B.carrier

/-- The conditional assignment `if (++ix != rx.end()) lx = ix->length;`: the
value of `lx` once the iterator has been moved onto the sequences `xs`. -/
def next_length (xs : List bitsequence) (lx : Nat) : Nat :=
  match xs with
  | [] => lx
  | x' :: _ => x'.length

/-- The statement `if (lx == 0 && ++ix != rx.end()) lx = ix->length;`, with
`ix` at `x` followed by `xs`: the iterator and `lx` afterwards. -/
def advance (x : bitsequence) (xs : List bitsequence) (lx : Nat) :
    List bitsequence × Nat :=
  if lx = 0 then (xs, next_length xs lx) else (x :: xs, lx)

/-- One pass through the body of the loop `while (ix != rx.end() && iy !=
rx.end())` of `apply`, entered with `ix` at `x` (followed by `xs`) and `iy` at
`y` (followed by `ys`). -/
def apply_iter (B : Bitstream) (op : Nat → Nat → Nat) (x : bitsequence)
    (xs : List bitsequence) (y : bitsequence) (ys : List bitsequence)
    (lx ly : Nat) (result : B.carrier) : apply_state B :=
  let min := Nat.min lx ly
  let block := op x.data y.data
  let body : B.carrier × Nat × Nat :=
    if x.is_fill && y.is_fill then
      ((B.append result min (block != 0)).2, size_sub lx min, size_sub ly min)
    else if x.is_fill then
      ((B.append_block result block block_width).2, size_sub lx block_width, 0)
    else if y.is_fill then
      ((B.append_block result block block_width).2, 0, size_sub ly block_width)
    else
      ((B.append_block result block (Nat.max lx ly)).2, 0, 0)
  let nx := advance x xs body.2.1
  let ny := advance y ys body.2.2
  ⟨nx.1, ny.1, nx.2, ny.2, body.1⟩

/-- The loop `while (ix != rx.end() && iy != rx.end())` of `apply`. An
iterator is the list of the sequences it has not passed, so `end()` is `[]` for
either range and the test `iy != rx.end()` is `iy != ry.end()`. Every
iteration moves at least one of the two iterators, so the number of iterations
is bounded by the number of sequences; `fuel` is that bound. -/
def apply_loop (B : Bitstream) (op : Nat → Nat → Nat) :
    Nat → apply_state B → apply_state B
  | 0, st => st
  | fuel + 1, st =>
    match st.ix, st.iy with
    | x :: xs, y :: ys =>
      apply_loop B op fuel (apply_iter B op x xs y ys st.lx st.ly st.result)
    | _, _ => st

/-- The loops `while (ix != rx.end())` and `while (iy != ry.end())` of
`apply`, which append what is left of one operand. -/
def fill_tail (B : Bitstream) : List bitsequence → Nat → B.carrier → B.carrier
  | [], _, result => result
  | x :: xs, l, result =>
    let result' :=
      if x.is_fill then (B.append result l (x.data != 0)).2
      else (B.append_block result x.data x.length).2
    fill_tail B xs (next_length xs l) result'

/-- The function template `apply`. -/
def apply (B : Bitstream) (lhs rhs : B.carrier) (fill_lhs fill_rhs : Bool)
    (op : Nat → Nat → Nat) : B.carrier :=
  match B.sequence_range lhs, B.sequence_range rhs with
  | [], [] => B.dflt
  | [], _ :: _ => rhs
  | _ :: _, [] => lhs
  | x :: xs, y :: ys =>
    let first := Nat.min x.offset y.offset
    let result0 := if first > 0 then (B.append B.dflt first false).2 else B.dflt
    let st := apply_loop B op ((x :: xs).length + (y :: ys).length)
      ⟨x :: xs, y :: ys, x.length, y.length, result0⟩
    let result1 := if fill_lhs then fill_tail B st.ix st.lx st.result else st.result
    let result2 := if fill_rhs then fill_tail B st.iy st.ly result1 else result1
    (B.append result2
      (size_sub (Nat.max (B.size lhs) (B.size rhs)) (B.size result2)) false).2

/-- The 64-bit complement `~y` of a block. -/
def block_not (y : Nat) : Nat := all_one ^^^ y

/-- The function template `and_`. -/
def and_ (B : Bitstream) (lhs rhs : B.carrier) : B.carrier :=
  apply B lhs rhs false false (fun x y => x &&& y)

/-- The function template `or_`. -/
def or_ (B : Bitstream) (lhs rhs : B.carrier) : B.carrier :=
  apply B lhs rhs true true (fun x y => x ||| y)

/-- The function template `xor_`. -/
def xor_ (B : Bitstream) (lhs rhs : B.carrier) : B.carrier :=
  apply B lhs rhs true true (fun x y => x ^^^ y)

/-- The function template `nand_`. -/
def nand_ (B : Bitstream) (lhs rhs : B.carrier) : B.carrier :=
  apply B lhs rhs true false (fun x y => x &&& block_not y)

/-- The function template `nor_`. -/
def nor_ (B : Bitstream) (lhs rhs : B.carrier) : B.carrier :=
  apply B lhs rhs true true (fun x y => x ||| block_not y)

/-! ## The uncompressed encoding `null_bitstream` -/

/-- The value of a block given by its bits, least significant bit first. -/
def bits_value : List Bool → Nat
  | [] => 0
  | b :: bs => b.toNat + 2 * bits_value bs

/-- Modelled from the spec: `null_bitstream::sequence_range` (bitstream.cc is
not among the sources). The bits are walked block by block; a complete block
that is all zeros or all ones is a FILL and is merged with the equal fills
that follow it, every other block is a LITERAL as long as the block holds
bits (the unit test `sequence_iteration` pins this shape). `fuel` bounds the
number of blocks, `off` is the bit offset of the next block. -/
def null_sequences : Nat → Nat → List Bool → List bitsequence
  | 0, _, _ => []
  | _ + 1, _, [] => []
  | fuel + 1, off, b :: bs =>
    let c := (b :: bs).take block_width
    let d := bits_value c
    let rest := null_sequences fuel (off + block_width) ((b :: bs).drop block_width)
    if c.length = block_width ∧ (d = 0 ∨ d = all_one) then
      match rest with
      | s :: ss =>
        if s.type = block_type.fill ∧ s.data = d then
          ⟨block_type.fill, off, d, block_width + s.length⟩ :: ss
        else ⟨block_type.fill, off, d, block_width⟩ :: s :: ss
      | [] => [⟨block_type.fill, off, d, block_width⟩]
    else ⟨block_type.literal, off, d, c.length⟩ :: rest

/-- Modelled from the spec: `null_bitstream`, the uncompressed encoding, "1:1
over a bitvector" (bitstream.cc and bitvector.h are not among the sources).
The bitvector is the list of its bits. -/
@[reducible] def null_bitstream : Bitstream where
  carrier := List Bool
  dflt := []
  bits := fun x => x
  size_impl := fun x => x.length
  count_impl := fun x => x.count true
  append_impl := fun x n bit => x ++ List.replicate n bit
  append_block_impl := fun x block n => x ++ block_bits block n
  sequence_range := fun x => null_sequences x.length 0 x

/-! ## Reference semantics of the bitwise operations -/

/-- The bit-by-bit combination of two bit sequences, the shorter one read as
continued with zeros: bit `i` is `f a[i] b[i]` for every `i` below the larger
of the two lengths. -/
def zip_pad (f : Bool → Bool → Bool) : List Bool → List Bool → List Bool
  | [], r => r.map (fun b => f false b)
  | a :: l, [] => f a false :: zip_pad f l []
  | a :: l, b :: r => f a b :: zip_pad f l r

/-- The bits of an operand that the loop of `apply` has not consumed yet. -/
def remaining : List bitsequence → Nat → List Bool
  | [], _ => []
  | x :: xs, l => x.rem l ++ denote xs

/-- Shape of an iterator position of the loop of `apply`. -/
def state_ok : List bitsequence → Nat → Prop
  | [], _ => True
  | x :: xs, l => cur_ok x l (xs = []) ∧ tail_wf xs

/-- A block-wise operation `op` computes the bit-wise operation `f` on 64-bit
blocks. -/
structure op_spec (op : Nat → Nat → Nat) (f : Bool → Bool → Bool) : Prop where
  bit : ∀ x y j, x < 2 ^ 64 → y < 2 ^ 64 → j < 64 →
    (op x y).testBit j = f (x.testBit j) (y.testBit j)
  lt : ∀ x y, x < 2 ^ 64 → y < 2 ^ 64 → op x y < 2 ^ 64

/-- The conditions under which the tail policy of `apply` agrees with the
bit-wise operation `f`: a tail that is appended must be unchanged by `f`
against zeros, a tail that is dropped must be mapped to zeros. -/
structure tail_spec (f : Bool → Bool → Bool) (fill_lhs fill_rhs : Bool) : Prop where
  lhs_keep : fill_lhs = true → ∀ a, f a false = a
  lhs_drop : fill_lhs = false → ∀ a, f a false = false
  rhs_keep : fill_rhs = true → ∀ b, f false b = b
  rhs_drop : fill_rhs = false → ∀ b, f false b = false

/-! ## Values, records and events -/

/-- Modelled from the spec: the discriminants of `value` (§4.3 of the
specification; value.h is not among the sources). -/
inductive value_type where
  | invalid_value
  | bool_value
  | int_value
  | uint_value
  | double_value
  | time_range_value
  | time_point_value
  | string_value
  | regex_value
  | address_value
  | prefix_value
  | port_value
  | record_value
  | vector_value
  | set_value
  | table_value
  deriving DecidableEq, Repr

/-- Modelled from the spec: `value`, a tagged variant over the discriminants
(value.h is not among the sources). `invalid` is the default-constructed value;
`nil t` is a value that has the type `t` but has not been set (the unit test
`trivial` of test/unit/value.cc); a record, vector or set holds its elements in
order, a table its key/value pairs. Numbers are unbounded here: no claim about
the evaluator depends on their range. -/
inductive value where
  | invalid : value
  | nil (t : value_type) : value
  | bool (b : Bool) : value
  | int (i : Int) : value
  | uint (n : Nat) : value
  | double (d : Rat) : value
  | time_range (ns : Int) : value
  | time_point (ns : Int) : value
  | string (s : String) : value
  | regex (pattern : String) : value
  | address (a : Nat) : value
  | pfx (network length : Nat) : value
  | port (number type : Nat) : value
  | record (xs : List value) : value
  | vector (xs : List value) : value
  | set (xs : List value) : value
  | table (xs : List (value × value)) : value

/-- Modelled from the spec: `value::which`, the discriminant of a value. -/
def value.which : value → value_type
  | .invalid => .invalid_value
  | .nil t => t
  | .bool _ => .bool_value
  | .int _ => .int_value
  | .uint _ => .uint_value
  | .double _ => .double_value
  | .time_range _ => .time_range_value
  | .time_point _ => .time_point_value
  | .string _ => .string_value
  | .regex _ => .regex_value
  | .address _ => .address_value
  | .pfx _ _ => .prefix_value
  | .port _ _ => .port_value
  | .record _ => .record_value
  | .vector _ => .vector_value
  | .set _ => .set_value
  | .table _ => .table_value

/-- Modelled from the spec: `value::operator bool`, whether the value has been
set; false for the invalid value and for a nil value (the unit test `trivial`
of test/unit/value.cc). -/
def value.engaged : value → Bool
  | .invalid => false
  | .nil _ => false
  | _ => true

mutual
/-- Modelled from the spec: `operator==` on values, "same discriminant and
structurally equal payload" (§4.3; value.cc is not among the sources). -/
def value.equals : value → value → Bool
  | .invalid, .invalid => true
  | .nil t, .nil u => t = u
  | .bool a, .bool b => a = b
  | .int a, .int b => a = b
  | .uint a, .uint b => a = b
  | .double a, .double b => a = b
  | .time_range a, .time_range b => a = b
  | .time_point a, .time_point b => a = b
  | .string a, .string b => a = b
  | .regex a, .regex b => a = b
  | .address a, .address b => a = b
  | .pfx a l, .pfx b m => a = b ∧ l = m
  | .port a t, .port b u => a = b ∧ t = u
  | .record xs, .record ys => value.equals_list xs ys
  | .vector xs, .vector ys => value.equals_list xs ys
  | .set xs, .set ys => value.equals_list xs ys
  | .table xs, .table ys => value.equals_pairs xs ys
  | _, _ => false
/-- Element-wise equality of two sequences of values. -/
def value.equals_list : List value → List value → Bool
  | [], [] => true
  | x :: xs, y :: ys => value.equals x y && value.equals_list xs ys
  | _, _ => false
/-- Element-wise equality of two sequences of key/value pairs. -/
def value.equals_pairs : List (value × value) → List (value × value) → Bool
  | [], [] => true
  | (k, v) :: xs, (l, w) :: ys =>
    value.equals k l && value.equals v w && value.equals_pairs xs ys
  | _, _ => false
end

/-- Modelled from the spec: `record::at(offset)`, the value at an offset, "a
path of positional indices for nested records" (§3; the record class is not
among the sources). There is no value at the empty offset, at an index past
the end of a record, or below a value that is not a record. -/
def record_at : List value → List Nat → Option value
  | _, [] => none
  | r, [i] => r[i]?
  | r, i :: j :: off =>
    match r[i]? with
    | some (value.record r') => record_at r' (j :: off)
    | _ => none

/-- Modelled from the spec: an event, "an identifier, a timestamp, a name and
a value tree" (§3; event.h is not among the sources). The evaluator uses the
event as the record of its arguments. -/
structure event where
  id : Nat
  timestamp : Int
  name : String
  args : List value

/-! ## Expression nodes -/

/-- Modelled from the spec: the relational operators of a predicate (§4.5.1;
operator.h is not among the sources): `~`, `!~`, `in`, `!in`, `ni`, `!ni`, `=`,
`≠`, `<`, `≤`, `>`, `≥`. -/
inductive relational_operator where
  | match_op
  | not_match
  | in_op
  | not_in
  | ni
  | not_ni
  | equal
  | not_equal
  | less
  | less_equal
  | greater
  | greater_equal
  deriving DecidableEq, Repr

/-- The node classes of `vast::expr` as used by expression.cc (their
declarations in expression.h are not among the sources): `constant`, the
extractors, `predicate` (an `n_ary_operator` that carries its operator `op` and
the function `pred` built from it), `conjunction` and `disjunction`. -/
inductive node where
  | constant (val : value) : node
  | timestamp_extractor : node
  | name_extractor : node
  | id_extractor : node
  | offset_extractor (event : String) (off : List Nat) : node
  | type_extractor (type : value_type) : node
  | predicate (op : relational_operator) (pred : value → value → Bool)
      (operands : List node) : node
  | conjunction (operands : List node) : node
  | disjunction (operands : List node) : node

/-! ## The per-event evaluator -/

/-- The result of running a piece of the evaluator: it returns, it needs more
steps than the fuel allows, or it stops on a failed assertion. -/
inductive outcome (α : Type) where
  | ok (a : α) : outcome α
  | out_of_fuel : outcome α
  | failed : outcome α

/-- The struct `evaluator::extractor_state`. `pos` is the stack of records
being walked, each with the index of its next element; the head of the list is
`pos.back()`. -/
structure extractor_state where
  pos : List (List value × Nat)
  complete : Bool

/-- The mutable members of the class `evaluator`: `result_` and
`extractor_state_`. -/
structure evaluator where
  result_ : value
  extractor_state_ : Option extractor_state

/-- How one pass through the body of a loop ends: the loop is left with a
value, the loop goes on, or an access is out of bounds. -/
inductive loop_step where
  | stop (v : value) (st : extractor_state) : loop_step
  | again (st : extractor_state) : loop_step
  | fault : loop_step

/-- One pass through the loop `while (! extractor_state_->pos.empty())` of
`evaluator::visit(type_extractor const&)`, entered with `result_ = invalid`:
`stop` when the stack is empty (the loop condition fails, `result_` stays
invalid) or at the `break` (with `result_ = arg`), `again` at each
`continue` and at the end of the body. Past the test `! arg` the value is set,
so `arg.which() == record_value` holds exactly for a record. -/
def type_extractor_step (t : value_type) (st : extractor_state) : loop_step :=
  match st.pos with
  | [] => loop_step.stop value.invalid st
  | (rec, idx) :: rest =>
    if idx = rec.length then
      -- Out of bounds.
      loop_step.again ⟨rest, st.complete⟩
    else
      match rec[idx]? with
      | none => loop_step.fault
      | some arg =>
        let pos := (rec, idx + 1) :: rest
        let complete :=
          if pos.length = 1 ∧ idx + 1 = rec.length then true else st.complete
        if ! arg.engaged then loop_step.again ⟨pos, complete⟩
        else
          match arg with
          | value.record r => loop_step.again ⟨(r, 0) :: pos, complete⟩
          | _ =>
            if arg.which = t then loop_step.stop arg ⟨pos, complete⟩
            else loop_step.again ⟨pos, complete⟩

/-- The loop `while (! extractor_state_->pos.empty())` of
`evaluator::visit(type_extractor const&)`: the value left in `result_` (invalid
when the stack runs empty) and the extractor state afterwards. -/
def type_extractor_loop (t : value_type) :
    Nat → extractor_state → outcome (value × extractor_state)
  | 0, _ => outcome.out_of_fuel
  | fuel + 1, st =>
    match type_extractor_step t st with
    | loop_step.stop v st1 => outcome.ok (v, st1)
    | loop_step.again st1 => type_extractor_loop t fuel st1
    | loop_step.fault => outcome.failed

/-- The algorithm `std::all_of` with a predicate that threads a state: the
predicate is called on the elements in order until it returns false. -/
def all_of {α σ : Type} (p : α → σ → outcome (Bool × σ)) :
    List α → σ → outcome (Bool × σ)
  | [], s => outcome.ok (true, s)
  | x :: xs, s =>
    match p x s with
    | outcome.ok (true, s1) => all_of p xs s1
    | outcome.ok (false, s1) => outcome.ok (false, s1)
    | outcome.out_of_fuel => outcome.out_of_fuel
    | outcome.failed => outcome.failed

/-- The algorithm `std::any_of` with a predicate that threads a state: the
predicate is called on the elements in order until it returns true. -/
def any_of {α σ : Type} (p : α → σ → outcome (Bool × σ)) :
    List α → σ → outcome (Bool × σ)
  | [], s => outcome.ok (false, s)
  | x :: xs, s =>
    match p x s with
    | outcome.ok (true, s1) => outcome.ok (true, s1)
    | outcome.ok (false, s1) => any_of p xs s1
    | outcome.out_of_fuel => outcome.out_of_fuel
    | outcome.failed => outcome.failed

/-- The test `result_ && result_.which() == bool_value` followed by
`result_.get<bool>()`: the bool held by a set value of type bool, nothing for
any other value. -/
def value.as_bool : value → Option Bool
  | value.bool b => some b
  | _ => none

/-- The lambda passed to `std::all_of` and `std::any_of` by
`visit(conjunction const&)` and `visit(disjunction const&)`: the operand
accepts the visitor, `result_` is asserted to be a set value of type bool, and
that bool is returned. `accept` is the visitor on operands. -/
def operand_bool (accept : node → evaluator → outcome evaluator) (operand : node)
    (s : evaluator) : outcome (Bool × evaluator) :=
  match accept operand s with
  | outcome.ok s1 =>
    match s1.result_.as_bool with
    | some b => outcome.ok (b, s1)
    | none => outcome.failed
  | outcome.out_of_fuel => outcome.out_of_fuel
  | outcome.failed => outcome.failed

/-- The member functions `evaluator::visit`, one case per node class; `e` is
`event_`. `predicate::lhs()` and `predicate::rhs()` assert that there are
exactly two operands. The `do ... while` loop of `visit(predicate const&)` is
unrolled by visiting the predicate again from the state its body leaves; after
the loop `extractor_state_ = {}` leaves the optional without a state. Every
nested visit and every round of a loop takes one unit of fuel. -/
def visit (e : event) : Nat → node → evaluator → outcome evaluator
  | 0, _, _ => outcome.out_of_fuel
  | fuel + 1, n, s =>
    match n with
    | node.constant val => outcome.ok ⟨val, s.extractor_state_⟩
    | node.timestamp_extractor => outcome.ok ⟨value.time_point e.timestamp, s.extractor_state_⟩
    | node.name_extractor => outcome.ok ⟨value.string e.name, s.extractor_state_⟩
    | node.id_extractor => outcome.ok ⟨value.uint e.id, s.extractor_state_⟩
    | node.offset_extractor _ off =>
      match record_at e.args off with
      | some v => outcome.ok ⟨v, s.extractor_state_⟩
      | none => outcome.ok ⟨value.invalid, s.extractor_state_⟩
    | node.type_extractor t =>
      let st : extractor_state :=
        match s.extractor_state_ with
        | none => ⟨[(e.args, 0)], false⟩
        | some st => st
      match type_extractor_loop t fuel st with
      | outcome.ok (v, st1) => outcome.ok ⟨v, some st1⟩
      | outcome.out_of_fuel => outcome.out_of_fuel
      | outcome.failed => outcome.failed
    | node.predicate op pred operands =>
      match operands with
      | [lhs, rhs] =>
        match visit e fuel lhs s with
        | outcome.ok s1 =>
          match visit e fuel rhs s1 with
          | outcome.ok s2 =>
            if pred s1.result_ s2.result_ then outcome.ok ⟨value.bool true, none⟩
            else
              match s2.extractor_state_ with
              | some st =>
                if ! st.complete then visit e fuel (node.predicate op pred operands) s2
                else outcome.ok ⟨value.bool false, none⟩
              | none => outcome.ok ⟨value.bool false, none⟩
          | outcome.out_of_fuel => outcome.out_of_fuel
          | outcome.failed => outcome.failed
        | outcome.out_of_fuel => outcome.out_of_fuel
        | outcome.failed => outcome.failed
      | _ => outcome.failed
    | node.conjunction operands =>
      match all_of (operand_bool (visit e fuel)) operands s with
      | outcome.ok (b, s1) => outcome.ok ⟨value.bool b, s1.extractor_state_⟩
      | outcome.out_of_fuel => outcome.out_of_fuel
      | outcome.failed => outcome.failed
    | node.disjunction operands =>
      match any_of (operand_bool (visit e fuel)) operands s with
      | outcome.ok (b, s1) => outcome.ok ⟨value.bool b, s1.extractor_state_⟩
      | outcome.out_of_fuel => outcome.out_of_fuel
      | outcome.failed => outcome.failed

/-- The function `evaluate(node const&, event const&)`: a fresh evaluator
visits the node and its `result_` is returned. -/
def evaluate (fuel : Nat) (n : node) (e : event) : outcome value :=
  match visit e fuel n ⟨value.invalid, none⟩ with
  | outcome.ok s => outcome.ok s.result_
  | outcome.out_of_fuel => outcome.out_of_fuel
  | outcome.failed => outcome.failed

/-- The constructor `predicate::predicate(op)` for the operator `=`, whose
function `make_predicate(equal)` is `lhs == rhs`, with its two operands
added. -/
def equal_predicate (lhs rhs : node) : node :=
  node.predicate relational_operator.equal value.equals [lhs, rhs]

/-- Every element of the list, called in order with the state threaded through,
makes the predicate `p` return `b`; the last argument is the state after the
last call. -/
inductive each_yields {α σ : Type} (p : α → σ → outcome (Bool × σ)) (b : Bool) :
    List α → σ → σ → Prop where
  | nil (s : σ) : each_yields p b [] s s
  | cons {x : α} {xs : List α} {s s1 s2 : σ} :
      p x s = outcome.ok (b, s1) → each_yields p b xs s1 s2 →
      each_yields p b (x :: xs) s s2

/-- The nodes that leave a set bool in `result_` and no extractor state behind:
a predicate, or a conjunction or disjunction of such nodes. These are the
operands a conjunction or disjunction has in a normalized AST. -/
inductive boolean_node : node → Prop where
  | predicate (op : relational_operator) (pred : value → value → Bool)
      (operands : List node) : boolean_node (node.predicate op pred operands)
  | conjunction (operands : List node) :
      (∀ n, n ∈ operands → boolean_node n) → boolean_node (node.conjunction operands)
  | disjunction (operands : List node) :
      (∀ n, n ∈ operands → boolean_node n) → boolean_node (node.disjunction operands)

/-- Evaluating the node on the event returns the value `v`. -/
def evaluates (e : event) (n : node) (v : value) : Prop :=
  ∃ fuel, evaluate fuel n e = outcome.ok v

/-! ## Strings (`string.cc`) -/

/-- Modelled from the spec: `string::npos`, the sentinel that "denotes no such
position" (§3; string.h, which declares it, is not among the sources), taken as
the largest value of a 32-bit `size_type`. -/
def string_npos : Nat := 2 ^ 32 - 1

/-- The character an iterator reads at index `i` of the buffer of a string:
a character of the string below its size, and the byte `past k` of the memory
behind the string at index `size + k`. The function `prepare` of string.cc
writes `'\0'` at index `size` of a string on the heap, and the constructor
zeroes the in-situ buffer, so `past 0` is `'\0'` for a string on the heap and
for one shorter than the in-situ buffer. -/
def read_at (s : List Char) (past : Nat → Char) (i : Nat) : Char :=
  match s[i]? with
  | some c => c
  | none => past (i - s.length)

/-- The inner loop `while (*sub == *cand && sub != needle.end())` of
`string::find` on the buffers of the two strings: `*sub` and `*cand` are read
before `sub` is compared with the end of the needle, and `cand` is never
compared with the end of the string. The first argument bounds the number of
rounds; the needle's length plus one is enough. -/
def find_advance_mem (h : List Char) (hpast : Nat → Char) (n : List Char)
    (npast : Nat → Char) : Nat → Nat → Nat → Nat
  | 0, sub, _ => sub
  | k + 1, sub, cand =>
    if read_at n npast sub = read_at h hpast cand ∧ sub ≠ n.length then
      find_advance_mem h hpast n npast k (sub + 1) (cand + 1)
    else sub

/-- The loop `while (pos < size())` of `string::find` on the buffers of the
two strings. -/
def find_loop_mem (h : List Char) (hpast : Nat → Char) (n : List Char)
    (npast : Nat → Char) : Nat → Nat → Nat
  | 0, _ => string_npos
  | k + 1, pos =>
    if pos < h.length then
      if find_advance_mem h hpast n npast (n.length + 1) 0 pos = n.length then pos
      else find_loop_mem h hpast n npast k (pos + 1)
    else string_npos

/-- The member function `string::find(needle, pos)` of string.cc on the buffers
of the two strings: `h` and `needle` are their characters, `hpast` and `npast`
the memory behind them. -/
def string_find_mem (h : List Char) (hpast : Nat → Char) (needle : List Char)
    (npast : Nat → Char) (pos : Nat) : Nat :=
  let pos := if pos = string_npos then 0 else pos
  if h.isEmpty ∨ needle.isEmpty ∨ pos + needle.length > h.length then string_npos
  else find_loop_mem h hpast needle npast h.length pos

/-- Memory that holds `'\0'` in every byte: what lies behind a string in the
zeroed in-situ buffer, and the terminator that `prepare` writes behind a string
on the heap. -/
def zeroed : Nat → Char := fun _ => Char.ofNat 0

/-- The member function `string::find(needle, pos)` of string.cc on two strings
with zeroed memory behind them: the inner loop reads `*sub` and `*cand` behind
the ends of the strings, where it finds `'\0'`. -/
def string_find (h needle : List Char) (pos : Nat) : Nat :=
  string_find_mem h zeroed needle zeroed pos

/-- A reference for the proofs about `string::find`: its inner loop with both
iterators checked against the ends of their strings, so that a position behind
a string matches nothing. The first argument bounds the number of rounds. -/
def bounded_advance (h n : List Char) : Nat → Nat → Nat → Nat
  | 0, sub, _ => sub
  | k + 1, sub, cand =>
    if n[sub]? = h[cand]? ∧ sub ≠ n.length then bounded_advance h n k (sub + 1) (cand + 1)
    else sub

/-- A reference for the proofs about `string::find`: its outer loop over the
checked inner loop `bounded_advance`. -/
def bounded_loop (h n : List Char) : Nat → Nat → Nat
  | 0, _ => string_npos
  | k + 1, pos =>
    if pos < h.length then
      if bounded_advance h n (n.length + 1) 0 pos = n.length then pos
      else bounded_loop h n k (pos + 1)
    else string_npos

/-- A reference for the proofs about `string::find`: the search that never
reads behind a string. -/
def bounded_find (h needle : List Char) (pos : Nat) : Nat :=
  let pos := if pos = string_npos then 0 else pos
  if h.isEmpty ∨ needle.isEmpty ∨ pos + needle.length > h.length then string_npos
  else bounded_loop h needle h.length pos

/-- The comparison `<` of two characters as values of the type `char`, which is
signed where the repository is built: a character from 128 on is a negative
`char` and so less than every ASCII character, and two such characters keep
their order (that of the bytes 128 to 255, and of the UTF-8 sequences of the
characters beyond, whose bytes all lie in that range). -/
def char_less (a b : Char) : Bool :=
  if a.toNat < 128 then decide (b.toNat < 128) && decide (a.toNat < b.toNat)
  else decide (b.toNat < 128) || decide (a.toNat < b.toNat)

/-- The function `operator<(string const&, string const&)` of string.cc:
`std::lexicographical_compare` on the characters of the two strings. -/
def string_less : List Char → List Char → Bool
  | _, [] => false
  | [], _ :: _ => true
  | a :: as, b :: bs =>
    if char_less a b then true else if char_less b a then false else string_less as bs

/-! ## The functions of a predicate (`predicate::make_predicate`) -/

/-- Modelled from the spec: the operations of `regex` that "the expression
engine relies on", `regex.match(string)` and `regex.search(string)` (§4.3;
regex.h is not among the sources). Both take the pattern first and the string
second and are parameters of the development. -/
structure regex_engine where
  regex_match : String → String → Bool
  regex_search : String → String → Bool

/-- Modelled from the spec: `prefix.contains(address)` (§4.3; the class is not
among the sources), for IPv4 addresses as 32-bit numbers: the address lies in
the network when its leading `length` bits are those of the network. -/
def prefix_contains (network length a : Nat) : Bool :=
  a / 2 ^ (32 - length) = network / 2 ^ (32 - length)

mutual
/-- Modelled from the spec: `operator<` on values, "total within a
discriminant", while comparisons that mix discriminants are "not less, not
greater, not equal" (§4.3; value.cc is not among the sources). Numbers and
times have their usual order, strings that of `operator<` of string.cc,
`false < true`, a prefix or a port is
ordered by its two fields in turn, and a container by its elements in turn; a
value that is not set has no payload and is not less than anything. -/
def value.less : value → value → Bool
  | .bool a, .bool b => !a && b
  | .int a, .int b => a < b
  | .uint a, .uint b => a < b
  | .double a, .double b => a < b
  | .time_range a, .time_range b => a < b
  | .time_point a, .time_point b => a < b
  | .string a, .string b => string_less a.data b.data
  | .regex a, .regex b => a < b
  | .address a, .address b => a < b
  | .pfx a l, .pfx b m => a < b ∨ (a = b ∧ l < m)
  | .port a t, .port b u => a < b ∨ (a = b ∧ t < u)
  | .record xs, .record ys => value.less_list xs ys
  | .vector xs, .vector ys => value.less_list xs ys
  | .set xs, .set ys => value.less_list xs ys
  | .table xs, .table ys => value.less_pairs xs ys
  | _, _ => false
/-- The order of two sequences of values by their elements in turn. -/
def value.less_list : List value → List value → Bool
  | [], [] => false
  | [], _ :: _ => true
  | _ :: _, [] => false
  | x :: xs, y :: ys => value.less x y || (value.equals x y && value.less_list xs ys)
/-- The order of two sequences of key/value pairs by their elements in turn. -/
def value.less_pairs : List (value × value) → List (value × value) → Bool
  | [], [] => false
  | [], _ :: _ => true
  | _ :: _, [] => false
  | (k, v) :: xs, (l, w) :: ys =>
    value.less k l ||
      (value.equals k l && (value.less v w || (value.equals v w && value.less_pairs xs ys)))
end

/-- Modelled from the spec: `operator!=` on values, the negation of `==`, so
that it is true for two values of different discriminants (§4.3 and §9). -/
def value.not_equals (x y : value) : Bool := !value.equals x y

/-- Modelled from the spec: `operator<=` on values: less or equal. -/
def value.less_equal (x y : value) : Bool := value.less x y || value.equals x y

/-- Modelled from the spec: `operator>` on values, `<` with the operands
exchanged. -/
def value.greater (x y : value) : Bool := value.less y x

/-- Modelled from the spec: `operator>=` on values: greater or equal. -/
def value.greater_equal (x y : value) : Bool := value.less y x || value.equals x y

/-- The struct `match_visitor` under `value::visit`, which dispatches on the
types of the two values held. -/
def match_visitor (rx : regex_engine) : value → value → Bool
  | .string lhs, .regex rhs => rx.regex_match rhs lhs
  | _, _ => false

/-- The struct `in_visitor` under `value::visit`. The overload for two strings
is `return rhs.find(lhs);` with the result type `bool`: the position returned
by `find` is converted to `bool`, which is true exactly when it is not 0. -/
def in_visitor (rx : regex_engine) : value → value → Bool
  | .string lhs, .string rhs => string_find rhs.data lhs.data string_npos != 0
  | .string lhs, .regex rhs => rx.regex_search rhs lhs
  | .address lhs, .pfx network length => prefix_contains network length lhs
  | _, _ => false

/-- The struct `ni_visitor` under `value::visit`. The overload for two strings
is `return lhs.find(rhs);`, converted to `bool` like that of `in_visitor`. -/
def ni_visitor (rx : regex_engine) : value → value → Bool
  | .string lhs, .string rhs => string_find lhs.data rhs.data string_npos != 0
  | .regex lhs, .string rhs => rx.regex_search lhs rhs
  | .pfx network length, .address rhs => prefix_contains network length rhs
  | _, _ => false

/-- The function `predicate::make_predicate(op)`: the function of two values
that a predicate with the operator `op` carries. -/
def make_predicate (rx : regex_engine) : relational_operator → value → value → Bool
  | .match_op => fun lhs rhs => match_visitor rx lhs rhs
  | .not_match => fun lhs rhs => !match_visitor rx lhs rhs
  | .in_op => fun lhs rhs => in_visitor rx lhs rhs
  | .not_in => fun lhs rhs => !in_visitor rx lhs rhs
  | .ni => fun lhs rhs => ni_visitor rx lhs rhs
  | .not_ni => fun lhs rhs => !ni_visitor rx lhs rhs
  | .equal => fun lhs rhs => value.equals lhs rhs
  | .not_equal => fun lhs rhs => value.not_equals lhs rhs
  | .less => fun lhs rhs => value.less lhs rhs
  | .less_equal => fun lhs rhs => value.less_equal lhs rhs
  | .greater => fun lhs rhs => value.greater lhs rhs
  | .greater_equal => fun lhs rhs => value.greater_equal lhs rhs

/-! ## Parsed queries (`detail::ast::query`) and the schema -/

/-- Modelled from the spec: a `value_expr`, "a constant-foldable arithmetic
expression over values" (§6; detail/ast/query.h is not among the sources). The
expressionizer only folds it, so it is kept as the value it folds to. -/
structure value_expr where
  folded : value

/-- Modelled from the spec: `detail::ast::query::fold`, the value of a constant
expression. -/
def fold (expr : value_expr) : value := expr.folded

/-- Modelled from the spec: the left-hand side of a `tag_predicate`, one of
"name", "time" and "id" (§6). The source compares `pred.lhs` with these three
strings; a validated query has no other. -/
inductive tag where
  | name
  | time
  | id
  deriving DecidableEq, Repr

/-- Modelled from the spec: the predicates of a parsed query (§6;
detail/ast/query.h is not among the sources): `tag_predicate`,
`type_predicate`, `offset_predicate`, `schema_predicate` with a name path, and
`negated_predicate`. -/
inductive query_predicate where
  | tag_predicate (lhs : tag) (op : relational_operator) (rhs : value_expr)
  | type_predicate (lhs : value_type) (op : relational_operator) (rhs : value_expr)
  | offset_predicate (event : String) (off : List Nat) (op : relational_operator)
      (rhs : value_expr)
  | schema_predicate (lhs : List String) (op : relational_operator) (rhs : value_expr)
  | negated_predicate (operand : query_predicate)

/-- Modelled from the spec: the logical operator of a tail, AND or OR (§6). -/
inductive boolean_operator where
  | logical_and
  | logical_or
  deriving DecidableEq, Repr

/-- Modelled from the spec: a tail `{logicalOp, predicate}` of a query (§6),
with the member names `op` and `operand` that expression.cc uses. -/
structure query_operation where
  op : boolean_operator
  operand : query_predicate

/-- Modelled from the spec: a validated query, "a head predicate and a list of
tails" (§6), with the member names `first` and `rest` that expression.cc
uses. -/
structure query where
  first : query_predicate
  rest : List query_operation

/-- Modelled from the spec: what the expressionizer uses of a `schema` (§3;
schema.h and type.h are not among the sources), for types of any kind `τ`:
`find_offsets` resolves a name path to the (event, offset) pairs it denotes, in
the order in which the schema returns them, `find_type` gives the type at an
offset of an event, and `represents` is `type::represents`. -/
structure schema (τ : Type) where
  find_offsets : List String → List (String × List Nat)
  find_type : String → List Nat → τ
  represents : τ → τ → Bool

/-- The two errors the expressionizer makes: `error{"invalid argument name
sequence"}` and `error{"type clash: " + to_string(*t) + " <> " +
to_string(*types[0])}`, the latter kept as the two types it names. -/
inductive error (τ : Type) where
  | invalid_argument_name_sequence : error τ
  | type_clash (t t0 : τ) : error τ

/-! ## Normalization (`expressionizer`) -/

/-- Modelled from the spec: `negate`, the complement of a relational operator
(§4.5.2: "`not (a < b)` → `a ≥ b`, `not ~` → `!~`, etc."; operator.h is not
among the sources). -/
def negate : relational_operator → relational_operator
  | .match_op => .not_match
  | .not_match => .match_op
  | .in_op => .not_in
  | .not_in => .in_op
  | .ni => .not_ni
  | .not_ni => .ni
  | .equal => .not_equal
  | .not_equal => .equal
  | .less => .greater_equal
  | .less_equal => .greater
  | .greater => .less_equal
  | .greater_equal => .less

/-- The member function `n_ary_operator::add`: the node is pushed at the back
of the operands. Only a predicate, a conjunction and a disjunction are
`n_ary_operator`s. -/
def node.add (parent n : node) : node :=
  match parent with
  | node.predicate op pred operands => node.predicate op pred (operands ++ [n])
  | node.conjunction operands => node.conjunction (operands ++ [n])
  | node.disjunction operands => node.disjunction (operands ++ [n])
  | other => other

/-- The constructor `predicate::predicate(op)`: no operands yet, and
`pred = make_predicate(op)`. -/
def predicate_new (rx : regex_engine) (op : relational_operator) : node :=
  node.predicate op (make_predicate rx op) []

/-- The members of the class `expressionizer` that change: the node `*parent_`,
the flag `invert_` and `error_`. -/
structure expressionizer (τ : Type) where
  parent_ : node
  invert_ : Bool
  error_ : Option (error τ)

/-- The call operators of `expressionizer`, one case per kind of predicate;
`S` is `schema_`. Each of the first four starts with
`if (invert_) { op = negate(op); invert_ = false; }`, after which `invert_` is
false. In the schema case the loop over `types` returns at the first type that
does not represent `types[0]`. -/
def expressionizer.visit {τ : Type} (rx : regex_engine) (S : schema τ) :
    query_predicate → expressionizer τ → expressionizer τ
  | .tag_predicate lhs op rhs, v =>
    let op := if v.invert_ then negate op else op
    let lhs :=
      match lhs with
      | tag.name => node.name_extractor
      | tag.time => node.timestamp_extractor
      | tag.id => node.id_extractor
    let p := ((predicate_new rx op).add lhs).add (node.constant (fold rhs))
    ⟨v.parent_.add p, false, v.error_⟩
  | .type_predicate lhs op rhs, v =>
    let op := if v.invert_ then negate op else op
    let p := ((predicate_new rx op).add (node.type_extractor lhs)).add
      (node.constant (fold rhs))
    ⟨v.parent_.add p, false, v.error_⟩
  | .offset_predicate event off op rhs, v =>
    let op := if v.invert_ then negate op else op
    let p := ((predicate_new rx op).add (node.offset_extractor event off)).add
      (node.constant (fold rhs))
    ⟨v.parent_.add p, false, v.error_⟩
  | .schema_predicate lhs op rhs, v =>
    let op := if v.invert_ then negate op else op
    match S.find_offsets lhs with
    | [] => ⟨v.parent_, false, some error.invalid_argument_name_sequence⟩
    | p0 :: offs =>
      let types := (p0 :: offs).map (fun p => S.find_type p.1 p.2)
      let t0 := S.find_type p0.1 p0.2
      match types.find? (fun t => ! S.represents t t0) with
      | some t => ⟨v.parent_, false, some (error.type_clash t t0)⟩
      | none =>
        let disj := (p0 :: offs).foldl
          (fun disj p =>
            disj.add (((predicate_new rx op).add (node.offset_extractor p.1 p.2)).add
              (node.constant (fold rhs))))
          (node.disjunction [])
        ⟨v.parent_.add disj, false, v.error_⟩
  | .negated_predicate operand, v =>
    expressionizer.visit rx S operand ⟨v.parent_, true, v.error_⟩

/-- The statement `ors.back().rest.push_back(pred)` of `expressionizer::apply`. -/
def push_back_rest (ors : List query) (pred : query_operation) : List query :=
  match ors.getLast? with
  | some back => ors.dropLast ++ [⟨back.first, back.rest ++ [pred]⟩]
  | none => ors

/-- The loop of `expressionizer::apply` that splits the query at each OR:
`ors` starts as the head predicate alone, an OR tail starts a new term and an
AND tail is pushed onto the last term. -/
def split_ors (q : query) : List query :=
  q.rest.foldl
    (fun ors pred =>
      if pred.op = boolean_operator.logical_or then ors ++ [⟨pred.operand, []⟩]
      else push_back_rest ors pred)
    [⟨q.first, []⟩]

/-- The loop `for (auto pred : ands.rest)` of `expressionizer::apply`: the
visitor takes each operand in turn, and the error is returned as soon as
`visitor.error_` is set. The result is the node the visitor has filled. -/
def visit_rest {τ : Type} (rx : regex_engine) (S : schema τ) :
    List query_operation → expressionizer τ → Except (error τ) node
  | [], visitor => Except.ok visitor.parent_
  | pred :: rest, visitor =>
    let visitor := expressionizer.visit rx S pred.operand visitor
    match visitor.error_ with
    | some err => Except.error err
    | none => visit_rest rx S rest visitor

/-- The part of the body of the loop over `ors` in `expressionizer::apply` that
starts at `expressionizer visitor{local_root, sch};`: a new visitor takes the
head of the term and then its tails. The result is `*local_root` afterwards. -/
def visit_ands {τ : Type} (rx : regex_engine) (S : schema τ) (ands : query)
    (local_root : node) : Except (error τ) node :=
  let visitor := expressionizer.visit rx S ands.first ⟨local_root, false, none⟩
  match visitor.error_ with
  | some err => Except.error err
  | none => visit_rest rx S ands.rest visitor

/-- The loop `for (auto& ands : ors)` of `expressionizer::apply`, from the
`root` built so far (`none` is the null pointer). A term with tails gets a new
conjunction, which the source adds to the root before the visitor fills it; it
stays the last operand of the root meanwhile, so it is added here once
filled. -/
def apply_ors {τ : Type} (rx : regex_engine) (S : schema τ) :
    List query → Option node → Except (error τ) (Option node)
  | [], root => Except.ok root
  | ands :: ors, none =>
    match visit_ands rx S ands (node.conjunction []) with
    | Except.error err => Except.error err
    | Except.ok root => apply_ors rx S ors (some root)
  | ands :: ors, some root =>
    if ! ands.rest.isEmpty then
      match visit_ands rx S ands (node.conjunction []) with
      | Except.error err => Except.error err
      | Except.ok conj => apply_ors rx S ors (some (root.add conj))
    else
      match visit_ands rx S ands root with
      | Except.error err => Except.error err
      | Except.ok root => apply_ors rx S ors (some root)

/-- The function `expressionizer::apply(q, sch)`: the normalized AST of a
validated query, or the error. The result is a `trial<std::unique_ptr<node>>`;
`none` is the null pointer. -/
def expressionizer.apply {τ : Type} (rx : regex_engine) (S : schema τ) (q : query) :
    Except (error τ) (Option node) :=
  if q.rest.isEmpty then
    let visitor := expressionizer.visit rx S q.first ⟨node.conjunction [], false, none⟩
    match visitor.error_ with
    | some err => Except.error err
    | none => Except.ok (some visitor.parent_)
  else
    let ors := split_ors q
    let root := if ors.length ≥ 2 then some (node.disjunction []) else none
    apply_ors rx S ors root

/-! ## Splitting an AST into its predicates (`predicatize`) -/

mutual
/-- The member functions `predicator::visit`, with the vector `predicates_` as
the second argument and as the result: a conjunction and a disjunction pass the
visitor to each operand in turn, a predicate is put at the back of the vector,
and the visit of any other node is the empty one of `default_const_visitor`. -/
def predicator.visit : node → List node → List node
  | node.conjunction operands, predicates_ => predicator.visit_operands operands predicates_
  | node.disjunction operands, predicates_ => predicator.visit_operands operands predicates_
  | node.predicate op pred operands, predicates_ =>
    predicates_ ++ [node.predicate op pred operands]
  | node.constant _, predicates_ => predicates_
  | node.timestamp_extractor, predicates_ => predicates_
  | node.name_extractor, predicates_ => predicates_
  | node.id_extractor, predicates_ => predicates_
  | node.offset_extractor _ _, predicates_ => predicates_
  | node.type_extractor _, predicates_ => predicates_
/-- The loop `for (auto& op : operands) op->accept(*this);`. -/
def predicator.visit_operands : List node → List node → List node
  | [], predicates_ => predicates_
  | op :: operands, predicates_ =>
    predicator.visit_operands operands (predicator.visit op predicates_)
end

/-- The function `predicatize(a)`: a `predicator` on an empty vector is
accepted by the AST, whose `accept` does nothing when it holds no node. -/
def predicatize (a : Option node) : List node :=
  match a with
  | some n => predicator.visit n []
  | none => []

/-! ## Fixtures -/

/-- A regex engine that matches nothing, for queries without regular
expressions. -/
def no_regex : regex_engine := ⟨fun _ _ => false, fun _ _ => false⟩

/-- A schema without events: no name path resolves to an offset. -/
def no_schema : schema Unit := ⟨fun _ => [], fun _ _ => (), fun _ _ => true⟩

/-! ## Reference semantics of normalization -/

/-- A predicate node with its operator, the function built from it and its two
operands: what `predicate(op)` is after `add(lhs)` and `add(rhs)`. -/
def predicate_node (rx : regex_engine) (op : relational_operator) (lhs rhs : node) : node :=
  node.predicate op (make_predicate rx op) [lhs, rhs]

/-- The extractor that stands for the left-hand side of a `tag_predicate`. -/
def tag.extractor : tag → node
  | tag.name => node.name_extractor
  | tag.time => node.timestamp_extractor
  | tag.id => node.id_extractor

/-- The node that a predicate of a query contributes to its parent, or the
error of its normalization; `invert` tells whether the predicate stands under a
negation. -/
def emit {τ : Type} (rx : regex_engine) (S : schema τ) :
    Bool → query_predicate → Except (error τ) node
  | invert, .tag_predicate lhs op rhs =>
    Except.ok (predicate_node rx (if invert then negate op else op) lhs.extractor
      (node.constant (fold rhs)))
  | invert, .type_predicate lhs op rhs =>
    Except.ok (predicate_node rx (if invert then negate op else op) (node.type_extractor lhs)
      (node.constant (fold rhs)))
  | invert, .offset_predicate event off op rhs =>
    Except.ok (predicate_node rx (if invert then negate op else op)
      (node.offset_extractor event off) (node.constant (fold rhs)))
  | invert, .schema_predicate lhs op rhs =>
    match S.find_offsets lhs with
    | [] => Except.error error.invalid_argument_name_sequence
    | p0 :: offs =>
      match ((p0 :: offs).map (fun p => S.find_type p.1 p.2)).find?
          (fun t => ! S.represents t (S.find_type p0.1 p0.2)) with
      | some t => Except.error (error.type_clash t (S.find_type p0.1 p0.2))
      | none =>
        Except.ok (node.disjunction ((p0 :: offs).map (fun p =>
          predicate_node rx (if invert then negate op else op)
            (node.offset_extractor p.1 p.2) (node.constant (fold rhs)))))
  | _, .negated_predicate operand => emit rx S true operand

/-- The visitor after a predicate that contributes the node, or fails with the
error. -/
def expressionizer.after {τ : Type} (v : expressionizer τ) :
    Except (error τ) node → expressionizer τ
  | Except.ok n => ⟨v.parent_.add n, false, v.error_⟩
  | Except.error err => ⟨v.parent_, false, some err⟩

/-- The nodes that the predicates of a list contribute, in order, or the error
of the first predicate whose normalization fails. -/
def emit_all {τ : Type} (rx : regex_engine) (S : schema τ) :
    List query_predicate → Except (error τ) (List node)
  | [] => Except.ok []
  | p :: ps =>
    match emit rx S false p with
    | Except.error err => Except.error err
    | Except.ok n =>
      match emit_all rx S ps with
      | Except.error err => Except.error err
      | Except.ok ns => Except.ok (n :: ns)

/-- The predicates of a query, in order. -/
def query.predicates (q : query) : List query_predicate :=
  q.first :: q.rest.map (fun pred => pred.operand)

/-- The terms of a query between its ORs, from the term `cur` under
construction and the tails still to come. -/
def terms_from : query → List query_operation → List query
  | cur, [] => [cur]
  | cur, pred :: rest =>
    if pred.op = boolean_operator.logical_or then cur :: terms_from ⟨pred.operand, []⟩ rest
    else terms_from ⟨cur.first, cur.rest ++ [pred]⟩ rest

/-- The operands that the terms of a query contribute to the disjunction at
the root: the node of its predicate for a term without tails, a conjunction of
the nodes of its predicates for a term with tails. -/
def emit_terms {τ : Type} (rx : regex_engine) (S : schema τ) :
    List query → Except (error τ) (List node)
  | [] => Except.ok []
  | ands :: ors =>
    match emit_all rx S ands.predicates with
    | Except.error err => Except.error err
    | Except.ok ns =>
      match emit_terms rx S ors with
      | Except.error err => Except.error err
      | Except.ok ms =>
        Except.ok ((if ands.rest.isEmpty then ns else [node.conjunction ns]) ++ ms)

/-- The normalized AST of a query in terms of its predicates: a conjunction of
their nodes when the query has a single term, a disjunction with the operands
of its terms otherwise. -/
def normal_form {τ : Type} (rx : regex_engine) (S : schema τ) (q : query) :
    Except (error τ) (Option node) :=
  match terms_from ⟨q.first, []⟩ q.rest with
  | [ands] => (emit_all rx S ands.predicates).map (fun ns => some (node.conjunction ns))
  | ors => (emit_terms rx S ors).map (fun ms => some (node.disjunction ms))

/-- The node is a predicate. -/
def is_predicate (n : node) : Prop :=
  ∃ op pred operands, n = node.predicate op pred operands

/-- The node is what a predicate of a query contributes: a predicate, or (for a
schema predicate) a disjunction of predicates. -/
def emitted_node (n : node) : Prop :=
  is_predicate n ∨ ∃ ds, n = node.disjunction ds ∧ ∀ d, d ∈ ds → is_predicate d

/-- The node is what a term of a query contributes to the disjunction at the
root: the node of a predicate, or a conjunction of such nodes. -/
def term_node (n : node) : Prop :=
  emitted_node n ∨ ∃ cs, n = node.conjunction cs ∧ ∀ c, c ∈ cs → emitted_node c

/-- The query with the function applied to each of its predicates. -/
def query.map (f : query_predicate → query_predicate) (q : query) : query :=
  ⟨f q.first, q.rest.map (fun pred => ⟨pred.op, f pred.operand⟩)⟩

/-- A negated tag, type, offset or schema predicate as that predicate with the
complement of its operator; any other predicate as it is. -/
def push_negation : query_predicate → query_predicate
  | .negated_predicate (.tag_predicate lhs op rhs) => .tag_predicate lhs (negate op) rhs
  | .negated_predicate (.type_predicate lhs op rhs) => .type_predicate lhs (negate op) rhs
  | .negated_predicate (.offset_predicate event off op rhs) =>
    .offset_predicate event off (negate op) rhs
  | .negated_predicate (.schema_predicate lhs op rhs) => .schema_predicate lhs (negate op) rhs
  | p => p

/-- A schema with the single event foo, in which every name path resolves to
the offsets 0 and (2, 0), both of the one type there is. -/
def two_offset_schema : schema Unit :=
  ⟨fun _ => [("foo", [0]), ("foo", [2, 0])], fun _ _ => (), fun _ _ => true⟩

/-- The node is a disjunction of conjunctions of predicates. -/
def disjunction_of_conjunctions (n : node) : Prop :=
  ∃ ds, n = node.disjunction ds ∧
    ∀ d, d ∈ ds → ∃ cs, d = node.conjunction cs ∧ ∀ c, c ∈ cs → is_predicate c

/-! ## Ports (`port.cc`) -/

/-- The class `port` of port.cc: a port number and the transport protocol.
The declarations of `number_type` and of the enum `port_type` are in port.h,
which is not among the sources; both members are kept as numbers, the protocol
as the value of its enumerator. -/
structure port where
  number_ : Nat
  type_ : Nat
  deriving DecidableEq, Repr

/-- The function `operator==(port const&, port const&)` of port.cc. -/
def port.eq (x y : port) : Bool :=
  x.number_ = y.number_ ∧ x.type_ = y.type_

/-- The function `operator<(port const&, port const&)` of port.cc:
`std::tie(x.number_, x.type_) < std::tie(y.number_, y.type_)`, the
lexicographical comparison of the two pairs by `<` on their elements. -/
def port.lt (x y : port) : Bool :=
  if x.number_ < y.number_ then true
  else if y.number_ < x.number_ then false
  else x.type_ < y.type_

/-! ## The flat reading of a query -/

/-- The value of a flat query `b0 op1 b1 ... opn bn` of booleans in which AND
binds tighter than OR: the OR over its maximal AND-runs. The first argument is
the value of the AND-run under way. -/
def flat_value : Bool → List (boolean_operator × Bool) → Bool
  | acc, [] => acc
  | acc, (boolean_operator.logical_and, b) :: rest => flat_value (acc && b) rest
  | acc, (boolean_operator.logical_or, b) :: rest => acc || flat_value b rest

/-- The nodes of the terms of a query, from the nodes of the term under
construction and the tails still to come, each with the node of its
predicate. -/
def node_terms : List node → List (boolean_operator × node) → List (List node)
  | cur, [] => [cur]
  | cur, (boolean_operator.logical_or, n) :: rest => cur :: node_terms [n] rest
  | cur, (boolean_operator.logical_and, n) :: rest => node_terms (cur ++ [n]) rest

/-- The operand that a term contributes to the disjunction at the root: its
node if it has a single one, the conjunction of its nodes otherwise. -/
def term_operand : List node → node
  | [n] => n
  | ns => node.conjunction ns

/-- The root of the normalized AST of a query from the nodes of its terms: a
conjunction of the nodes of the term when there is a single term, a
disjunction of the operands of the terms otherwise. -/
def root_of_terms : List (List node) → node
  | [t] => node.conjunction t
  | ts => node.disjunction (ts.map term_operand)

/-- The predicate is a tag, type or offset predicate. -/
def basic_predicate : query_predicate → Prop
  | .tag_predicate _ _ _ => True
  | .type_predicate _ _ _ => True
  | .offset_predicate _ _ _ _ => True
  | _ => False

/-! ## The bitmap indexer (`bitmap_indexer.h`) -/

/-- Modelled from the spec: what the indexer uses of its template parameter
`BitmapIndex` (§4.4; the bitmap indexes are defined in bitmap_index.cc, which
is not among the sources): default construction, `size`, `append(n, bit)` and
`push_back(value, id)`, the last two with the flag they return. -/
structure BitmapIndex where
  carrier : Type
  dflt : carrier
  size : carrier → Nat
  append : carrier → Nat → Bool → carrier × Bool
  push_back : carrier → value → Nat → carrier × Bool

/-- Modelled from the spec: the contract of a bitmap index (§4.4): a new index
is empty, `append(n, bit)` is "raw padding" with `n` further positions, and
`push_back` pads up to the given id and appends, so that it never makes the
index shorter. -/
structure BitmapIndex.Contract (I : BitmapIndex) : Prop where
  size_dflt : I.size I.dflt = 0
  size_append : ∀ x n bit, I.size (I.append x n bit).1 = I.size x + n
  size_push_back : ∀ x v id, I.size x ≤ I.size (I.push_back x v id).1

/-- The members `last_flush_` and `bmi_` of the class `bitmap_indexer`. -/
structure bitmap_indexer (I : BitmapIndex) where
  last_flush_ : Nat
  bmi_ : I.carrier

/-- The constructor of `bitmap_indexer`: `bmi_.append(1, false)` on the
default-constructed index, and `last_flush_ = 1`. -/
def bitmap_indexer.new (I : BitmapIndex) : bitmap_indexer I :=
  ⟨1, (I.append I.dflt 1 false).1⟩

/-- The start of `bitmap_indexer::act`: `if (exists(path_))
io::unarchive(path_, last_flush_, bmi_);`. The file at `path_` is what the
last `io::archive` has written to it, if there is one. -/
def bitmap_indexer.load {I : BitmapIndex} (x : bitmap_indexer I)
    (file : Option (Nat × I.carrier)) : bitmap_indexer I :=
  match file with
  | some (last_flush, bmi) => ⟨last_flush, bmi⟩
  | none => x

/-- The lambda `flush` of `bitmap_indexer::act`: the indexer and the file
afterwards, and whether `io::archive` has been called. -/
def bitmap_indexer.flush {I : BitmapIndex} (x : bitmap_indexer I)
    (file : Option (Nat × I.carrier)) :
    bitmap_indexer I × Option (Nat × I.carrier) × Bool :=
  if I.size x.bmi_ > x.last_flush_ then
    (⟨I.size x.bmi_, x.bmi_⟩, some (I.size x.bmi_, x.bmi_), true)
  else (x, file, false)

/-- The handler of a batch of events of `bitmap_indexer::act`: each event
from which `Derived::extract` gets a value is pushed back with its id. -/
def bitmap_indexer.index {I : BitmapIndex} (extract : event → Option value) :
    List event → bitmap_indexer I → bitmap_indexer I
  | [], x => x
  | e :: events, x =>
    match extract e with
    | some v => bitmap_indexer.index extract events ⟨x.last_flush_, (I.push_back x.bmi_ v e.id).1⟩
    | none => bitmap_indexer.index extract events x

/-- The states an indexer and the file at its path can be in: a new indexer
starts with or without a file that an earlier indexer has flushed to the path,
and from then on handles flush requests and batches of events (a lookup
changes neither the indexer nor the file). -/
inductive bitmap_indexer.reachable (I : BitmapIndex) (extract : event → Option value) :
    bitmap_indexer I → Option (Nat × I.carrier) → Prop where
  | start : reachable I extract ((bitmap_indexer.new I).load none) none
  | restart (x : bitmap_indexer I) (file : Option (Nat × I.carrier)) :
      reachable I extract x file →
      reachable I extract ((bitmap_indexer.new I).load file) file
  | flush (x : bitmap_indexer I) (file : Option (Nat × I.carrier)) :
      reachable I extract x file →
      reachable I extract (x.flush file).1 (x.flush file).2.1
  | index (x : bitmap_indexer I) (file : Option (Nat × I.carrier)) (events : List event) :
      reachable I extract x file →
      reachable I extract (bitmap_indexer.index extract events x) file

/-- A bitmap index that only counts its positions. -/
def counting_index : BitmapIndex :=
  ⟨Nat, 0, fun x => x, fun x n _ => (x + n, true), fun x _ id => (max x id + 1, true)⟩

/-! ## Printing a vector of bitstreams (`print` of bitstream.h) -/

/-- Modelled from the spec: the range of `Bitstream::const_iterator` from
`begin()` to `end()`, the "iteration over set-bit positions (forward)" (§4.2;
the iterators are defined in bitstream.cc, which is not among the sources): the
positions of the set bits in ascending order, for bits that start at position
`off`. -/
def ones_from : Nat → List Bool → List Nat
  | _, [] => []
  | off, b :: bs => if b then off :: ones_from (off + 1) bs else ones_from (off + 1) bs

/-- One round of the loop `for (auto& p : is)` that computes the minimum:
`if (p.first != p.second && *p.first < min) min = *p.first;`. -/
def print_min_step (min : Nat) (p : List Nat) : Nat :=
  match p with
  | x :: _ => if x < min then x else min
  | [] => min

/-- The minimum of the positions the iterators stand at, `npos` when all have
reached their end. -/
def print_min (is : List (List Nat)) : Nat := is.foldl print_min_step npos

/-- The loop that prints the transposed row of position `min`: the characters
written, the iterators afterwards and the flag `done`. -/
def print_row (min : Nat) : List (List Nat) → List Char × List (List Nat) × Bool
  | [] => ([], [], true)
  | p :: is =>
    match p with
    | x :: xs =>
      if x = min then ('1' :: (print_row min is).1, xs :: (print_row min is).2.1, false)
      else ('0' :: (print_row min is).1, p :: (print_row min is).2.1, (print_row min is).2.2)
    | [] => ('0' :: (print_row min is).1, p :: (print_row min is).2.1, (print_row min is).2.2)

/-- The row `n` times. -/
def repeat_row (row : List Char) : Nat → List Char
  | 0 => []
  | n + 1 => row ++ repeat_row row n

/-- The loop `while (! done)` of `print`: the characters written, from the
iterators `is` and the variable `last`. The first argument bounds the number of
rounds. -/
def print_loop : Nat → List (List Nat) → Nat → List Char
  | 0, _, _ => []
  | fuel + 1, is, last =>
    let min := print_min is
    if min = npos then []
    else
      let distance := size_sub min last
      let zero_row := List.replicate is.length '0' ++ ['\n']
      repeat_row zero_row distance ++ ((print_row min is).1 ++ ['\n']) ++
        (if (print_row min is).2.2 then []
         else print_loop fuel (print_row min is).2.1 ((min + 1) % 2 ^ 64))

/-- The number of positions the iterators still have to visit. -/
def total_ones : List (List Nat) → Nat
  | [] => 0
  | p :: is => p.length + total_ones is

/-- The function `print(out, v)` for a vector of bitstreams, given by their
bits: the characters written to `out`. Every round of the loop moves an
iterator, so that the bound on the rounds is never reached. -/
def print (v : List (List Bool)) : List Char :=
  if v.isEmpty then []
  else print_loop (total_ones (v.map (ones_from 0)) + 1) (v.map (ones_from 0)) 0

/-- Line `i` of the transposed matrix: for each bitstream '1' if it has bit `i`
set and '0' otherwise, and a newline. -/
def bit_row (v : List (List Bool)) (i : Nat) : List Char :=
  v.map (fun b => if b.getD i false then '1' else '0') ++ ['\n']

/-- The `k` lines of the transposed matrix from line `i` on. -/
def bit_rows (v : List (List Bool)) : Nat → Nat → List Char
  | _, 0 => []
  | i, k + 1 => bit_row v i ++ bit_rows v (i + 1) k

/-- Line `i` of the transposed matrix of bitstreams given by the positions of
their set bits. -/
def pos_row (is : List (List Nat)) (i : Nat) : List Char :=
  is.map (fun p => if i ∈ p then '1' else '0') ++ ['\n']

/-- The `k` lines from line `i` on, for bitstreams given by the positions of
their set bits. -/
def pos_rows (is : List (List Nat)) : Nat → Nat → List Char
  | _, 0 => []
  | i, k + 1 => pos_row is i ++ pos_rows is (i + 1) k

/-- One more than the largest position of a list, 0 for the empty list. -/
def top : List Nat → Nat
  | [] => 0
  | x :: xs => max (x + 1) (top xs)

/-- One more than the largest position in any of the lists, 0 if there is
none. -/
def height : List (List Nat) → Nat
  | [] => 0
  | p :: is => max (top p) (height is)

/-- The iterator after the row of position `m`: moved on if it stood at
`m`. -/
def pop (m : Nat) : List Nat → List Nat
  | x :: xs => if x = m then xs else x :: xs
  | [] => []

/-- The iterators are ascending ranges of positions from `last` on and below
`npos`. -/
def iters_ok (last : Nat) (is : List (List Nat)) : Prop :=
  ∀ p, p ∈ is → p.Pairwise (fun a b => a < b) ∧ ∀ x, x ∈ p → last ≤ x ∧ x < npos

/-! ## Searching, complementing and trimming a bitstream -/

/-- Modelled from the spec: the bit-scan primitive of a block (§4.2.3;
bitvector.h is not among the sources), forward: the lowest set bit of `data`
among the `count` bits from bit `j` on. -/
def lowest_bit (data : Nat) : Nat → Nat → Option Nat
  | 0, _ => none
  | count + 1, j => if data.testBit j then some j else lowest_bit data count (j + 1)

/-- Modelled from the spec: the bit-scan primitive of a block, backward: the
highest set bit of `data` among its low `count` bits. -/
def highest_bit (data : Nat) : Nat → Option Nat
  | 0 => none
  | count + 1 => if data.testBit count then some count else highest_bit data count

/-- Modelled from the spec: the search for the first set bit at or after
position `i`, which "uses the sequence iteration to skip whole clean fills in
O(1) per run; within a literal block, use a bit-scan primitive" (§4.2.3; the
searches of both encodings are defined in bitstream.cc, which is not among the
sources). A sequence that ends at or before `i` and a fill of zeros are
skipped, a fill of ones holds the position itself, a literal is scanned. -/
def first_from : List bitsequence → Nat → Option Nat
  | [], _ => none
  | s :: ss, i =>
    if s.offset + s.length ≤ i then first_from ss i
    else if s.is_fill then
      if s.data != 0 then some (max i s.offset) else first_from ss i
    else
      match lowest_bit s.data (s.length - (i - s.offset)) (i - s.offset) with
      | some j => some (s.offset + j)
      | none => first_from ss i

/-- Modelled from the spec: the search for the last set bit at or before
position `i`, the mirror image of `first_from`: the sequences after a sequence
are searched before the sequence itself. -/
def last_upto : List bitsequence → Nat → Option Nat
  | [], _ => none
  | s :: ss, i =>
    if i < s.offset then none
    else
      match last_upto ss i with
      | some r => some r
      | none =>
        if s.is_fill then
          if s.data != 0 then some (min i (s.offset + s.length - 1)) else none
        else
          match highest_bit s.data (min s.length (i - s.offset + 1)) with
          | some j => some (s.offset + j)
          | none => none

/-- Modelled from the spec: `find_first_impl` of an encoding, the position of
the first set bit, `npos` if there is none. -/
def Bitstream.find_first_impl (B : Bitstream) (x : B.carrier) : Nat :=
  (first_from (B.sequence_range x) 0).getD npos

/-- Modelled from the spec: `find_next_impl` of an encoding, "the smallest
set-bit position strictly greater than `i`, or `NPOS`" (§4.1). -/
def Bitstream.find_next_impl (B : Bitstream) (x : B.carrier) (i : Nat) : Nat :=
  if i = npos then npos else (first_from (B.sequence_range x) (i + 1)).getD npos

/-- Modelled from the spec: `find_last_impl` of an encoding, the position of
the last set bit, `npos` if there is none. -/
def Bitstream.find_last_impl (B : Bitstream) (x : B.carrier) : Nat :=
  (last_upto (B.sequence_range x) npos).getD npos

/-- Modelled from the spec: `find_prev_impl` of an encoding, the mirror image
of `find_next_impl`. -/
def Bitstream.find_prev_impl (B : Bitstream) (x : B.carrier) (i : Nat) : Nat :=
  if i = 0 then npos else (last_upto (B.sequence_range x) (i - 1)).getD npos

/-- The method `bitstream_base::find_first`. -/
def Bitstream.find_first (B : Bitstream) (x : B.carrier) : Nat := B.find_first_impl x

/-- The method `bitstream_base::find_next`. -/
def Bitstream.find_next (B : Bitstream) (x : B.carrier) (i : Nat) : Nat :=
  B.find_next_impl x i

/-- The method `bitstream_base::find_last`. -/
def Bitstream.find_last (B : Bitstream) (x : B.carrier) : Nat := B.find_last_impl x

/-- The method `bitstream_base::find_prev`. -/
def Bitstream.find_prev (B : Bitstream) (x : B.carrier) (i : Nat) : Nat :=
  B.find_prev_impl x i

/-- Bit `k` of a sequence: the fill bit for a fill, bit `k` of the data block
for a literal. -/
def bitsequence.bit (s : bitsequence) (k : Nat) : Bool :=
  if s.is_fill then s.data != 0 else s.data.testBit k

/-- Position `j` of the bitstream lies in one of the sequences and is set
there. -/
def set_in (seqs : List bitsequence) (j : Nat) : Prop :=
  ∃ s, s ∈ seqs ∧ s.offset ≤ j ∧ j < s.offset + s.length ∧ s.bit (j - s.offset) = true


/-- Modelled from the spec: the complement of a range of sequences, appended
to `acc` (the bitwise operations are defined on the sequence iteration, §4.2;
`bitwise_not` of both encodings is defined in bitstream.cc, which is not among
the sources). A fill becomes the fill of the opposite bit, a literal the
literal of the complemented block, of which `append_block` takes the low
`length` bits. -/
def complement_into (B : Bitstream) : List bitsequence → B.carrier → B.carrier
  | [], acc => acc
  | s :: ss, acc =>
    complement_into B ss
      (if s.is_fill then (B.append acc s.length (!(s.data != 0))).2
       else (B.append_block acc (block_not s.data) s.length).2)

/-- Modelled from the spec: `bitwise_not` of an encoding. -/
def Bitstream.bitwise_not (B : Bitstream) (x : B.carrier) : B.carrier :=
  complement_into B (B.sequence_range x) B.dflt

/-- The method `bitstream_base::flip`. -/
def Bitstream.flip (B : Bitstream) (x : B.carrier) : B.carrier := B.bitwise_not x

/-- The method `bitstream_base::operator~`: a copy of the bitstream,
flipped. -/
def Bitstream.operator_not (B : Bitstream) (x : B.carrier) : B.carrier := B.flip x

/-- Modelled from the spec: the bits below position `limit` of a range of
sequences, appended to `acc`: the sequences that start at or after `limit` are
dropped, the one that reaches over `limit` is cut. -/
def prefix_into (B : Bitstream) (limit : Nat) : List bitsequence → B.carrier → B.carrier
  | [], acc => acc
  | s :: ss, acc =>
    if limit ≤ s.offset then acc
    else
      prefix_into B limit ss
        (if s.is_fill then (B.append acc (min s.length (limit - s.offset)) (s.data != 0)).2
         else (B.append_block acc s.data (min s.length (limit - s.offset))).2)

/-- Modelled from the spec: `trim_impl` of an encoding, which "strips a
trailing all-zero run so that the last set bit becomes the last bit"; "a
bitstream whose entire content is zero trims to empty" (§4.2.2; `trim_impl` of
both encodings is defined in bitstream.cc, which is not among the sources). -/
def Bitstream.trim_impl (B : Bitstream) (x : B.carrier) : B.carrier :=
  match last_upto (B.sequence_range x) npos with
  | none => B.dflt
  | some last => prefix_into B (last + 1) (B.sequence_range x) B.dflt

/-- The method `bitstream_base::trim`. -/
def Bitstream.trim (B : Bitstream) (x : B.carrier) : B.carrier := B.trim_impl x

/-! ## Marker words of the EWAH encoding (`ewah_bitstream`) -/

/-- Modelled from the spec: `bitvector::msb_one`, the block with only its most
significant bit set (vast/bitvector.h is not among the sources). -/
def msb_one : Nat := 2 ^ 63

/-- The constant `ewah_bitstream::clean_dirty_divide`, "the offset from the
LSB which separates clean and dirty counters". -/
def clean_dirty_divide : Nat := block_width / 2 - 1

/-- The constant `ewah_bitstream::marker_dirty_mask`,
`~(all_one << clean_dirty_divide)` on 64-bit blocks. -/
def marker_dirty_mask : Nat := block_not ((all_one <<< clean_dirty_divide) % 2 ^ 64)

/-- The constant `ewah_bitstream::marker_dirty_max`. -/
def marker_dirty_max : Nat := marker_dirty_mask

/-- The constant `ewah_bitstream::marker_clean_mask`,
`~(marker_dirty_mask | msb_one)`. -/
def marker_clean_mask : Nat := block_not (marker_dirty_mask ||| msb_one)

/-- The constant `ewah_bitstream::marker_clean_max`,
`marker_clean_mask >> clean_dirty_divide`. -/
def marker_clean_max : Nat := marker_clean_mask >>> clean_dirty_divide

/-- The function `ewah_bitstream::marker_type(block)`: the type of the clean
words of a marker. -/
def marker_type (block : Nat) : Bool := (block &&& msb_one) == msb_one

/-- The function `ewah_bitstream::marker_type(block, type)`, which sets the
type. -/
def marker_type_set (block : Nat) (type : Bool) : Nat :=
  (block &&& block_not msb_one) ||| (if type then msb_one else 0)

/-- The function `ewah_bitstream::marker_num_clean(block)`: the number of clean
words of a marker. -/
def marker_num_clean (block : Nat) : Nat :=
  (block &&& marker_clean_mask) >>> clean_dirty_divide

/-- The function `ewah_bitstream::marker_num_clean(block, n)`, which sets the
number of clean words; the shift is a 64-bit shift. -/
def marker_num_clean_set (block n : Nat) : Nat :=
  (block &&& block_not marker_clean_mask) ||| ((n <<< clean_dirty_divide) % 2 ^ 64)

/-- The function `ewah_bitstream::marker_num_dirty(block)`: the number of dirty
words after a marker. -/
def marker_num_dirty (block : Nat) : Nat := block &&& marker_dirty_mask

/-- The function `ewah_bitstream::marker_num_dirty(block, n)`, which sets the
number of dirty words. -/
def marker_num_dirty_set (block n : Nat) : Nat :=
  (block &&& block_not marker_dirty_mask) ||| n

/-! ## Time ranges (`time.h`) -/

/-- The class `time_range`: its member `duration_`, a count of nanoseconds
(`duration_type` is `std::chrono::duration<int64_t, std::nano>`), kept as the
integer that the 64 bits stand for. -/
structure time_range where
  duration_ : Int
  deriving DecidableEq, Repr

/-- The integer that the low 64 bits of `x` stand for as an `int64_t`. The
conversions of `std::chrono` multiply in `int64_t`; a product outside its range
is undefined in C++ and wraps around where the repository is built, which is
what is modelled. -/
def int64_wrap (x : Int) : Int := (x + 2 ^ 63) % 2 ^ 64 - 2 ^ 63

/-- The function `time_range::nanoseconds`. -/
def time_range.nanoseconds (ns : Int) : time_range := ⟨int64_wrap ns⟩

/-- The function `time_range::microseconds`: `duration_cast` multiplies the
count by 1000. -/
def time_range.microseconds (us : Int) : time_range := ⟨int64_wrap (us * 1000)⟩

/-- The function `time_range::milliseconds`. -/
def time_range.milliseconds (ms : Int) : time_range := ⟨int64_wrap (ms * 1000000)⟩

/-- The function `time_range::seconds`. -/
def time_range.seconds (s : Int) : time_range := ⟨int64_wrap (s * 1000000000)⟩

/-- The function `time_range::minutes`. -/
def time_range.minutes (m : Int) : time_range := ⟨int64_wrap (m * 60000000000)⟩

/-- The function `time_range::hours`. -/
def time_range.hours (h : Int) : time_range := ⟨int64_wrap (h * 3600000000000)⟩

/-- The function `time_range::parse(start, end)` from the point where
`util::parse_numeric` (util/parse.h is not among the sources) has read an
integer literal, so that `is_double` is false and `i` is its value: `self` is
`*this` before the call and `input` the characters from `start` to `end`. The
result is the value returned, `*this` afterwards and the characters left from
`start` on. Each `*start++` takes one character off the input, whether or not
it compares equal to `'s'`. -/
def time_range.parse (self : time_range) (i : Int) (input : List Char) :
    Bool × time_range × List Char :=
  match input with
  | [] => (true, time_range.seconds i, [])
  | c :: rest =>
    if c = 'n' then
      match rest with
      | [] => (true, self, [])
      | d :: rest1 =>
        if d = 's' then (true, time_range.nanoseconds i, rest1) else (true, self, rest1)
    else if c = 'u' then
      match rest with
      | [] => (true, self, [])
      | d :: rest1 =>
        if d = 's' then (true, time_range.microseconds i, rest1) else (true, self, rest1)
    else if c = 'm' then
      match rest with
      | [] => (true, time_range.minutes i, [])
      | d :: rest1 =>
        if d = 's' then (true, time_range.milliseconds i, rest1)
        else (true, time_range.minutes i, rest1)
    else if c = 's' then (true, time_range.seconds i, rest)
    else if c = 'h' then (true, time_range.hours i, rest)
    else (false, self, rest)

/-! ## Substitution in a string (`string::sub`) -/

/-- The call `std::equal(i, i + pat.size(), pat.begin())` of `string::sub` with
`i = begin() + k`: whether the `pat.size()` characters from index `k` on are
those of `pat`. The loop of `sub` only calls it with `k + pat.size()` below the
size of the string. -/
def equal_at (s pat : List Char) (k : Nat) : Bool :=
  (s.drop k).take pat.length == pat

/-- The loop `for (auto i = begin(); pos == end() && i != end() - pat.size();
++i)` of `string::sub`, with `i` as an index: the index `pos` is set to, or
nothing if the loop ends with `pos == end()`. The first argument bounds the
number of rounds; the size of the string is enough. -/
def sub_search (s pat : List Char) : Nat → Nat → Option Nat
  | 0, _ => none
  | fuel + 1, i =>
    if i ≠ s.length - pat.length then
      if equal_at s pat i then some i else sub_search s pat fuel (i + 1)
    else none

/-- The member function `string::sub(pat, repl)` of string.cc, on the
characters of the string `s`. -/
def string_sub (s pat repl : List Char) : List Char :=
  if pat.length > s.length then s
  else
    match sub_search s pat s.length 0 with
    | none => s
    | some pos => s.take pos ++ repl ++ s.drop (pos + pat.length)

/-! ## `string::find` and the memory behind a string -/

/-- The needle occurs in the string at index `i`: the `needle.size()`
characters of `h` from index `i` on exist and are those of the needle. -/
def occurs_at (h needle : List Char) (i : Nat) : Prop :=
  (h.drop i).take needle.length = needle

/-! ## Escaping a string (`string::escape`, `string::unescape`) -/

/-- The table `hex` of string.cc, `"0123456789abcdef"`. -/
def hex : List Char := "0123456789abcdef".data

/-- The entry `hex[k]` of the table. -/
def hex_at (k : Nat) : Char := hex.getD k (Char.ofNat 0)

/-- The backslash, the first character of an escape sequence. -/
def backslash : Char := Char.ofNat 92

/-- The function `std::isxdigit` of the C library: the decimal digits and the
letters `a` to `f` and `A` to `F`. -/
def isxdigit (c : Char) : Bool :=
  (48 ≤ c.toNat && c.toNat ≤ 57) || (97 ≤ c.toNat && c.toNat ≤ 102) ||
    (65 ≤ c.toNat && c.toNat ≤ 70)

/-- The character `*(begin() + i)` of a string, for an index below its size. -/
def char_at (s : List Char) (i : Nat) : Char := s.getD i (Char.ofNat 0)

/-- The member function `string::is_escape_seq(i)` on the characters from `i`
to the end of the string: there are more than three of them, and they start
with a backslash, an `x` and two hexadecimal digits. -/
def is_escape_seq : List Char → Bool
  | c0 :: c1 :: c2 :: c3 :: _ => c0 = backslash && c1 = 'x' && isxdigit c2 && isxdigit c3
  | _ => false

/-- The four characters `string::escape` writes for a character: a backslash,
an `x`, `hex[(c & 0xf0) >> 4]` and `hex[c & 0x0f]`. -/
def escape_seq (c : Char) : List Char :=
  [backslash, 'x', hex_at ((c.toNat &&& 0xf0) >>> 4), hex_at (c.toNat &&& 0x0f)]

/-- The first loop of `string::escape`, `for (auto i = begin(); i != end();
++i)`, with `i` as an index: the positions of the characters to escape, which
are all characters with the flag `all`, and otherwise those that `std::isprint`
(a parameter, it depends on the locale) rejects and the backslash of what is
an escape sequence already. The first argument bounds the number of rounds. -/
def escape_positions (isprint : Char → Bool) (all : Bool) (s : List Char) :
    Nat → Nat → List Nat
  | 0, _ => []
  | fuel + 1, i =>
    if i ≠ s.length then
      if all || !isprint (char_at s i) || is_escape_seq (s.drop i) then
        i :: escape_positions isprint all s fuel (i + 1)
      else escape_positions isprint all s fuel (i + 1)
    else []

/-- The second loop of `string::escape`, `for (auto pos : positions)`, and the
final `std::copy(prev, end(), data)`: `data` is what has been written so
far. -/
def escape_copy (s : List Char) : List Nat → Nat → List Char → List Char
  | [], prev, data => data ++ s.drop prev
  | pos :: positions, prev, data =>
    escape_copy s positions (pos + 1)
      (data ++ (s.drop prev).take (pos - prev) ++ escape_seq (char_at s pos))

/-- The member function `string::escape(all)` of string.cc, on the characters
of the string. -/
def string_escape (isprint : Char → Bool) (all : Bool) (s : List Char) : List Char :=
  if s.isEmpty then s
  else escape_copy s (escape_positions isprint all s s.length 0) 0 []

/-- The first loop of `string::unescape`: the positions of the escape
sequences; after one of them `i += 3` and `++i` skip its four characters. -/
def unescape_positions (s : List Char) : Nat → Nat → List Nat
  | 0, _ => []
  | fuel + 1, i =>
    if i ≠ s.length then
      if is_escape_seq (s.drop i) then i :: unescape_positions s fuel (i + 4)
      else unescape_positions s fuel (i + 1)
    else []

/-- The second loop of `string::unescape` and the final copy. The function
`util::hex_to_byte` (util/coding.h is not among the sources) is a parameter. -/
def unescape_copy (hex_to_byte : Char → Char → Char) (s : List Char) :
    List Nat → Nat → List Char → List Char
  | [], prev, data => data ++ s.drop prev
  | pos :: positions, prev, data =>
    unescape_copy hex_to_byte s positions (pos + 4)
      (data ++ (s.drop prev).take (pos - prev) ++
        [hex_to_byte (char_at s (pos + 2)) (char_at s (pos + 3))])

/-- The member function `string::unescape()` of string.cc, on the characters
of the string. -/
def string_unescape (hex_to_byte : Char → Char → Char) (s : List Char) : List Char :=
  if (unescape_positions s s.length 0).isEmpty then s
  else unescape_copy hex_to_byte s (unescape_positions s s.length 0) 0 []

/-- What `escape` makes of a string, character by character. -/
def escaped (isprint : Char → Bool) (all : Bool) : List Char → List Char
  | [] => []
  | c :: rest =>
    if all || !isprint c || is_escape_seq (c :: rest) then
      escape_seq c ++ escaped isprint all rest
    else c :: escaped isprint all rest

/-- What `unescape` makes of a string, escape sequence by escape sequence. The
first argument bounds the number of steps; the length of the string is
enough. -/
def unescaped (hex_to_byte : Char → Char → Char) : Nat → List Char → List Char
  | 0, _ => []
  | _ + 1, [] => []
  | fuel + 1, c :: rest =>
    if is_escape_seq (c :: rest) then
      hex_to_byte (char_at rest 1) (char_at rest 2) ::
        unescaped hex_to_byte fuel (rest.drop 3)
    else c :: unescaped hex_to_byte fuel rest

/-- A function that turns two hexadecimal digits into the byte they denote, as
the name of `util::hex_to_byte` says: a fixture for the parameter. -/
def hex_value (c : Char) : Nat :=
  if 48 ≤ c.toNat ∧ c.toNat ≤ 57 then c.toNat - 48
  else if 97 ≤ c.toNat ∧ c.toNat ≤ 102 then c.toNat - 87
  else if 65 ≤ c.toNat ∧ c.toNat ≤ 70 then c.toNat - 55
  else 0

/-- The byte of two hexadecimal digits: a fixture for `util::hex_to_byte`. -/
def byte_of_hex (hi lo : Char) : Char := Char.ofNat (16 * hex_value hi + hex_value lo)

/-! ## Equality and order of nodes (`node::equals`, `node::is_less_than`) -/

/-- The dynamic type of a node, what `typeid(*this)` identifies. -/
inductive node_class where
  | constant
  | timestamp_extractor
  | name_extractor
  | id_extractor
  | offset_extractor
  | type_extractor
  | predicate
  | conjunction
  | disjunction
  deriving DecidableEq, Repr

/-- The expression `typeid(*this)` of a node. -/
def node.typeid : node → node_class
  | .constant _ => .constant
  | .timestamp_extractor => .timestamp_extractor
  | .name_extractor => .name_extractor
  | .id_extractor => .id_extractor
  | .offset_extractor _ _ => .offset_extractor
  | .type_extractor _ => .type_extractor
  | .predicate _ _ _ => .predicate
  | .conjunction _ => .conjunction
  | .disjunction _ => .disjunction

/-- Modelled from the spec: the position of a discriminant in the enumeration
`value_type` (§4.3 lists them in this order; value.h is not among the sources),
by which `type < other.type` compares two discriminants. -/
def value_type.index : value_type → Nat
  | .invalid_value => 0
  | .bool_value => 1
  | .int_value => 2
  | .uint_value => 3
  | .double_value => 4
  | .time_range_value => 5
  | .time_point_value => 6
  | .string_value => 7
  | .regex_value => 8
  | .address_value => 9
  | .prefix_value => 10
  | .port_value => 11
  | .record_value => 12
  | .vector_value => 13
  | .set_value => 14
  | .table_value => 15

/-- Modelled from the spec: the position of an operator in the enumeration
`relational_operator` (operator.h is not among the sources; the order is that
of the cases of `make_predicate`), by which `op < that.op` compares two
operators. -/
def relational_operator.index : relational_operator → Nat
  | .match_op => 0
  | .not_match => 1
  | .in_op => 2
  | .not_in => 3
  | .ni => 4
  | .not_ni => 5
  | .equal => 6
  | .not_equal => 7
  | .less => 8
  | .less_equal => 9
  | .greater => 10
  | .greater_equal => 11

/-- The comparison `off < that.off` of two offsets, which are vectors of
indices: `std::lexicographical_compare`. -/
def offset_less : List Nat → List Nat → Bool
  | _, [] => false
  | [], _ :: _ => true
  | a :: as, b :: bs => if a < b then true else if b < a then false else offset_less as bs

mutual
/-- The member functions `equals` of the node classes: false for nodes of
different classes, true for two extractors of one class without members, the
comparison of the members for a constant, an offset extractor and a type
extractor, and `n_ary_operator::equals` for a conjunction, a disjunction and,
next to the comparison of the operators, a predicate. -/
def node.equals (x y : node) : Bool :=
  if x.typeid ≠ y.typeid then false
  else
    match x, y with
    | .constant v, .constant w => value.equals v w
    | .offset_extractor e o, .offset_extractor f p => e = f && o = p
    | .type_extractor t, .type_extractor u => t = u
    | .predicate op _ xs, .predicate oq _ ys => op = oq && node.equals_operands xs ys
    | .conjunction xs, .conjunction ys => node.equals_operands xs ys
    | .disjunction xs, .disjunction ys => node.equals_operands xs ys
    | _, _ => true
/-- The body of `n_ary_operator::equals` past the test of the classes: the two
vectors of operands have the same size and equal operands. -/
def node.equals_operands : List node → List node → Bool
  | [], [] => true
  | x :: xs, y :: ys => node.equals x y && node.equals_operands xs ys
  | _, _ => false
end

mutual
/-- The member functions `is_less_than` of the node classes: nodes of different
classes are ordered by the hash codes of their classes (a parameter: the values
of `std::type_info::hash_code` are up to the implementation), two extractors of
one class without members likewise, a constant by its value, an offset
extractor by `std::tie(event, off)`, a type extractor by its type, a predicate
by its operator and then its operands, a conjunction and a disjunction by their
operands. -/
def node.is_less_than (hash_code : node_class → Nat) (x y : node) : Bool :=
  if x.typeid ≠ y.typeid then hash_code x.typeid < hash_code y.typeid
  else
    match x, y with
    | .constant v, .constant w => value.less v w
    | .offset_extractor e o, .offset_extractor f p =>
      if string_less e.data f.data then true
      else if string_less f.data e.data then false else offset_less o p
    | .type_extractor t, .type_extractor u => t.index < u.index
    | .predicate op _ xs, .predicate oq _ ys =>
      if op ≠ oq then op.index < oq.index
      else node.lexicographical_compare hash_code xs ys
    | .conjunction xs, .conjunction ys => node.lexicographical_compare hash_code xs ys
    | .disjunction xs, .disjunction ys => node.lexicographical_compare hash_code xs ys
    | _, _ => hash_code x.typeid < hash_code y.typeid
termination_by structural x
/-- The comparison `y.is_less_than(x)` as a function of `x`, which the second
test `comp(*first2, *first1)` of `std::lexicographical_compare` makes: the
mirror image of `is_less_than`, proved to be `is_less_than` with the arguments
exchanged (`is_greater_than_eq`). -/
def node.is_greater_than (hash_code : node_class → Nat) (x y : node) : Bool :=
  if x.typeid ≠ y.typeid then hash_code y.typeid < hash_code x.typeid
  else
    match x, y with
    | .constant v, .constant w => value.less w v
    | .offset_extractor e o, .offset_extractor f p =>
      if string_less f.data e.data then true
      else if string_less e.data f.data then false else offset_less p o
    | .type_extractor t, .type_extractor u => u.index < t.index
    | .predicate op _ xs, .predicate oq _ ys =>
      if oq ≠ op then oq.index < op.index
      else node.lexicographical_compare_rev hash_code xs ys
    | .conjunction xs, .conjunction ys => node.lexicographical_compare_rev hash_code xs ys
    | .disjunction xs, .disjunction ys => node.lexicographical_compare_rev hash_code xs ys
    | _, _ => hash_code y.typeid < hash_code x.typeid
termination_by structural x
/-- The algorithm `std::lexicographical_compare` on two vectors of operands
with the comparison `*x < *y`. -/
def node.lexicographical_compare (hash_code : node_class → Nat) :
    List node → List node → Bool
  | _, [] => false
  | [], _ :: _ => true
  | x :: xs, y :: ys =>
    if node.is_less_than hash_code x y then true
    else if node.is_greater_than hash_code x y then false
    else node.lexicographical_compare hash_code xs ys
termination_by structural xs => xs
/-- The algorithm `std::lexicographical_compare` with the two vectors
exchanged, as a function of the second vector first. -/
def node.lexicographical_compare_rev (hash_code : node_class → Nat) :
    List node → List node → Bool
  | [], _ => false
  | _ :: _, [] => true
  | x :: xs, y :: ys =>
    if node.is_greater_than hash_code x y then true
    else if node.is_less_than hash_code x y then false
    else node.lexicographical_compare_rev hash_code xs ys
termination_by structural xs => xs
end

/-- The class `ast`: its member `node_`, which is null for an AST without a
node. -/
structure ast where
  node_ : Option node

/-- The function `operator==(ast const&, ast const&)`. -/
def ast.equals (x y : ast) : Bool :=
  match x.node_, y.node_ with
  | some n, some m => node.equals n m
  | _, _ => false

/-- The function `operator<(ast const&, ast const&)`. -/
def ast.less (hash_code : node_class → Nat) (x y : ast) : Bool :=
  match x.node_, y.node_ with
  | some n, some m => node.is_less_than hash_code n m
  | _, _ => false

mutual
/-- The values of the constants in a node. -/
def node.constants : node → List value
  | .constant v => [v]
  | .predicate _ _ xs => node.constants_of xs
  | .conjunction xs => node.constants_of xs
  | .disjunction xs => node.constants_of xs
  | _ => []
/-- The values of the constants in a list of nodes. -/
def node.constants_of : List node → List value
  | [] => []
  | x :: xs => node.constants x ++ node.constants_of xs
end

/-- Exactly one of three statements holds. -/
def exactly_one (a b c : Bool) : Prop :=
  (a = true ∧ b = false ∧ c = false) ∨ (a = false ∧ b = true ∧ c = false) ∨
    (a = false ∧ b = false ∧ c = true)

/-- A hash code that tells the node classes apart: a fixture for the parameter
`hash_code`. -/
def class_index : node_class → Nat
  | .constant => 0
  | .timestamp_extractor => 1
  | .name_extractor => 2
  | .id_extractor => 3
  | .offset_extractor => 4
  | .type_extractor => 5
  | .predicate => 6
  | .conjunction => 7
  | .disjunction => 8

/-! ## Normalized ASTs and the assertions of the evaluator -/

/-- The node is an extractor. -/
def is_extractor : node → Prop
  | .timestamp_extractor => True
  | .name_extractor => True
  | .id_extractor => True
  | .offset_extractor _ _ => True
  | .type_extractor _ => True
  | _ => False

/-- The nodes of a normalized AST: a predicate with exactly two operands, an
extractor and a constant, and a conjunction or a disjunction of such nodes. -/
inductive normalized_node : node → Prop where
  | predicate (op : relational_operator) (pred : value → value → Bool) (lhs : node)
      (val : value) :
      is_extractor lhs → normalized_node (node.predicate op pred [lhs, node.constant val])
  | conjunction (operands : List node) :
      (∀ n, n ∈ operands → normalized_node n) → normalized_node (node.conjunction operands)
  | disjunction (operands : List node) :
      (∀ n, n ∈ operands → normalized_node n) → normalized_node (node.disjunction operands)

/-- Every index on the stack of the type extractor is at most the size of its
record, so that `rec[idx]` is only reached with `idx` below the size. -/
def extractor_state.in_bounds (st : extractor_state) : Prop :=
  ∀ p, p ∈ st.pos → p.2 ≤ p.1.length

/-- The extractor state of the evaluator, if there is one, is in bounds. -/
def evaluator.in_bounds (s : evaluator) : Prop :=
  ∀ st, s.extractor_state_ = some st → st.in_bounds

mutual
/-- The number of passes the loop of the type extractor spends inside a value:
none for a value that is not a record. -/
def value.work : value → Nat
  | .record xs => 1 + value.work_list xs
  | _ => 0
/-- The number of passes the loop of the type extractor spends on the elements
of a record. -/
def value.work_list : List value → Nat
  | [] => 0
  | x :: xs => 1 + value.work x + value.work_list xs
end

/-- The number of passes the loop of the type extractor has left for the
records on its stack. -/
def stack_work : List (List value × Nat) → Nat
  | [] => 0
  | (rec, idx) :: rest => 1 + value.work_list (rec.drop idx) + stack_work rest

/-- The flag `complete` is set, or the record at the bottom of the stack, the
record of the event, has an element left. -/
def extractor_state.pending (st : extractor_state) : Prop :=
  st.complete = true ∨ ∃ rec idx, st.pos.getLast? = some (rec, idx) ∧ idx < rec.length

/-- What one pass of the loop of the type extractor does to a state `st` that
is in bounds and pending: the state stays so, and the work left gets less,
except when the pass finds the stack empty. -/
def step_progress (st : extractor_state) : loop_step → Prop
  | .stop _ st1 =>
    st1.in_bounds ∧ st1.pending ∧ stack_work st1.pos ≤ stack_work st.pos ∧
      (st.pos ≠ [] → stack_work st1.pos < stack_work st.pos)
  | .again st1 => st1.in_bounds ∧ st1.pending ∧ stack_work st1.pos < stack_work st.pos
  | .fault => False

theorem zip_pad_nil_nil (f : Bool → Bool → Bool) : zip_pad f [] [] = [] := rfl

theorem zip_pad_cons_nil (f : Bool → Bool → Bool) (a : Bool) (l : List Bool) :
    zip_pad f (a :: l) [] = f a false :: zip_pad f l [] := rfl

theorem zip_pad_nil_cons (f : Bool → Bool → Bool) (b : Bool) (r : List Bool) :
    zip_pad f [] (b :: r) = f false b :: zip_pad f [] r := rfl

theorem zip_pad_cons_cons (f : Bool → Bool → Bool) (a b : Bool) (l r : List Bool) :
    zip_pad f (a :: l) (b :: r) = f a b :: zip_pad f l r := rfl

theorem zip_pad_length (f : Bool → Bool → Bool) :
    ∀ a b : List Bool, (zip_pad f a b).length = max a.length b.length
  | [], [] => by simp [zip_pad_nil_nil, zip_pad_cons_nil, zip_pad_nil_cons, zip_pad_cons_cons]
  | a :: l, [] => by simp [zip_pad_nil_nil, zip_pad_cons_nil, zip_pad_nil_cons, zip_pad_cons_cons, zip_pad_length f l []]
  | [], b :: r => by simp [zip_pad_nil_nil, zip_pad_cons_nil, zip_pad_nil_cons, zip_pad_cons_cons, zip_pad_length f [] r]
  | a :: l, b :: r => by
    simp only [zip_pad_nil_nil, zip_pad_cons_nil, zip_pad_nil_cons, zip_pad_cons_cons, List.length_cons, zip_pad_length f l r]
    omega

theorem zip_pad_getD (f : Bool → Bool → Bool) :
    ∀ (a b : List Bool) (i : Nat), i < max a.length b.length →
      (zip_pad f a b).getD i false = f (a.getD i false) (b.getD i false)
  | [], [], i, h => by simp at h
  | a :: l, [], 0, _ => by simp [zip_pad_nil_nil, zip_pad_cons_nil, zip_pad_nil_cons, zip_pad_cons_cons]
  | a :: l, [], i + 1, h => by
    have h' : i < max l.length ([] : List Bool).length := by simp at h ⊢; omega
    simpa [zip_pad_nil_nil, zip_pad_cons_nil, zip_pad_nil_cons, zip_pad_cons_cons] using zip_pad_getD f l [] i h'
  | [], b :: r, 0, _ => by simp [zip_pad_nil_nil, zip_pad_cons_nil, zip_pad_nil_cons, zip_pad_cons_cons]
  | [], b :: r, i + 1, h => by
    have h' : i < max ([] : List Bool).length r.length := by simp at h ⊢; omega
    simpa [zip_pad_nil_nil, zip_pad_cons_nil, zip_pad_nil_cons, zip_pad_cons_cons] using zip_pad_getD f [] r i h'
  | a :: l, b :: r, 0, _ => by simp [zip_pad_nil_nil, zip_pad_cons_nil, zip_pad_nil_cons, zip_pad_cons_cons]
  | a :: l, b :: r, i + 1, h => by
    have h' : i < max l.length r.length := by
      simp only [List.length_cons] at h; omega
    simpa [zip_pad_nil_nil, zip_pad_cons_nil, zip_pad_nil_cons, zip_pad_cons_cons] using zip_pad_getD f l r i h'

theorem zip_pad_nil_right (f : Bool → Bool → Bool) :
    ∀ a : List Bool, zip_pad f a [] = a.map (fun x => f x false)
  | [] => by simp [zip_pad_nil_nil, zip_pad_cons_nil, zip_pad_nil_cons, zip_pad_cons_cons]
  | a :: l => by simp [zip_pad_nil_nil, zip_pad_cons_nil, zip_pad_nil_cons, zip_pad_cons_cons, zip_pad_nil_right f l]

theorem zip_pad_nil_left (f : Bool → Bool → Bool) :
    ∀ b : List Bool, zip_pad f [] b = b.map (fun x => f false x)
  | [] => by simp [zip_pad_nil_nil, zip_pad_cons_nil, zip_pad_nil_cons, zip_pad_cons_cons]
  | b :: r => by simp [zip_pad_nil_nil, zip_pad_cons_nil, zip_pad_nil_cons, zip_pad_cons_cons, zip_pad_nil_left f r]

theorem zip_pad_append (f : Bool → Bool → Bool) :
    ∀ (a1 b1 A B : List Bool), a1.length = b1.length →
      zip_pad f (a1 ++ A) (b1 ++ B) = zip_pad f a1 b1 ++ zip_pad f A B
  | [], [], A, B, _ => by simp [zip_pad_nil_nil, zip_pad_cons_nil, zip_pad_nil_cons, zip_pad_cons_cons]
  | a :: l, [], A, B, h => by simp at h
  | [], b :: r, A, B, h => by simp at h
  | a :: l, b :: r, A, B, h => by
    have h' : l.length = r.length := by simpa using h
    simp [zip_pad_nil_nil, zip_pad_cons_nil, zip_pad_nil_cons, zip_pad_cons_cons, zip_pad_append f l r A B h']

theorem zip_pad_pad_right (f : Bool → Bool → Bool) :
    ∀ (a b : List Bool) (k : Nat), b.length + k ≤ a.length →
      zip_pad f a (b ++ List.replicate k false) = zip_pad f a b
  | [], [], k, h => by
    have : k = 0 := by simpa using h
    subst this; simp
  | [], b :: r, k, h => by simp at h
  | a :: l, [], 0, _ => by simp
  | a :: l, [], k + 1, h => by
    have h' : ([] : List Bool).length + k ≤ l.length := by simp at h ⊢; omega
    have := zip_pad_pad_right f l [] k h'
    simp only [List.nil_append] at this
    simp [zip_pad_nil_nil, zip_pad_cons_nil, zip_pad_nil_cons, zip_pad_cons_cons, List.replicate_succ, this]
  | a :: l, b :: r, k, h => by
    have h' : r.length + k ≤ l.length := by simp at h; omega
    simp [zip_pad_nil_nil, zip_pad_cons_nil, zip_pad_nil_cons, zip_pad_cons_cons, zip_pad_pad_right f l r k h']

theorem zip_pad_pad_left (f : Bool → Bool → Bool) :
    ∀ (a b : List Bool) (k : Nat), a.length + k ≤ b.length →
      zip_pad f (a ++ List.replicate k false) b = zip_pad f a b
  | [], [], k, h => by
    have : k = 0 := by simpa using h
    subst this; simp
  | a :: l, [], k, h => by simp at h
  | [], b :: r, 0, _ => by simp
  | [], b :: r, k + 1, h => by
    have h' : ([] : List Bool).length + k ≤ r.length := by simp at h ⊢; omega
    have := zip_pad_pad_left f [] r k h'
    simp only [List.nil_append] at this
    simp [zip_pad_nil_nil, zip_pad_cons_nil, zip_pad_nil_cons, zip_pad_cons_cons, List.replicate_succ, this]
  | a :: l, b :: r, k, h => by
    have h' : l.length + k ≤ r.length := by simp at h; omega
    simp [zip_pad_nil_nil, zip_pad_cons_nil, zip_pad_nil_cons, zip_pad_cons_cons, zip_pad_pad_left f l r k h']

/-- One step of the lock-step walk: two chunks of at most `n` bits, the
shorter of which ends its operand, combine like their zero-padded versions. -/
theorem zip_pad_step (f : Bool → Bool → Bool) (a1 A b1 B : List Bool) (n : Nat)
    (hn : n = max a1.length b1.length)
    (hA : a1.length < n → A = []) (hB : b1.length < n → B = []) :
    zip_pad f (a1 ++ A) (b1 ++ B) =
      zip_pad f (a1 ++ List.replicate (n - a1.length) false)
        (b1 ++ List.replicate (n - b1.length) false) ++ zip_pad f A B := by
  rcases Nat.lt_trichotomy a1.length b1.length with h | h | h
  · have hn' : n = b1.length := by omega
    have hA' : A = [] := hA (by omega)
    subst hA'
    have e1 : n - b1.length = 0 := by omega
    rw [e1, List.replicate_zero, List.append_nil, List.append_nil]
    rw [← zip_pad_append f _ _ [] B (by simp; omega), List.append_nil]
    rw [zip_pad_pad_left f a1 (b1 ++ B) _ (by simp; omega)]
  · have e1 : n - a1.length = 0 := by omega
    have e2 : n - b1.length = 0 := by omega
    rw [e1, e2, List.replicate_zero, List.append_nil, List.append_nil]
    exact zip_pad_append f a1 b1 A B h
  · have hn' : n = a1.length := by omega
    have hB' : B = [] := hB (by omega)
    subst hB'
    have e1 : n - a1.length = 0 := by omega
    rw [e1, List.replicate_zero, List.append_nil, List.append_nil]
    rw [← zip_pad_append f _ _ A [] (by simp; omega), List.append_nil]
    rw [zip_pad_pad_right f (a1 ++ A) b1 _ (by simp; omega)]

theorem zip_pad_replicate (f : Bool → Bool → Bool) (a b : Bool) :
    ∀ m : Nat, zip_pad f (List.replicate m a) (List.replicate m b) =
      List.replicate m (f a b)
  | 0 => by simp [zip_pad_nil_nil, zip_pad_cons_nil, zip_pad_nil_cons, zip_pad_cons_cons]
  | m + 1 => by simp [List.replicate_succ, zip_pad, zip_pad_replicate f a b m]

theorem block_bits_length (d n : Nat) : (block_bits d n).length = n := by
  simp [block_bits]

theorem block_bits_getElem? (d n i : Nat) (hi : i < n) :
    (block_bits d n)[i]? = some (d.testBit i) := by
  simp [block_bits, List.getElem?_range hi]

theorem zip_pad_map_range (f : Bool → Bool → Bool) (g h : Nat → Bool) (l : List Nat) :
    zip_pad f (l.map g) (l.map h) = l.map (fun j => f (g j) (h j)) := by
  induction l with
  | nil => simp [zip_pad_nil_nil, zip_pad_cons_nil, zip_pad_nil_cons, zip_pad_cons_cons]
  | cons a l ih => simp [zip_pad_nil_nil, zip_pad_cons_nil, zip_pad_nil_cons, zip_pad_cons_cons, ih]

theorem zip_pad_block_bits {op : Nat → Nat → Nat} {f : Bool → Bool → Bool}
    (hop : op_spec op f) (x y n : Nat) (hx : x < 2 ^ 64) (hy : y < 2 ^ 64)
    (hn : n ≤ 64) :
    zip_pad f (block_bits x n) (block_bits y n) = block_bits (op x y) n := by
  unfold block_bits
  rw [zip_pad_map_range]
  apply List.map_congr_left
  intro j hj
  have hj' : j < 64 := by
    have := List.mem_range.mp hj
    omega
  exact (hop.bit x y j hx hy hj').symm

theorem block_bits_pad (d l n : Nat) (hd : d < 2 ^ l) (hln : l ≤ n) :
    block_bits d l ++ List.replicate (n - l) false = block_bits d n := by
  apply List.ext_getElem
  · simp [block_bits]; omega
  · intro i h1 h2
    by_cases hi : i < l
    · rw [List.getElem_append_left (by simpa [block_bits] using hi)]
      simp [block_bits]
    · rw [List.getElem_append_right (by simpa [block_bits] using hi)]
      have : d.testBit i = false := by
        apply Nat.testBit_lt_two_pow
        calc d < 2 ^ l := hd
          _ ≤ 2 ^ i := Nat.pow_le_pow_right (by decide) (by omega)
      simp [block_bits, this]

theorem block_bits_zero (n : Nat) : block_bits 0 n = List.replicate n false := by
  apply List.ext_getElem
  · simp [block_bits]
  · intro i h1 h2
    simp [block_bits]

theorem block_bits_all_one (n : Nat) (hn : n ≤ 64) :
    block_bits all_one n = List.replicate n true := by
  apply List.ext_getElem
  · simp [block_bits]
  · intro i h1 h2
    have hi : i < n := by simpa [block_bits] using h1
    simp only [block_bits, all_one, List.getElem_map, List.getElem_range,
      List.getElem_replicate, Nat.testBit_two_pow_sub_one]
    simp; omega

theorem all_one_lt : all_one < 2 ^ 64 := by decide

/-- The bit of a fill as seen by `block != 0`. -/
theorem fill_bits (d n : Nat) (hd : d = 0 ∨ d = all_one) (hn : n ≤ 64) :
    List.replicate n (d != 0) = block_bits d n := by
  rcases hd with h | h
  · subst h; simp [block_bits_zero]
  · subst h
    rw [block_bits_all_one n hn]
    have : (all_one != 0) = true := by decide
    rw [this]

theorem fill_lt (d : Nat) (hd : d = 0 ∨ d = all_one) : d < 2 ^ 64 := by
  rcases hd with h | h
  · subst h; decide
  · subst h; exact all_one_lt

/-- On two fills the test `block != 0` yields the bit-wise operation of the two
fill bits. -/
theorem fill_op {op : Nat → Nat → Nat} {f : Bool → Bool → Bool}
    (hop : op_spec op f) (dx dy : Nat) (hx : dx = 0 ∨ dx = all_one)
    (hy : dy = 0 ∨ dy = all_one) :
    (op dx dy != 0) = f (dx != 0) (dy != 0) := by
  have h := zip_pad_block_bits hop dx dy 64 (fill_lt dx hx) (fill_lt dy hy) (le_refl _)
  rw [← fill_bits dx 64 hx (le_refl _), ← fill_bits dy 64 hy (le_refl _),
    zip_pad_replicate] at h
  have hlt := hop.lt dx dy (fill_lt dx hx) (fill_lt dy hy)
  cases hv : f (dx != 0) (dy != 0)
  · rw [hv] at h
    have hz : op dx dy = 0 := by
      apply Nat.eq_of_testBit_eq
      intro i
      by_cases hi : i < 64
      · have h2 := congrArg (fun l : List Bool => l[i]?) h
        simp only [block_bits_getElem? _ _ _ hi, List.getElem?_replicate, hi,
          if_true, Option.some.injEq] at h2
        rw [Nat.zero_testBit]
        exact h2.symm
      · rw [Nat.zero_testBit]
        apply Nat.testBit_lt_two_pow
        calc op dx dy < 2 ^ 64 := hlt
          _ ≤ 2 ^ i := Nat.pow_le_pow_right (by decide) (by omega)
    simp [hz]
  · rw [hv] at h
    have h2 := congrArg (fun l : List Bool => l[0]?) h
    simp only [block_bits_getElem? _ _ _ (by decide : 0 < 64), List.getElem?_replicate,
      (by decide : 0 < 64), if_true, Option.some.injEq] at h2
    have hne : op dx dy ≠ 0 := by
      intro h0
      rw [h0] at h2
      simp at h2
    simpa using hne

theorem replicate_split (n m : Nat) (b : Bool) (h : m ≤ n) :
    List.replicate n b = List.replicate m b ++ List.replicate (n - m) b := by
  rw [← List.replicate_add]
  congr 1
  omega

theorem two_pow_le_64 (l : Nat) (h : l ≤ 64) : 2 ^ l ≤ 2 ^ 64 :=
  Nat.pow_le_pow_right (by decide) h

/-- Two fills: the first `m` bits of both. -/
theorem zip_fill_fill (f : Bool → Bool → Bool) (a b : Bool) (A B : List Bool)
    (lx ly m : Nat) (h1 : m ≤ lx) (h2 : m ≤ ly) :
    zip_pad f (List.replicate lx a ++ A) (List.replicate ly b ++ B) =
      List.replicate m (f a b) ++
        zip_pad f (List.replicate (lx - m) a ++ A) (List.replicate (ly - m) b ++ B) := by
  rw [replicate_split lx m a h1, replicate_split ly m b h2, List.append_assoc,
    List.append_assoc, zip_pad_append f _ _ _ _ (by simp), zip_pad_replicate]

/-- Two literals: one block of `max lx ly` bits. -/
theorem zip_literal_literal {op : Nat → Nat → Nat} {f : Bool → Bool → Bool}
    (hop : op_spec op f) (dx dy lx ly : Nat) (A B : List Bool)
    (hlx : lx ≤ 64) (hly : ly ≤ 64) (hdx : dx < 2 ^ lx) (hdy : dy < 2 ^ ly)
    (hA : lx < 64 → A = []) (hB : ly < 64 → B = []) :
    zip_pad f (block_bits dx lx ++ A) (block_bits dy ly ++ B) =
      block_bits (op dx dy) (max lx ly) ++ zip_pad f A B := by
  have hn : max lx ly = max (block_bits dx lx).length (block_bits dy ly).length := by
    rw [block_bits_length, block_bits_length]
  rw [zip_pad_step f _ A _ B (max lx ly) hn
    (by
      intro h
      rw [block_bits_length] at h
      exact hA (by omega))
    (by
      intro h
      rw [block_bits_length] at h
      exact hB (by omega))]
  rw [block_bits_length, block_bits_length, block_bits_pad dx lx _ hdx (le_max_left _ _),
    block_bits_pad dy ly _ hdy (le_max_right _ _),
    zip_pad_block_bits hop dx dy _ (lt_of_lt_of_le hdx (two_pow_le_64 lx hlx))
      (lt_of_lt_of_le hdy (two_pow_le_64 ly hly)) (max_le hlx hly)]

/-- A fill against a literal: one full block. -/
theorem zip_fill_literal {op : Nat → Nat → Nat} {f : Bool → Bool → Bool}
    (hop : op_spec op f) (dx dy lx ly : Nat) (A B : List Bool)
    (hdx : dx = 0 ∨ dx = all_one) (hlx : 64 ≤ lx) (hly : ly ≤ 64) (hdy : dy < 2 ^ ly)
    (hB : ly < 64 → B = []) :
    zip_pad f (List.replicate lx (dx != 0) ++ A) (block_bits dy ly ++ B) =
      block_bits (op dx dy) 64 ++
        zip_pad f (List.replicate (lx - 64) (dx != 0) ++ A) B := by
  rw [replicate_split lx 64 _ hlx, List.append_assoc, fill_bits dx 64 hdx (le_refl _)]
  have h := zip_literal_literal hop dx dy 64 ly
    (List.replicate (lx - 64) (dx != 0) ++ A) B (le_refl _) hly (fill_lt dx hdx) hdy
    (fun h => absurd h (lt_irrefl _)) hB
  rw [h, max_eq_left hly]

/-- A literal against a fill: one full block. -/
theorem zip_literal_fill {op : Nat → Nat → Nat} {f : Bool → Bool → Bool}
    (hop : op_spec op f) (dx dy lx ly : Nat) (A B : List Bool)
    (hdy : dy = 0 ∨ dy = all_one) (hly : 64 ≤ ly) (hlx : lx ≤ 64) (hdx : dx < 2 ^ lx)
    (hA : lx < 64 → A = []) :
    zip_pad f (block_bits dx lx ++ A) (List.replicate ly (dy != 0) ++ B) =
      block_bits (op dx dy) 64 ++
        zip_pad f A (List.replicate (ly - 64) (dy != 0) ++ B) := by
  rw [replicate_split ly 64 _ hly, List.append_assoc, fill_bits dy 64 hdy (le_refl _)]
  have h := zip_literal_literal hop dx dy lx 64 A
    (List.replicate (ly - 64) (dy != 0) ++ B) hlx (le_refl _) hdx (fill_lt dy hdy)
    hA (fun h => absurd h (lt_irrefl _))
  rw [h, max_eq_right hlx]

/-! ## The loop of `apply` computes `zip_pad` -/

theorem size_sub_eq (a b : Nat) (h : b ≤ a) (ha : a < 2 ^ 64) : size_sub a b = a - b := by
  unfold size_sub
  have : a + 2 ^ 64 - b = (a - b) + 2 ^ 64 := by omega
  rw [this, Nat.add_mod_right]
  exact Nat.mod_eq_of_lt (by omega)

theorem append_bits {B : Bitstream} (hB : B.Contract) (x : B.carrier) (n : Nat)
    (bit : Bool) (h : (B.bits x).length + n ≤ npos) :
    B.bits (B.append x n bit).2 = B.bits x ++ List.replicate n bit := by
  unfold Bitstream.append
  by_cases hn : n = 0
  · subst hn; simp
  · have hlt : ¬ (npos - n < B.size x) := by
      unfold Bitstream.size
      rw [hB.size_eq]
      omega
    simp [hn, hlt, hB.bits_append]

theorem append_block_bits {B : Bitstream} (hB : B.Contract) (x : B.carrier)
    (block n : Nat) (hn : n ≤ block_width) (h : (B.bits x).length + n ≤ npos) :
    B.bits (B.append_block x block n).2 = B.bits x ++ block_bits block n := by
  unfold Bitstream.append_block
  have hlt : ¬ (npos - n < B.size x) := by
    unfold Bitstream.size
    rw [hB.size_eq]
    omega
  simp [hlt, hB.bits_append_block x block n hn]

theorem rem_fill (x : bitsequence) (l : Nat) (h : x.type = block_type.fill) :
    x.rem l = List.replicate l (x.data != 0) := by
  simp [bitsequence.rem, bitsequence.is_fill, h]

theorem rem_literal (x : bitsequence) (l : Nat) (h : x.type = block_type.literal) :
    x.rem l = block_bits x.data l := by
  simp [bitsequence.rem, bitsequence.is_fill, h]

theorem rem_zero (x : bitsequence) : x.rem 0 = [] := by
  cases h : x.type
  · simp [rem_fill x 0 h]
  · simp [rem_literal x 0 h, block_bits]

theorem rem_length (x : bitsequence) (l : Nat) : (x.rem l).length = l := by
  cases h : x.type
  · simp [rem_fill x l h]
  · simp [rem_literal x l h, block_bits]

theorem advance_spec (x : bitsequence) (xs : List bitsequence) (l : Nat)
    (hwf : tail_wf xs) (hl : l = 0 ∨ cur_ok x l (xs = [])) :
    state_ok (advance x xs l).1 (advance x xs l).2 ∧
    remaining (advance x xs l).1 (advance x xs l).2 = x.rem l ++ denote xs ∧
    (advance x xs l).1.length ≤ (x :: xs).length ∧
    (l = 0 → (advance x xs l).1.length ≤ xs.length) := by
  by_cases h0 : l = 0
  · subst h0
    cases xs with
    | nil => simp [advance, next_length, state_ok, remaining, rem_zero, denote]
    | cons x' xs' =>
      simp only [tail_wf] at hwf
      simp [advance, next_length, state_ok, remaining, rem_zero, denote, hwf.1, hwf.2]
  · have hc : cur_ok x l (xs = []) := by
      rcases hl with h | h
      · exact absurd h h0
      · exact h
    simp [advance, h0, state_ok, remaining, hc, hwf]

theorem iter_core (f : Bool → Bool → Bool) (x : bitsequence) (xs : List bitsequence)
    (y : bitsequence) (ys : List bitsequence) (r r0 : List Bool) (lx ly lx' ly' : Nat)
    (hwx : tail_wf xs) (hwy : tail_wf ys)
    (hx' : lx' = 0 ∨ cur_ok x lx' (xs = [])) (hy' : ly' = 0 ∨ cur_ok y ly' (ys = []))
    (hz : lx' = 0 ∨ ly' = 0)
    (heq : r ++ zip_pad f (x.rem lx' ++ denote xs) (y.rem ly' ++ denote ys) =
      r0 ++ zip_pad f (x.rem lx ++ denote xs) (y.rem ly ++ denote ys)) :
    state_ok (advance x xs lx').1 (advance x xs lx').2 ∧
    state_ok (advance y ys ly').1 (advance y ys ly').2 ∧
    r ++ zip_pad f (remaining (advance x xs lx').1 (advance x xs lx').2)
        (remaining (advance y ys ly').1 (advance y ys ly').2) =
      r0 ++ zip_pad f (remaining (x :: xs) lx) (remaining (y :: ys) ly) ∧
    (advance x xs lx').1.length + (advance y ys ly').1.length <
      (x :: xs).length + (y :: ys).length := by
  obtain ⟨a1, a2, a3, a4⟩ := advance_spec x xs lx' hwx hx'
  obtain ⟨b1, b2, b3, b4⟩ := advance_spec y ys ly' hwy hy'
  refine ⟨a1, b1, ?_, ?_⟩
  · rw [a2, b2]
    simpa [remaining] using heq
  · simp only [List.length_cons] at a3 b3 ⊢
    rcases hz with h | h
    · have := a4 h
      omega
    · have := b4 h
      omega


theorem apply_iter_fill_fill (B : Bitstream) (op : Nat → Nat → Nat) (x : bitsequence)
    (xs : List bitsequence) (y : bitsequence) (ys : List bitsequence) (lx ly : Nat)
    (result : B.carrier) (hxt : x.type = block_type.fill) (hyt : y.type = block_type.fill) :
    apply_iter B op x xs y ys lx ly result =
      ⟨(advance x xs (size_sub lx (Nat.min lx ly))).1,
       (advance y ys (size_sub ly (Nat.min lx ly))).1,
       (advance x xs (size_sub lx (Nat.min lx ly))).2,
       (advance y ys (size_sub ly (Nat.min lx ly))).2,
       (B.append result (Nat.min lx ly) (op x.data y.data != 0)).2⟩ := by
  simp only [apply_iter, bitsequence.is_fill, hxt, hyt, decide_True, Bool.and_self, if_true]

theorem apply_iter_fill_literal (B : Bitstream) (op : Nat → Nat → Nat) (x : bitsequence)
    (xs : List bitsequence) (y : bitsequence) (ys : List bitsequence) (lx ly : Nat)
    (result : B.carrier) (hxt : x.type = block_type.fill)
    (hyt : y.type = block_type.literal) :
    apply_iter B op x xs y ys lx ly result =
      ⟨(advance x xs (size_sub lx block_width)).1, (advance y ys 0).1,
       (advance x xs (size_sub lx block_width)).2, (advance y ys 0).2,
       (B.append_block result (op x.data y.data) block_width).2⟩ := by
  simp [apply_iter, bitsequence.is_fill, hxt, hyt]

theorem apply_iter_literal_fill (B : Bitstream) (op : Nat → Nat → Nat) (x : bitsequence)
    (xs : List bitsequence) (y : bitsequence) (ys : List bitsequence) (lx ly : Nat)
    (result : B.carrier) (hxt : x.type = block_type.literal)
    (hyt : y.type = block_type.fill) :
    apply_iter B op x xs y ys lx ly result =
      ⟨(advance x xs 0).1, (advance y ys (size_sub ly block_width)).1,
       (advance x xs 0).2, (advance y ys (size_sub ly block_width)).2,
       (B.append_block result (op x.data y.data) block_width).2⟩ := by
  simp [apply_iter, bitsequence.is_fill, hxt, hyt]

theorem apply_iter_literal_literal (B : Bitstream) (op : Nat → Nat → Nat) (x : bitsequence)
    (xs : List bitsequence) (y : bitsequence) (ys : List bitsequence) (lx ly : Nat)
    (result : B.carrier) (hxt : x.type = block_type.literal)
    (hyt : y.type = block_type.literal) :
    apply_iter B op x xs y ys lx ly result =
      ⟨(advance x xs 0).1, (advance y ys 0).1, (advance x xs 0).2, (advance y ys 0).2,
       (B.append_block result (op x.data y.data) (Nat.max lx ly)).2⟩ := by
  simp [apply_iter, bitsequence.is_fill, hxt, hyt]

theorem apply_iter_spec {B : Bitstream} (hB : B.Contract) {op : Nat → Nat → Nat}
    {f : Bool → Bool → Bool} (hop : op_spec op f)
    (x : bitsequence) (xs : List bitsequence) (y : bitsequence) (ys : List bitsequence)
    (lx ly : Nat) (result : B.carrier)
    (hx : state_ok (x :: xs) lx) (hy : state_ok (y :: ys) ly)
    (hbound : (B.bits result).length +
      max (remaining (x :: xs) lx).length (remaining (y :: ys) ly).length ≤ npos) :
    state_ok (apply_iter B op x xs y ys lx ly result).ix
        (apply_iter B op x xs y ys lx ly result).lx ∧
    state_ok (apply_iter B op x xs y ys lx ly result).iy
        (apply_iter B op x xs y ys lx ly result).ly ∧
    B.bits (apply_iter B op x xs y ys lx ly result).result ++
        zip_pad f
          (remaining (apply_iter B op x xs y ys lx ly result).ix
            (apply_iter B op x xs y ys lx ly result).lx)
          (remaining (apply_iter B op x xs y ys lx ly result).iy
            (apply_iter B op x xs y ys lx ly result).ly) =
      B.bits result ++ zip_pad f (remaining (x :: xs) lx) (remaining (y :: ys) ly) ∧
    (apply_iter B op x xs y ys lx ly result).ix.length +
        (apply_iter B op x xs y ys lx ly result).iy.length <
      (x :: xs).length + (y :: ys).length := by
  obtain ⟨⟨hx0, hxf, hxl⟩, hwx⟩ := hx
  obtain ⟨⟨hy0, hyf, hyl⟩, hwy⟩ := hy
  have hlenx : (remaining (x :: xs) lx).length = lx + (denote xs).length := by
    simp [remaining, rem_length]
  have hleny : (remaining (y :: ys) ly).length = ly + (denote ys).length := by
    simp [remaining, rem_length]
  rw [hlenx, hleny] at hbound
  have hnpos : npos = 2 ^ 64 - 1 := rfl
  have hbw : block_width = 64 := rfl
  have hlx64 : lx < 2 ^ 64 := by omega
  have hly64 : ly < 2 ^ 64 := by omega
  cases hxt : x.type <;> cases hyt : y.type
  · -- fill, fill
    obtain ⟨hdx, hmx⟩ := hxf hxt
    obtain ⟨hdy, hmy⟩ := hyf hyt
    have hmin : Nat.min lx ly ≤ lx ∧ Nat.min lx ly ≤ ly ∧
        (Nat.min lx ly = lx ∨ Nat.min lx ly = ly) := by
      show min lx ly ≤ lx ∧ min lx ly ≤ ly ∧ (min lx ly = lx ∨ min lx ly = ly)
      omega
    obtain ⟨hm1, hm2, hm3⟩ := hmin
    have hdm : block_width ∣ Nat.min lx ly := by
      rcases hm3 with h | h <;> rw [h] <;> assumption
    rw [apply_iter_fill_fill B op x xs y ys lx ly result hxt hyt]
    generalize Nat.min lx ly = m at hm1 hm2 hm3 hdm ⊢
    have e1 : size_sub lx m = lx - m := size_sub_eq _ _ hm1 hlx64
    have e2 : size_sub ly m = ly - m := size_sub_eq _ _ hm2 hly64
    have c1 : lx - m = 0 ∨ cur_ok x (lx - m) (xs = []) := by
      by_cases h0 : lx - m = 0
      · exact Or.inl h0
      · refine Or.inr ⟨by omega, fun _ => ⟨hdx, Nat.dvd_sub' hmx hdm⟩, fun h => ?_⟩
        rw [hxt] at h
        cases h
    have c2 : ly - m = 0 ∨ cur_ok y (ly - m) (ys = []) := by
      by_cases h0 : ly - m = 0
      · exact Or.inl h0
      · refine Or.inr ⟨by omega, fun _ => ⟨hdy, Nat.dvd_sub' hmy hdm⟩, fun h => ?_⟩
        rw [hyt] at h
        cases h
    have c3 : lx - m = 0 ∨ ly - m = 0 := by omega
    have heq : B.bits (B.append result m (op x.data y.data != 0)).2 ++
        zip_pad f (x.rem (lx - m) ++ denote xs) (y.rem (ly - m) ++ denote ys) =
        B.bits result ++ zip_pad f (x.rem lx ++ denote xs) (y.rem ly ++ denote ys) := by
      rw [append_bits hB _ _ _ (by omega), fill_op hop _ _ hdx hdy, rem_fill x _ hxt,
        rem_fill y _ hyt, rem_fill x _ hxt, rem_fill y _ hyt,
        zip_fill_fill f _ _ _ _ lx ly m hm1 hm2, List.append_assoc]
    rw [e1, e2]
    exact iter_core f x xs y ys _ _ lx ly (lx - m) (ly - m) hwx hwy c1 c2 c3 heq
  · -- fill, literal
    obtain ⟨hdx, hmx⟩ := hxf hxt
    obtain ⟨hyl1, hyl2, hyl3, hyl4⟩ := hyl hyt
    rw [hbw] at hmx hyl2 hyl4
    have hlx : 64 ≤ lx := Nat.le_of_dvd hx0 hmx
    rw [apply_iter_fill_literal B op x xs y ys lx ly result hxt hyt]
    have e1 : size_sub lx block_width = lx - 64 := size_sub_eq _ _ hlx hlx64
    have c1 : lx - 64 = 0 ∨ cur_ok x (lx - 64) (xs = []) := by
      by_cases h0 : lx - 64 = 0
      · exact Or.inl h0
      · refine Or.inr ⟨by omega, fun _ => ⟨hdx, ?_⟩, fun h => ?_⟩
        · rw [hbw]
          exact Nat.dvd_sub' hmx (dvd_refl _)
        · rw [hxt] at h
          cases h
    have heq : B.bits (B.append_block result (op x.data y.data) block_width).2 ++
        zip_pad f (x.rem (lx - 64) ++ denote xs) (y.rem 0 ++ denote ys) =
        B.bits result ++ zip_pad f (x.rem lx ++ denote xs) (y.rem ly ++ denote ys) := by
      rw [append_block_bits hB _ _ _ (le_refl _) (by rw [hbw]; omega), rem_fill x _ hxt,
        rem_fill x _ hxt, rem_zero, rem_literal y _ hyt, List.nil_append,
        zip_fill_literal hop _ _ lx ly _ _ hdx hlx hyl2 hyl3
          (fun h => by rw [hyl4 h]; rfl),
        List.append_assoc]
      rfl
    rw [e1]
    exact iter_core f x xs y ys _ _ lx ly (lx - 64) 0 hwx hwy c1 (Or.inl rfl) (Or.inr rfl) heq
  · -- literal, fill
    obtain ⟨hdy, hmy⟩ := hyf hyt
    obtain ⟨hxl1, hxl2, hxl3, hxl4⟩ := hxl hxt
    rw [hbw] at hmy hxl2 hxl4
    have hly : 64 ≤ ly := Nat.le_of_dvd hy0 hmy
    rw [apply_iter_literal_fill B op x xs y ys lx ly result hxt hyt]
    have e1 : size_sub ly block_width = ly - 64 := size_sub_eq _ _ hly hly64
    have c1 : ly - 64 = 0 ∨ cur_ok y (ly - 64) (ys = []) := by
      by_cases h0 : ly - 64 = 0
      · exact Or.inl h0
      · refine Or.inr ⟨by omega, fun _ => ⟨hdy, ?_⟩, fun h => ?_⟩
        · rw [hbw]
          exact Nat.dvd_sub' hmy (dvd_refl _)
        · rw [hyt] at h
          cases h
    have heq : B.bits (B.append_block result (op x.data y.data) block_width).2 ++
        zip_pad f (x.rem 0 ++ denote xs) (y.rem (ly - 64) ++ denote ys) =
        B.bits result ++ zip_pad f (x.rem lx ++ denote xs) (y.rem ly ++ denote ys) := by
      rw [append_block_bits hB _ _ _ (le_refl _) (by rw [hbw]; omega), rem_fill y _ hyt,
        rem_fill y _ hyt, rem_zero, rem_literal x _ hxt, List.nil_append,
        zip_literal_fill hop _ _ lx ly _ _ hdy hly hxl2 hxl3
          (fun h => by rw [hxl4 h]; rfl),
        List.append_assoc]
      rfl
    rw [e1]
    exact iter_core f x xs y ys _ _ lx ly 0 (ly - 64) hwx hwy (Or.inl rfl) c1 (Or.inl rfl) heq
  · -- literal, literal
    obtain ⟨hxl1, hxl2, hxl3, hxl4⟩ := hxl hxt
    obtain ⟨hyl1, hyl2, hyl3, hyl4⟩ := hyl hyt
    rw [hbw] at hxl2 hxl4 hyl2 hyl4
    rw [apply_iter_literal_literal B op x xs y ys lx ly result hxt hyt]
    have hmax : Nat.max lx ly = max lx ly := rfl
    have heq : B.bits (B.append_block result (op x.data y.data) (Nat.max lx ly)).2 ++
        zip_pad f (x.rem 0 ++ denote xs) (y.rem 0 ++ denote ys) =
        B.bits result ++ zip_pad f (x.rem lx ++ denote xs) (y.rem ly ++ denote ys) := by
      rw [hmax, append_block_bits hB _ _ _ (by rw [hbw]; omega) (by omega), rem_zero,
        rem_zero, rem_literal x _ hxt, rem_literal y _ hyt, List.nil_append, List.nil_append,
        zip_literal_literal hop _ _ lx ly _ _ hxl2 hyl2 hxl3 hyl3
          (fun h => by rw [hxl4 h]; rfl) (fun h => by rw [hyl4 h]; rfl),
        List.append_assoc]
    exact iter_core f x xs y ys _ _ lx ly 0 0 hwx hwy (Or.inl rfl) (Or.inl rfl) (Or.inl rfl) heq

theorem apply_loop_spec {B : Bitstream} (hB : B.Contract) {op : Nat → Nat → Nat}
    {f : Bool → Bool → Bool} (hop : op_spec op f) :
    ∀ (fuel : Nat) (st : apply_state B), st.ix.length + st.iy.length ≤ fuel →
      state_ok st.ix st.lx → state_ok st.iy st.ly →
      (B.bits st.result).length +
        max (remaining st.ix st.lx).length (remaining st.iy st.ly).length ≤ npos →
      ((apply_loop B op fuel st).ix = [] ∨ (apply_loop B op fuel st).iy = []) ∧
      state_ok (apply_loop B op fuel st).ix (apply_loop B op fuel st).lx ∧
      state_ok (apply_loop B op fuel st).iy (apply_loop B op fuel st).ly ∧
      B.bits (apply_loop B op fuel st).result ++
          zip_pad f
            (remaining (apply_loop B op fuel st).ix (apply_loop B op fuel st).lx)
            (remaining (apply_loop B op fuel st).iy (apply_loop B op fuel st).ly) =
        B.bits st.result ++
          zip_pad f (remaining st.ix st.lx) (remaining st.iy st.ly) := by
  intro fuel
  induction fuel with
  | zero =>
    intro st hfuel hx hy _
    have h1 : st.ix = [] := by
      apply List.eq_nil_of_length_eq_zero
      omega
    exact ⟨Or.inl h1, hx, hy, rfl⟩
  | succ fuel ih =>
    intro st hfuel hx hy hbound
    obtain ⟨ix, iy, lx, ly, result⟩ := st
    dsimp only at hfuel hx hy hbound ⊢
    cases ix with
    | nil => simp [apply_loop, hx, hy]
    | cons x xs =>
      cases iy with
      | nil => simp [apply_loop, hx, hy]
      | cons y ys =>
        obtain ⟨s1, s2, s3, s4⟩ := apply_iter_spec hB hop x xs y ys lx ly result hx hy hbound
        have hb' : (B.bits (apply_iter B op x xs y ys lx ly result).result).length +
            max (remaining (apply_iter B op x xs y ys lx ly result).ix
                  (apply_iter B op x xs y ys lx ly result).lx).length
                (remaining (apply_iter B op x xs y ys lx ly result).iy
                  (apply_iter B op x xs y ys lx ly result).ly).length ≤ npos := by
          have := congrArg List.length s3
          simp only [List.length_append, zip_pad_length] at this
          omega
        obtain ⟨r1, r2, r3, r4⟩ := ih (apply_iter B op x xs y ys lx ly result)
          (by simp only [List.length_cons] at s4 hfuel ⊢; omega) s1 s2 hb'
        simp only [apply_loop]
        exact ⟨r1, r2, r3, r4.trans s3⟩

theorem fill_tail_spec {B : Bitstream} (hB : B.Contract) :
    ∀ (ix : List bitsequence) (l : Nat) (r : B.carrier), state_ok ix l →
      (B.bits r).length + (remaining ix l).length ≤ npos →
      B.bits (fill_tail B ix l r) = B.bits r ++ remaining ix l
  | [], l, r, _, _ => by simp [fill_tail, remaining]
  | x :: xs, l, r, hok, hb => by
    obtain ⟨⟨h0, hf, hl⟩, hw⟩ := hok
    have hlen : (remaining (x :: xs) l).length = l + (denote xs).length := by
      simp [remaining, rem_length]
    rw [hlen] at hb
    have hstep : B.bits (if x.is_fill then (B.append r l (x.data != 0)).2
        else (B.append_block r x.data x.length).2) = B.bits r ++ x.rem l := by
      cases ht : x.type
      · simp only [bitsequence.is_fill, ht, decide_True, if_true]
        rw [append_bits hB _ _ _ (by omega), rem_fill x l ht]
      · obtain ⟨e1, e2, _, _⟩ := hl ht
        simp only [bitsequence.is_fill, ht]
        rw [rem_literal x l ht, ← e1]
        simpa using append_block_bits hB r x.data l e2 (by omega)
    have hnext : state_ok xs (next_length xs l) ∧
        remaining xs (next_length xs l) = denote xs := by
      cases xs with
      | nil => simp [state_ok, remaining, denote]
      | cons x' xs' =>
        simp only [tail_wf] at hw
        simp [state_ok, remaining, denote, next_length, hw.1, hw.2]
    simp only [fill_tail]
    rw [fill_tail_spec hB xs _ _ hnext.1
      (by rw [hnext.2, hstep]; simp [rem_length]; omega), hnext.2, hstep]
    simp [remaining, List.append_assoc]

theorem denote_eq_nil : ∀ (l : List bitsequence), tail_wf l → denote l = [] → l = []
  | [], _, _ => rfl
  | x :: xs, hw, hd => by
    have h0 : 0 < x.length := hw.1.1
    have := congrArg List.length hd
    simp [denote, rem_length] at this
    omega

theorem map_keep (g : Bool → Bool) (h : ∀ a, g a = a) (l : List Bool) : l.map g = l := by
  induction l with
  | nil => rfl
  | cons a l ih => simp [h a, ih]

theorem map_drop (g : Bool → Bool) (h : ∀ a, g a = false) (l : List Bool) :
    l.map g = List.replicate l.length false := by
  induction l with
  | nil => rfl
  | cons a l ih => simp [h a, ih, List.replicate_succ]

theorem rem_le_max (a b : Nat) : a ≤ max a b ∧ b ≤ max a b :=
  ⟨le_max_left a b, le_max_right a b⟩

/-- The end of `apply`: the tails that the policy keeps are appended, and the
zero padding up to the larger size supplies the tails that it drops. -/
theorem final_pad (f : Bool → Bool → Bool) (fill_lhs fill_rhs : Bool)
    (ht : tail_spec f fill_lhs fill_rhs) (R remA remB : List Bool)
    (h : remA = [] ∨ remB = []) :
    (R ++ (if fill_lhs then remA else []) ++ (if fill_rhs then remB else [])) ++
        List.replicate
          ((R ++ zip_pad f remA remB).length -
            (R ++ (if fill_lhs then remA else []) ++ (if fill_rhs then remB else [])).length)
          false =
      R ++ zip_pad f remA remB := by
  rcases h with h | h
  · subst h
    rw [zip_pad_nil_left]
    cases hfr : fill_rhs
    · rw [map_drop _ (ht.rhs_drop hfr)]
      cases fill_lhs <;> simp
    · rw [map_keep _ (ht.rhs_keep hfr)]
      cases fill_lhs <;> simp
  · subst h
    rw [zip_pad_nil_right]
    cases hfl : fill_lhs
    · rw [map_drop _ (ht.lhs_drop hfl)]
      cases fill_rhs <;> simp
    · rw [map_keep _ (ht.lhs_keep hfl)]
      cases fill_rhs <;> simp

/-- On two non-empty operands `apply` computes the bit-wise operation, the
shorter operand read as continued with zeros. -/
theorem apply_spec {B : Bitstream} (hB : B.Contract) {op : Nat → Nat → Nat}
    {f : Bool → Bool → Bool} (hop : op_spec op f) (fill_lhs fill_rhs : Bool)
    (ht : tail_spec f fill_lhs fill_rhs) (lhs rhs : B.carrier)
    (hl : B.bits lhs ≠ []) (hr : B.bits rhs ≠ [])
    (hls : B.size lhs ≤ npos) (hrs : B.size rhs ≤ npos) :
    B.bits (apply B lhs rhs fill_lhs fill_rhs op) =
      zip_pad f (B.bits lhs) (B.bits rhs) := by
  have hsl : B.size lhs = (B.bits lhs).length := hB.size_eq lhs
  have hsr : B.size rhs = (B.bits rhs).length := hB.size_eq rhs
  have hdl := hB.seq_denote lhs
  have hdr := hB.seq_denote rhs
  have hwl := hB.seq_wf lhs
  have hwr := hB.seq_wf rhs
  have hol := hB.seq_offsets lhs
  have hor := hB.seq_offsets rhs
  unfold apply
  cases hx : B.sequence_range lhs with
  | nil => rw [hx] at hdl; exact absurd hdl.symm hl
  | cons x xs =>
    cases hy : B.sequence_range rhs with
    | nil => rw [hy] at hdr; exact absurd hdr.symm hr
    | cons y ys =>
      rw [hx] at hdl hwl hol
      rw [hy] at hdr hwr hor
      have hxo : x.offset = 0 := hol.1
      have hyo : y.offset = 0 := hor.1
      have hfirst : ¬ (Nat.min x.offset y.offset > 0) := by
        intro h
        rw [hxo, hyo] at h
        exact absurd h (by decide)
      simp only [hfirst, if_false]
      have hokx : state_ok (x :: xs) x.length := ⟨hwl.1, hwl.2⟩
      have hoky : state_ok (y :: ys) y.length := ⟨hwr.1, hwr.2⟩
      have hremx : remaining (x :: xs) x.length = B.bits lhs := by
        rw [← hdl]
        rfl
      have hremy : remaining (y :: ys) y.length = B.bits rhs := by
        rw [← hdr]
        rfl
      have htot : max (B.bits lhs).length (B.bits rhs).length ≤ npos := by
        rw [← hsl, ← hsr]; exact max_le hls hrs
      obtain ⟨e1, e2, e3, e4⟩ := apply_loop_spec hB hop
        ((x :: xs).length + (y :: ys).length)
        ⟨x :: xs, y :: ys, x.length, y.length, B.dflt⟩ (le_refl _) hokx hoky
        (by
          show (B.bits B.dflt).length + _ ≤ npos
          rw [hB.bits_dflt, hremx, hremy]
          simpa using htot)
      generalize apply_loop B op ((x :: xs).length + (y :: ys).length)
        ⟨x :: xs, y :: ys, x.length, y.length, B.dflt⟩ = st at e1 e2 e3 e4
      have e4' : B.bits st.result ++ zip_pad f (remaining st.ix st.lx)
          (remaining st.iy st.ly) = zip_pad f (B.bits lhs) (B.bits rhs) := by
        rw [e4]
        show B.bits B.dflt ++ zip_pad f (remaining (x :: xs) x.length)
          (remaining (y :: ys) y.length) = _
        rw [hB.bits_dflt, hremx, hremy, List.nil_append]
      have hrem : remaining st.ix st.lx = [] ∨ remaining st.iy st.ly = [] := by
        rcases e1 with h | h
        · exact Or.inl (by rw [h]; rfl)
        · exact Or.inr (by rw [h]; rfl)
      have hlen := congrArg List.length e4'
      rw [List.length_append, zip_pad_length, zip_pad_length] at hlen
      have hmaxeq : Nat.max (B.size lhs) (B.size rhs) =
          max (B.bits lhs).length (B.bits rhs).length := by
        rw [hsl, hsr]
      have hA := rem_le_max (remaining st.ix st.lx).length (remaining st.iy st.ly).length
      -- the bits after the two tail loops
      have h1 : B.bits (if fill_lhs then fill_tail B st.ix st.lx st.result else st.result) =
          B.bits st.result ++ (if fill_lhs then remaining st.ix st.lx else []) := by
        cases fill_lhs
        · simp
        · simp only [if_true]
          exact fill_tail_spec hB _ _ _ e2 (by omega)
      generalize (if fill_lhs then fill_tail B st.ix st.lx st.result else st.result) = r1
        at h1 ⊢
      have hl1 : (B.bits r1).length + (remaining st.iy st.ly).length ≤ npos := by
        rw [h1]
        rcases hrem with h | h
        · rw [h] at hlen ⊢
          cases fill_lhs <;> simp at hlen ⊢ <;> omega
        · rw [h] at hlen ⊢
          cases fill_lhs <;> simp at hlen ⊢ <;> omega
      have h2 : B.bits (if fill_rhs then fill_tail B st.iy st.ly r1 else r1) =
          B.bits r1 ++ (if fill_rhs then remaining st.iy st.ly else []) := by
        cases fill_rhs
        · simp
        · simp only [if_true]
          exact fill_tail_spec hB _ _ _ e3 hl1
      generalize (if fill_rhs then fill_tail B st.iy st.ly r1 else r1) = r2 at h2 ⊢
      rw [h1] at h2
      have hfin := final_pad f fill_lhs fill_rhs ht (B.bits st.result)
        (remaining st.ix st.lx) (remaining st.iy st.ly) hrem
      rw [← h2, e4'] at hfin
      have hr2 : (B.bits r2).length ≤ max (B.bits lhs).length (B.bits rhs).length := by
        have := congrArg List.length hfin
        rw [List.length_append, zip_pad_length] at this
        omega
      have hsr2 : B.size r2 = (B.bits r2).length := hB.size_eq r2
      have hnpos : npos = 2 ^ 64 - 1 := rfl
      rw [hmaxeq, hsr2, size_sub_eq _ _ hr2 (by omega), append_bits hB _ _ _ (by omega)]
      rw [zip_pad_length] at hfin
      exact hfin

/-! ## The uncompressed encoding meets the contract -/

theorem block_bits_succ (d n : Nat) :
    block_bits d (n + 1) = d.testBit 0 :: block_bits (d / 2) n := by
  unfold block_bits
  rw [List.range_succ_eq_map, List.map_cons, List.map_map]
  congr 1
  apply List.map_congr_left
  intro j _
  simp [Nat.testBit_succ]

theorem bits_value_cons (b : Bool) (bs : List Bool) :
    (bits_value (b :: bs)).testBit 0 = b ∧ bits_value (b :: bs) / 2 = bits_value bs := by
  constructor
  · cases b <;> simp [bits_value, Nat.testBit_zero, Nat.add_mod]
  · cases b
    · simp [bits_value]
    · simp [bits_value]
      omega

theorem block_bits_bits_value : ∀ c : List Bool, block_bits (bits_value c) c.length = c
  | [] => by simp [block_bits]
  | b :: bs => by
    rw [List.length_cons, block_bits_succ, (bits_value_cons b bs).1, (bits_value_cons b bs).2,
      block_bits_bits_value bs]

theorem bits_value_lt : ∀ c : List Bool, bits_value c < 2 ^ c.length
  | [] => by simp [bits_value]
  | b :: bs => by
    have ih := bits_value_lt bs
    have hb : b.toNat ≤ 1 := Bool.toNat_le b
    simp only [bits_value, List.length_cons, Nat.pow_succ]
    omega

theorem null_sequences_nil (fuel off : Nat) : null_sequences fuel off [] = [] := by
  cases fuel <;> rfl

/-- The three shapes of the first sequence produced for a non-empty list of
bits. -/
theorem null_sequences_cons (fuel off : Nat) (b : Bool) (bs : List Bool) :
    let c := (b :: bs).take block_width
    let d := bits_value c
    let rest := null_sequences fuel (off + block_width) ((b :: bs).drop block_width)
    (c.length = block_width ∧ (d = 0 ∨ d = all_one) ∧
      ((∃ s ss, rest = s :: ss ∧ s.type = block_type.fill ∧ s.data = d ∧
          null_sequences (fuel + 1) off (b :: bs) =
            ⟨block_type.fill, off, d, block_width + s.length⟩ :: ss) ∨
        null_sequences (fuel + 1) off (b :: bs) =
          ⟨block_type.fill, off, d, block_width⟩ :: rest)) ∨
    (¬ (c.length = block_width ∧ (d = 0 ∨ d = all_one)) ∧
      null_sequences (fuel + 1) off (b :: bs) =
        ⟨block_type.literal, off, d, c.length⟩ :: rest) := by
  intro c d rest
  by_cases h : c.length = block_width ∧ (d = 0 ∨ d = all_one)
  · refine Or.inl ⟨h.1, h.2, ?_⟩
    cases hr : rest with
    | nil =>
      right
      simp only [null_sequences]
      rw [if_pos h]
      simp only [rest] at hr
      rw [hr]
    | cons s ss =>
      by_cases hs : s.type = block_type.fill ∧ s.data = d
      · left
        refine ⟨s, ss, rfl, hs.1, hs.2, ?_⟩
        simp only [null_sequences]
        rw [if_pos h]
        simp only [rest] at hr
        rw [hr]
        simp only
        rw [if_pos hs]
      · right
        simp only [null_sequences]
        rw [if_pos h]
        simp only [rest] at hr
        rw [hr]
        simp only
        rw [if_neg hs]
  · refine Or.inr ⟨h, ?_⟩
    simp only [null_sequences]
    rw [if_neg h]

theorem take_length_pos (b : Bool) (bs : List Bool) :
    0 < ((b :: bs).take block_width).length ∧
      ((b :: bs).take block_width).length ≤ block_width ∧
      (((b :: bs).take block_width).length < block_width →
        (b :: bs).drop block_width = []) := by
  have hbw : block_width = 64 := rfl
  rw [List.length_take, hbw]
  refine ⟨?_, ?_, ?_⟩
  · simp only [List.length_cons]; omega
  · omega
  · intro h
    apply List.drop_eq_nil_of_le
    omega

theorem null_sequences_wf : ∀ (fuel off : Nat) (bs : List Bool),
    tail_wf (null_sequences fuel off bs) ∧ offsets_from off (null_sequences fuel off bs)
  | 0, _, _ => by simp [null_sequences, tail_wf, offsets_from]
  | _ + 1, _, [] => by simp [null_sequences, tail_wf, offsets_from]
  | fuel + 1, off, b :: bs => by
    obtain ⟨ihw, iho⟩ := null_sequences_wf fuel (off + block_width) ((b :: bs).drop block_width)
    obtain ⟨hc0, hc1, hc2⟩ := take_length_pos b bs
    have hbw : block_width = 64 := rfl
    rcases null_sequences_cons fuel off b bs with ⟨hlen, hd, hcase⟩ | ⟨_, heq⟩
    · rcases hcase with ⟨s, ss, hrest, hst, hsd, heq⟩ | heq
      · rw [heq]
        rw [hrest] at ihw iho
        obtain ⟨⟨hs0, hsf, _⟩, hss⟩ := ihw
        obtain ⟨hso, hsso⟩ := iho
        refine ⟨⟨⟨?_, fun _ => ⟨hd, ?_⟩, fun h => ?_⟩, hss⟩, rfl, ?_⟩
        · show 0 < block_width + s.length
          omega
        · show block_width ∣ block_width + s.length
          exact Dvd.dvd.add (dvd_refl _) (hsf hst).2
        · cases h
        · show offsets_from (off + (block_width + s.length)) ss
          rw [← Nat.add_assoc]
          exact hsso
      · rw [heq]
        refine ⟨⟨⟨?_, fun _ => ⟨hd, dvd_refl _⟩, fun h => ?_⟩, ihw⟩, rfl, iho⟩
        · show 0 < block_width
          decide
        · cases h
    · rw [heq]
      refine ⟨⟨⟨hc0, fun h => ?_, fun _ => ⟨rfl, hc1, bits_value_lt _, fun h => ?_⟩⟩, ihw⟩,
        rfl, ?_⟩
      · cases h
      · show null_sequences fuel (off + block_width) ((b :: bs).drop block_width) = []
        rw [hc2 h, null_sequences_nil]
      · show offsets_from (off + ((b :: bs).take block_width).length)
          (null_sequences fuel (off + block_width) ((b :: bs).drop block_width))
        by_cases h : ((b :: bs).take block_width).length < block_width
        · rw [hc2 h, null_sequences_nil]
          trivial
        · have : ((b :: bs).take block_width).length = block_width := by omega
          rw [this]
          exact iho

theorem null_sequences_denote : ∀ (fuel off : Nat) (bs : List Bool), bs.length ≤ fuel →
    denote (null_sequences fuel off bs) = bs
  | 0, _, bs, h => by
    have : bs = [] := List.eq_nil_of_length_eq_zero (by omega)
    subst this
    rfl
  | _ + 1, _, [], _ => rfl
  | fuel + 1, off, b :: bs, h => by
    have hbw : block_width = 64 := rfl
    have ih := null_sequences_denote fuel (off + block_width) ((b :: bs).drop block_width)
      (by
        rw [List.length_drop, hbw]
        simp only [List.length_cons] at h ⊢
        omega)
    have hsplit : (b :: bs).take block_width ++ (b :: bs).drop block_width = b :: bs :=
      List.take_append_drop _ _
    rcases null_sequences_cons fuel off b bs with ⟨hlen, hd, hcase⟩ | ⟨_, heq⟩
    · have hfill : List.replicate block_width (bits_value ((b :: bs).take block_width) != 0) =
          (b :: bs).take block_width := by
        have h1 := block_bits_bits_value ((b :: bs).take block_width)
        rw [hlen, ← fill_bits _ block_width hd (le_of_eq hbw)] at h1
        exact h1
      rcases hcase with ⟨s, ss, hrest, hst, hsd, heq⟩ | heq
      · rw [heq]
        rw [hrest] at ih
        simp only [denote] at ih ⊢
        rw [rem_fill _ _ hst] at ih
        rw [rem_fill _ _ rfl]
        show List.replicate (block_width + s.length)
          (bits_value ((b :: bs).take block_width) != 0) ++ denote ss = b :: bs
        rw [List.replicate_add, List.append_assoc, hfill, ← hsd, ih, hsplit]
      · rw [heq]
        simp only [denote]
        rw [rem_fill _ _ rfl, ih]
        show List.replicate block_width (bits_value ((b :: bs).take block_width) != 0) ++
          (b :: bs).drop block_width = b :: bs
        rw [hfill, hsplit]
    · rw [heq]
      simp only [denote]
      rw [rem_literal _ _ rfl, ih]
      show block_bits (bits_value ((b :: bs).take block_width))
        ((b :: bs).take block_width).length ++ (b :: bs).drop block_width = b :: bs
      rw [block_bits_bits_value, hsplit]

/-- The uncompressed encoding meets the contract of a bitstream. -/
theorem null_bitstream_contract : null_bitstream.Contract where
  bits_dflt := rfl
  size_eq := fun _ => rfl
  count_eq := fun _ => rfl
  bits_append := fun _ _ _ => rfl
  bits_append_block := fun _ _ _ _ => rfl
  seq_wf := fun x => (null_sequences_wf x.length 0 x).1
  seq_offsets := fun x => (null_sequences_wf x.length 0 x).2
  seq_denote := fun x => null_sequences_denote x.length 0 x (le_refl _)

/-! ## The four operations -/

theorem all_one_testBit (j : Nat) (hj : j < 64) : all_one.testBit j = true := by
  unfold all_one
  rw [Nat.testBit_two_pow_sub_one]
  simpa using hj

theorem and_op_spec : op_spec (fun x y => x &&& y) (fun a b => a && b) where
  bit := fun x y j _ _ _ => Nat.testBit_and x y j
  lt := fun x _ _ hy => Nat.and_lt_two_pow x hy

theorem or_op_spec : op_spec (fun x y => x ||| y) (fun a b => a || b) where
  bit := fun x y j _ _ _ => Nat.testBit_or x y j
  lt := fun _ _ hx hy => Nat.or_lt_two_pow hx hy

theorem xor_op_spec : op_spec (fun x y => x ^^^ y) (fun a b => xor a b) where
  bit := fun x y j _ _ _ => Nat.testBit_xor x y j
  lt := fun _ _ hx hy => Nat.xor_lt_two_pow hx hy

theorem nand_op_spec : op_spec (fun x y => x &&& block_not y) (fun a b => a && !b) where
  bit := fun x y j _ _ hj => by
    show (x &&& (all_one ^^^ y)).testBit j = (x.testBit j && !y.testBit j)
    rw [Nat.testBit_and, Nat.testBit_xor, all_one_testBit j hj]
    simp
  lt := fun x y hx _ => lt_of_le_of_lt Nat.and_le_left hx

theorem and_tail_spec : tail_spec (fun a b => a && b) false false where
  lhs_keep := fun h => by cases h
  lhs_drop := fun _ a => by simp
  rhs_keep := fun h => by cases h
  rhs_drop := fun _ b => by simp

theorem or_tail_spec : tail_spec (fun a b => a || b) true true where
  lhs_keep := fun _ a => by simp
  lhs_drop := fun h => by cases h
  rhs_keep := fun _ b => by simp
  rhs_drop := fun h => by cases h

theorem xor_tail_spec : tail_spec (fun a b => xor a b) true true where
  lhs_keep := fun _ a => by simp
  lhs_drop := fun h => by cases h
  rhs_keep := fun _ b => by simp
  rhs_drop := fun h => by cases h

theorem nand_tail_spec : tail_spec (fun a b => a && !b) true false where
  lhs_keep := fun _ a => by simp
  lhs_drop := fun h => by cases h
  rhs_keep := fun h => by cases h
  rhs_drop := fun _ b => by simp

theorem and_bits {B : Bitstream} (hB : B.Contract) (a b : B.carrier)
    (ha : B.bits a ≠ []) (hb : B.bits b ≠ []) (has : B.size a ≤ npos)
    (hbs : B.size b ≤ npos) :
    B.bits (and_ B a b) = zip_pad (fun x y => x && y) (B.bits a) (B.bits b) :=
  apply_spec hB and_op_spec false false and_tail_spec a b ha hb has hbs

theorem or_bits {B : Bitstream} (hB : B.Contract) (a b : B.carrier)
    (ha : B.bits a ≠ []) (hb : B.bits b ≠ []) (has : B.size a ≤ npos)
    (hbs : B.size b ≤ npos) :
    B.bits (or_ B a b) = zip_pad (fun x y => x || y) (B.bits a) (B.bits b) :=
  apply_spec hB or_op_spec true true or_tail_spec a b ha hb has hbs

theorem xor_bits {B : Bitstream} (hB : B.Contract) (a b : B.carrier)
    (ha : B.bits a ≠ []) (hb : B.bits b ≠ []) (has : B.size a ≤ npos)
    (hbs : B.size b ≤ npos) :
    B.bits (xor_ B a b) = zip_pad (fun x y => xor x y) (B.bits a) (B.bits b) :=
  apply_spec hB xor_op_spec true true xor_tail_spec a b ha hb has hbs

theorem nand_bits {B : Bitstream} (hB : B.Contract) (a b : B.carrier)
    (ha : B.bits a ≠ []) (hb : B.bits b ≠ []) (has : B.size a ≤ npos)
    (hbs : B.size b ≤ npos) :
    B.bits (nand_ B a b) = zip_pad (fun x y => x && !y) (B.bits a) (B.bits b) :=
  apply_spec hB nand_op_spec true false nand_tail_spec a b ha hb has hbs

/-! ## Empty operands -/

theorem seq_nil_iff {B : Bitstream} (hB : B.Contract) (x : B.carrier) :
    B.sequence_range x = [] ↔ B.bits x = [] := by
  constructor
  · intro h
    rw [← hB.seq_denote x, h]
    rfl
  · intro h
    exact denote_eq_nil _ (hB.seq_wf x) ((hB.seq_denote x).trans h)

/-- With an empty right operand `apply` returns the left operand, or the
default-constructed bitstream when the left operand is empty as well. -/
theorem apply_empty_right {B : Bitstream} (hB : B.Contract) (x e : B.carrier)
    (fill_lhs fill_rhs : Bool) (op : Nat → Nat → Nat) (he : B.bits e = []) :
    (B.bits x ≠ [] → apply B x e fill_lhs fill_rhs op = x) ∧
    (B.bits x = [] → apply B x e fill_lhs fill_rhs op = B.dflt) := by
  have hes := (seq_nil_iff hB e).2 he
  constructor
  · intro hx
    have hxs : B.sequence_range x ≠ [] := fun h => hx ((seq_nil_iff hB x).1 h)
    unfold apply
    rw [hes]
    cases h : B.sequence_range x with
    | nil => exact absurd h hxs
    | cons s ss => rfl
  · intro hx
    have hxs := (seq_nil_iff hB x).2 hx
    unfold apply
    rw [hes, hxs]

/-- With an empty left operand `apply` returns the right operand, or the
default-constructed bitstream when the right operand is empty as well. -/
theorem apply_empty_left {B : Bitstream} (hB : B.Contract) (x e : B.carrier)
    (fill_lhs fill_rhs : Bool) (op : Nat → Nat → Nat) (he : B.bits e = []) :
    (B.bits x ≠ [] → apply B e x fill_lhs fill_rhs op = x) ∧
    (B.bits x = [] → apply B e x fill_lhs fill_rhs op = B.dflt) := by
  have hes := (seq_nil_iff hB e).2 he
  constructor
  · intro hx
    have hxs : B.sequence_range x ≠ [] := fun h => hx ((seq_nil_iff hB x).1 h)
    unfold apply
    rw [hes]
    cases h : B.sequence_range x with
    | nil => exact absurd h hxs
    | cons s ss => rfl
  · intro hx
    have hxs := (seq_nil_iff hB x).2 hx
    unfold apply
    rw [hes, hxs]

/-- The size of the result of `apply` is the larger of the two sizes, empty
operands included. -/
theorem apply_size {B : Bitstream} (hB : B.Contract) {op : Nat → Nat → Nat}
    {f : Bool → Bool → Bool} (hop : op_spec op f) (fill_lhs fill_rhs : Bool)
    (ht : tail_spec f fill_lhs fill_rhs) (a b : B.carrier)
    (has : B.size a ≤ npos) (hbs : B.size b ≤ npos) :
    B.size (apply B a b fill_lhs fill_rhs op) = max (B.size a) (B.size b) := by
  have sz : ∀ x, B.size x = (B.bits x).length := hB.size_eq
  by_cases ha : B.bits a = []
  · by_cases hb : B.bits b = []
    · rw [(apply_empty_right hB a b fill_lhs fill_rhs op hb).2 ha, sz, sz, sz, hB.bits_dflt,
        ha, hb]
      rfl
    · rw [(apply_empty_left hB b a fill_lhs fill_rhs op ha).1 hb, sz a, ha]
      simp
  · by_cases hb : B.bits b = []
    · rw [(apply_empty_right hB a b fill_lhs fill_rhs op hb).1 ha, sz b, hb]
      simp
    · rw [sz, apply_spec hB hop fill_lhs fill_rhs ht a b ha hb has hbs, zip_pad_length,
        sz, sz]

/-! ## Counting and the algebra of the reference semantics -/

theorem count_zip_and : ∀ a b : List Bool,
    (zip_pad (fun x y => x && y) a b).count true ≤ a.count true ∧
    (zip_pad (fun x y => x && y) a b).count true ≤ b.count true
  | [], [] => by simp [zip_pad_nil_nil, zip_pad_cons_nil, zip_pad_nil_cons, zip_pad_cons_cons]
  | x :: l, [] => by
    have ih := count_zip_and l []
    simp only [zip_pad_nil_nil, zip_pad_cons_nil, zip_pad_nil_cons, zip_pad_cons_cons, Bool.and_false, List.count_nil] at ih ⊢
    rw [List.count_cons_of_ne (by decide)]
    exact ⟨le_trans ih.2 (Nat.zero_le _), ih.2⟩
  | [], y :: r => by
    have ih := count_zip_and [] r
    simp only [zip_pad_nil_nil, zip_pad_cons_nil, zip_pad_nil_cons, zip_pad_cons_cons, Bool.false_and, List.count_nil] at ih ⊢
    rw [List.count_cons_of_ne (by decide)]
    exact ⟨ih.1, le_trans ih.1 (Nat.zero_le _)⟩
  | x :: l, y :: r => by
    have ih := count_zip_and l r
    cases x <;> cases y <;> simp [zip_pad_nil_nil, zip_pad_cons_nil, zip_pad_nil_cons, zip_pad_cons_cons, List.count_cons] at ih ⊢ <;> omega

theorem zip_xor_eq : ∀ a b : List Bool,
    zip_pad (fun x y => x && !y) (zip_pad (fun x y => x || y) a b)
        (zip_pad (fun x y => x && y) a b) =
      zip_pad (fun x y => xor x y) a b
  | [], [] => by simp [zip_pad_nil_nil, zip_pad_cons_nil, zip_pad_nil_cons, zip_pad_cons_cons]
  | x :: l, [] => by
    have ih := zip_xor_eq l []
    simp only [zip_pad_nil_nil, zip_pad_cons_nil, zip_pad_nil_cons, zip_pad_cons_cons] at ih ⊢
    rw [ih]
    cases x <;> rfl
  | [], y :: r => by
    have ih := zip_xor_eq [] r
    simp only [zip_pad_nil_nil, zip_pad_cons_nil, zip_pad_nil_cons, zip_pad_cons_cons] at ih ⊢
    rw [ih]
    cases y <;> rfl
  | x :: l, y :: r => by
    have ih := zip_xor_eq l r
    simp only [zip_pad_nil_nil, zip_pad_cons_nil, zip_pad_nil_cons, zip_pad_cons_cons] at ih ⊢
    rw [ih]
    cases x <;> cases y <;> rfl

theorem zip_pad_ne_nil (f : Bool → Bool → Bool) (a b : List Bool) (ha : a ≠ []) :
    zip_pad f a b ≠ [] := by
  intro h
  have := congrArg List.length h
  rw [zip_pad_length] at this
  have hpos : 0 < a.length := List.length_pos.mpr ha
  have := le_max_left a.length b.length
  simp only [List.length_nil] at *
  omega

theorem size_bits {B : Bitstream} (hB : B.Contract) (x : B.carrier) :
    B.size x = (B.bits x).length := hB.size_eq x

theorem count_bits {B : Bitstream} (hB : B.Contract) (x : B.carrier) :
    B.count x = (B.bits x).count true := hB.count_eq x

/-! # The claims on bitstreams -/

/-- C1: for two non-empty bitstreams `a`, `b` of one encoding, every bit
`i < max(a.size, b.size)` of `and_`, `or_`, `xor_`, `nand_` is the AND, OR, XOR,
`x AND NOT y` of `a[i]` and `b[i]`, a bit at or past an operand's size read as
0. In particular, for `a` = 100 ones and `b` = 50 zeros followed by 100 ones,
`and_(a, b)` has size 150, count 50 and bits `[100,150)` zero. -/
theorem bitwise_ops_compute_bits (B : Bitstream) (hB : B.Contract) (a b : B.carrier)
    (ha : B.bits a ≠ []) (hb : B.bits b ≠ []) (has : B.size a ≤ npos)
    (hbs : B.size b ≤ npos) :
    (∀ i, i < max (B.size a) (B.size b) →
      (B.bits (and_ B a b)).getD i false =
        ((B.bits a).getD i false && (B.bits b).getD i false) ∧
      (B.bits (or_ B a b)).getD i false =
        ((B.bits a).getD i false || (B.bits b).getD i false) ∧
      (B.bits (xor_ B a b)).getD i false =
        xor ((B.bits a).getD i false) ((B.bits b).getD i false) ∧
      (B.bits (nand_ B a b)).getD i false =
        ((B.bits a).getD i false && !(B.bits b).getD i false)) ∧
    (null_bitstream.size (and_ null_bitstream (List.replicate 100 true)
        (List.replicate 50 false ++ List.replicate 100 true)) = 150 ∧
      null_bitstream.count (and_ null_bitstream (List.replicate 100 true)
        (List.replicate 50 false ++ List.replicate 100 true)) = 50 ∧
      ∀ i, 100 ≤ i → i < 150 →
        (null_bitstream.bits (and_ null_bitstream (List.replicate 100 true)
          (List.replicate 50 false ++ List.replicate 100 true))).getD i false = false) := by
  constructor
  · intro i hi
    rw [size_bits hB, size_bits hB] at hi
    rw [and_bits hB a b ha hb has hbs, or_bits hB a b ha hb has hbs,
      xor_bits hB a b ha hb has hbs, nand_bits hB a b ha hb has hbs]
    exact ⟨zip_pad_getD _ _ _ i hi, zip_pad_getD _ _ _ i hi, zip_pad_getD _ _ _ i hi,
      zip_pad_getD _ _ _ i hi⟩
  · have h : null_bitstream.bits (and_ null_bitstream (List.replicate 100 true)
        (List.replicate 50 false ++ List.replicate 100 true)) =
        zip_pad (fun x y => x && y) (List.replicate 100 true)
          (List.replicate 50 false ++ List.replicate 100 true) :=
      and_bits null_bitstream_contract _ _ (by decide) (by decide) (by decide) (by decide)
    refine ⟨?_, ?_, ?_⟩
    · rw [size_bits null_bitstream_contract, h, zip_pad_length]
      rfl
    · rw [count_bits null_bitstream_contract, h]
      decide
    · intro i h1 h2
      rw [h, zip_pad_getD _ _ _ i (by simp; omega)]
      have : (List.replicate 100 true).getD i false = false := by
        rw [List.getD_eq_default]
        simpa using h1
      rw [this]
      rfl

/-- Witness of C1 on the uncompressed encoding: bit 1 of
`and_(110, 011)`. -/
theorem bitwise_ops_compute_bits_witness :
    (null_bitstream.bits (and_ null_bitstream [true, true, false]
        [false, true, true])).getD 1 false =
      (([true, true, false] : List Bool).getD 1 false &&
        ([false, true, true] : List Bool).getD 1 false) :=
  ((bitwise_ops_compute_bits null_bitstream null_bitstream_contract
      [true, true, false] [false, true, true] (by decide) (by decide) (by decide)
      (by decide)).1 1 (by decide)).1

/-- C2: for two bitstreams of one encoding, empty ones included, the size of
the result of `and_`, `or_`, `xor_`, `nand_` is `max(a.size, b.size)`, whichever
operand is passed first. -/
theorem binary_op_size (B : Bitstream) (hB : B.Contract) (a b : B.carrier)
    (has : B.size a ≤ npos) (hbs : B.size b ≤ npos) :
    B.size (and_ B a b) = max (B.size a) (B.size b) ∧
    B.size (and_ B b a) = max (B.size a) (B.size b) ∧
    B.size (or_ B a b) = max (B.size a) (B.size b) ∧
    B.size (or_ B b a) = max (B.size a) (B.size b) ∧
    B.size (xor_ B a b) = max (B.size a) (B.size b) ∧
    B.size (xor_ B b a) = max (B.size a) (B.size b) ∧
    B.size (nand_ B a b) = max (B.size a) (B.size b) ∧
    B.size (nand_ B b a) = max (B.size a) (B.size b) := by
  have hc := max_comm (B.size b) (B.size a)
  refine ⟨?_, ?_, ?_, ?_, ?_, ?_, ?_, ?_⟩
  · exact apply_size hB and_op_spec _ _ and_tail_spec a b has hbs
  · exact (apply_size hB and_op_spec _ _ and_tail_spec b a hbs has).trans hc
  · exact apply_size hB or_op_spec _ _ or_tail_spec a b has hbs
  · exact (apply_size hB or_op_spec _ _ or_tail_spec b a hbs has).trans hc
  · exact apply_size hB xor_op_spec _ _ xor_tail_spec a b has hbs
  · exact (apply_size hB xor_op_spec _ _ xor_tail_spec b a hbs has).trans hc
  · exact apply_size hB nand_op_spec _ _ nand_tail_spec a b has hbs
  · exact (apply_size hB nand_op_spec _ _ nand_tail_spec b a hbs has).trans hc

/-- Witness of C2 on the uncompressed encoding, with one empty operand. -/
theorem binary_op_size_witness :
    null_bitstream.size (nand_ null_bitstream [] [true, false, true]) =
      max (null_bitstream.size []) (null_bitstream.size [true, false, true]) :=
  (binary_op_size null_bitstream null_bitstream_contract [] [true, false, true]
    (by decide) (by decide)).2.2.2.2.2.2.1

/-- C3, as stated, fails: with `a` the single bit 1 and `b` empty, `and_`
returns `a`, whose count 1 exceeds `min(a.count, b.count) = 0`. -/
theorem and_count_counterexample :
    ¬ (null_bitstream.count (and_ null_bitstream [true] []) ≤
        min (null_bitstream.count [true]) (null_bitstream.count [])) := by
  decide

/-- C3, amended: for two non-empty bitstreams `a` and `b` the population count
of `and_(a, b)` is at most `min(a.count, b.count)`. -/
theorem and_count_le_min (B : Bitstream) (hB : B.Contract) (a b : B.carrier)
    (ha : B.bits a ≠ []) (hb : B.bits b ≠ []) (has : B.size a ≤ npos)
    (hbs : B.size b ≤ npos) :
    B.count (and_ B a b) ≤ min (B.count a) (B.count b) := by
  rw [count_bits hB, count_bits hB, count_bits hB, and_bits hB a b ha hb has hbs]
  exact le_min (count_zip_and _ _).1 (count_zip_and _ _).2

/-- Witness of the amended C3 on the uncompressed encoding. -/
theorem and_count_le_min_witness :
    null_bitstream.count (and_ null_bitstream [true, true, false] [false, true]) ≤
      min (null_bitstream.count [true, true, false]) (null_bitstream.count [false, true]) :=
  and_count_le_min null_bitstream null_bitstream_contract [true, true, false] [false, true]
    (by decide) (by decide) (by decide) (by decide)

/-- C4, as stated, fails: with `a` the single bit 1 and `b` empty, `xor_(a, b)`
is `a`, while `or_(a, b)` and `and_(a, b)` are both `a` and their difference is
the single bit 0. -/
theorem xor_counterexample :
    (xor_ null_bitstream [true] [] : List Bool) ≠
      nand_ null_bitstream (or_ null_bitstream [true] []) (and_ null_bitstream [true] []) := by
  decide

/-- C4, amended: for two non-empty bitstreams `a` and `b`, `xor_(a, b)` and
`nand_(or_(a, b), and_(a, b))` denote the same bits (same size, same bit at
every position). -/
theorem xor_eq_or_minus_and (B : Bitstream) (hB : B.Contract) (a b : B.carrier)
    (ha : B.bits a ≠ []) (hb : B.bits b ≠ []) (has : B.size a ≤ npos)
    (hbs : B.size b ≤ npos) :
    B.bits (xor_ B a b) = B.bits (nand_ B (or_ B a b) (and_ B a b)) := by
  have ho := or_bits hB a b ha hb has hbs
  have hn := and_bits hB a b ha hb has hbs
  have hso : B.size (or_ B a b) ≤ npos :=
    le_trans (le_of_eq (apply_size hB or_op_spec _ _ or_tail_spec a b has hbs))
      (max_le has hbs)
  have hsn : B.size (and_ B a b) ≤ npos :=
    le_trans (le_of_eq (apply_size hB and_op_spec _ _ and_tail_spec a b has hbs))
      (max_le has hbs)
  rw [nand_bits hB _ _ (by rw [ho]; exact zip_pad_ne_nil _ _ _ ha)
    (by rw [hn]; exact zip_pad_ne_nil _ _ _ ha) hso hsn, ho, hn, zip_xor_eq,
    xor_bits hB a b ha hb has hbs]

/-- Witness of the amended C4 on the uncompressed encoding. -/
theorem xor_eq_or_minus_and_witness :
    null_bitstream.bits (xor_ null_bitstream [true, true, false] [false, true]) =
      null_bitstream.bits (nand_ null_bitstream
        (or_ null_bitstream [true, true, false] [false, true])
        (and_ null_bitstream [true, true, false] [false, true])) :=
  xor_eq_or_minus_and null_bitstream null_bitstream_contract [true, true, false]
    [false, true] (by decide) (by decide) (by decide) (by decide)

/-- C5: each of `and_`, `or_`, `xor_`, `nand_`, `nor_` applied to `(x, empty)` or
to `(empty, x)` returns `x` itself when `x` is not empty, and the
default-constructed, empty bitstream when `x` is empty too. -/
theorem empty_operand_returns_other (B : Bitstream) (hB : B.Contract)
    (x e : B.carrier) (he : B.bits e = []) :
    (B.bits x ≠ [] →
      and_ B x e = x ∧ and_ B e x = x ∧ or_ B x e = x ∧ or_ B e x = x ∧
      xor_ B x e = x ∧ xor_ B e x = x ∧ nand_ B x e = x ∧ nand_ B e x = x ∧
      nor_ B x e = x ∧ nor_ B e x = x) ∧
    (B.bits x = [] →
      and_ B x e = B.dflt ∧ and_ B e x = B.dflt ∧ or_ B x e = B.dflt ∧
      or_ B e x = B.dflt ∧ xor_ B x e = B.dflt ∧ xor_ B e x = B.dflt ∧
      nand_ B x e = B.dflt ∧ nand_ B e x = B.dflt ∧ nor_ B x e = B.dflt ∧
      nor_ B e x = B.dflt) ∧
    B.bits B.dflt = [] := by
  refine ⟨fun hx => ?_, fun hx => ?_, hB.bits_dflt⟩
  · exact ⟨(apply_empty_right hB x e _ _ _ he).1 hx, (apply_empty_left hB x e _ _ _ he).1 hx,
      (apply_empty_right hB x e _ _ _ he).1 hx, (apply_empty_left hB x e _ _ _ he).1 hx,
      (apply_empty_right hB x e _ _ _ he).1 hx, (apply_empty_left hB x e _ _ _ he).1 hx,
      (apply_empty_right hB x e _ _ _ he).1 hx, (apply_empty_left hB x e _ _ _ he).1 hx,
      (apply_empty_right hB x e _ _ _ he).1 hx, (apply_empty_left hB x e _ _ _ he).1 hx⟩
  · exact ⟨(apply_empty_right hB x e _ _ _ he).2 hx, (apply_empty_left hB x e _ _ _ he).2 hx,
      (apply_empty_right hB x e _ _ _ he).2 hx, (apply_empty_left hB x e _ _ _ he).2 hx,
      (apply_empty_right hB x e _ _ _ he).2 hx, (apply_empty_left hB x e _ _ _ he).2 hx,
      (apply_empty_right hB x e _ _ _ he).2 hx, (apply_empty_left hB x e _ _ _ he).2 hx,
      (apply_empty_right hB x e _ _ _ he).2 hx, (apply_empty_left hB x e _ _ _ he).2 hx⟩

/-- Witness of C5 on the uncompressed encoding. -/
theorem empty_operand_returns_other_witness :
    and_ null_bitstream [true, false] [] = ([true, false] : List Bool) ∧
      nor_ null_bitstream [] [true, false] = ([true, false] : List Bool) :=
  ⟨((empty_operand_returns_other null_bitstream null_bitstream_contract [true, false] []
      rfl).1 (by decide)).1,
    ((empty_operand_returns_other null_bitstream null_bitstream_contract [true, false] []
      rfl).1 (by decide)).2.2.2.2.2.2.2.2.2⟩

/-- C6, as stated, fails: `append(0, v)` does not return true. -/
theorem append_zero_counterexample :
    ¬ ((null_bitstream.append [true] 0 false).1 = true ∧
        (null_bitstream.append [true] 0 false).2 = ([true] : List Bool)) := by
  decide

/-- C6, amended: for every bitstream `b` (of either encoding) and every bit
value `v`, `append(0, v)` returns false and leaves `b` unchanged. -/
theorem append_zero (B : Bitstream) (x : B.carrier) (v : Bool) :
    B.append x 0 v = (false, x) := by
  simp [Bitstream.append]

/-- C7: for every bitstream `b` of size `s` and every `n > 0`, `append(n, v)`
returns false exactly when `NPOS - n < s` (that is, when `s + n` exceeds `NPOS`)
and then leaves `b` unchanged; otherwise it performs the append and returns
true. -/
theorem append_fails_iff_overflow (B : Bitstream) (x : B.carrier) (n : Nat) (v : Bool)
    (hn : 0 < n) :
    ((B.append x n v).1 = false ↔ npos - n < B.size x) ∧
    (npos - n < B.size x → B.append x n v = (false, x)) ∧
    (¬ npos - n < B.size x → B.append x n v = (true, B.append_impl x n v)) ∧
    (n ≤ npos → (npos - n < B.size x ↔ npos < B.size x + n)) ∧
    (B.Contract → ¬ npos - n < B.size x →
      B.bits (B.append x n v).2 = B.bits x ++ List.replicate n v) := by
  have hn0 : n ≠ 0 := Nat.pos_iff_ne_zero.mp hn
  refine ⟨?_, ?_, ?_, ?_, ?_⟩
  · by_cases h : npos - n < B.size x <;> simp [Bitstream.append, hn0, h]
  · intro h
    simp [Bitstream.append, h]
  · intro h
    simp [Bitstream.append, hn0, h]
  · intro h
    omega
  · intro hB h
    simp [Bitstream.append, hn0, h, hB.bits_append]

/-- Witness of C7 on the uncompressed encoding. -/
theorem append_fails_iff_overflow_witness :
    null_bitstream.append [true] 3 false = (true, null_bitstream.append_impl [true] 3 false) :=
  (append_fails_iff_overflow null_bitstream [true] 3 false (by decide)).2.2.1 (by decide)

/-! # The per-event evaluator -/

theorem all_of_true_iff {α σ : Type} (p : α → σ → outcome (Bool × σ)) :
    ∀ (l : List α) (s t : σ),
      all_of p l s = outcome.ok (true, t) ↔ each_yields p true l s t
  | [], s, t => by
    constructor
    · intro h
      simp only [all_of, outcome.ok.injEq, Prod.mk.injEq, true_and] at h
      subst h
      exact each_yields.nil s
    · intro h
      cases h
      rfl
  | x :: xs, s, t => by
    constructor
    · intro h
      simp only [all_of] at h
      cases hp : p x s with
      | ok r =>
        obtain ⟨b, s1⟩ := r
        rw [hp] at h
        cases b
        · simp at h
        · exact each_yields.cons hp ((all_of_true_iff p xs s1 t).1 h)
      | out_of_fuel => rw [hp] at h; simp at h
      | failed => rw [hp] at h; simp at h
    · intro h
      cases h with
      | cons hp hrest =>
        simp only [all_of, hp]
        exact (all_of_true_iff p xs _ t).2 hrest

theorem any_of_false_iff {α σ : Type} (p : α → σ → outcome (Bool × σ)) :
    ∀ (l : List α) (s t : σ),
      any_of p l s = outcome.ok (false, t) ↔ each_yields p false l s t
  | [], s, t => by
    constructor
    · intro h
      simp only [any_of, outcome.ok.injEq, Prod.mk.injEq, true_and] at h
      subst h
      exact each_yields.nil s
    · intro h
      cases h
      rfl
  | x :: xs, s, t => by
    constructor
    · intro h
      simp only [any_of] at h
      cases hp : p x s with
      | ok r =>
        obtain ⟨b, s1⟩ := r
        rw [hp] at h
        cases b
        · exact each_yields.cons hp ((any_of_false_iff p xs s1 t).1 h)
        · simp at h
      | out_of_fuel => rw [hp] at h; simp at h
      | failed => rw [hp] at h; simp at h
    · intro h
      cases h with
      | cons hp hrest =>
        simp only [any_of, hp]
        exact (any_of_false_iff p xs _ t).2 hrest

/-- Short circuit of `std::all_of`: once an element yields false, what follows
it is not looked at. -/
theorem all_of_short_circuit {α σ : Type} (p : α → σ → outcome (Bool × σ))
    (pre : List α) (x : α) (post : List α) (s s1 t : σ)
    (hpre : each_yields p true pre s s1) (hx : p x s1 = outcome.ok (false, t)) :
    all_of p (pre ++ x :: post) s = outcome.ok (false, t) := by
  induction hpre with
  | nil s => simp [all_of, hx]
  | cons hp _ ih => simp [all_of, hp, ih hx]

/-- Short circuit of `std::any_of`: once an element yields true, what follows
it is not looked at. -/
theorem any_of_short_circuit {α σ : Type} (p : α → σ → outcome (Bool × σ))
    (pre : List α) (x : α) (post : List α) (s s1 t : σ)
    (hpre : each_yields p false pre s s1) (hx : p x s1 = outcome.ok (true, t)) :
    any_of p (pre ++ x :: post) s = outcome.ok (true, t) := by
  induction hpre with
  | nil s => simp [any_of, hx]
  | cons hp _ ih => simp [any_of, hp, ih hx]

theorem all_of_false_iff {α σ : Type} (p : α → σ → outcome (Bool × σ)) :
    ∀ (l : List α) (s t : σ),
      all_of p l s = outcome.ok (false, t) ↔
        ∃ pre x post s1, l = pre ++ x :: post ∧ each_yields p true pre s s1 ∧
          p x s1 = outcome.ok (false, t)
  | [], s, t => by
    constructor
    · intro h
      simp [all_of] at h
    · rintro ⟨pre, x, post, s1, h, _, _⟩
      simp at h
  | y :: ys, s, t => by
    constructor
    · intro h
      simp only [all_of] at h
      cases hp : p y s with
      | ok r =>
        obtain ⟨b, s1⟩ := r
        rw [hp] at h
        cases b
        · simp only [outcome.ok.injEq, Prod.mk.injEq, true_and] at h
          subst h
          exact ⟨[], y, ys, s, rfl, each_yields.nil s, hp⟩
        · obtain ⟨pre, x, post, s2, e1, e2, e3⟩ := (all_of_false_iff p ys s1 t).1 h
          exact ⟨y :: pre, x, post, s2, by rw [e1]; rfl, each_yields.cons hp e2, e3⟩
      | out_of_fuel => rw [hp] at h; simp at h
      | failed => rw [hp] at h; simp at h
    · rintro ⟨pre, x, post, s1, h, hpre, hx⟩
      rw [h]
      exact all_of_short_circuit p pre x post s s1 t hpre hx

theorem any_of_true_iff {α σ : Type} (p : α → σ → outcome (Bool × σ)) :
    ∀ (l : List α) (s t : σ),
      any_of p l s = outcome.ok (true, t) ↔
        ∃ pre x post s1, l = pre ++ x :: post ∧ each_yields p false pre s s1 ∧
          p x s1 = outcome.ok (true, t)
  | [], s, t => by
    constructor
    · intro h
      simp [any_of] at h
    · rintro ⟨pre, x, post, s1, h, _, _⟩
      simp at h
  | y :: ys, s, t => by
    constructor
    · intro h
      simp only [any_of] at h
      cases hp : p y s with
      | ok r =>
        obtain ⟨b, s1⟩ := r
        rw [hp] at h
        cases b
        · obtain ⟨pre, x, post, s2, e1, e2, e3⟩ := (any_of_true_iff p ys s1 t).1 h
          exact ⟨y :: pre, x, post, s2, by rw [e1]; rfl, each_yields.cons hp e2, e3⟩
        · simp only [outcome.ok.injEq, Prod.mk.injEq, true_and] at h
          subst h
          exact ⟨[], y, ys, s, rfl, each_yields.nil s, hp⟩
      | out_of_fuel => rw [hp] at h; simp at h
      | failed => rw [hp] at h; simp at h
    · rintro ⟨pre, x, post, s1, h, hpre, hx⟩
      rw [h]
      exact any_of_short_circuit p pre x post s s1 t hpre hx

theorem visit_conjunction (e : event) (fuel : Nat) (ops : List node) (s : evaluator) :
    visit e (fuel + 1) (node.conjunction ops) s =
      match all_of (operand_bool (visit e fuel)) ops s with
      | outcome.ok (b, s1) => outcome.ok ⟨value.bool b, s1.extractor_state_⟩
      | outcome.out_of_fuel => outcome.out_of_fuel
      | outcome.failed => outcome.failed := rfl

theorem visit_disjunction (e : event) (fuel : Nat) (ops : List node) (s : evaluator) :
    visit e (fuel + 1) (node.disjunction ops) s =
      match any_of (operand_bool (visit e fuel)) ops s with
      | outcome.ok (b, s1) => outcome.ok ⟨value.bool b, s1.extractor_state_⟩
      | outcome.out_of_fuel => outcome.out_of_fuel
      | outcome.failed => outcome.failed := rfl

/-- What `visit` returns on a conjunction, in terms of `std::all_of`. -/
theorem visit_conjunction_ok (e : event) (fuel : Nat) (ops : List node) (s : evaluator)
    (b : Bool) (x : Option extractor_state) :
    visit e (fuel + 1) (node.conjunction ops) s = outcome.ok ⟨value.bool b, x⟩ ↔
      ∃ t, all_of (operand_bool (visit e fuel)) ops s = outcome.ok (b, t) ∧
        t.extractor_state_ = x := by
  rw [visit_conjunction]
  cases h : all_of (operand_bool (visit e fuel)) ops s with
  | ok r =>
    obtain ⟨c, t⟩ := r
    constructor
    · intro h1
      simp only [outcome.ok.injEq, evaluator.mk.injEq, value.bool.injEq] at h1
      exact ⟨t, by rw [h1.1], h1.2⟩
    · rintro ⟨t', h1, h2⟩
      simp only [outcome.ok.injEq, Prod.mk.injEq] at h1
      rw [h1.1, h1.2]
      show outcome.ok (evaluator.mk (value.bool b) t'.extractor_state_) = _
      rw [h2]
  | out_of_fuel => simp
  | failed => simp

/-- What `visit` returns on a disjunction, in terms of `std::any_of`. -/
theorem visit_disjunction_ok (e : event) (fuel : Nat) (ops : List node) (s : evaluator)
    (b : Bool) (x : Option extractor_state) :
    visit e (fuel + 1) (node.disjunction ops) s = outcome.ok ⟨value.bool b, x⟩ ↔
      ∃ t, any_of (operand_bool (visit e fuel)) ops s = outcome.ok (b, t) ∧
        t.extractor_state_ = x := by
  rw [visit_disjunction]
  cases h : any_of (operand_bool (visit e fuel)) ops s with
  | ok r =>
    obtain ⟨c, t⟩ := r
    constructor
    · intro h1
      simp only [outcome.ok.injEq, evaluator.mk.injEq, value.bool.injEq] at h1
      exact ⟨t, by rw [h1.1], h1.2⟩
    · rintro ⟨t', h1, h2⟩
      simp only [outcome.ok.injEq, Prod.mk.injEq] at h1
      rw [h1.1, h1.2]
      show outcome.ok (evaluator.mk (value.bool b) t'.extractor_state_) = _
      rw [h2]
  | out_of_fuel => simp
  | failed => simp

/-! ## More fuel does not change a result -/

theorem type_extractor_loop_mono (t : value_type) :
    ∀ (fuel : Nat) (st : extractor_state) (r : value × extractor_state),
      type_extractor_loop t fuel st = outcome.ok r →
      type_extractor_loop t (fuel + 1) st = outcome.ok r
  | 0, st, r, h => by simp [type_extractor_loop] at h
  | fuel + 1, st, r, h => by
    rw [type_extractor_loop] at h ⊢
    cases hs : type_extractor_step t st with
    | stop v st1 => rw [hs] at h; exact h
    | again st1 =>
      rw [hs] at h
      exact type_extractor_loop_mono t fuel st1 r h
    | fault => rw [hs] at h; simp at h

theorem all_of_mono {α σ : Type} (p q : α → σ → outcome (Bool × σ))
    (hpq : ∀ x s r, p x s = outcome.ok r → q x s = outcome.ok r) :
    ∀ (l : List α) (s : σ) (r : Bool × σ),
      all_of p l s = outcome.ok r → all_of q l s = outcome.ok r
  | [], s, r, h => h
  | x :: xs, s, r, h => by
    simp only [all_of] at h ⊢
    cases hp : p x s with
    | ok r1 =>
      obtain ⟨b, s1⟩ := r1
      rw [hp] at h
      rw [hpq x s _ hp]
      cases b
      · exact h
      · exact all_of_mono p q hpq xs s1 r h
    | out_of_fuel => rw [hp] at h; simp at h
    | failed => rw [hp] at h; simp at h

theorem any_of_mono {α σ : Type} (p q : α → σ → outcome (Bool × σ))
    (hpq : ∀ x s r, p x s = outcome.ok r → q x s = outcome.ok r) :
    ∀ (l : List α) (s : σ) (r : Bool × σ),
      any_of p l s = outcome.ok r → any_of q l s = outcome.ok r
  | [], s, r, h => h
  | x :: xs, s, r, h => by
    simp only [any_of] at h ⊢
    cases hp : p x s with
    | ok r1 =>
      obtain ⟨b, s1⟩ := r1
      rw [hp] at h
      rw [hpq x s _ hp]
      cases b
      · exact any_of_mono p q hpq xs s1 r h
      · exact h
    | out_of_fuel => rw [hp] at h; simp at h
    | failed => rw [hp] at h; simp at h

theorem as_bool_eq_some (v : value) (b : Bool) :
    v.as_bool = some b ↔ v = value.bool b := by
  cases v <;> simp [value.as_bool]

theorem operand_bool_ok (accept : node → evaluator → outcome evaluator) (n : node)
    (s : evaluator) (b : Bool) (s1 : evaluator) :
    operand_bool accept n s = outcome.ok (b, s1) ↔
      accept n s = outcome.ok s1 ∧ s1.result_ = value.bool b := by
  unfold operand_bool
  cases h : accept n s with
  | ok s2 =>
    simp only
    cases hb : s2.result_.as_bool with
    | none =>
      simp only [hb]
      constructor
      · intro h1
        cases h1
      · rintro ⟨h1, h2⟩
        cases h1
        rw [(as_bool_eq_some _ _).2 h2] at hb
        cases hb
    | some c =>
      simp only [hb, outcome.ok.injEq, Prod.mk.injEq]
      constructor
      · rintro ⟨h1, h2⟩
        subst h1 h2
        exact ⟨rfl, (as_bool_eq_some _ _).1 hb⟩
      · rintro ⟨h1, h2⟩
        subst h1
        rw [(as_bool_eq_some _ _).2 h2] at hb
        exact ⟨(Option.some.inj hb).symm, rfl⟩
  | out_of_fuel => simp
  | failed => simp

theorem operand_bool_mono (p q : node → evaluator → outcome evaluator)
    (hpq : ∀ n s r, p n s = outcome.ok r → q n s = outcome.ok r) :
    ∀ n s r, operand_bool p n s = outcome.ok r → operand_bool q n s = outcome.ok r := by
  intro n s r h
  obtain ⟨b, s1⟩ := r
  rw [operand_bool_ok] at h ⊢
  exact ⟨hpq n s s1 h.1, h.2⟩

theorem visit_predicate_pair (e : event) (fuel : Nat) (op : relational_operator)
    (pred : value → value → Bool) (lhs rhs : node) (s : evaluator) :
    visit e (fuel + 1) (node.predicate op pred [lhs, rhs]) s =
      match visit e fuel lhs s with
      | outcome.ok s1 =>
        match visit e fuel rhs s1 with
        | outcome.ok s2 =>
          if pred s1.result_ s2.result_ then outcome.ok ⟨value.bool true, none⟩
          else
            match s2.extractor_state_ with
            | some st =>
              if ! st.complete then visit e fuel (node.predicate op pred [lhs, rhs]) s2
              else outcome.ok ⟨value.bool false, none⟩
            | none => outcome.ok ⟨value.bool false, none⟩
        | outcome.out_of_fuel => outcome.out_of_fuel
        | outcome.failed => outcome.failed
      | outcome.out_of_fuel => outcome.out_of_fuel
      | outcome.failed => outcome.failed := rfl

/-- A predicate that returns has exactly two operands. -/
theorem visit_predicate_operands (e : event) (fuel : Nat) (op : relational_operator)
    (pred : value → value → Bool) (ops : List node) (s r : evaluator)
    (h : visit e (fuel + 1) (node.predicate op pred ops) s = outcome.ok r) :
    ∃ lhs rhs, ops = [lhs, rhs] := by
  match ops, h with
  | [], h => simp [visit] at h
  | [_], h => simp [visit] at h
  | [lhs, rhs], _ => exact ⟨lhs, rhs, rfl⟩
  | _ :: _ :: _ :: _, h => simp [visit] at h

theorem visit_type_extractor (e : event) (fuel : Nat) (t : value_type) (s : evaluator) :
    visit e (fuel + 1) (node.type_extractor t) s =
      match type_extractor_loop t fuel
        (match s.extractor_state_ with
          | none => ⟨[(e.args, 0)], false⟩
          | some st => st) with
      | outcome.ok (v, st1) => outcome.ok ⟨v, some st1⟩
      | outcome.out_of_fuel => outcome.out_of_fuel
      | outcome.failed => outcome.failed := rfl

/-- A visit that returns with some fuel returns the same with more. -/
theorem visit_mono (e : event) :
    ∀ (fuel : Nat) (n : node) (s r : evaluator),
      visit e fuel n s = outcome.ok r → visit e (fuel + 1) n s = outcome.ok r
  | 0, n, s, r, h => by simp [visit] at h
  | fuel + 1, n, s, r, h => by
    have ih := visit_mono e fuel
    cases n with
    | constant val => exact h
    | timestamp_extractor => exact h
    | name_extractor => exact h
    | id_extractor => exact h
    | offset_extractor ev off => exact h
    | type_extractor t =>
      rw [visit_type_extractor] at h ⊢
      cases hl : type_extractor_loop t fuel
          (match s.extractor_state_ with
            | none => ⟨[(e.args, 0)], false⟩
            | some st => st) with
      | ok r1 =>
        rw [type_extractor_loop_mono t fuel _ r1 hl]
        rw [hl] at h
        exact h
      | out_of_fuel => rw [hl] at h; simp at h
      | failed => rw [hl] at h; simp at h
    | predicate op pred ops =>
      obtain ⟨lhs, rhs, hops⟩ := visit_predicate_operands e fuel op pred ops s r h
      subst hops
      rw [visit_predicate_pair] at h ⊢
      cases h1 : visit e fuel lhs s with
      | ok s1 =>
        rw [h1] at h
        rw [ih lhs s s1 h1]
        simp only at h ⊢
        cases h2 : visit e fuel rhs s1 with
        | ok s2 =>
          rw [h2] at h
          rw [ih rhs s1 s2 h2]
          simp only at h ⊢
          by_cases hp : pred s1.result_ s2.result_ = true
          · rw [if_pos hp] at h ⊢
            exact h
          · rw [if_neg hp] at h ⊢
            cases hst : s2.extractor_state_ with
            | none => rw [hst] at h; exact h
            | some st =>
              rw [hst] at h
              simp only at h ⊢
              by_cases hc : (! st.complete) = true
              · rw [if_pos hc] at h ⊢
                exact ih _ s2 r h
              · rw [if_neg hc] at h ⊢
                exact h
        | out_of_fuel => rw [h2] at h; simp at h
        | failed => rw [h2] at h; simp at h
      | out_of_fuel => rw [h1] at h; simp at h
      | failed => rw [h1] at h; simp at h
    | conjunction ops =>
      rw [visit_conjunction] at h ⊢
      cases ha : all_of (operand_bool (visit e fuel)) ops s with
      | ok r1 =>
        rw [all_of_mono _ _ (operand_bool_mono _ _ ih) ops s r1 ha]
        rw [ha] at h
        exact h
      | out_of_fuel => rw [ha] at h; simp at h
      | failed => rw [ha] at h; simp at h
    | disjunction ops =>
      rw [visit_disjunction] at h ⊢
      cases ha : any_of (operand_bool (visit e fuel)) ops s with
      | ok r1 =>
        rw [any_of_mono _ _ (operand_bool_mono _ _ ih) ops s r1 ha]
        rw [ha] at h
        exact h
      | out_of_fuel => rw [ha] at h; simp at h
      | failed => rw [ha] at h; simp at h

theorem visit_mono_le (e : event) (n : node) (s r : evaluator) (fuel : Nat)
    (h : visit e fuel n s = outcome.ok r) :
    ∀ k, visit e (fuel + k) n s = outcome.ok r
  | 0 => h
  | k + 1 => visit_mono e (fuel + k) n s r (visit_mono_le e n s r fuel h k)

/-! ## Boolean nodes are evaluated independently of one another -/

theorem operand_bool_congr (p : node → evaluator → outcome evaluator) (n : node)
    (s s' : evaluator) (h : p n s = p n s') : operand_bool p n s = operand_bool p n s' := by
  unfold operand_bool
  rw [h]

/-- No visit reads `result_` before it writes it. -/
theorem visit_result_irrelevant (e : event) :
    ∀ (fuel : Nat) (n : node) (v w : value) (x : Option extractor_state),
      visit e fuel n ⟨v, x⟩ = visit e fuel n ⟨w, x⟩
  | 0, _, _, _, _ => rfl
  | fuel + 1, n, v, w, x => by
    have ih := visit_result_irrelevant e fuel
    cases n with
    | constant val => rfl
    | timestamp_extractor => rfl
    | name_extractor => rfl
    | id_extractor => rfl
    | offset_extractor ev off => rfl
    | type_extractor t => rfl
    | predicate op pred ops =>
      match ops with
      | [] => rfl
      | [_] => rfl
      | [lhs, rhs] =>
        rw [visit_predicate_pair, visit_predicate_pair, ih lhs v w x]
      | _ :: _ :: _ :: _ => rfl
    | conjunction ops =>
      rw [visit_conjunction, visit_conjunction]
      cases ops with
      | nil => rfl
      | cons n ns =>
        simp only [all_of]
        rw [operand_bool_congr _ n _ _ (ih n v w x)]
    | disjunction ops =>
      rw [visit_disjunction, visit_disjunction]
      cases ops with
      | nil => rfl
      | cons n ns =>
        simp only [any_of]
        rw [operand_bool_congr _ n _ _ (ih n v w x)]

/-- A predicate that returns leaves a bool and no extractor state. -/
theorem predicate_clean (e : event) (op : relational_operator)
    (pred : value → value → Bool) (ops : List node) :
    ∀ (fuel : Nat) (s r : evaluator),
      visit e fuel (node.predicate op pred ops) s = outcome.ok r →
      r.extractor_state_ = none
  | 0, s, r, h => by simp [visit] at h
  | fuel + 1, s, r, h => by
    obtain ⟨lhs, rhs, hops⟩ := visit_predicate_operands e fuel op pred ops s r h
    subst hops
    rw [visit_predicate_pair] at h
    cases h1 : visit e fuel lhs s with
    | ok s1 =>
      rw [h1] at h
      simp only at h
      cases h2 : visit e fuel rhs s1 with
      | ok s2 =>
        rw [h2] at h
        simp only at h
        by_cases hp : pred s1.result_ s2.result_ = true
        · rw [if_pos hp] at h
          cases h
          rfl
        · rw [if_neg hp] at h
          cases hst : s2.extractor_state_ with
          | none =>
            rw [hst] at h
            cases h
            rfl
          | some st =>
            rw [hst] at h
            simp only at h
            by_cases hc : (! st.complete) = true
            · rw [if_pos hc] at h
              exact predicate_clean e op pred _ fuel s2 r h
            · rw [if_neg hc] at h
              cases h
              rfl
      | out_of_fuel => rw [h2] at h; simp at h
      | failed => rw [h2] at h; simp at h
    | out_of_fuel => rw [h1] at h; simp at h
    | failed => rw [h1] at h; simp at h

theorem all_of_clean (p : node → evaluator → outcome (Bool × evaluator)) :
    ∀ (ops : List node) (s t : evaluator) (b : Bool),
      (∀ n, n ∈ ops → ∀ s c s1, s.extractor_state_ = none → p n s = outcome.ok (c, s1) →
        s1.extractor_state_ = none) →
      s.extractor_state_ = none → all_of p ops s = outcome.ok (b, t) →
      t.extractor_state_ = none
  | [], s, t, b, _, hs, h => by
    simp only [all_of, outcome.ok.injEq, Prod.mk.injEq] at h
    rw [← h.2]
    exact hs
  | n :: ns, s, t, b, hp, hs, h => by
    simp only [all_of] at h
    cases h1 : p n s with
    | ok r =>
      obtain ⟨c, s1⟩ := r
      rw [h1] at h
      have hs1 := hp n (List.mem_cons_self _ _) s c s1 hs h1
      cases c
      · simp only [outcome.ok.injEq, Prod.mk.injEq] at h
        rw [← h.2]
        exact hs1
      · exact all_of_clean p ns s1 t b
          (fun m hm => hp m (List.mem_cons_of_mem _ hm)) hs1 h
    | out_of_fuel => rw [h1] at h; simp at h
    | failed => rw [h1] at h; simp at h

theorem any_of_clean (p : node → evaluator → outcome (Bool × evaluator)) :
    ∀ (ops : List node) (s t : evaluator) (b : Bool),
      (∀ n, n ∈ ops → ∀ s c s1, s.extractor_state_ = none → p n s = outcome.ok (c, s1) →
        s1.extractor_state_ = none) →
      s.extractor_state_ = none → any_of p ops s = outcome.ok (b, t) →
      t.extractor_state_ = none
  | [], s, t, b, _, hs, h => by
    simp only [any_of, outcome.ok.injEq, Prod.mk.injEq] at h
    rw [← h.2]
    exact hs
  | n :: ns, s, t, b, hp, hs, h => by
    simp only [any_of] at h
    cases h1 : p n s with
    | ok r =>
      obtain ⟨c, s1⟩ := r
      rw [h1] at h
      have hs1 := hp n (List.mem_cons_self _ _) s c s1 hs h1
      cases c
      · exact any_of_clean p ns s1 t b
          (fun m hm => hp m (List.mem_cons_of_mem _ hm)) hs1 h
      · simp only [outcome.ok.injEq, Prod.mk.injEq] at h
        rw [← h.2]
        exact hs1
    | out_of_fuel => rw [h1] at h; simp at h
    | failed => rw [h1] at h; simp at h

/-- A boolean node visited without extractor state leaves none behind. -/
theorem boolean_clean (e : event) :
    ∀ (fuel : Nat) (n : node) (s r : evaluator), boolean_node n →
      s.extractor_state_ = none → visit e fuel n s = outcome.ok r →
      r.extractor_state_ = none
  | 0, n, s, r, _, _, h => by simp [visit] at h
  | fuel + 1, n, s, r, hn, hs, h => by
    have ih := boolean_clean e fuel
    cases hn with
    | predicate op pred ops => exact predicate_clean e op pred ops (fuel + 1) s r h
    | conjunction ops hops =>
      rw [visit_conjunction] at h
      cases ha : all_of (operand_bool (visit e fuel)) ops s with
      | ok r1 =>
        obtain ⟨b, t⟩ := r1
        rw [ha] at h
        cases h
        exact all_of_clean _ ops s t b
          (fun n hn s c s1 hs hp =>
            ih n s s1 (hops n hn) hs ((operand_bool_ok _ _ _ _ _).1 hp).1) hs ha
      | out_of_fuel => rw [ha] at h; simp at h
      | failed => rw [ha] at h; simp at h
    | disjunction ops hops =>
      rw [visit_disjunction] at h
      cases ha : any_of (operand_bool (visit e fuel)) ops s with
      | ok r1 =>
        obtain ⟨b, t⟩ := r1
        rw [ha] at h
        cases h
        exact any_of_clean _ ops s t b
          (fun n hn s c s1 hs hp =>
            ih n s s1 (hops n hn) hs ((operand_bool_ok _ _ _ _ _).1 hp).1) hs ha
      | out_of_fuel => rw [ha] at h; simp at h
      | failed => rw [ha] at h; simp at h

theorem evaluate_ok (fuel : Nat) (n : node) (e : event) (v : value) :
    evaluate fuel n e = outcome.ok v ↔
      ∃ r, visit e fuel n ⟨value.invalid, none⟩ = outcome.ok r ∧ r.result_ = v := by
  unfold evaluate
  cases h : visit e fuel n ⟨value.invalid, none⟩ with
  | ok r => simp
  | out_of_fuel => simp
  | failed => simp

/-- As an operand, a boolean node visited without extractor state yields what
its evaluation on its own returns. -/
theorem operand_standalone (e : event) (fuel : Nat) (n : node) (hn : boolean_node n)
    (s : evaluator) (hs : s.extractor_state_ = none) (b : Bool) (t : evaluator) :
    operand_bool (visit e fuel) n s = outcome.ok (b, t) ↔
      evaluate fuel n e = outcome.ok (value.bool b) ∧ t = ⟨value.bool b, none⟩ := by
  obtain ⟨v, x⟩ := s
  simp only at hs
  subst hs
  rw [operand_bool_ok, evaluate_ok, visit_result_irrelevant e fuel n v value.invalid none]
  constructor
  · rintro ⟨h1, h2⟩
    have hc := boolean_clean e fuel n _ t hn rfl h1
    have ht : t = ⟨value.bool b, none⟩ := by
      obtain ⟨tv, tx⟩ := t
      simp only at h2 hc
      rw [h2, hc]
    exact ⟨⟨t, h1, h2⟩, ht⟩
  · rintro ⟨⟨r, h1, h2⟩, ht⟩
    have hc := boolean_clean e fuel n _ r hn rfl h1
    have hr : r = t := by
      obtain ⟨rv, rx⟩ := r
      simp only at h2 hc
      rw [h2, hc, ht]
    rw [← hr]
    exact ⟨h1, h2⟩

/-- Boolean operands all yield `b` in sequence iff each of them evaluates to
`b` on its own. -/
theorem each_yields_standalone (e : event) (fuel : Nat) (b : Bool) :
    ∀ (ops : List node), (∀ n, n ∈ ops → boolean_node n) →
      ∀ (s : evaluator), s.extractor_state_ = none →
      ((∃ t, each_yields (operand_bool (visit e fuel)) b ops s t) ↔
        ∀ n, n ∈ ops → evaluate fuel n e = outcome.ok (value.bool b)) ∧
      (∀ t, each_yields (operand_bool (visit e fuel)) b ops s t →
        t.extractor_state_ = none)
  | [], _, s, hs => by
    refine ⟨⟨fun _ n hn => (nomatch hn), fun _ => ⟨s, each_yields.nil s⟩⟩, ?_⟩
    intro t ht
    cases ht
    exact hs
  | n :: ns, hops, s, hs => by
    have hn := hops n (List.mem_cons_self _ _)
    have hns : ∀ m, m ∈ ns → boolean_node m := fun m hm => hops m (List.mem_cons_of_mem _ hm)
    refine ⟨⟨?_, ?_⟩, ?_⟩
    · rintro ⟨t, ht⟩
      cases ht with
      | cons hp hrest =>
        obtain ⟨h1, h2⟩ := (operand_standalone e fuel n hn s hs b _).1 hp
        subst h2
        intro m hm
        rcases List.mem_cons.1 hm with h | h
        · rw [h]; exact h1
        · exact ((each_yields_standalone e fuel b ns hns _ rfl).1.1 ⟨t, hrest⟩) m h
    · intro h
      have h1 := h n (List.mem_cons_self _ _)
      obtain ⟨t, ht⟩ := (each_yields_standalone e fuel b ns hns ⟨value.bool b, none⟩ rfl).1.2
        (fun m hm => h m (List.mem_cons_of_mem _ hm))
      exact ⟨t, each_yields.cons ((operand_standalone e fuel n hn s hs b _).2 ⟨h1, rfl⟩) ht⟩
    · intro t ht
      cases ht with
      | cons hp hrest =>
        obtain ⟨_, h2⟩ := (operand_standalone e fuel n hn s hs b _).1 hp
        subst h2
        exact (each_yields_standalone e fuel b ns hns _ rfl).2 t hrest

theorem evaluate_mono (n : node) (e : event) (v : value) (fuel : Nat)
    (h : evaluate fuel n e = outcome.ok v) (k : Nat) :
    evaluate (fuel + k) n e = outcome.ok v := by
  rw [evaluate_ok] at h ⊢
  obtain ⟨r, h1, h2⟩ := h
  exact ⟨r, visit_mono_le e n _ r fuel h1 k, h2⟩

/-- Finitely many evaluations that return do so with one common fuel. -/
theorem evaluates_common_fuel (e : event) (b : Bool) :
    ∀ ops : List node, (∀ n, n ∈ ops → evaluates e n (value.bool b)) →
      ∃ fuel, ∀ n, n ∈ ops → evaluate fuel n e = outcome.ok (value.bool b)
  | [], _ => ⟨0, fun _ hn => nomatch hn⟩
  | n :: ns, h => by
    obtain ⟨f1, h1⟩ := h n (List.mem_cons_self _ _)
    obtain ⟨f2, h2⟩ := evaluates_common_fuel e b ns
      (fun m hm => h m (List.mem_cons_of_mem _ hm))
    refine ⟨f1 + f2, fun m hm => ?_⟩
    rcases List.mem_cons.1 hm with hm1 | hm1
    · rw [hm1]
      exact evaluate_mono n e _ f1 h1 f2
    · rw [Nat.add_comm]
      exact evaluate_mono m e _ f2 (h2 m hm1) f1

/-- An evaluation returns at most one value. -/
theorem evaluates_unique (e : event) (n : node) (v w : value)
    (hv : evaluates e n v) (hw : evaluates e n w) : v = w := by
  obtain ⟨f1, h1⟩ := hv
  obtain ⟨f2, h2⟩ := hw
  have a := evaluate_mono n e v f1 h1 f2
  have b := evaluate_mono n e w f2 h2 f1
  rw [Nat.add_comm] at b
  rw [a] at b
  cases b
  rfl

theorem evaluate_bool_ok (fuel : Nat) (n : node) (e : event) (b : Bool) :
    evaluate fuel n e = outcome.ok (value.bool b) ↔
      ∃ x, visit e fuel n ⟨value.invalid, none⟩ = outcome.ok ⟨value.bool b, x⟩ := by
  rw [evaluate_ok]
  constructor
  · rintro ⟨r, h1, h2⟩
    obtain ⟨rv, rx⟩ := r
    simp only at h2
    subst h2
    exact ⟨rx, h1⟩
  · rintro ⟨x, h⟩
    exact ⟨_, h, rfl⟩

theorem evaluate_zero (n : node) (e : event) (v : value) :
    evaluate 0 n e ≠ outcome.ok v := by
  simp [evaluate, visit]

/-- With a fixed fuel: a conjunction of boolean nodes returns true iff each
operand returns true. -/
theorem conjunction_true_fuel (e : event) (fuel : Nat) (ops : List node)
    (hops : ∀ n, n ∈ ops → boolean_node n) :
    evaluate (fuel + 1) (node.conjunction ops) e = outcome.ok (value.bool true) ↔
      ∀ n, n ∈ ops → evaluate fuel n e = outcome.ok (value.bool true) := by
  rw [evaluate_bool_ok,
    ← (each_yields_standalone e fuel true ops hops ⟨value.invalid, none⟩ rfl).1]
  constructor
  · rintro ⟨x, h⟩
    obtain ⟨t, h1, _⟩ := (visit_conjunction_ok e fuel ops _ true x).1 h
    exact ⟨t, (all_of_true_iff _ ops _ t).1 h1⟩
  · rintro ⟨t, h⟩
    exact ⟨t.extractor_state_, (visit_conjunction_ok e fuel ops _ true _).2
      ⟨t, (all_of_true_iff _ ops _ t).2 h, rfl⟩⟩

/-- With a fixed fuel: a disjunction of boolean nodes returns false iff each
operand returns false. -/
theorem disjunction_false_fuel (e : event) (fuel : Nat) (ops : List node)
    (hops : ∀ n, n ∈ ops → boolean_node n) :
    evaluate (fuel + 1) (node.disjunction ops) e = outcome.ok (value.bool false) ↔
      ∀ n, n ∈ ops → evaluate fuel n e = outcome.ok (value.bool false) := by
  rw [evaluate_bool_ok,
    ← (each_yields_standalone e fuel false ops hops ⟨value.invalid, none⟩ rfl).1]
  constructor
  · rintro ⟨x, h⟩
    obtain ⟨t, h1, _⟩ := (visit_disjunction_ok e fuel ops _ false x).1 h
    exact ⟨t, (any_of_false_iff _ ops _ t).1 h1⟩
  · rintro ⟨t, h⟩
    exact ⟨t.extractor_state_, (visit_disjunction_ok e fuel ops _ false _).2
      ⟨t, (any_of_false_iff _ ops _ t).2 h, rfl⟩⟩

/-- With a fixed fuel: a conjunction of boolean nodes returns false iff its
operands return true up to one that returns false. -/
theorem conjunction_false_fuel (e : event) (fuel : Nat) (ops : List node)
    (hops : ∀ n, n ∈ ops → boolean_node n) :
    evaluate (fuel + 1) (node.conjunction ops) e = outcome.ok (value.bool false) ↔
      ∃ pre n post, ops = pre ++ n :: post ∧
        (∀ m, m ∈ pre → evaluate fuel m e = outcome.ok (value.bool true)) ∧
        evaluate fuel n e = outcome.ok (value.bool false) := by
  rw [evaluate_bool_ok]
  constructor
  · rintro ⟨x, h⟩
    obtain ⟨t, h1, _⟩ := (visit_conjunction_ok e fuel ops _ false x).1 h
    obtain ⟨pre, n, post, s1, e1, e2, e3⟩ := (all_of_false_iff _ ops _ t).1 h1
    have hpre : ∀ m, m ∈ pre → boolean_node m := fun m hm =>
      hops m (by rw [e1]; exact List.mem_append_left _ hm)
    have hn : boolean_node n := hops n (by rw [e1]; simp)
    have hs := each_yields_standalone e fuel true pre hpre ⟨value.invalid, none⟩ rfl
    exact ⟨pre, n, post, e1, hs.1.1 ⟨s1, e2⟩,
      ((operand_standalone e fuel n hn s1 (hs.2 s1 e2) false t).1 e3).1⟩
  · rintro ⟨pre, n, post, e1, e2, e3⟩
    have hpre : ∀ m, m ∈ pre → boolean_node m := fun m hm =>
      hops m (by rw [e1]; exact List.mem_append_left _ hm)
    have hn : boolean_node n := hops n (by rw [e1]; simp)
    have hs := each_yields_standalone e fuel true pre hpre ⟨value.invalid, none⟩ rfl
    obtain ⟨s1, h1⟩ := hs.1.2 e2
    have h2 := (operand_standalone e fuel n hn s1 (hs.2 s1 h1) false _).2 ⟨e3, rfl⟩
    rw [e1]
    exact ⟨none, (visit_conjunction_ok e fuel _ _ false _).2
      ⟨_, all_of_short_circuit _ pre n post _ s1 _ h1 h2, rfl⟩⟩

/-- With a fixed fuel: a disjunction of boolean nodes returns true iff its
operands return false up to one that returns true. -/
theorem disjunction_true_fuel (e : event) (fuel : Nat) (ops : List node)
    (hops : ∀ n, n ∈ ops → boolean_node n) :
    evaluate (fuel + 1) (node.disjunction ops) e = outcome.ok (value.bool true) ↔
      ∃ pre n post, ops = pre ++ n :: post ∧
        (∀ m, m ∈ pre → evaluate fuel m e = outcome.ok (value.bool false)) ∧
        evaluate fuel n e = outcome.ok (value.bool true) := by
  rw [evaluate_bool_ok]
  constructor
  · rintro ⟨x, h⟩
    obtain ⟨t, h1, _⟩ := (visit_disjunction_ok e fuel ops _ true x).1 h
    obtain ⟨pre, n, post, s1, e1, e2, e3⟩ := (any_of_true_iff _ ops _ t).1 h1
    have hpre : ∀ m, m ∈ pre → boolean_node m := fun m hm =>
      hops m (by rw [e1]; exact List.mem_append_left _ hm)
    have hn : boolean_node n := hops n (by rw [e1]; simp)
    have hs := each_yields_standalone e fuel false pre hpre ⟨value.invalid, none⟩ rfl
    exact ⟨pre, n, post, e1, hs.1.1 ⟨s1, e2⟩,
      ((operand_standalone e fuel n hn s1 (hs.2 s1 e2) true t).1 e3).1⟩
  · rintro ⟨pre, n, post, e1, e2, e3⟩
    have hpre : ∀ m, m ∈ pre → boolean_node m := fun m hm =>
      hops m (by rw [e1]; exact List.mem_append_left _ hm)
    have hn : boolean_node n := hops n (by rw [e1]; simp)
    have hs := each_yields_standalone e fuel false pre hpre ⟨value.invalid, none⟩ rfl
    obtain ⟨s1, h1⟩ := hs.1.2 e2
    have h2 := (operand_standalone e fuel n hn s1 (hs.2 s1 h1) true _).2 ⟨e3, rfl⟩
    rw [e1]
    exact ⟨none, (visit_disjunction_ok e fuel _ _ true _).2
      ⟨_, any_of_short_circuit _ pre n post _ s1 _ h1 h2, rfl⟩⟩

theorem evaluates_succ (e : event) (n : node) (v : value) (h : evaluates e n v) :
    ∃ fuel, evaluate (fuel + 1) n e = outcome.ok v := by
  obtain ⟨fuel, hf⟩ := h
  cases fuel with
  | zero => exact absurd hf (evaluate_zero n e v)
  | succ k => exact ⟨k, hf⟩

/-- Operands that return false up to one that returns true do so with one
common fuel. -/
theorem prefix_common_fuel (e : event) (b : Bool) (pre : List node) (n : node)
    (hpre : ∀ m, m ∈ pre → evaluates e m (value.bool b))
    (hn : evaluates e n (value.bool (!b))) :
    ∃ fuel, (∀ m, m ∈ pre → evaluate fuel m e = outcome.ok (value.bool b)) ∧
      evaluate fuel n e = outcome.ok (value.bool (!b)) := by
  obtain ⟨f1, h1⟩ := evaluates_common_fuel e b pre hpre
  obtain ⟨f2, h2⟩ := hn
  refine ⟨f1 + f2, fun m hm => evaluate_mono m e _ f1 (h1 m hm) f2, ?_⟩
  rw [Nat.add_comm]
  exact evaluate_mono n e _ f2 h2 f1

/-- Among operands that all return a bool, the first one that returns true is
preceded by operands that return false. -/
theorem first_true (e : event) :
    ∀ ops : List node, (∀ n, n ∈ ops → ∃ b, evaluates e n (value.bool b)) →
      (∃ n, n ∈ ops ∧ evaluates e n (value.bool true)) →
      ∃ pre n post, ops = pre ++ n :: post ∧
        (∀ m, m ∈ pre → evaluates e m (value.bool false)) ∧
        evaluates e n (value.bool true)
  | [], _, h => by
    obtain ⟨n, hn, _⟩ := h
    cases hn
  | a :: l, htot, h => by
    obtain ⟨b, hb⟩ := htot a (List.mem_cons_self _ _)
    cases b
    · obtain ⟨n, hn, hnt⟩ := h
      have hnl : n ∈ l := by
        rcases List.mem_cons.1 hn with h1 | h1
        · rw [h1] at hnt
          have := evaluates_unique e a _ _ hb hnt
          cases this
        · exact h1
      obtain ⟨pre, m, post, e1, e2, e3⟩ := first_true e l
        (fun k hk => htot k (List.mem_cons_of_mem _ hk)) ⟨n, hnl, hnt⟩
      refine ⟨a :: pre, m, post, by rw [e1]; rfl, ?_, e3⟩
      intro k hk
      rcases List.mem_cons.1 hk with h1 | h1
      · rw [h1]; exact hb
      · exact e2 k h1
    · exact ⟨[], a, l, rfl, fun _ hm => (nomatch hm), hb⟩

/-! # The claims on the per-event evaluator -/

/-- C8, at its failing input: the event's only argument is the record
`(1, 42)`, the query is `:int == 42`. The value 42 is a set int in the record
tree (at offset `0,1`) and satisfies the predicate function of `=`, yet the
evaluation returns false, with any amount of fuel: the type extractor raises
`complete` when it enters the last element of the top-most record, before it
has walked the nested record. -/
theorem type_extractor_misses_nested_value :
    (∀ fuel, evaluate (fuel + 4)
        (equal_predicate (node.type_extractor value_type.int_value)
          (node.constant (value.int 42)))
        ⟨1, 0, "foo", [value.record [value.int 1, value.int 42]]⟩ =
      outcome.ok (value.bool false)) ∧
    record_at [value.record [value.int 1, value.int 42]] [0, 1] = some (value.int 42) ∧
    (value.int 42).engaged = true ∧
    (value.int 42).which = value_type.int_value ∧
    value.equals (value.int 42) (value.int 42) = true :=
  ⟨fun _ => rfl, rfl, rfl, rfl, by decide⟩

/-- C9, at its failing input: `visit(offset_extractor const&)` never looks at
the event name of the extractor. Whatever the names, it yields the value at
the offset, or invalid when there is none; for the event named `bar` with the
argument 42, the extractor for offset 0 of events named `foo` yields 42. -/
theorem offset_extractor_ignores_event_name :
    (∀ (fuel : Nat) (e : event) (name : String) (off : List Nat),
      evaluate (fuel + 1) (node.offset_extractor name off) e =
        outcome.ok ((record_at e.args off).getD value.invalid)) ∧
    evaluate 1 (node.offset_extractor "foo" [0]) ⟨1, 0, "bar", [value.int 42]⟩ =
      outcome.ok (value.int 42) := by
  refine ⟨fun fuel e name off => ?_, rfl⟩
  simp only [evaluate, visit]
  cases record_at e.args off <;> rfl

/-! # Predicate functions and comparisons of values -/

/-- Of two characters one is less than the other as a `char`, or they are the
same. -/
theorem char_less_total (a b : Char) :
    (char_less a b = true ∧ a ≠ b ∧ char_less b a = false) ∨
      (char_less a b = false ∧ a = b ∧ char_less b a = false) ∨
      (char_less a b = false ∧ a ≠ b ∧ char_less b a = true) := by
  have heq : a = b ↔ a.toNat = b.toNat :=
    ⟨fun h => by rw [h], fun h => Char.ext (UInt32.ext (by simpa [Char.toNat] using h))⟩
  have hne : a ≠ b ↔ a.toNat ≠ b.toNat := not_congr heq
  rw [hne, heq]
  unfold char_less
  by_cases ha : a.toNat < 128 <;> by_cases hb : b.toNat < 128 <;>
    simp only [ha, hb, if_true, if_false, decide_True, decide_False, Bool.true_and,
      Bool.false_and, Bool.true_or, Bool.false_or, decide_eq_true_eq, decide_eq_false_iff_not,
      Bool.false_eq_true, Bool.true_eq_false, false_and, and_false, true_and, and_true,
      false_or, or_false] <;>
    omega

/-- No string is less than itself. -/
theorem string_less_irrefl : ∀ a : List Char, string_less a a = false
  | [] => rfl
  | c :: cs => by
    have hc : char_less c c = false := by
      rcases char_less_total c c with ⟨_, h, _⟩ | ⟨h, _, _⟩ | ⟨_, h, _⟩
      · exact absurd rfl h
      · exact h
      · exact absurd rfl h
    rw [string_less, hc]
    simp only [Bool.false_eq_true, if_false]
    exact string_less_irrefl cs

/-- Of two strings one is less than the other, or they are the same. -/
theorem string_less_total :
    ∀ a b : List Char,
      (string_less a b = true ∧ decide (a = b) = false ∧ string_less b a = false) ∨
        (string_less a b = false ∧ decide (a = b) = true ∧ string_less b a = false) ∨
        (string_less a b = false ∧ decide (a = b) = false ∧ string_less b a = true)
  | [], [] => Or.inr (Or.inl ⟨rfl, rfl, rfl⟩)
  | [], _ :: _ => Or.inl ⟨rfl, rfl, rfl⟩
  | _ :: _, [] => Or.inr (Or.inr ⟨rfl, rfl, rfl⟩)
  | c :: cs, d :: ds => by
    have ih := string_less_total cs ds
    rw [string_less, string_less]
    rcases char_less_total c d with ⟨h1, h2, h3⟩ | ⟨h1, h2, h3⟩ | ⟨h1, h2, h3⟩
    · left
      rw [h1, h3]
      refine ⟨rfl, ?_, rfl⟩
      simp [h2]
    · subst h2
      rw [h1]
      simp only [Bool.false_eq_true, if_false, List.cons.injEq, true_and]
      exact ih
    · right; right
      rw [h1, h3]
      refine ⟨rfl, ?_, rfl⟩
      simp [h2]

/-- Values of different discriminants are not equal. -/
theorem value.equals_which {x y : value} (h : x.which ≠ y.which) :
    value.equals x y = false := by
  cases x <;> cases y <;> first
    | rfl
    | (exfalso; exact h rfl)
    | (simp only [value.which] at h; show decide (_ = _) = false; simpa using h)

/-- Values of different discriminants are not ordered. -/
theorem value.less_which {x y : value} (h : x.which ≠ y.which) :
    value.less x y = false := by
  cases x <;> cases y <;> first
    | rfl
    | (exfalso; exact h rfl)

mutual
/-- A value equals itself. -/
theorem value.equals_refl : ∀ x : value, value.equals x x = true
  | .invalid => rfl
  | .nil t => by show decide (t = t) = true; simp
  | .bool b => by show decide (b = b) = true; simp
  | .int a => by show decide (a = a) = true; simp
  | .uint a => by show decide (a = a) = true; simp
  | .double a => by show decide (a = a) = true; simp
  | .time_range a => by show decide (a = a) = true; simp
  | .time_point a => by show decide (a = a) = true; simp
  | .string a => by show decide (a = a) = true; simp
  | .regex a => by show decide (a = a) = true; simp
  | .address a => by show decide (a = a) = true; simp
  | .pfx a l => by show decide (a = a ∧ l = l) = true; simp
  | .port a t => by show decide (a = a ∧ t = t) = true; simp
  | .record xs => value.equals_list_refl xs
  | .vector xs => value.equals_list_refl xs
  | .set xs => value.equals_list_refl xs
  | .table xs => value.equals_pairs_refl xs
/-- A sequence of values equals itself. -/
theorem value.equals_list_refl : ∀ xs : List value, value.equals_list xs xs = true
  | [] => rfl
  | x :: xs => by
    show (value.equals x x && value.equals_list xs xs) = true
    rw [value.equals_refl x, value.equals_list_refl xs]
    rfl
/-- A sequence of pairs of values equals itself. -/
theorem value.equals_pairs_refl :
    ∀ xs : List (value × value), value.equals_pairs xs xs = true
  | [] => rfl
  | (k, v) :: xs => by
    show (value.equals k k && value.equals v v && value.equals_pairs xs xs) = true
    rw [value.equals_refl k, value.equals_refl v, value.equals_pairs_refl xs]
    rfl
end

mutual
/-- No value is less than itself. -/
theorem value.less_irrefl : ∀ x : value, value.less x x = false
  | .invalid => rfl
  | .nil _ => rfl
  | .bool b => by cases b <;> rfl
  | .int a => by show decide (a < a) = false; simp
  | .uint a => by show decide (a < a) = false; simp
  | .double a => by show decide (a < a) = false; simp
  | .time_range a => by show decide (a < a) = false; simp
  | .time_point a => by show decide (a < a) = false; simp
  | .string a => string_less_irrefl a.data
  | .regex a => by show decide (a < a) = false; simp [String.lt_irrefl]
  | .address a => by show decide (a < a) = false; simp
  | .pfx a l => by show decide (a < a ∨ (a = a ∧ l < l)) = false; simp
  | .port a t => by show decide (a < a ∨ (a = a ∧ t < t)) = false; simp
  | .record xs => value.less_list_irrefl xs
  | .vector xs => value.less_list_irrefl xs
  | .set xs => value.less_list_irrefl xs
  | .table xs => value.less_pairs_irrefl xs
/-- No sequence of values is less than itself. -/
theorem value.less_list_irrefl : ∀ xs : List value, value.less_list xs xs = false
  | [] => rfl
  | x :: xs => by
    show (value.less x x || (value.equals x x && value.less_list xs xs)) = false
    rw [value.less_irrefl x, value.less_list_irrefl xs]
    simp
/-- No sequence of pairs of values is less than itself. -/
theorem value.less_pairs_irrefl :
    ∀ xs : List (value × value), value.less_pairs xs xs = false
  | [] => rfl
  | (k, v) :: xs => by
    show (value.less k k ||
      (value.equals k k && (value.less v v || (value.equals v v && value.less_pairs xs xs))))
        = false
    rw [value.less_irrefl k, value.less_irrefl v, value.less_pairs_irrefl xs]
    simp
end

/-! ## Claims on the predicate functions -/

/-- C20: values of different discriminants are neither equal nor ordered, and
only `!=` holds of them; a value compared with a value of the same discriminant
and equal payload, that is with itself, is `==`, `<=` and `>=` but not `!=`, `<`
or `>`. The comparisons are the functions `make_predicate` builds for the six
operators. -/
theorem comparison_by_discriminant (rx : regex_engine) (x y : value) :
    (x.which ≠ y.which →
      make_predicate rx relational_operator.equal x y = false ∧
      make_predicate rx relational_operator.less x y = false ∧
      make_predicate rx relational_operator.greater x y = false ∧
      make_predicate rx relational_operator.less_equal x y = false ∧
      make_predicate rx relational_operator.greater_equal x y = false ∧
      make_predicate rx relational_operator.not_equal x y = true) ∧
    (make_predicate rx relational_operator.equal x x = true ∧
      make_predicate rx relational_operator.less_equal x x = true ∧
      make_predicate rx relational_operator.greater_equal x x = true ∧
      make_predicate rx relational_operator.not_equal x x = false ∧
      make_predicate rx relational_operator.less x x = false ∧
      make_predicate rx relational_operator.greater x x = false) := by
  refine ⟨fun h => ?_, ?_⟩
  · have e1 := value.equals_which h
    have l1 := value.less_which h
    have l2 := value.less_which (Ne.symm h)
    simp [make_predicate, value.less_equal, value.greater_equal, value.greater,
      value.not_equals, e1, l1, l2]
  · simp [make_predicate, value.less_equal, value.greater_equal, value.greater,
      value.not_equals, value.equals_refl x, value.less_irrefl x]

/-- C20 at a string and an int, and at a string and the invalid value: the
cases of the unit test `relational_operators`. -/
theorem comparison_by_discriminant_witness :
    (value.string "foo").which ≠ (value.int 42).which ∧
    (make_predicate no_regex relational_operator.equal (value.string "foo") (value.int 42)
        = false ∧
      make_predicate no_regex relational_operator.less (value.string "foo") (value.int 42)
        = false ∧
      make_predicate no_regex relational_operator.greater (value.string "foo") (value.int 42)
        = false ∧
      make_predicate no_regex relational_operator.less_equal (value.string "foo")
        (value.int 42) = false ∧
      make_predicate no_regex relational_operator.greater_equal (value.string "foo")
        (value.int 42) = false ∧
      make_predicate no_regex relational_operator.not_equal (value.string "foo")
        (value.int 42) = true) :=
  ⟨by decide,
    (comparison_by_discriminant no_regex (value.string "foo") (value.int 42)).1 (by decide)⟩

/-- C18: for two strings the function of `in` is the position that
`rhs.find(lhs)` returns, converted to `bool`: it is false for "a" in "a",
although "a" occurs in "a" (at position 0), and true for "b" in "a", although
"b" does not occur in "a" (`find` returns `npos`); `ni` is the same with the
operands exchanged, and `!in` and `!ni` are the negations. -/
theorem in_of_strings_is_position_as_bool (rx : regex_engine) :
    string_find "a".data "a".data string_npos = 0 ∧
    List.IsInfix "a".data "a".data ∧
    make_predicate rx relational_operator.in_op (value.string "a") (value.string "a")
      = false ∧
    make_predicate rx relational_operator.ni (value.string "a") (value.string "a")
      = false ∧
    make_predicate rx relational_operator.not_in (value.string "a") (value.string "a")
      = true ∧
    make_predicate rx relational_operator.not_ni (value.string "a") (value.string "a")
      = true ∧
    string_find "a".data "b".data string_npos = string_npos ∧
    ¬ List.IsInfix "b".data "a".data ∧
    make_predicate rx relational_operator.in_op (value.string "b") (value.string "a")
      = true ∧
    make_predicate rx relational_operator.ni (value.string "a") (value.string "b")
      = true ∧
    make_predicate rx relational_operator.not_in (value.string "b") (value.string "a")
      = false ∧
    make_predicate rx relational_operator.not_ni (value.string "a") (value.string "b")
      = false := by
  refine ⟨by decide, ⟨[], [], rfl⟩, rfl, rfl, rfl, rfl, by decide, ?_, rfl, rfl, rfl, rfl⟩
  rintro ⟨s, t, h⟩
  have hl := congrArg List.length h
  simp at hl
  obtain ⟨hs, ht⟩ : s = [] ∧ t = [] := by
    constructor
    · exact List.length_eq_zero.mp (by omega)
    · exact List.length_eq_zero.mp (by omega)
  subst hs; subst ht
  simp at h

/-! # Splitting an AST into its predicates -/

mutual
/-- The predicator only appends to the vector it is given. -/
theorem predicator_visit_append :
    ∀ (n : node) (acc : List node), predicator.visit n acc = acc ++ predicator.visit n []
  | node.conjunction operands, acc => predicator_visit_operands_append operands acc
  | node.disjunction operands, acc => predicator_visit_operands_append operands acc
  | node.predicate _ _ _, _ => rfl
  | node.constant _, acc => (List.append_nil acc).symm
  | node.timestamp_extractor, acc => (List.append_nil acc).symm
  | node.name_extractor, acc => (List.append_nil acc).symm
  | node.id_extractor, acc => (List.append_nil acc).symm
  | node.offset_extractor _ _, acc => (List.append_nil acc).symm
  | node.type_extractor _, acc => (List.append_nil acc).symm
/-- The loop over the operands only appends to the vector it is given. -/
theorem predicator_visit_operands_append :
    ∀ (operands acc : List node),
      predicator.visit_operands operands acc = acc ++ predicator.visit_operands operands []
  | [], acc => (List.append_nil acc).symm
  | op :: operands, acc => by
    show predicator.visit_operands operands (predicator.visit op acc) =
      acc ++ predicator.visit_operands operands (predicator.visit op [])
    rw [predicator_visit_operands_append operands (predicator.visit op acc),
      predicator_visit_operands_append operands (predicator.visit op []),
      predicator_visit_append op acc, List.append_assoc]
end

/-- C19: `predicatize` lists the predicates of an AST from left to right,
descending through conjunctions and disjunctions only: nothing for an AST
without a node or for a constant or an extractor, the predicate itself (once,
whatever its operands are) for a predicate, and for a conjunction or
disjunction the predicates of its first operand followed by those of the
remaining operands. -/
theorem predicatize_lists_predicates :
    predicatize none = [] ∧
    (∀ op pred operands,
      predicatize (some (node.predicate op pred operands)) =
        [node.predicate op pred operands]) ∧
    predicatize (some (node.conjunction [])) = [] ∧
    predicatize (some (node.disjunction [])) = [] ∧
    (∀ n operands,
      predicatize (some (node.conjunction (n :: operands))) =
        predicatize (some n) ++ predicatize (some (node.conjunction operands))) ∧
    (∀ n operands,
      predicatize (some (node.disjunction (n :: operands))) =
        predicatize (some n) ++ predicatize (some (node.disjunction operands))) ∧
    (∀ val, predicatize (some (node.constant val)) = []) ∧
    predicatize (some node.timestamp_extractor) = [] ∧
    predicatize (some node.name_extractor) = [] ∧
    predicatize (some node.id_extractor) = [] ∧
    (∀ event off, predicatize (some (node.offset_extractor event off)) = []) ∧
    (∀ type, predicatize (some (node.type_extractor type)) = []) := by
  refine ⟨rfl, fun _ _ _ => rfl, rfl, rfl, fun n operands => ?_, fun n operands => ?_,
    fun _ => rfl, rfl, rfl, rfl, fun _ _ => rfl, fun _ => rfl⟩
  · show predicator.visit_operands operands (predicator.visit n []) =
      predicator.visit n [] ++ predicator.visit_operands operands []
    exact predicator_visit_operands_append operands _
  · show predicator.visit_operands operands (predicator.visit n []) =
      predicator.visit n [] ++ predicator.visit_operands operands []
    exact predicator_visit_operands_append operands _

/-! # Normalization -/

/-- Adding nodes to a conjunction one by one appends them to its operands. -/
theorem foldl_add_conjunction (ns operands : List node) :
    ns.foldl node.add (node.conjunction operands) = node.conjunction (operands ++ ns) := by
  induction ns generalizing operands with
  | nil => simp
  | cons n ns ih =>
    show ns.foldl node.add (node.conjunction (operands ++ [n])) = _
    rw [ih]; simp

/-- Adding nodes to a disjunction one by one appends them to its operands. -/
theorem foldl_add_disjunction (ns operands : List node) :
    ns.foldl node.add (node.disjunction operands) = node.disjunction (operands ++ ns) := by
  induction ns generalizing operands with
  | nil => simp
  | cons n ns ih =>
    show ns.foldl node.add (node.disjunction (operands ++ [n])) = _
    rw [ih]; simp

/-- The loop that fills the disjunction of a schema predicate adds one node for
each offset, in order. -/
theorem foldl_add_map {α : Type} (f : α → node) (l : List α) (operands : List node) :
    l.foldl (fun disj p => disj.add (f p)) (node.disjunction operands) =
      node.disjunction (operands ++ l.map f) := by
  induction l generalizing operands with
  | nil => simp
  | cons a l ih =>
    show l.foldl (fun disj p => disj.add (f p)) (node.disjunction (operands ++ [f a])) = _
    rw [ih]; simp

/-- The visitor either adds the node of the predicate to its parent or sets
the error, and leaves `invert_` false. -/
theorem visit_eq_emit {τ : Type} (rx : regex_engine) (S : schema τ) :
    ∀ (p : query_predicate) (v : expressionizer τ),
      expressionizer.visit rx S p v = v.after (emit rx S v.invert_ p)
  | .tag_predicate lhs op rhs, v => by cases lhs <;> rfl
  | .type_predicate lhs op rhs, v => rfl
  | .offset_predicate event off op rhs, v => rfl
  | .schema_predicate lhs op rhs, v => by
    rw [expressionizer.visit, emit]
    cases hoffs : S.find_offsets lhs with
    | nil => rfl
    | cons p0 offs =>
      dsimp only
      cases hfind : ((p0 :: offs).map (fun p => S.find_type p.1 p.2)).find?
          (fun t => ! S.represents t (S.find_type p0.1 p0.2)) with
      | some t => rfl
      | none =>
        dsimp only
        rw [foldl_add_map]
        rfl
  | .negated_predicate operand, v => by
    rw [expressionizer.visit, visit_eq_emit rx S operand, emit]
    rfl

/-- The loop over the tails of a term adds the nodes of their predicates in
order, and returns the first error. -/
theorem visit_rest_eq {τ : Type} (rx : regex_engine) (S : schema τ) :
    ∀ (rest : List query_operation) (v : expressionizer τ),
      v.invert_ = false → v.error_ = none →
      visit_rest rx S rest v =
        (emit_all rx S (rest.map (fun pred => pred.operand))).map
          (fun ns => ns.foldl node.add v.parent_)
  | [], v, _, _ => rfl
  | pred :: rest, v, hi, he => by
    obtain ⟨parent, invert, err⟩ := v
    dsimp only at hi he
    subst hi; subst he
    rw [visit_rest, visit_eq_emit]
    show _ = (emit_all rx S (pred.operand :: rest.map (fun pred => pred.operand))).map _
    rw [emit_all]
    cases hp : emit rx S false pred.operand with
    | error err => rfl
    | ok n =>
      show visit_rest rx S rest ⟨parent.add n, false, none⟩ = _
      rw [visit_rest_eq rx S rest ⟨parent.add n, false, none⟩ rfl rfl]
      cases emit_all rx S (rest.map (fun pred => pred.operand)) with
      | error err => rfl
      | ok ns => rfl

/-- A new visitor on a term adds the nodes of the predicates of the term to
`local_root` in order, and returns the first error. -/
theorem visit_ands_eq {τ : Type} (rx : regex_engine) (S : schema τ) (ands : query)
    (local_root : node) :
    visit_ands rx S ands local_root =
      (emit_all rx S ands.predicates).map (fun ns => ns.foldl node.add local_root) := by
  rw [visit_ands, visit_eq_emit]
  show _ = (emit_all rx S (ands.first :: ands.rest.map (fun pred => pred.operand))).map _
  rw [emit_all]
  cases hp : emit rx S false ands.first with
  | error err => rfl
  | ok n =>
    show visit_rest rx S ands.rest ⟨local_root.add n, false, none⟩ = _
    rw [visit_rest_eq rx S ands.rest ⟨local_root.add n, false, none⟩ rfl rfl]
    cases emit_all rx S (ands.rest.map (fun pred => pred.operand)) with
    | error err => rfl
    | ok ns => rfl

/-- The loop over the terms, entered with a disjunction as the root, adds the
operand of each term to it. -/
theorem apply_ors_disjunction {τ : Type} (rx : regex_engine) (S : schema τ) :
    ∀ (ors : List query) (operands : List node),
      apply_ors rx S ors (some (node.disjunction operands)) =
        (emit_terms rx S ors).map (fun ms => some (node.disjunction (operands ++ ms)))
  | [], operands => by
    show Except.ok (some (node.disjunction operands)) =
      Except.ok (some (node.disjunction (operands ++ [])))
    rw [List.append_nil]
  | ands :: ors, operands => by
    rw [apply_ors, emit_terms]
    cases hr : ands.rest.isEmpty with
    | true =>
      simp only [Bool.not_true, Bool.false_eq_true, if_false, if_true]
      rw [visit_ands_eq]
      cases hall : emit_all rx S ands.predicates with
      | error err => rfl
      | ok ns =>
        show apply_ors rx S ors (some (ns.foldl node.add (node.disjunction operands))) = _
        rw [foldl_add_disjunction, apply_ors_disjunction rx S ors]
        cases emit_terms rx S ors with
        | error err => rfl
        | ok ms =>
          show Except.ok (some (node.disjunction (operands ++ _ ++ ms))) =
            Except.ok (some (node.disjunction (operands ++ (_ ++ ms))))
          rw [List.append_assoc]
    | false =>
      simp only [Bool.not_false, if_true, Bool.false_eq_true, if_false]
      rw [visit_ands_eq]
      cases hall : emit_all rx S ands.predicates with
      | error err => rfl
      | ok ns =>
        show apply_ors rx S ors
          (some ((node.disjunction operands).add (ns.foldl node.add (node.conjunction [])))) = _
        rw [foldl_add_conjunction]
        show apply_ors rx S ors (some (node.disjunction (operands ++ [node.conjunction ([] ++ ns)])))
          = _
        rw [apply_ors_disjunction rx S ors, List.nil_append]
        cases emit_terms rx S ors with
        | error err => rfl
        | ok ms =>
          show Except.ok (some (node.disjunction (operands ++ _ ++ ms))) =
            Except.ok (some (node.disjunction (operands ++ (_ ++ ms))))
          rw [List.append_assoc]

/-- The loop over a single term, entered without a root, makes a conjunction
of the nodes of its predicates. -/
theorem apply_ors_single {τ : Type} (rx : regex_engine) (S : schema τ) (ands : query) :
    apply_ors rx S [ands] none =
      (emit_all rx S ands.predicates).map (fun ns => some (node.conjunction ns)) := by
  rw [apply_ors, visit_ands_eq]
  cases hall : emit_all rx S ands.predicates with
  | error err => rfl
  | ok ns =>
    show apply_ors rx S [] (some (ns.foldl node.add (node.conjunction []))) = _
    rw [foldl_add_conjunction]
    rfl

/-- The statement `ors.back().rest.push_back(pred)` changes the last term. -/
theorem push_back_rest_concat (done : List query) (cur : query) (pred : query_operation) :
    push_back_rest (done ++ [cur]) pred = done ++ [⟨cur.first, cur.rest ++ [pred]⟩] := by
  simp [push_back_rest]

/-- The loop that splits a query at its ORs, from any state of `ors`. -/
theorem split_foldl (rest : List query_operation) :
    ∀ (done : List query) (cur : query),
      rest.foldl
        (fun ors pred =>
          if pred.op = boolean_operator.logical_or then ors ++ [⟨pred.operand, []⟩]
          else push_back_rest ors pred)
        (done ++ [cur]) = done ++ terms_from cur rest := by
  induction rest with
  | nil => intro done cur; rfl
  | cons pred rest ih =>
    intro done cur
    rw [List.foldl_cons, terms_from]
    by_cases h : pred.op = boolean_operator.logical_or
    · rw [if_pos h, if_pos h, ih (done ++ [cur]) ⟨pred.operand, []⟩]
      simp
    · rw [if_neg h, if_neg h, push_back_rest_concat, ih]

/-- The terms that `expressionizer::apply` splits a query into. -/
theorem split_ors_eq (q : query) : split_ors q = terms_from ⟨q.first, []⟩ q.rest :=
  split_foldl q.rest [] ⟨q.first, []⟩

/-- A query has at least one term. -/
theorem terms_from_ne_nil (rest : List query_operation) :
    ∀ cur : query, terms_from cur rest ≠ [] := by
  induction rest with
  | nil => intro cur; simp [terms_from]
  | cons pred rest ih =>
    intro cur
    rw [terms_from]
    by_cases h : pred.op = boolean_operator.logical_or
    · rw [if_pos h]; simp
    · rw [if_neg h]; exact ih _

/-- The function `expressionizer::apply` computes the normal form of the
query. -/
theorem apply_eq_normal_form {τ : Type} (rx : regex_engine) (S : schema τ) (q : query) :
    expressionizer.apply rx S q = normal_form rx S q := by
  rw [expressionizer.apply, normal_form]
  cases hrest : q.rest with
  | nil =>
    simp only [List.isEmpty_nil, if_true, terms_from]
    rw [visit_eq_emit]
    show _ = (emit_all rx S [q.first]).map _
    rw [emit_all]
    cases emit rx S false q.first with
    | error err => rfl
    | ok n => rfl
  | cons pred rest =>
    simp only [List.isEmpty_cons, Bool.false_eq_true, if_false]
    rw [split_ors_eq, hrest]
    cases hts : terms_from ⟨q.first, []⟩ (pred :: rest) with
    | nil => exact absurd hts (terms_from_ne_nil _ _)
    | cons t ts =>
      cases ts with
      | nil => exact apply_ors_single rx S t
      | cons u us =>
        simp only [List.length_cons, ge_iff_le, Nat.le_add_left, if_true]
        rw [apply_ors_disjunction]
        rfl

/-- Whatever the state of the visitor, `invert_` is false after a predicate. -/
theorem visit_invert {τ : Type} (rx : regex_engine) (S : schema τ) (p : query_predicate)
    (v : expressionizer τ) : (expressionizer.visit rx S p v).invert_ = false := by
  rw [visit_eq_emit]
  cases emit rx S v.invert_ p <;> rfl

/-- A negated tag, type, offset or schema predicate contributes what the
predicate with the complemented operator contributes. -/
theorem emit_push_negation {τ : Type} (rx : regex_engine) (S : schema τ) :
    ∀ p : query_predicate, emit rx S false (push_negation p) = emit rx S false p
  | .tag_predicate _ _ _ => rfl
  | .type_predicate _ _ _ => rfl
  | .offset_predicate _ _ _ _ => rfl
  | .schema_predicate _ _ _ => rfl
  | .negated_predicate (.tag_predicate _ _ _) => rfl
  | .negated_predicate (.type_predicate _ _ _) => rfl
  | .negated_predicate (.offset_predicate _ _ _ _) => rfl
  | .negated_predicate (.schema_predicate _ _ _) => rfl
  | .negated_predicate (.negated_predicate _) => rfl

/-- The nodes of a list of predicates depend on what each contributes only. -/
theorem emit_all_map {τ : Type} (rx : regex_engine) (S : schema τ)
    (f : query_predicate → query_predicate)
    (hf : ∀ p, emit rx S false (f p) = emit rx S false p) :
    ∀ ps : List query_predicate, emit_all rx S (ps.map f) = emit_all rx S ps
  | [] => rfl
  | p :: ps => by
    rw [List.map_cons, emit_all, emit_all, hf p, emit_all_map rx S f hf ps]

/-- The predicates of a query with a function applied to each predicate. -/
theorem predicates_map (f : query_predicate → query_predicate) (q : query) :
    (q.map f).predicates = q.predicates.map f := by
  simp [query.map, query.predicates, List.map_map, Function.comp_def]

/-- The terms of a query with a function applied to each predicate. -/
theorem terms_from_map (f : query_predicate → query_predicate) :
    ∀ (rest : List query_operation) (cur : query),
      terms_from (cur.map f) (rest.map (fun pred => ⟨pred.op, f pred.operand⟩)) =
        (terms_from cur rest).map (query.map f)
  | [], cur => rfl
  | pred :: rest, cur => by
    rw [List.map_cons, terms_from, terms_from]
    by_cases h : pred.op = boolean_operator.logical_or
    · rw [if_pos h, if_pos h, List.map_cons]
      have := terms_from_map f rest ⟨pred.operand, []⟩
      simp only [query.map, List.map_nil] at this
      rw [this]
    · rw [if_neg h, if_neg h]
      have := terms_from_map f rest ⟨cur.first, cur.rest ++ [pred]⟩
      simp only [query.map, List.map_append, List.map_cons, List.map_nil] at this
      simpa only [query.map] using this

/-- The operands of the terms depend on what each predicate contributes
only. -/
theorem emit_terms_map {τ : Type} (rx : regex_engine) (S : schema τ)
    (f : query_predicate → query_predicate)
    (hf : ∀ p, emit rx S false (f p) = emit rx S false p) :
    ∀ ors : List query, emit_terms rx S (ors.map (query.map f)) = emit_terms rx S ors
  | [] => rfl
  | ands :: ors => by
    rw [List.map_cons, emit_terms, emit_terms, predicates_map, emit_all_map rx S f hf,
      emit_terms_map rx S f hf ors]
    have : (ands.map f).rest.isEmpty = ands.rest.isEmpty := by
      show (ands.rest.map _).isEmpty = ands.rest.isEmpty
      cases ands.rest <;> rfl
    rw [this]

/-- The normal form of a query depends on what each predicate contributes
only. -/
theorem normal_form_map {τ : Type} (rx : regex_engine) (S : schema τ)
    (f : query_predicate → query_predicate)
    (hf : ∀ p, emit rx S false (f p) = emit rx S false p) (q : query) :
    normal_form rx S (q.map f) = normal_form rx S q := by
  rw [normal_form, normal_form]
  have h := terms_from_map f q.rest ⟨q.first, []⟩
  simp only [query.map, List.map_nil] at h
  show (match terms_from ⟨f q.first, []⟩
      (q.rest.map (fun pred => ⟨pred.op, f pred.operand⟩)) with
    | [ands] => (emit_all rx S ands.predicates).map (fun ns => some (node.conjunction ns))
    | ors => (emit_terms rx S ors).map (fun ms => some (node.disjunction ms))) = _
  rw [h]
  cases terms_from ⟨q.first, []⟩ q.rest with
  | nil => rfl
  | cons t ts =>
    cases ts with
    | nil =>
      show (emit_all rx S (query.map f t).predicates).map _ = _
      rw [predicates_map, emit_all_map rx S f hf]
    | cons u us =>
      show (emit_terms rx S ((t :: u :: us).map (query.map f))).map _ = _
      rw [emit_terms_map rx S f hf]

/-! ## Claims on normalization -/

/-- C11: a negated tag, type, offset or schema predicate is normalized like the
predicate itself with the complement of its operator in place of the operator:
the visitor ends in the same state, with the same node added (same left-hand
and right-hand side) or the same error. After any predicate `invert_` is false,
so the predicate that follows keeps its operator: a query normalizes to the
same AST when each negated tag, type, offset or schema predicate in it is
replaced by the predicate with the complemented operator and all others are
left as they are. The nodes of an AST have no negation among them. -/
theorem negation_complements_operator {τ : Type} (rx : regex_engine) (S : schema τ) :
    (∀ parent err lhs op rhs,
      expressionizer.visit rx S
          (query_predicate.negated_predicate (query_predicate.tag_predicate lhs op rhs))
          ⟨parent, false, err⟩ =
        ⟨parent.add (predicate_node rx (negate op) lhs.extractor (node.constant (fold rhs))),
          false, err⟩ ∧
      expressionizer.visit rx S (query_predicate.tag_predicate lhs op rhs)
          ⟨parent, false, err⟩ =
        ⟨parent.add (predicate_node rx op lhs.extractor (node.constant (fold rhs))),
          false, err⟩) ∧
    (∀ parent err lhs op rhs,
      expressionizer.visit rx S
          (query_predicate.negated_predicate (query_predicate.type_predicate lhs op rhs))
          ⟨parent, false, err⟩ =
        ⟨parent.add (predicate_node rx (negate op) (node.type_extractor lhs)
          (node.constant (fold rhs))), false, err⟩ ∧
      expressionizer.visit rx S (query_predicate.type_predicate lhs op rhs)
          ⟨parent, false, err⟩ =
        ⟨parent.add (predicate_node rx op (node.type_extractor lhs)
          (node.constant (fold rhs))), false, err⟩) ∧
    (∀ parent err event off op rhs,
      expressionizer.visit rx S
          (query_predicate.negated_predicate
            (query_predicate.offset_predicate event off op rhs))
          ⟨parent, false, err⟩ =
        ⟨parent.add (predicate_node rx (negate op) (node.offset_extractor event off)
          (node.constant (fold rhs))), false, err⟩ ∧
      expressionizer.visit rx S (query_predicate.offset_predicate event off op rhs)
          ⟨parent, false, err⟩ =
        ⟨parent.add (predicate_node rx op (node.offset_extractor event off)
          (node.constant (fold rhs))), false, err⟩) ∧
    (∀ parent err lhs op rhs,
      expressionizer.visit rx S
          (query_predicate.negated_predicate (query_predicate.schema_predicate lhs op rhs))
          ⟨parent, false, err⟩ =
        expressionizer.visit rx S (query_predicate.schema_predicate lhs (negate op) rhs)
          ⟨parent, false, err⟩) ∧
    (∀ p v, (expressionizer.visit rx S p v).invert_ = false) ∧
    (∀ q, expressionizer.apply rx S (q.map push_negation) = expressionizer.apply rx S q) := by
  refine ⟨fun parent err lhs op rhs => ⟨?_, ?_⟩, fun _ _ _ _ _ => ⟨rfl, rfl⟩,
    fun _ _ _ _ _ _ => ⟨rfl, rfl⟩, fun parent err lhs op rhs => ?_, visit_invert rx S,
    fun q => ?_⟩
  · cases lhs <;> rfl
  · cases lhs <;> rfl
  · rw [visit_eq_emit, visit_eq_emit]; rfl
  · rw [apply_eq_normal_form, apply_eq_normal_form]
    exact normal_form_map rx S push_negation (emit_push_negation rx S) q

/-- C13: a name-equality predicate is normalized to a predicate with the
operator `=` whose right-hand side is the string as it is, whatever the string
contains: so for "foo*", which contains '*'. No handler of the expressionizer
calls `make_glob_node`. -/
theorem name_equality_keeps_glob {τ : Type} (rx : regex_engine) (S : schema τ) :
    (∀ s : String,
      expressionizer.apply rx S
          ⟨query_predicate.tag_predicate tag.name relational_operator.equal
            ⟨value.string s⟩, []⟩ =
        Except.ok (some (node.conjunction
          [node.predicate relational_operator.equal (make_predicate rx relational_operator.equal)
            [node.name_extractor, node.constant (value.string s)]]))) ∧
    '*' ∈ "foo*".data :=
  ⟨fun _ => rfl, by decide⟩

/-- C14: when the name path of a schema predicate resolves to at least one
offset and the types at the offsets all represent one another, the visitor adds
to its parent one disjunction that has, for each offset in the order of the
schema, the predicate with the operator of the schema predicate, the offset
extractor of the event and offset, and the constant of the folded right-hand
side; a query that is this predicate alone normalizes to the conjunction of
that disjunction. -/
theorem schema_predicate_disjunction {τ : Type} (rx : regex_engine) (S : schema τ)
    (lhs : List String) (op : relational_operator) (rhs : value_expr)
    (offs : List (String × List Nat)) (hoffs : S.find_offsets lhs = offs) (hn : offs ≠ [])
    (hrep : ∀ p, p ∈ offs → ∀ q, q ∈ offs →
      S.represents (S.find_type p.1 p.2) (S.find_type q.1 q.2) = true) :
    (∀ parent err,
      expressionizer.visit rx S (query_predicate.schema_predicate lhs op rhs)
          ⟨parent, false, err⟩ =
        ⟨parent.add (node.disjunction (offs.map (fun p =>
          predicate_node rx op (node.offset_extractor p.1 p.2) (node.constant (fold rhs))))),
          false, err⟩) ∧
    (∀ operands d, (node.conjunction operands).add d = node.conjunction (operands ++ [d])) ∧
    (offs.map (fun p =>
      predicate_node rx op (node.offset_extractor p.1 p.2)
        (node.constant (fold rhs)))).length = offs.length ∧
    expressionizer.apply rx S ⟨query_predicate.schema_predicate lhs op rhs, []⟩ =
      Except.ok (some (node.conjunction [node.disjunction (offs.map (fun p =>
        predicate_node rx op (node.offset_extractor p.1 p.2)
          (node.constant (fold rhs))))])) := by
  have hemit : emit rx S false (query_predicate.schema_predicate lhs op rhs) =
      Except.ok (node.disjunction (offs.map (fun p =>
        predicate_node rx op (node.offset_extractor p.1 p.2) (node.constant (fold rhs))))) := by
    rw [emit, hoffs]
    cases offs with
    | nil => exact absurd rfl hn
    | cons p0 offs =>
      dsimp only
      have hfind : ((p0 :: offs).map (fun p => S.find_type p.1 p.2)).find?
          (fun t => ! S.represents t (S.find_type p0.1 p0.2)) = none := by
        rw [List.find?_eq_none]
        intro t ht
        rw [List.mem_map] at ht
        obtain ⟨p, hp, rfl⟩ := ht
        simp [hrep p hp p0 (List.mem_cons_self _ _)]
      rw [hfind]
      rfl
  refine ⟨fun parent err => ?_, fun _ _ => rfl, List.length_map _ _, ?_⟩
  · rw [visit_eq_emit]
    show expressionizer.after _ (emit rx S false _) = _
    rw [hemit]
    rfl
  · rw [apply_eq_normal_form, normal_form]
    show (emit_all rx S [query_predicate.schema_predicate lhs op rhs]).map _ = _
    rw [emit_all, hemit]
    rfl

/-- C14 on a schema in which the name path resolves to the offsets 0 and
(2, 0) of the event foo. -/
theorem schema_predicate_disjunction_witness :
    expressionizer.apply no_regex two_offset_schema
        ⟨query_predicate.schema_predicate ["a"] relational_operator.equal ⟨value.int 1⟩, []⟩ =
      Except.ok (some (node.conjunction [node.disjunction
        [predicate_node no_regex relational_operator.equal (node.offset_extractor "foo" [0])
            (node.constant (value.int 1)),
          predicate_node no_regex relational_operator.equal
            (node.offset_extractor "foo" [2, 0]) (node.constant (value.int 1))]])) :=
  (schema_predicate_disjunction no_regex two_offset_schema ["a"] relational_operator.equal
    ⟨value.int 1⟩ [("foo", [0]), ("foo", [2, 0])] rfl (by simp)
    (fun _ _ _ _ => rfl)).2.2.2

/-- The nodes of a list of predicates are an error when one of the predicates
fails. -/
theorem emit_all_fails {τ : Type} (rx : regex_engine) (S : schema τ) (p : query_predicate)
    (e : error τ) (he : emit rx S false p = Except.error e) :
    ∀ ps : List query_predicate, p ∈ ps → ∃ e1, emit_all rx S ps = Except.error e1
  | [], hp => absurd hp (List.not_mem_nil _)
  | a :: ps, hp => by
    rw [emit_all]
    cases ha : emit rx S false a with
    | error e1 => exact ⟨e1, rfl⟩
    | ok n =>
      rcases List.mem_cons.mp hp with h | h
      · subst h; rw [he] at ha; cases ha
      · obtain ⟨e1, h1⟩ := emit_all_fails rx S p e he ps h
        exact ⟨e1, by rw [h1]⟩

/-- Every predicate of a query is a predicate of one of its terms. -/
theorem terms_from_mem (p : query_predicate) :
    ∀ (rest : List query_operation) (cur : query),
      (p ∈ cur.predicates ∨ p ∈ rest.map (fun pred => pred.operand)) →
      ∃ t, t ∈ terms_from cur rest ∧ p ∈ t.predicates
  | [], cur, h => by
    rcases h with h | h
    · exact ⟨cur, List.mem_singleton.mpr rfl, h⟩
    · exact absurd h (List.not_mem_nil _)
  | pred :: rest, cur, h => by
    rw [terms_from]
    by_cases hop : pred.op = boolean_operator.logical_or
    · rw [if_pos hop]
      rcases h with h | h
      · exact ⟨cur, List.mem_cons_self _ _, h⟩
      · rw [List.map_cons, List.mem_cons] at h
        have hor : p ∈ (query.mk pred.operand []).predicates ∨
            p ∈ rest.map (fun pred => pred.operand) := by
          rcases h with h | h
          · exact Or.inl (by rw [h]; exact List.mem_cons_self _ _)
          · exact Or.inr h
        obtain ⟨t, ht, hpt⟩ := terms_from_mem p rest ⟨pred.operand, []⟩ hor
        exact ⟨t, List.mem_cons_of_mem _ ht, hpt⟩
    · rw [if_neg hop]
      apply terms_from_mem p rest ⟨cur.first, cur.rest ++ [pred]⟩
      rcases h with h | h
      · left
        simp only [query.predicates, List.mem_cons, List.map_append, List.mem_append] at h ⊢
        rcases h with h | h
        · exact Or.inl h
        · exact Or.inr (Or.inl h)
      · rw [List.map_cons, List.mem_cons] at h
        rcases h with h | h
        · left
          simp only [query.predicates, List.mem_cons, List.map_append, List.mem_append,
            List.map_cons, List.map_nil]
          exact Or.inr (Or.inr (Or.inl h))
        · exact Or.inr h

/-- The operands of the terms are an error when one of the terms fails. -/
theorem emit_terms_fails {τ : Type} (rx : regex_engine) (S : schema τ) (t : query)
    (e : error τ) (he : emit_all rx S t.predicates = Except.error e) :
    ∀ ts : List query, t ∈ ts → ∃ e1, emit_terms rx S ts = Except.error e1
  | [], ht => absurd ht (List.not_mem_nil _)
  | a :: ts, ht => by
    rw [emit_terms]
    cases ha : emit_all rx S a.predicates with
    | error e1 => exact ⟨e1, rfl⟩
    | ok ns =>
      rcases List.mem_cons.mp ht with h | h
      · subst h; rw [he] at ha; cases ha
      · obtain ⟨e1, h1⟩ := emit_terms_fails rx S t e he ts h
        exact ⟨e1, by rw [h1]⟩

/-- The normalization of a query returns an error when one of its predicates
fails. -/
theorem apply_fails {τ : Type} (rx : regex_engine) (S : schema τ) (q : query)
    (p : query_predicate) (e : error τ) (hp : p ∈ q.predicates)
    (he : emit rx S false p = Except.error e) :
    ∃ e1, expressionizer.apply rx S q = Except.error e1 := by
  have hor : p ∈ (query.mk q.first []).predicates ∨
      p ∈ q.rest.map (fun pred => pred.operand) := by
    rcases List.mem_cons.mp hp with h | h
    · exact Or.inl (by rw [h]; exact List.mem_cons_self _ _)
    · exact Or.inr h
  obtain ⟨t, ht, hpt⟩ := terms_from_mem p q.rest ⟨q.first, []⟩ hor
  obtain ⟨e0, he0⟩ := emit_all_fails rx S p e he t.predicates hpt
  rw [apply_eq_normal_form, normal_form]
  cases hts : terms_from ⟨q.first, []⟩ q.rest with
  | nil => rw [hts] at ht; exact absurd ht (List.not_mem_nil _)
  | cons a ts =>
    cases ts with
    | nil =>
      rw [hts] at ht
      have hta : t = a := List.mem_singleton.mp ht
      subst hta
      show ∃ e1, (emit_all rx S t.predicates).map _ = Except.error e1
      rw [he0]
      exact ⟨e0, rfl⟩
    | cons b ts =>
      rw [hts] at ht
      obtain ⟨e1, h1⟩ := emit_terms_fails rx S t e0 he0 (a :: b :: ts) ht
      show ∃ e1, (emit_terms rx S (a :: b :: ts)).map _ = Except.error e1
      rw [h1]
      exact ⟨e1, rfl⟩

/-- What a predicate contributes is a predicate or a disjunction of
predicates. -/
theorem emit_emitted {τ : Type} (rx : regex_engine) (S : schema τ) :
    ∀ (p : query_predicate) (invert : Bool) (n : node),
      emit rx S invert p = Except.ok n → emitted_node n
  | .tag_predicate _ _ _, _, n, h => by
    cases h; exact Or.inl ⟨_, _, _, rfl⟩
  | .type_predicate _ _ _, _, n, h => by
    cases h; exact Or.inl ⟨_, _, _, rfl⟩
  | .offset_predicate _ _ _ _, _, n, h => by
    cases h; exact Or.inl ⟨_, _, _, rfl⟩
  | .schema_predicate lhs op rhs, invert, n, h => by
    rw [emit] at h
    cases hoffs : S.find_offsets lhs with
    | nil => rw [hoffs] at h; cases h
    | cons p0 offs =>
      rw [hoffs] at h
      dsimp only at h
      cases hfind : ((p0 :: offs).map (fun p => S.find_type p.1 p.2)).find?
          (fun t => ! S.represents t (S.find_type p0.1 p0.2)) with
      | some u => rw [hfind] at h; cases h
      | none =>
        rw [hfind] at h
        cases h
        refine Or.inr ⟨_, rfl, fun d hd => ?_⟩
        obtain ⟨p, _, rfl⟩ := List.mem_map.mp hd
        exact ⟨_, _, _, rfl⟩
  | .negated_predicate operand, _, n, h => by
    rw [emit] at h
    exact emit_emitted rx S operand true n h

/-- The nodes of a list of predicates: one for each predicate, each a predicate
or a disjunction of predicates. -/
theorem emit_all_emitted {τ : Type} (rx : regex_engine) (S : schema τ) :
    ∀ (ps : List query_predicate) (ns : List node), emit_all rx S ps = Except.ok ns →
      ns.length = ps.length ∧ ∀ n, n ∈ ns → emitted_node n
  | [], ns, h => by
    cases h
    exact ⟨rfl, fun n hn => absurd hn (List.not_mem_nil _)⟩
  | p :: ps, ns, h => by
    rw [emit_all] at h
    cases hp : emit rx S false p with
    | error e => rw [hp] at h; cases h
    | ok n =>
      rw [hp] at h
      dsimp only at h
      cases hps : emit_all rx S ps with
      | error e => rw [hps] at h; cases h
      | ok ms =>
        rw [hps] at h
        cases h
        obtain ⟨hl, hm⟩ := emit_all_emitted rx S ps ms hps
        refine ⟨by rw [List.length_cons, List.length_cons, hl], fun m hmem => ?_⟩
        rcases List.mem_cons.mp hmem with h1 | h1
        · rw [h1]; exact emit_emitted rx S p false n hp
        · exact hm m h1

/-- The operands of the terms: one for each term, each the node of a predicate
or a conjunction of such nodes. -/
theorem emit_terms_term_node {τ : Type} (rx : regex_engine) (S : schema τ) :
    ∀ (ts : List query) (ms : List node), emit_terms rx S ts = Except.ok ms →
      ms.length = ts.length ∧ ∀ m, m ∈ ms → term_node m
  | [], ms, h => by
    cases h
    exact ⟨rfl, fun m hm => absurd hm (List.not_mem_nil _)⟩
  | t :: ts, ms, h => by
    rw [emit_terms] at h
    cases ht : emit_all rx S t.predicates with
    | error e => rw [ht] at h; cases h
    | ok ns =>
      rw [ht] at h
      dsimp only at h
      cases hts : emit_terms rx S ts with
      | error e => rw [hts] at h; cases h
      | ok ks =>
        rw [hts] at h
        cases h
        obtain ⟨hl, hk⟩ := emit_terms_term_node rx S ts ks hts
        obtain ⟨hnl, hn⟩ := emit_all_emitted rx S t.predicates ns ht
        cases hr : t.rest.isEmpty with
        | true =>
          have hrest : t.rest = [] := List.isEmpty_iff.mp hr
          have hlen : ns.length = 1 := by
            rw [hnl, query.predicates, hrest]; rfl
          simp only [if_true]
          refine ⟨by rw [List.length_append, hlen, hl, List.length_cons, Nat.add_comm],
            fun m hm => ?_⟩
          rcases List.mem_append.mp hm with h1 | h1
          · exact Or.inl (hn m h1)
          · exact hk m h1
        | false =>
          simp only [Bool.false_eq_true, if_false]
          refine ⟨by
            rw [List.length_append, List.length_singleton, hl, List.length_cons, Nat.add_comm],
            fun m hm => ?_⟩
          rcases List.mem_append.mp hm with h1 | h1
          · rw [List.mem_singleton.mp h1]
            exact Or.inr ⟨ns, rfl, hn⟩
          · exact hk m h1

/-- A query without an OR has a single term, with all its predicates. -/
theorem terms_from_no_or :
    ∀ (rest : List query_operation) (cur : query),
      (∀ pred, pred ∈ rest → pred.op ≠ boolean_operator.logical_or) →
      terms_from cur rest = [⟨cur.first, cur.rest ++ rest⟩]
  | [], cur, _ => by rw [terms_from, List.append_nil]
  | pred :: rest, cur, h => by
    rw [terms_from, if_neg (h pred (List.mem_cons_self _ _)),
      terms_from_no_or rest _ (fun x hx => h x (List.mem_cons_of_mem _ hx))]
    simp

/-- A query with an OR has at least two terms. -/
theorem terms_from_or :
    ∀ (rest : List query_operation) (cur : query),
      (∃ pred, pred ∈ rest ∧ pred.op = boolean_operator.logical_or) →
      ∃ t u us, terms_from cur rest = t :: u :: us
  | [], _, ⟨_, hmem, _⟩ => absurd hmem (List.not_mem_nil _)
  | pred :: rest, cur, ⟨x, hmem, hx⟩ => by
    rw [terms_from]
    by_cases hop : pred.op = boolean_operator.logical_or
    · rw [if_pos hop]
      cases hts : terms_from ⟨pred.operand, []⟩ rest with
      | nil => exact absurd hts (terms_from_ne_nil _ _)
      | cons u us => exact ⟨cur, u, us, rfl⟩
    · rw [if_neg hop]
      rcases List.mem_cons.mp hmem with h | h
      · rw [h] at hx; exact absurd hx hop
      · exact terms_from_or rest _ ⟨x, h, hx⟩

/-- C12, the claim as it stands, fails on a query that is a single predicate
(its root is a conjunction), on `a || b` (the operands of the root are
predicates) and on a schema predicate (the operand of the conjunction at the
root is a disjunction). -/
theorem normal_form_counterexample :
    ¬ (∀ root,
        expressionizer.apply no_regex no_schema
            ⟨query_predicate.tag_predicate tag.name relational_operator.equal
              ⟨value.string "foo"⟩, []⟩ = Except.ok (some root) →
          disjunction_of_conjunctions root) ∧
    ¬ (∀ root,
        expressionizer.apply no_regex no_schema
            ⟨query_predicate.tag_predicate tag.name relational_operator.equal
              ⟨value.string "foo"⟩,
              [⟨boolean_operator.logical_or,
                query_predicate.tag_predicate tag.name relational_operator.equal
                  ⟨value.string "bar"⟩⟩]⟩ = Except.ok (some root) →
          disjunction_of_conjunctions root) ∧
    expressionizer.apply no_regex two_offset_schema
        ⟨query_predicate.schema_predicate ["a"] relational_operator.equal ⟨value.int 1⟩, []⟩ =
      Except.ok (some (node.conjunction [node.disjunction
        [predicate_node no_regex relational_operator.equal (node.offset_extractor "foo" [0])
            (node.constant (value.int 1)),
          predicate_node no_regex relational_operator.equal
            (node.offset_extractor "foo" [2, 0]) (node.constant (value.int 1))]])) := by
  refine ⟨fun h => ?_, fun h => ?_, rfl⟩
  · obtain ⟨ds, hds, _⟩ := h _ rfl
    cases hds
  · obtain ⟨ds, hds, hcs⟩ := h _ rfl
    cases hds
    obtain ⟨cs, hc, _⟩ := hcs _ (List.mem_cons_self _ _)
    cases hc

/-! # Ports -/

/-- C21: the comparison of ports is a strict total order consistent with
equality: of `x < y`, `x == y` and `y < x` exactly one holds; `x == y` holds
exactly when number and protocol are equal (the two ports are the same), and
`x < y` exactly when the pair (number, protocol) of `x` is lexicographically
smaller; `<` is transitive. -/
theorem port_strict_total_order (x y z : port) :
    ((port.lt x y = true ∧ port.eq x y = false ∧ port.lt y x = false) ∨
      (port.lt x y = false ∧ port.eq x y = true ∧ port.lt y x = false) ∨
      (port.lt x y = false ∧ port.eq x y = false ∧ port.lt y x = true)) ∧
    (port.eq x y = true ↔ x.number_ = y.number_ ∧ x.type_ = y.type_) ∧
    (port.eq x y = true ↔ x = y) ∧
    (port.lt x y = true ↔
      x.number_ < y.number_ ∨ (x.number_ = y.number_ ∧ x.type_ < y.type_)) ∧
    (port.lt x y = true → port.lt y z = true → port.lt x z = true) := by
  obtain ⟨a, b⟩ := x
  obtain ⟨c, d⟩ := y
  obtain ⟨f, g⟩ := z
  have hlt : ∀ p q r s : Nat, port.lt ⟨p, q⟩ ⟨r, s⟩ = true ↔ p < r ∨ (p = r ∧ q < s) := by
    intro p q r s
    simp only [port.lt]
    split_ifs with h1 h2
    · simp [h1]
    · simp only [Bool.false_eq_true, false_iff]; omega
    · simp only [decide_eq_true_eq]; omega
  have hlf : ∀ p q r s : Nat, port.lt ⟨p, q⟩ ⟨r, s⟩ = false ↔ ¬ (p < r ∨ (p = r ∧ q < s)) := by
    intro p q r s
    rw [← hlt, Bool.not_eq_true]
  have heq : ∀ p q r s : Nat, port.eq ⟨p, q⟩ ⟨r, s⟩ = true ↔ p = r ∧ q = s := by
    intro p q r s
    simp [port.eq]
  have hef : ∀ p q r s : Nat, port.eq ⟨p, q⟩ ⟨r, s⟩ = false ↔ ¬ (p = r ∧ q = s) := by
    intro p q r s
    rw [← heq, Bool.not_eq_true]
  refine ⟨?_, heq a b c d, ?_, hlt a b c d, ?_⟩
  · rw [hlt, hlt, hlf, hlf, heq, hef]
    omega
  · rw [heq]
    constructor
    · rintro ⟨h1, h2⟩; rw [h1, h2]
    · intro h; cases h; exact ⟨rfl, rfl⟩
  · rw [hlt, hlt, hlt]
    omega

/-! # Type extractors under a predicate -/

/-- Once the type extractor has emptied its stack without `complete`, a
predicate whose function is false of the invalid value and its constant is
visited again and again. -/
theorem predicate_loops (e : event) (op : relational_operator)
    (pred : value → value → Bool) (t : value_type) (c : value)
    (hp : pred value.invalid c = false) :
    ∀ (fuel : Nat) (v : value),
      visit e fuel (node.predicate op pred [node.type_extractor t, node.constant c])
        ⟨v, some ⟨[], false⟩⟩ = outcome.out_of_fuel
  | 0, _ => rfl
  | 1, _ => rfl
  | 2, _ => rfl
  | fuel + 3, v => by
    rw [visit_predicate_pair]
    have h1 : visit e (fuel + 2) (node.type_extractor t) ⟨v, some ⟨[], false⟩⟩ =
        outcome.ok ⟨value.invalid, some ⟨[], false⟩⟩ := rfl
    rw [h1]
    have h2 : visit e (fuel + 2) (node.constant c) ⟨value.invalid, some ⟨[], false⟩⟩ =
        outcome.ok ⟨c, some ⟨[], false⟩⟩ := rfl
    simp only [h2, hp, Bool.false_eq_true, if_false, Bool.not_false, if_true]
    exact predicate_loops e op pred t c hp (fuel + 2) c

/-- On an event without arguments, a predicate on a type extractor whose
function is false of the invalid value and the constant never returns. -/
theorem predicate_on_empty_record (id : Nat) (timestamp : Int) (name : String)
    (op : relational_operator) (pred : value → value → Bool) (t : value_type) (c : value)
    (hp : pred value.invalid c = false) :
    ∀ fuel : Nat,
      evaluate fuel (node.predicate op pred [node.type_extractor t, node.constant c])
        ⟨id, timestamp, name, []⟩ = outcome.out_of_fuel
  | 0 => rfl
  | 1 => rfl
  | 2 => rfl
  | 3 => rfl
  | fuel + 4 => by
    have h : visit ⟨id, timestamp, name, []⟩ (fuel + 4)
        (node.predicate op pred [node.type_extractor t, node.constant c])
        ⟨value.invalid, none⟩ = outcome.out_of_fuel := by
      rw [visit_predicate_pair]
      have h1 : visit ⟨id, timestamp, name, []⟩ (fuel + 3) (node.type_extractor t)
          ⟨value.invalid, none⟩ = outcome.ok ⟨value.invalid, some ⟨[], false⟩⟩ := rfl
      rw [h1]
      have h2 : visit ⟨id, timestamp, name, []⟩ (fuel + 3) (node.constant c)
          ⟨value.invalid, some ⟨[], false⟩⟩ = outcome.ok ⟨c, some ⟨[], false⟩⟩ := rfl
      simp only [h2, hp, Bool.false_eq_true, if_false, Bool.not_false, if_true]
      exact predicate_loops _ op pred t c hp (fuel + 3) c
    rw [evaluate, h]

/-- C27: on an event whose record is empty the evaluation of `:int == 42`
never returns, whatever the fuel: the type extractor empties its stack without
setting `complete`, the predicate is false of the invalid value, and the loop
of the predicate goes on. On a record without a value of the type, such as
("x"), the evaluation returns false. -/
theorem empty_record_never_returns (rx : regex_engine) (id : Nat) (timestamp : Int)
    (name : String) :
    (∀ fuel : Nat,
      evaluate fuel
        (predicate_node rx relational_operator.equal (node.type_extractor value_type.int_value)
          (node.constant (value.int 42)))
        ⟨id, timestamp, name, []⟩ = outcome.out_of_fuel) ∧
    (∀ v, ¬ evaluates ⟨id, timestamp, name, []⟩
      (predicate_node rx relational_operator.equal (node.type_extractor value_type.int_value)
        (node.constant (value.int 42))) v) ∧
    (∀ fuel : Nat,
      evaluate (fuel + 5)
        (predicate_node rx relational_operator.equal (node.type_extractor value_type.int_value)
          (node.constant (value.int 42)))
        ⟨id, timestamp, name, [value.string "x"]⟩ = outcome.ok (value.bool false)) := by
  have h := predicate_on_empty_record id timestamp name relational_operator.equal
    (make_predicate rx relational_operator.equal) value_type.int_value (value.int 42) rfl
  refine ⟨h, ?_, fun _ => rfl⟩
  rintro v ⟨fuel, hf⟩
  have := h fuel
  rw [predicate_node] at hf
  rw [hf] at this
  cases this

/-- C28: `:int != 42` evaluates to true on the event with the record
(42, "x"), whose only int is 42, and on the event with the record ("x"), which
holds no int at all: when the extractor has run out of values it leaves the
invalid value, and the function of `!=` is true of the invalid value and 42. On
the record ("x", 42) the same query evaluates to false. -/
theorem negated_operator_true_without_value (rx : regex_engine) (id : Nat)
    (timestamp : Int) (name : String) (fuel : Nat) :
    evaluate (fuel + 6)
        (predicate_node rx relational_operator.not_equal
          (node.type_extractor value_type.int_value) (node.constant (value.int 42)))
        ⟨id, timestamp, name, [value.int 42, value.string "x"]⟩ =
      outcome.ok (value.bool true) ∧
    make_predicate rx relational_operator.not_equal (value.int 42) (value.int 42) = false ∧
    evaluate (fuel + 6)
        (predicate_node rx relational_operator.not_equal
          (node.type_extractor value_type.int_value) (node.constant (value.int 42)))
        ⟨id, timestamp, name, [value.string "x"]⟩ =
      outcome.ok (value.bool true) ∧
    make_predicate rx relational_operator.not_equal value.invalid (value.int 42) = true ∧
    evaluate (fuel + 6)
        (predicate_node rx relational_operator.not_equal
          (node.type_extractor value_type.int_value) (node.constant (value.int 42)))
        ⟨id, timestamp, name, [value.string "x", value.int 42]⟩ =
      outcome.ok (value.bool false) :=
  ⟨rfl, rfl, rfl, rfl, rfl⟩

/-! # Double negation -/

/-- C29: a negation of a negated predicate is normalized like the negated
predicate, not like the predicate: `negated_predicate` sets `invert_` to true
both times, so `! ! name == "foo"` becomes a predicate with the operator `!=`
while `name == "foo"` becomes one with `==`. -/
theorem double_negation_negates {τ : Type} (rx : regex_engine) (S : schema τ) :
    (∀ p v,
      expressionizer.visit rx S
          (query_predicate.negated_predicate (query_predicate.negated_predicate p)) v =
        expressionizer.visit rx S (query_predicate.negated_predicate p) v) ∧
    expressionizer.apply rx S
        ⟨query_predicate.negated_predicate (query_predicate.negated_predicate
          (query_predicate.tag_predicate tag.name relational_operator.equal
            ⟨value.string "foo"⟩)), []⟩ =
      Except.ok (some (node.conjunction
        [predicate_node rx relational_operator.not_equal node.name_extractor
          (node.constant (value.string "foo"))])) ∧
    expressionizer.apply rx S
        ⟨query_predicate.tag_predicate tag.name relational_operator.equal
          ⟨value.string "foo"⟩, []⟩ =
      Except.ok (some (node.conjunction
        [predicate_node rx relational_operator.equal node.name_extractor
          (node.constant (value.string "foo"))])) ∧
    relational_operator.not_equal ≠ relational_operator.equal :=
  ⟨fun _ _ => rfl, rfl, rfl, by decide⟩

/-! # The normalized AST and the flat query -/

/-- A predicate that returns leaves a bool in `result_`. -/
theorem predicate_value (e : event) (op : relational_operator)
    (pred : value → value → Bool) (ops : List node) :
    ∀ (fuel : Nat) (s r : evaluator),
      visit e fuel (node.predicate op pred ops) s = outcome.ok r →
      ∃ b, r.result_ = value.bool b
  | 0, s, r, h => by simp [visit] at h
  | fuel + 1, s, r, h => by
    obtain ⟨lhs, rhs, hops⟩ := visit_predicate_operands e fuel op pred ops s r h
    subst hops
    rw [visit_predicate_pair] at h
    cases h1 : visit e fuel lhs s with
    | ok s1 =>
      rw [h1] at h
      simp only at h
      cases h2 : visit e fuel rhs s1 with
      | ok s2 =>
        rw [h2] at h
        simp only at h
        by_cases hp : pred s1.result_ s2.result_ = true
        · rw [if_pos hp] at h
          cases h
          exact ⟨true, rfl⟩
        · rw [if_neg hp] at h
          cases hst : s2.extractor_state_ with
          | none =>
            rw [hst] at h
            cases h
            exact ⟨false, rfl⟩
          | some st =>
            rw [hst] at h
            simp only at h
            by_cases hc : (! st.complete) = true
            · rw [if_pos hc] at h
              exact predicate_value e op pred _ fuel s2 r h
            · rw [if_neg hc] at h
              cases h
              exact ⟨false, rfl⟩
      | out_of_fuel => rw [h2] at h; simp at h
      | failed => rw [h2] at h; simp at h
    | out_of_fuel => rw [h1] at h; simp at h
    | failed => rw [h1] at h; simp at h

/-- A predicate, conjunction or disjunction evaluates to a bool. -/
theorem boolean_value (e : event) (n : node) (hn : boolean_node n) (v : value)
    (h : evaluates e n v) : ∃ b, v = value.bool b := by
  obtain ⟨fuel, hf⟩ := h
  obtain ⟨r, hr, hv⟩ := (evaluate_ok fuel n e v).1 hf
  subst hv
  cases hn with
  | predicate op pred ops => exact predicate_value e op pred ops fuel _ r hr
  | conjunction ops _ =>
    cases fuel with
    | zero => simp [visit] at hr
    | succ k =>
      rw [visit_conjunction] at hr
      cases ha : all_of (operand_bool (visit e k)) ops ⟨value.invalid, none⟩ with
      | ok p => rw [ha] at hr; cases hr; exact ⟨_, rfl⟩
      | out_of_fuel => rw [ha] at hr; cases hr
      | failed => rw [ha] at hr; cases hr
  | disjunction ops _ =>
    cases fuel with
    | zero => simp [visit] at hr
    | succ k =>
      rw [visit_disjunction] at hr
      cases ha : any_of (operand_bool (visit e k)) ops ⟨value.invalid, none⟩ with
      | ok p => rw [ha] at hr; cases hr; exact ⟨_, rfl⟩
      | out_of_fuel => rw [ha] at hr; cases hr
      | failed => rw [ha] at hr; cases hr

/-- A conjunction evaluates to true exactly when all its operands do. -/
theorem conjunction_true_iff (e : event) (ops : List node)
    (hops : ∀ n, n ∈ ops → boolean_node n) :
    evaluates e (node.conjunction ops) (value.bool true) ↔
      ∀ n, n ∈ ops → evaluates e n (value.bool true) := by
  constructor
  · intro h n hn
    obtain ⟨fuel, hf⟩ := evaluates_succ e _ _ h
    exact ⟨fuel, (conjunction_true_fuel e fuel ops hops).1 hf n hn⟩
  · intro h
    obtain ⟨fuel, hf⟩ := evaluates_common_fuel e true ops h
    exact ⟨fuel + 1, (conjunction_true_fuel e fuel ops hops).2 hf⟩

/-- A disjunction evaluates to false exactly when all its operands do. -/
theorem disjunction_false_iff (e : event) (ops : List node)
    (hops : ∀ n, n ∈ ops → boolean_node n) :
    evaluates e (node.disjunction ops) (value.bool false) ↔
      ∀ n, n ∈ ops → evaluates e n (value.bool false) := by
  constructor
  · intro h n hn
    obtain ⟨fuel, hf⟩ := evaluates_succ e _ _ h
    exact ⟨fuel, (disjunction_false_fuel e fuel ops hops).1 hf n hn⟩
  · intro h
    obtain ⟨fuel, hf⟩ := evaluates_common_fuel e false ops h
    exact ⟨fuel + 1, (disjunction_false_fuel e fuel ops hops).2 hf⟩

/-- A conjunction evaluates to false exactly when an operand does and the
operands before it evaluate to true. -/
theorem conjunction_false_iff (e : event) (ops : List node)
    (hops : ∀ n, n ∈ ops → boolean_node n) :
    evaluates e (node.conjunction ops) (value.bool false) ↔
      ∃ pre n post, ops = pre ++ n :: post ∧
        (∀ m, m ∈ pre → evaluates e m (value.bool true)) ∧
        evaluates e n (value.bool false) := by
  constructor
  · intro h
    obtain ⟨fuel, hf⟩ := evaluates_succ e _ _ h
    obtain ⟨pre, n, post, h1, h2, h3⟩ := (conjunction_false_fuel e fuel ops hops).1 hf
    exact ⟨pre, n, post, h1, fun m hm => ⟨fuel, h2 m hm⟩, ⟨fuel, h3⟩⟩
  · rintro ⟨pre, n, post, h1, h2, h3⟩
    obtain ⟨fuel, hf1, hf2⟩ := prefix_common_fuel e true pre n h2 h3
    exact ⟨fuel + 1, (conjunction_false_fuel e fuel ops hops).2 ⟨pre, n, post, h1, hf1, hf2⟩⟩

/-- A disjunction evaluates to true exactly when an operand does and the
operands before it evaluate to false. -/
theorem disjunction_true_iff (e : event) (ops : List node)
    (hops : ∀ n, n ∈ ops → boolean_node n) :
    evaluates e (node.disjunction ops) (value.bool true) ↔
      ∃ pre n post, ops = pre ++ n :: post ∧
        (∀ m, m ∈ pre → evaluates e m (value.bool false)) ∧
        evaluates e n (value.bool true) := by
  constructor
  · intro h
    obtain ⟨fuel, hf⟩ := evaluates_succ e _ _ h
    obtain ⟨pre, n, post, h1, h2, h3⟩ := (disjunction_true_fuel e fuel ops hops).1 hf
    exact ⟨pre, n, post, h1, fun m hm => ⟨fuel, h2 m hm⟩, ⟨fuel, h3⟩⟩
  · rintro ⟨pre, n, post, h1, h2, h3⟩
    obtain ⟨fuel, hf1, hf2⟩ := prefix_common_fuel e false pre n h2 h3
    exact ⟨fuel + 1, (disjunction_true_fuel e fuel ops hops).2 ⟨pre, n, post, h1, hf1, hf2⟩⟩

/-- A list on which a test fails somewhere splits at the first element on
which it fails. -/
theorem split_first_false {α : Type} (f : α → Bool) :
    ∀ l : List α, l.all f = false →
      ∃ pre x post, l = pre ++ x :: post ∧ (∀ y, y ∈ pre → f y = true) ∧ f x = false
  | [], h => by simp at h
  | a :: l, h => by
    cases ha : f a with
    | false => exact ⟨[], a, l, rfl, fun y hy => absurd hy (List.not_mem_nil _), ha⟩
    | true =>
      have hl : l.all f = false := by
        rw [List.all_cons, ha, Bool.true_and] at h
        exact h
      obtain ⟨pre, x, post, h1, h2, h3⟩ := split_first_false f l hl
      refine ⟨a :: pre, x, post, by rw [h1]; rfl, fun y hy => ?_, h3⟩
      rcases List.mem_cons.mp hy with h | h
      · rw [h]; exact ha
      · exact h2 y h

/-- A list on which a test holds somewhere splits at the first element on
which it holds. -/
theorem split_first_true {α : Type} (f : α → Bool) :
    ∀ l : List α, l.any f = true →
      ∃ pre x post, l = pre ++ x :: post ∧ (∀ y, y ∈ pre → f y = false) ∧ f x = true
  | [], h => by simp at h
  | a :: l, h => by
    cases ha : f a with
    | true => exact ⟨[], a, l, rfl, fun y hy => absurd hy (List.not_mem_nil _), ha⟩
    | false =>
      have hl : l.any f = true := by
        rw [List.any_cons, ha, Bool.false_or] at h
        exact h
      obtain ⟨pre, x, post, h1, h2, h3⟩ := split_first_true f l hl
      refine ⟨a :: pre, x, post, by rw [h1]; rfl, fun y hy => ?_, h3⟩
      rcases List.mem_cons.mp hy with h | h
      · rw [h]; exact ha
      · exact h2 y h

/-- A conjunction of operands that evaluate to the bools `ρ` assigns them
evaluates to the AND of these bools. -/
theorem conjunction_total (e : event) (ρ : node → Bool) (ops : List node)
    (hops : ∀ n, n ∈ ops → boolean_node n)
    (hρ : ∀ n, n ∈ ops → evaluates e n (value.bool (ρ n))) :
    evaluates e (node.conjunction ops) (value.bool (ops.all ρ)) := by
  cases hall : ops.all ρ with
  | true =>
    rw [conjunction_true_iff e ops hops]
    intro n hn
    have := hρ n hn
    rw [List.all_eq_true.mp hall n hn] at this
    exact this
  | false =>
    obtain ⟨pre, x, post, h1, h2, h3⟩ := split_first_false ρ ops hall
    rw [conjunction_false_iff e ops hops]
    refine ⟨pre, x, post, h1, fun m hm => ?_, ?_⟩
    · have := hρ m (by rw [h1]; exact List.mem_append_left _ hm)
      rw [h2 m hm] at this
      exact this
    · have := hρ x (by rw [h1]; exact List.mem_append_right _ (List.mem_cons_self _ _))
      rw [h3] at this
      exact this

/-- The value of a conjunction is the AND of the bools `ρ` assigns to its
operands, if `ρ` is right about each operand that evaluates to a bool. -/
theorem conjunction_sound (e : event) (ρ : node → Bool) (ops : List node)
    (hops : ∀ n, n ∈ ops → boolean_node n)
    (hρ : ∀ n b, n ∈ ops → evaluates e n (value.bool b) → ρ n = b) (v : value)
    (h : evaluates e (node.conjunction ops) v) : v = value.bool (ops.all ρ) := by
  obtain ⟨b, hb⟩ := boolean_value e _ (boolean_node.conjunction ops hops) v h
  subst hb
  cases b with
  | true =>
    have hall := (conjunction_true_iff e ops hops).1 h
    have : ops.all ρ = true := List.all_eq_true.mpr (fun n hn => hρ n true hn (hall n hn))
    rw [this]
  | false =>
    obtain ⟨pre, n, post, h1, _, h3⟩ := (conjunction_false_iff e ops hops).1 h
    have hn : n ∈ ops := by rw [h1]; exact List.mem_append_right _ (List.mem_cons_self _ _)
    have : ops.all ρ = false := by
      rw [List.all_eq_false]
      exact ⟨n, hn, by rw [hρ n false hn h3]; simp⟩
    rw [this]

/-- The operand of a term is a predicate, conjunction or disjunction. -/
theorem term_operand_boolean (t : List node) (ht : ∀ n, n ∈ t → boolean_node n)
    (hne : t ≠ []) : boolean_node (term_operand t) := by
  match t, ht, hne with
  | [], _, hne => exact absurd rfl hne
  | [n], ht, _ => exact ht n (List.mem_singleton.mpr rfl)
  | a :: b :: l, ht, _ => exact boolean_node.conjunction _ ht

/-- The operand of a term whose nodes evaluate to the bools `ρ` assigns them
evaluates to the AND of these bools. -/
theorem term_operand_total (e : event) (ρ : node → Bool) (t : List node)
    (ht : ∀ n, n ∈ t → boolean_node n)
    (hρ : ∀ n, n ∈ t → evaluates e n (value.bool (ρ n))) :
    evaluates e (term_operand t) (value.bool (t.all ρ)) := by
  match t, ht, hρ with
  | [], ht, hρ => exact conjunction_total e ρ [] ht hρ
  | [n], _, hρ =>
    have := hρ n (List.mem_singleton.mpr rfl)
    simpa [term_operand] using this
  | a :: b :: l, ht, hρ => exact conjunction_total e ρ _ ht hρ

/-- The value of the operand of a term is the AND of the bools `ρ` assigns to
its nodes, if `ρ` is right about each node that evaluates to a bool. -/
theorem term_operand_sound (e : event) (ρ : node → Bool) (t : List node)
    (ht : ∀ n, n ∈ t → boolean_node n)
    (hρ : ∀ n b, n ∈ t → evaluates e n (value.bool b) → ρ n = b) (v : value)
    (h : evaluates e (term_operand t) v) : v = value.bool (t.all ρ) := by
  match t, ht, hρ, h with
  | [], ht, hρ, h => exact conjunction_sound e ρ [] ht hρ v h
  | [n], ht, hρ, h =>
    obtain ⟨b, hb⟩ := boolean_value e n (ht n (List.mem_singleton.mpr rfl)) v h
    subst hb
    have := hρ n b (List.mem_singleton.mpr rfl) h
    simp [this]
  | a :: b :: l, ht, hρ, h => exact conjunction_sound e ρ _ ht hρ v h

/-- A disjunction of the operands of terms whose nodes evaluate to the bools
`ρ` assigns them evaluates to the OR over the terms of the AND of these
bools. -/
theorem disjunction_total (e : event) (ρ : node → Bool) (ts : List (List node))
    (hts : ∀ t, t ∈ ts → t ≠ [] ∧ ∀ n, n ∈ t → boolean_node n)
    (hρ : ∀ t, t ∈ ts → ∀ n, n ∈ t → evaluates e n (value.bool (ρ n))) :
    evaluates e (node.disjunction (ts.map term_operand))
      (value.bool (ts.any (fun t => t.all ρ))) := by
  have hops : ∀ n, n ∈ ts.map term_operand → boolean_node n := by
    intro n hn
    obtain ⟨t, ht, rfl⟩ := List.mem_map.mp hn
    exact term_operand_boolean t (hts t ht).2 (hts t ht).1
  cases hany : ts.any (fun t => t.all ρ) with
  | false =>
    rw [disjunction_false_iff e _ hops]
    intro n hn
    obtain ⟨t, ht, rfl⟩ := List.mem_map.mp hn
    have h1 := term_operand_total e ρ t (hts t ht).2 (hρ t ht)
    have h2 : t.all ρ = false := by
      have := List.any_eq_false.mp hany t ht
      simpa using this
    rw [h2] at h1
    exact h1
  | true =>
    obtain ⟨pre, t, post, h1, h2, h3⟩ := split_first_true (fun t => t.all ρ) ts hany
    rw [disjunction_true_iff e _ hops]
    refine ⟨pre.map term_operand, term_operand t, post.map term_operand, ?_, ?_, ?_⟩
    · rw [h1, List.map_append, List.map_cons]
    · intro m hm
      obtain ⟨u, hu, rfl⟩ := List.mem_map.mp hm
      have hmem : u ∈ ts := by rw [h1]; exact List.mem_append_left _ hu
      have := term_operand_total e ρ u (hts u hmem).2 (hρ u hmem)
      rw [h2 u hu] at this
      exact this
    · have hmem : t ∈ ts := by
        rw [h1]; exact List.mem_append_right _ (List.mem_cons_self _ _)
      have := term_operand_total e ρ t (hts t hmem).2 (hρ t hmem)
      rw [h3] at this
      exact this

/-- The value of a disjunction of the operands of terms is the OR over the
terms of the AND of the bools `ρ` assigns to their nodes, if `ρ` is right about
each node that evaluates to a bool. -/
theorem disjunction_sound (e : event) (ρ : node → Bool) (ts : List (List node))
    (hts : ∀ t, t ∈ ts → t ≠ [] ∧ ∀ n, n ∈ t → boolean_node n)
    (hρ : ∀ t, t ∈ ts → ∀ n b, n ∈ t → evaluates e n (value.bool b) → ρ n = b)
    (v : value) (h : evaluates e (node.disjunction (ts.map term_operand)) v) :
    v = value.bool (ts.any (fun t => t.all ρ)) := by
  have hops : ∀ n, n ∈ ts.map term_operand → boolean_node n := by
    intro n hn
    obtain ⟨t, ht, rfl⟩ := List.mem_map.mp hn
    exact term_operand_boolean t (hts t ht).2 (hts t ht).1
  obtain ⟨b, hb⟩ := boolean_value e _ (boolean_node.disjunction _ hops) v h
  subst hb
  cases b with
  | false =>
    have hall := (disjunction_false_iff e _ hops).1 h
    have : ts.any (fun t => t.all ρ) = false := by
      rw [List.any_eq_false]
      intro t ht
      have h1 := hall _ (List.mem_map.mpr ⟨t, ht, rfl⟩)
      have h2 := term_operand_sound e ρ t (hts t ht).2 (hρ t ht) _ h1
      have h3 : t.all ρ = false := by
        injection h2 with h2
        exact h2.symm
      simp [h3]
    rw [this]
  | true =>
    obtain ⟨pre, n, post, h1, _, h3⟩ := (disjunction_true_iff e _ hops).1 h
    have hn : n ∈ ts.map term_operand := by
      rw [h1]; exact List.mem_append_right _ (List.mem_cons_self _ _)
    obtain ⟨t, ht, rfl⟩ := List.mem_map.mp hn
    have h2 := term_operand_sound e ρ t (hts t ht).2 (hρ t ht) _ h3
    have h4 : t.all ρ = true := by
      injection h2 with h2
      exact h2.symm
    have : ts.any (fun t => t.all ρ) = true := List.any_eq_true.mpr ⟨t, ht, h4⟩
    rw [this]

/-- The flat value of a query is the OR over its terms of the AND of the bools
of their nodes. -/
theorem flat_value_terms (ρ : node → Bool) :
    ∀ (tails : List (boolean_operator × node)) (cur : List node),
      flat_value (cur.all ρ) (tails.map (fun x => (x.1, ρ x.2))) =
        (node_terms cur tails).any (fun t => t.all ρ)
  | [], cur => by simp [flat_value, node_terms]
  | (boolean_operator.logical_and, n) :: tails, cur => by
    rw [List.map_cons, flat_value, node_terms, ← flat_value_terms ρ tails (cur ++ [n])]
    simp
  | (boolean_operator.logical_or, n) :: tails, cur => by
    rw [List.map_cons, flat_value, node_terms, List.any_cons,
      ← flat_value_terms ρ tails [n]]
    simp

/-- The nodes of the terms are the given nodes. -/
theorem node_terms_mem :
    ∀ (tails : List (boolean_operator × node)) (cur : List node), cur ≠ [] →
      ∀ t, t ∈ node_terms cur tails →
        t ≠ [] ∧ ∀ n, n ∈ t → n ∈ cur ∨ n ∈ tails.map (fun x => x.2)
  | [], cur, hc, t, ht => by
    rw [node_terms, List.mem_singleton] at ht
    subst ht
    exact ⟨hc, fun n hn => Or.inl hn⟩
  | (boolean_operator.logical_and, m) :: tails, cur, _, t, ht => by
    rw [node_terms] at ht
    obtain ⟨h1, h2⟩ := node_terms_mem tails (cur ++ [m]) (by simp) t ht
    refine ⟨h1, fun n hn => ?_⟩
    rcases h2 n hn with h | h
    · rcases List.mem_append.mp h with h | h
      · exact Or.inl h
      · right; rw [List.map_cons]; rw [List.mem_singleton.mp h]; exact List.mem_cons_self _ _
    · right; rw [List.map_cons]; exact List.mem_cons_of_mem _ h
  | (boolean_operator.logical_or, m) :: tails, cur, hc, t, ht => by
    rw [node_terms] at ht
    rcases List.mem_cons.mp ht with h | h
    · subst h
      exact ⟨hc, fun n hn => Or.inl hn⟩
    · obtain ⟨h1, h2⟩ := node_terms_mem tails [m] (by simp) t h
      refine ⟨h1, fun n hn => ?_⟩
      rcases h2 n hn with h | h
      · right; rw [List.map_cons]; rw [List.mem_singleton.mp h]; exact List.mem_cons_self _ _
      · right; rw [List.map_cons]; exact List.mem_cons_of_mem _ h

/-- The nodes of two lists of predicates one after the other. -/
theorem emit_all_append {τ : Type} (rx : regex_engine) (S : schema τ) :
    ∀ (ps qs : List query_predicate) (ns ms : List node),
      emit_all rx S ps = Except.ok ns → emit_all rx S qs = Except.ok ms →
      emit_all rx S (ps ++ qs) = Except.ok (ns ++ ms)
  | [], qs, ns, ms, h1, h2 => by cases h1; exact h2
  | p :: ps, qs, ns, ms, h1, h2 => by
    rw [emit_all] at h1
    rw [List.cons_append, emit_all]
    cases hp : emit rx S false p with
    | error err => rw [hp] at h1; cases h1
    | ok n =>
      rw [hp] at h1
      dsimp only at h1 ⊢
      cases hps : emit_all rx S ps with
      | error err => rw [hps] at h1; cases h1
      | ok ks =>
        rw [hps] at h1
        cases h1
        rw [emit_all_append rx S ps qs ks ms hps h2]
        rfl

/-- The terms of a query and the terms of its nodes correspond. -/
theorem terms_emit {τ : Type} (rx : regex_engine) (S : schema τ) :
    ∀ (rest : List query_operation) (cur : query) (cns rns : List node),
      emit_all rx S cur.predicates = Except.ok cns →
      emit_all rx S (rest.map (fun pred => pred.operand)) = Except.ok rns →
      List.Forall₂ (fun t tns => emit_all rx S t.predicates = Except.ok tns)
        (terms_from cur rest)
        (node_terms cns ((rest.map (fun pred => pred.op)).zip rns))
  | [], cur, cns, rns, hc, hr => by
    cases hr
    exact List.Forall₂.cons hc List.Forall₂.nil
  | pred :: rest, cur, cns, rns, hc, hr => by
    rw [List.map_cons, emit_all] at hr
    cases hp : emit rx S false pred.operand with
    | error err => rw [hp] at hr; cases hr
    | ok n =>
      rw [hp] at hr
      dsimp only at hr
      cases hps : emit_all rx S (rest.map (fun pred => pred.operand)) with
      | error err => rw [hps] at hr; cases hr
      | ok ks =>
        rw [hps] at hr
        cases hr
        rw [terms_from, List.map_cons, List.zip_cons_cons]
        have hone : emit_all rx S (query.mk pred.operand []).predicates = Except.ok [n] := by
          show emit_all rx S [pred.operand] = _
          rw [emit_all, hp]
          rfl
        cases hop : pred.op with
        | logical_or =>
          rw [if_pos rfl, node_terms]
          exact List.Forall₂.cons hc (terms_emit rx S rest _ [n] ks hone hps)
        | logical_and =>
          rw [if_neg (by decide), node_terms]
          apply terms_emit rx S rest _ (cns ++ [n]) ks _ hps
          show emit_all rx S (cur.first :: (cur.rest ++ [pred]).map (fun pred => pred.operand)) = _
          rw [List.map_append, ← List.cons_append]
          exact emit_all_append rx S _ _ cns [n] hc hone

/-- What a predicate contributes is a predicate, conjunction or
disjunction. -/
theorem emitted_boolean (n : node) (h : emitted_node n) : boolean_node n := by
  rcases h with ⟨op, pred, ops, rfl⟩ | ⟨ds, rfl, hds⟩
  · exact boolean_node.predicate op pred ops
  · refine boolean_node.disjunction ds (fun d hd => ?_)
    obtain ⟨op, pred, ops, rfl⟩ := hds d hd
    exact boolean_node.predicate op pred ops

/-- The nodes of a list of predicates exist when each predicate contributes a
node. -/
theorem emit_all_succeeds {τ : Type} (rx : regex_engine) (S : schema τ) :
    ∀ ps : List query_predicate, (∀ p, p ∈ ps → ∃ n, emit rx S false p = Except.ok n) →
      ∃ ns, emit_all rx S ps = Except.ok ns
  | [], _ => ⟨[], rfl⟩
  | p :: ps, h => by
    obtain ⟨n, hn⟩ := h p (List.mem_cons_self _ _)
    obtain ⟨ns, hns⟩ := emit_all_succeeds rx S ps (fun x hx => h x (List.mem_cons_of_mem _ hx))
    exact ⟨n :: ns, by rw [emit_all, hn]; dsimp only; rw [hns]⟩

/-- The operands that the terms contribute, from the nodes of the terms. -/
theorem emit_terms_of_nodes {τ : Type} (rx : regex_engine) (S : schema τ) :
    ∀ (ts : List query) (T : List (List node)),
      List.Forall₂ (fun t tns => emit_all rx S t.predicates = Except.ok tns) ts T →
      emit_terms rx S ts = Except.ok (T.map term_operand)
  | [], _, h => by cases h; rfl
  | t :: ts, _, h => by
    cases h with
    | cons ht hrest =>
      rename_i tns T
      rw [emit_terms, ht]
      dsimp only
      rw [emit_terms_of_nodes rx S ts T hrest]
      dsimp only
      have hlen := (emit_all_emitted rx S _ tns ht).1
      rw [query.predicates, List.length_cons, List.length_map] at hlen
      cases hr : t.rest with
      | nil =>
        rw [hr] at hlen
        match tns, hlen with
        | [n], _ => rfl
      | cons a l =>
        rw [hr] at hlen
        match tns, hlen with
        | x :: y :: l, _ => rfl

/-- The normal form of a query, from the nodes of its terms. -/
theorem normal_form_of_nodes {τ : Type} (rx : regex_engine) (S : schema τ) (q : query)
    (T : List (List node))
    (h : List.Forall₂ (fun t tns => emit_all rx S t.predicates = Except.ok tns)
      (terms_from ⟨q.first, []⟩ q.rest) T) :
    normal_form rx S q = Except.ok (some (root_of_terms T)) := by
  rw [normal_form]
  cases hts : terms_from ⟨q.first, []⟩ q.rest with
  | nil => exact absurd hts (terms_from_ne_nil _ _)
  | cons t ts =>
    rw [hts] at h
    cases ts with
    | nil =>
      cases h with
      | cons ht hrest =>
        cases hrest
        show (emit_all rx S t.predicates).map _ = _
        rw [ht]
        rfl
    | cons u us =>
      show (emit_terms rx S (t :: u :: us)).map _ = _
      rw [emit_terms_of_nodes rx S _ T h]
      cases h with
      | cons ht hrest =>
        cases hrest with
        | cons hu hrest => rfl

/-- The root of the normalized AST evaluates like the flat query, for given
nodes of the terms. -/
theorem root_of_terms_flat (e : event) (ρ : node → Bool) (T : List (List node))
    (hT : ∀ t, t ∈ T → t ≠ [] ∧ ∀ n, n ∈ t → boolean_node n) :
    ((∀ t, t ∈ T → ∀ n, n ∈ t → evaluates e n (value.bool (ρ n))) →
      evaluates e (root_of_terms T) (value.bool (T.any (fun t => t.all ρ)))) ∧
    (∀ v, (∀ t, t ∈ T → ∀ n b, n ∈ t → evaluates e n (value.bool b) → ρ n = b) →
      evaluates e (root_of_terms T) v → v = value.bool (T.any (fun t => t.all ρ))) := by
  match T, hT with
  | [], hT =>
    exact ⟨fun h => disjunction_total e ρ [] hT h, fun v h hv => disjunction_sound e ρ [] hT h v hv⟩
  | [t], hT =>
    have ht := hT t (List.mem_singleton.mpr rfl)
    have hany : [t].any (fun t => t.all ρ) = t.all ρ := by simp
    rw [hany]
    exact ⟨fun h => conjunction_total e ρ t ht.2 (h t (List.mem_singleton.mpr rfl)),
      fun v h hv => conjunction_sound e ρ t ht.2 (h t (List.mem_singleton.mpr rfl)) v hv⟩
  | t :: u :: us, hT =>
    exact ⟨fun h => disjunction_total e ρ _ hT h,
      fun v h hv => disjunction_sound e ρ _ hT h v hv⟩

/-- C30: the normalization of a query of tag, type and offset predicates
succeeds, each predicate contributing the predicate node of its operator and
operands. When the normalization of a query succeeds, its predicates have
nodes `n0` and `ns`, and on every event: if each node evaluates to the bool
that `ρ` assigns it, the root evaluates to the value of the flat query of these
bools, the OR over its maximal AND-runs; and if the root evaluates to a value,
that value is the value of the flat query for every assignment `ρ` that is
right about each node that evaluates to a bool. -/
theorem normalized_evaluates_flat {τ : Type} (rx : regex_engine) (S : schema τ)
    (q : query) (e : event) :
    ((∀ p, p ∈ q.predicates → basic_predicate p) →
      ∃ root, expressionizer.apply rx S q = Except.ok (some root)) ∧
    (∀ lhs op rhs, emit rx S false (query_predicate.tag_predicate lhs op rhs) =
      Except.ok (predicate_node rx op lhs.extractor (node.constant (fold rhs)))) ∧
    (∀ lhs op rhs, emit rx S false (query_predicate.type_predicate lhs op rhs) =
      Except.ok (predicate_node rx op (node.type_extractor lhs) (node.constant (fold rhs)))) ∧
    (∀ event off op rhs, emit rx S false (query_predicate.offset_predicate event off op rhs) =
      Except.ok (predicate_node rx op (node.offset_extractor event off)
        (node.constant (fold rhs)))) ∧
    (∀ root, expressionizer.apply rx S q = Except.ok (some root) →
      ∃ n0 ns, emit rx S false q.first = Except.ok n0 ∧
        emit_all rx S (q.rest.map (fun pred => pred.operand)) = Except.ok ns ∧
        (∀ ρ : node → Bool,
          (∀ n, n ∈ n0 :: ns → evaluates e n (value.bool (ρ n))) →
          evaluates e root (value.bool
            (flat_value (ρ n0) ((q.rest.map (fun pred => pred.op)).zip (ns.map ρ))))) ∧
        (∀ (ρ : node → Bool) (v : value),
          (∀ n b, n ∈ n0 :: ns → evaluates e n (value.bool b) → ρ n = b) →
          evaluates e root v →
          v = value.bool
            (flat_value (ρ n0) ((q.rest.map (fun pred => pred.op)).zip (ns.map ρ))))) := by
  have key : ∀ n0 ns, emit rx S false q.first = Except.ok n0 →
      emit_all rx S (q.rest.map (fun pred => pred.operand)) = Except.ok ns →
      expressionizer.apply rx S q = Except.ok (some (root_of_terms
        (node_terms [n0] ((q.rest.map (fun pred => pred.op)).zip ns)))) := by
    intro n0 ns h0 hns
    have hone : emit_all rx S (query.mk q.first []).predicates = Except.ok [n0] := by
      show emit_all rx S [q.first] = _
      rw [emit_all, h0]
      rfl
    rw [apply_eq_normal_form]
    exact normal_form_of_nodes rx S q _ (terms_emit rx S q.rest _ [n0] ns hone hns)
  have split : ∀ ps : List query_predicate,
      (∀ p, p ∈ q.predicates → ∃ n, emit rx S false p = Except.ok n) →
      ∃ n0 ns, emit rx S false q.first = Except.ok n0 ∧
        emit_all rx S (q.rest.map (fun pred => pred.operand)) = Except.ok ns := by
    intro _ h
    obtain ⟨n0, h0⟩ := h q.first (List.mem_cons_self _ _)
    obtain ⟨ns, hns⟩ := emit_all_succeeds rx S (q.rest.map (fun pred => pred.operand))
      (fun p hp => h p (List.mem_cons_of_mem _ hp))
    exact ⟨n0, ns, h0, hns⟩
  refine ⟨fun hb => ?_, fun _ _ _ => rfl, fun _ _ _ => rfl, fun _ _ _ _ => rfl,
    fun root hq => ?_⟩
  · obtain ⟨n0, ns, h0, hns⟩ := split [] (fun p hp => by
      have := hb p hp
      cases p with
      | tag_predicate lhs op rhs => exact ⟨_, rfl⟩
      | type_predicate lhs op rhs => exact ⟨_, rfl⟩
      | offset_predicate event off op rhs => exact ⟨_, rfl⟩
      | schema_predicate lhs op rhs => exact absurd this id
      | negated_predicate p => exact absurd this id)
    exact ⟨_, key n0 ns h0 hns⟩
  · obtain ⟨n0, ns, h0, hns⟩ := split [] (fun p hp => by
      cases hp1 : emit rx S false p with
      | ok n => exact ⟨n, rfl⟩
      | error err =>
        obtain ⟨e1, he1⟩ := apply_fails rx S q p err hp hp1
        rw [he1] at hq
        cases hq)
    refine ⟨n0, ns, h0, hns, ?_⟩
    have hroot := key n0 ns h0 hns
    rw [hq] at hroot
    have hr : root = root_of_terms
        (node_terms [n0] ((q.rest.map (fun pred => pred.op)).zip ns)) := by
      injection hroot with h1
      injection h1
    have hbool : ∀ n, n ∈ n0 :: ns → boolean_node n := by
      intro n hn
      rcases List.mem_cons.mp hn with h | h
      · rw [h]; exact emitted_boolean _ (emit_emitted rx S q.first false n0 h0)
      · exact emitted_boolean _ ((emit_all_emitted rx S _ ns hns).2 n h)
    have hlen : ns.length = (q.rest.map (fun pred => pred.op)).length := by
      rw [(emit_all_emitted rx S _ ns hns).1, List.length_map, List.length_map]
    have hsnd : ((q.rest.map (fun pred => pred.op)).zip ns).map (fun x => x.2) = ns := by
      have := List.map_snd_zip (q.rest.map (fun pred => pred.op)) ns (le_of_eq hlen)
      simpa using this
    have hmem : ∀ t, t ∈ node_terms [n0] ((q.rest.map (fun pred => pred.op)).zip ns) →
        t ≠ [] ∧ ∀ n, n ∈ t → n ∈ n0 :: ns := by
      intro t ht
      obtain ⟨h1, h2⟩ := node_terms_mem _ [n0] (by simp) t ht
      refine ⟨h1, fun n hn => ?_⟩
      rcases h2 n hn with h | h
      · rw [List.mem_singleton.mp h]; exact List.mem_cons_self _ _
      · rw [hsnd] at h; exact List.mem_cons_of_mem _ h
    have hT : ∀ t, t ∈ node_terms [n0] ((q.rest.map (fun pred => pred.op)).zip ns) →
        t ≠ [] ∧ ∀ n, n ∈ t → boolean_node n :=
      fun t ht => ⟨(hmem t ht).1, fun n hn => hbool n ((hmem t ht).2 n hn)⟩
    have hflat : ∀ ρ : node → Bool,
        flat_value (ρ n0) ((q.rest.map (fun pred => pred.op)).zip (ns.map ρ)) =
          (node_terms [n0] ((q.rest.map (fun pred => pred.op)).zip ns)).any
            (fun t => t.all ρ) := by
      intro ρ
      rw [← flat_value_terms ρ _ [n0], List.zip_map_right]
      simp only [List.all_cons, List.all_nil, Bool.and_true]
      rfl
    constructor
    · intro ρ h
      rw [hflat ρ, hr]
      exact (root_of_terms_flat e ρ _ hT).1 (fun t ht n hn => h n ((hmem t ht).2 n hn))
    · intro ρ v h hv
      rw [hflat ρ]
      rw [hr] at hv
      exact (root_of_terms_flat e ρ _ hT).2 v (fun t ht n b hn => h n b ((hmem t ht).2 n hn)) hv

/-- C30 on the query `name == "foo" || name == "bar"` and an event named bar:
the root evaluates to the flat value `false || true`. -/
theorem normalized_evaluates_flat_witness :
    evaluates ⟨1, 0, "bar", []⟩
      (node.disjunction
        [predicate_node no_regex relational_operator.equal node.name_extractor
            (node.constant (value.string "foo")),
          predicate_node no_regex relational_operator.equal node.name_extractor
            (node.constant (value.string "bar"))])
      (value.bool (flat_value false [(boolean_operator.logical_or, true)])) := by
  obtain ⟨n0, ns, h0, hns, htot, _⟩ :=
    (normalized_evaluates_flat no_regex no_schema
      ⟨query_predicate.tag_predicate tag.name relational_operator.equal ⟨value.string "foo"⟩,
        [⟨boolean_operator.logical_or,
          query_predicate.tag_predicate tag.name relational_operator.equal
            ⟨value.string "bar"⟩⟩]⟩
      ⟨1, 0, "bar", []⟩).2.2.2.2 _ rfl
  cases h0
  cases hns
  have h := htot
    (fun n =>
      match evaluate 3 n ⟨1, 0, "bar", []⟩ with
      | outcome.ok (value.bool b) => b
      | _ => false)
    (fun n hn => by
      rcases List.mem_cons.mp hn with h | h
      · rw [h]; exact ⟨3, rfl⟩
      · rw [List.mem_singleton.mp h]; exact ⟨3, rfl⟩)
  exact h

/-! # The bitmap indexer -/

/-- Indexing events does not change `last_flush_` and does not make the index
shorter. -/
theorem index_size {I : BitmapIndex} (hI : I.Contract) (extract : event → Option value) :
    ∀ (events : List event) (x : bitmap_indexer I),
      (bitmap_indexer.index extract events x).last_flush_ = x.last_flush_ ∧
      I.size x.bmi_ ≤ I.size (bitmap_indexer.index extract events x).bmi_
  | [], x => ⟨rfl, Nat.le_refl _⟩
  | e :: events, x => by
    rw [bitmap_indexer.index]
    cases extract e with
    | none => exact index_size hI extract events x
    | some v =>
      obtain ⟨h1, h2⟩ := index_size hI extract events
        (⟨x.last_flush_, (I.push_back x.bmi_ v e.id).1⟩ : bitmap_indexer I)
      exact ⟨h1, Nat.le_trans (hI.size_push_back x.bmi_ v e.id) h2⟩

/-- In every reachable state `last_flush_` is at most the size of the index,
and a file holds an index together with its size. -/
theorem reachable_invariant {I : BitmapIndex} (hI : I.Contract)
    (extract : event → Option value) (x : bitmap_indexer I)
    (file : Option (Nat × I.carrier)) (h : bitmap_indexer.reachable I extract x file) :
    x.last_flush_ ≤ I.size x.bmi_ ∧
      ∀ last_flush bmi, file = some (last_flush, bmi) → last_flush = I.size bmi := by
  have hnew : (bitmap_indexer.new I).last_flush_ ≤ I.size (bitmap_indexer.new I).bmi_ := by
    show 1 ≤ I.size (I.append I.dflt 1 false).1
    rw [hI.size_append, hI.size_dflt]
  induction h with
  | start => exact ⟨hnew, fun _ _ h => nomatch h⟩
  | restart x file _ ih =>
    refine ⟨?_, ih.2⟩
    cases file with
    | none => exact hnew
    | some p =>
      obtain ⟨lf, b⟩ := p
      show lf ≤ I.size b
      rw [ih.2 lf b rfl]
  | flush x file _ ih =>
    rw [bitmap_indexer.flush]
    by_cases hgt : I.size x.bmi_ > x.last_flush_
    · rw [if_pos hgt]
      refine ⟨Nat.le_refl _, fun lf b h => ?_⟩
      cases h
      rfl
    · rw [if_neg hgt]
      exact ih
  | index x file events _ ih =>
    obtain ⟨h1, h2⟩ := index_size hI extract events x
    exact ⟨by rw [h1]; exact Nat.le_trans ih.1 h2, ih.2⟩

/-- C26: a newly constructed indexer holds the one position appended by
`append(1, false)`, has `last_flush_ = 1`, and a flush of it writes nothing.
In every reachable state `last_flush_` is at most the size of the index. A
flush writes the index exactly when the size exceeds `last_flush_`; it then
sets `last_flush_` to the size and the file to the size and the index, and
otherwise changes nothing; a flush after a flush writes nothing. -/
theorem indexer_flush {I : BitmapIndex} (hI : I.Contract) (extract : event → Option value) :
    ((bitmap_indexer.new I).bmi_ = (I.append I.dflt 1 false).1 ∧
      I.size (bitmap_indexer.new I).bmi_ = 1 ∧
      (bitmap_indexer.new I).last_flush_ = 1 ∧
      ∀ file, (bitmap_indexer.new I).flush file = (bitmap_indexer.new I, file, false)) ∧
    (∀ x file, bitmap_indexer.reachable I extract x file →
      x.last_flush_ ≤ I.size x.bmi_) ∧
    (∀ (x : bitmap_indexer I) file,
      ((x.flush file).2.2 = true ↔ I.size x.bmi_ > x.last_flush_) ∧
      ((x.flush file).2.2 = true →
        (x.flush file).1 = ⟨I.size x.bmi_, x.bmi_⟩ ∧
        (x.flush file).2.1 = some (I.size x.bmi_, x.bmi_)) ∧
      ((x.flush file).2.2 = false →
        (x.flush file).1 = x ∧ (x.flush file).2.1 = file) ∧
      ((x.flush file).1.flush (x.flush file).2.1 =
        ((x.flush file).1, (x.flush file).2.1, false))) := by
  have hsize : I.size (bitmap_indexer.new I).bmi_ = 1 := by
    show I.size (I.append I.dflt 1 false).1 = 1
    rw [hI.size_append, hI.size_dflt]
  refine ⟨⟨rfl, hsize, rfl, fun file => ?_⟩,
    fun x file h => (reachable_invariant hI extract x file h).1, fun x file => ?_⟩
  · rw [bitmap_indexer.flush, if_neg]
    rw [hsize]
    exact Nat.lt_irrefl 1
  · by_cases hgt : I.size x.bmi_ > x.last_flush_
    · have hf : x.flush file =
          (⟨I.size x.bmi_, x.bmi_⟩, some (I.size x.bmi_, x.bmi_), true) := by
        rw [bitmap_indexer.flush, if_pos hgt]
      rw [hf]
      refine ⟨⟨fun _ => hgt, fun _ => rfl⟩, fun _ => ⟨rfl, rfl⟩, (fun h => nomatch h), ?_⟩
      have hlt : ¬ I.size x.bmi_ > I.size x.bmi_ := Nat.lt_irrefl _
      simp only [bitmap_indexer.flush, if_neg hlt]
    · have hf : x.flush file = (x, file, false) := by
        rw [bitmap_indexer.flush, if_neg hgt]
      rw [hf]
      exact ⟨⟨(fun h => nomatch h), fun h => absurd h hgt⟩, (fun h => nomatch h),
        fun _ => ⟨rfl, rfl⟩, hf⟩

/-- C26 on the index that counts its positions: after a batch with one event
of id 5 the flush writes, and the flush after it does not. -/
theorem indexer_flush_witness :
    ((bitmap_indexer.index (fun _ => some (value.bool true)) [⟨5, 0, "foo", []⟩]
        (bitmap_indexer.new counting_index)).flush none).2.2 = true ∧
    (((bitmap_indexer.index (fun _ => some (value.bool true)) [⟨5, 0, "foo", []⟩]
        (bitmap_indexer.new counting_index)).flush none).1.flush
      ((bitmap_indexer.index (fun _ => some (value.bool true)) [⟨5, 0, "foo", []⟩]
        (bitmap_indexer.new counting_index)).flush none).2.1).2.2 = false :=
  ⟨rfl,
    by
      rw [((indexer_flush (I := counting_index)
        ⟨rfl, fun _ _ _ => rfl,
          fun (x : Nat) _ id => Nat.le_succ_of_le (Nat.le_max_left x id)⟩
        (fun _ => some (value.bool true))).2.2 _ none).2.2.2]⟩

/-! # Printing a vector of bitstreams -/

/-- The minimum computed from `acc` is at most `acc` and at most every
position an iterator stands at, and it is `acc` or such a position. -/
theorem print_min_spec :
    ∀ (is : List (List Nat)) (acc : Nat),
      is.foldl print_min_step acc ≤ acc ∧
      (∀ p, p ∈ is → ∀ x xs, p = x :: xs → is.foldl print_min_step acc ≤ x) ∧
      (is.foldl print_min_step acc = acc ∨
        ∃ p, p ∈ is ∧ ∃ xs, p = is.foldl print_min_step acc :: xs)
  | [], acc => ⟨Nat.le_refl _, fun p hp => absurd hp (List.not_mem_nil _), Or.inl rfl⟩
  | q :: is, acc => by
    rw [List.foldl_cons]
    obtain ⟨h1, h2, h3⟩ := print_min_spec is (print_min_step acc q)
    have hstep : print_min_step acc q ≤ acc := by
      cases q with
      | nil => exact Nat.le_refl _
      | cons y ys =>
        simp only [print_min_step]
        split_ifs with h
        · exact Nat.le_of_lt h
        · exact Nat.le_refl _
    refine ⟨Nat.le_trans h1 hstep, fun p hp x xs hpx => ?_, ?_⟩
    · rcases List.mem_cons.mp hp with h | h
      · subst h
        subst hpx
        refine Nat.le_trans h1 ?_
        simp only [print_min_step]
        split_ifs with h
        · exact Nat.le_refl _
        · exact Nat.le_of_not_lt h
      · exact h2 p h x xs hpx
    · rcases h3 with h | ⟨p, hp, xs, hxs⟩
      · rw [h]
        cases q with
        | nil => exact Or.inl rfl
        | cons y ys =>
          simp only [print_min_step]
          split_ifs with hlt
          · exact Or.inr ⟨y :: ys, List.mem_cons_self _ _, ys, rfl⟩
          · exact Or.inl rfl
      · exact Or.inr ⟨p, List.mem_cons_of_mem _ hp, xs, hxs⟩

/-- What the loop that prints a row computes. -/
theorem print_row_spec (m : Nat) :
    ∀ is : List (List Nat),
      (print_row m is).1 = is.map (fun p => if p.head? = some m then '1' else '0') ∧
      (print_row m is).2.1 = is.map (pop m) ∧
      ((∃ p, p ∈ is ∧ p.head? = some m) → (print_row m is).2.2 = false)
  | [] => ⟨rfl, rfl, fun ⟨p, hp, _⟩ => absurd hp (List.not_mem_nil _)⟩
  | q :: is => by
    obtain ⟨h1, h2, h3⟩ := print_row_spec m is
    cases q with
    | nil =>
      refine ⟨?_, ?_, ?_⟩
      · show '0' :: (print_row m is).1 = _
        rw [h1]; rfl
      · show [] :: (print_row m is).2.1 = _
        rw [h2]; rfl
      · rintro ⟨p, hp, hpm⟩
        show (print_row m is).2.2 = false
        rcases List.mem_cons.mp hp with h | h
        · subst h; cases hpm
        · exact h3 ⟨p, h, hpm⟩
    | cons x xs =>
      by_cases hx : x = m
      · subst hx
        refine ⟨?_, ?_, fun _ => ?_⟩
        · simp only [print_row, if_true, List.map_cons, List.head?_cons]
          rw [h1]
        · simp only [print_row, if_true, List.map_cons, pop]
          rw [h2]
        · simp only [print_row, if_true]
      · refine ⟨?_, ?_, ?_⟩
        · simp only [print_row, if_neg hx, List.map_cons, List.head?_cons, Option.some.injEq]
          rw [h1]
        · simp only [print_row, if_neg hx, List.map_cons, pop]
          rw [h2]
        · rintro ⟨p, hp, hpm⟩
          simp only [print_row, if_neg hx]
          rcases List.mem_cons.mp hp with h | h
          · subst h
            simp only [List.head?_cons, Option.some.injEq] at hpm
            exact absurd hpm hx
          · exact h3 ⟨p, h, hpm⟩

/-- A position is below the top of its list. -/
theorem lt_top : ∀ (p : List Nat) (x : Nat), x ∈ p → x < top p
  | y :: ys, x, h => by
    rw [top]
    rcases List.mem_cons.mp h with h | h
    · subst h; exact Nat.lt_of_lt_of_le (Nat.lt_succ_self _) (Nat.le_max_left _ _)
    · exact Nat.lt_of_lt_of_le (lt_top ys x h) (Nat.le_max_right _ _)

/-- The top of a list is 0 or one more than a position of the list. -/
theorem top_attained : ∀ p : List Nat, top p = 0 ∨ ∃ x, x ∈ p ∧ top p = x + 1
  | [] => Or.inl rfl
  | y :: ys => by
    right
    rw [top]
    rcases top_attained ys with h | ⟨x, hx, hxt⟩
    · exact ⟨y, List.mem_cons_self _ _, by rw [h]; exact Nat.max_eq_left (Nat.zero_le _)⟩
    · rcases Nat.le_total (y + 1) (top ys) with hle | hle
      · exact ⟨x, List.mem_cons_of_mem _ hx, by rw [Nat.max_eq_right hle, hxt]⟩
      · exact ⟨y, List.mem_cons_self _ _, Nat.max_eq_left hle⟩

/-- A position is below the height of the lists. -/
theorem lt_height : ∀ (is : List (List Nat)) (p : List Nat) (x : Nat),
    p ∈ is → x ∈ p → x < height is
  | q :: is, p, x, hp, hx => by
    rw [height]
    rcases List.mem_cons.mp hp with h | h
    · subst h; exact Nat.lt_of_lt_of_le (lt_top p x hx) (Nat.le_max_left _ _)
    · exact Nat.lt_of_lt_of_le (lt_height is p x h hx) (Nat.le_max_right _ _)

/-- The height of the lists is 0 or one more than a position of one of
them. -/
theorem height_attained :
    ∀ is : List (List Nat), height is = 0 ∨ ∃ p x, p ∈ is ∧ x ∈ p ∧ height is = x + 1
  | [] => Or.inl rfl
  | q :: is => by
    rw [height]
    rcases Nat.le_total (top q) (height is) with hle | hle
    · rw [Nat.max_eq_right hle]
      rcases height_attained is with h | ⟨p, x, hp, hx, h⟩
      · exact Or.inl h
      · exact Or.inr ⟨p, x, List.mem_cons_of_mem _ hp, hx, h⟩
    · rw [Nat.max_eq_left hle]
      rcases top_attained q with h | ⟨x, hx, h⟩
      · exact Or.inl h
      · exact Or.inr ⟨q, x, List.mem_cons_self _ _, hx, h⟩

/-- The height is determined by the positions of the lists. -/
theorem height_le_of (is : List (List Nat)) (h : Nat)
    (hall : ∀ p x, p ∈ is → x ∈ p → x < h) : height is ≤ h := by
  rcases height_attained is with h0 | ⟨p, x, hp, hx, hh⟩
  · rw [h0]; exact Nat.zero_le _
  · rw [hh]; exact hall p x hp hx

/-- The positions of an iterator that has been moved on are those of the
iterator, the one it stood at aside. -/
theorem mem_pop (m : Nat) (p : List Nat) (hs : p.Pairwise (fun a b => a < b))
    (hm : ∀ x, x ∈ p → m ≤ x) (x : Nat) : x ∈ pop m p ↔ x ∈ p ∧ x ≠ m := by
  cases p with
  | nil => simp [pop]
  | cons y ys =>
    rw [List.pairwise_cons] at hs
    simp only [pop]
    split_ifs with hy
    · subst hy
      constructor
      · intro hx
        exact ⟨List.mem_cons_of_mem _ hx, Nat.ne_of_gt (hs.1 x hx)⟩
      · rintro ⟨hx, hne⟩
        rcases List.mem_cons.mp hx with h | h
        · exact absurd h hne
        · exact h
    · constructor
      · intro hx
        refine ⟨hx, fun hxm => ?_⟩
        subst hxm
        rcases List.mem_cons.mp hx with h | h
        · exact hy h.symm
        · have h1 := hs.1 x h
          have h2 := hm y (List.mem_cons_self _ _)
          omega
      · exact fun h => h.1

/-- The minimum stands in a list exactly when the list starts with it. -/
theorem mem_iff_head (m : Nat) (p : List Nat) (hs : p.Pairwise (fun a b => a < b))
    (hm : ∀ x, x ∈ p → m ≤ x) : m ∈ p ↔ p.head? = some m := by
  cases p with
  | nil => simp
  | cons y ys =>
    rw [List.pairwise_cons] at hs
    simp only [List.head?_cons, Option.some.injEq, List.mem_cons]
    constructor
    · rintro (h | h)
      · exact h.symm
      · have h1 := hs.1 m h
        have h2 := hm y (List.mem_cons_self _ _)
        omega
    · exact fun h => Or.inl h.symm

/-- Lines one after the other. -/
theorem pos_rows_append (is : List (List Nat)) :
    ∀ (a b i : Nat), pos_rows is i (a + b) = pos_rows is i a ++ pos_rows is (i + a) b
  | 0, b, i => by simp [pos_rows]
  | a + 1, b, i => by
    rw [show a + 1 + b = (a + b) + 1 by omega, pos_rows, pos_rows, pos_rows_append is a b (i + 1),
      List.append_assoc, show i + 1 + a = i + (a + 1) by omega]

/-- Lines that agree one by one. -/
theorem pos_rows_congr (is js : List (List Nat)) :
    ∀ (k i : Nat), (∀ j, i ≤ j → j < i + k → pos_row is j = pos_row js j) →
      pos_rows is i k = pos_rows js i k
  | 0, _, _ => rfl
  | k + 1, i, h => by
    rw [pos_rows, pos_rows, h i (Nat.le_refl _) (by omega),
      pos_rows_congr is js k (i + 1) (fun j h1 h2 => h j (by omega) (by omega))]

/-- Lines without a set bit are rows of zeros. -/
theorem pos_rows_zero (is : List (List Nat)) :
    ∀ (k i : Nat), (∀ j, i ≤ j → j < i + k → ∀ p, p ∈ is → j ∉ p) →
      pos_rows is i k = repeat_row (List.replicate is.length '0' ++ ['\n']) k
  | 0, _, _ => rfl
  | k + 1, i, h => by
    rw [pos_rows, repeat_row, pos_rows_zero is k (i + 1) (fun j h1 h2 => h j (by omega) (by omega))]
    congr 1
    rw [pos_row]
    congr 1
    have hi := h i (Nat.le_refl _) (by omega)
    clear h
    induction is with
    | nil => rfl
    | cons p is ih =>
      rw [List.map_cons, List.length_cons, List.replicate_succ,
        ih (fun q hq => hi q (List.mem_cons_of_mem _ hq)),
        if_neg (hi p (List.mem_cons_self _ _))]

/-- The number of positions to visit goes down when an iterator moves on. -/
theorem total_ones_pop (m : Nat) :
    ∀ is : List (List Nat),
      total_ones (is.map (pop m)) ≤ total_ones is ∧
      ((∃ p, p ∈ is ∧ p.head? = some m) → total_ones (is.map (pop m)) < total_ones is)
  | [] => ⟨Nat.le_refl _, fun ⟨p, hp, _⟩ => absurd hp (List.not_mem_nil _)⟩
  | q :: is => by
    obtain ⟨h1, h2⟩ := total_ones_pop m is
    have hq : (pop m q).length ≤ q.length ∧ (q.head? = some m → (pop m q).length < q.length) := by
      cases q with
      | nil => exact ⟨Nat.le_refl _, fun h => nomatch h⟩
      | cons y ys =>
        simp only [pop]
        split_ifs with hy
        · exact ⟨Nat.le_succ _, fun _ => Nat.lt_succ_self _⟩
        · refine ⟨Nat.le_refl _, fun h => ?_⟩
          simp only [List.head?_cons, Option.some.injEq] at h
          exact absurd h hy
    rw [List.map_cons, total_ones, total_ones]
    refine ⟨Nat.add_le_add hq.1 h1, ?_⟩
    rintro ⟨p, hp, hpm⟩
    rcases List.mem_cons.mp hp with h | h
    · subst h
      exact Nat.add_lt_add_of_lt_of_le (hq.2 hpm) h1
    · exact Nat.add_lt_add_of_le_of_lt hq.1 (h2 ⟨p, h, hpm⟩)

/-- The loop of `print` writes the lines from `last` up to the height of the
iterators. -/
theorem print_loop_spec :
    ∀ (fuel : Nat) (is : List (List Nat)) (last : Nat), iters_ok last is →
      total_ones is < fuel →
      print_loop fuel is last = pos_rows is last (height is - last)
  | 0, _, _, _, h => absurd h (Nat.not_lt_zero _)
  | fuel + 1, is, last, hok, hfuel => by
    obtain ⟨_, hmin, hatt⟩ := print_min_spec is npos
    have hle : ∀ p, p ∈ is → ∀ x, x ∈ p → print_min is ≤ x := by
      intro p hp x hx
      cases p with
      | nil => exact absurd hx (List.not_mem_nil _)
      | cons y ys =>
        have h1 := hmin _ hp y ys rfl
        rcases List.mem_cons.mp hx with h | h
        · rw [h]; exact h1
        · have := (List.pairwise_cons.mp (hok _ hp).1).1 x h
          exact Nat.le_trans h1 (Nat.le_of_lt this)
    rw [print_loop]
    by_cases hnpos : print_min is = npos
    · simp only [hnpos, if_true]
      have h0 : height is = 0 := by
        refine Nat.le_zero.mp (height_le_of is 0 (fun p x hp hx => ?_))
        have h1 := hle p hp x hx
        have h2 := (hok p hp).2 x hx
        rw [hnpos] at h1
        omega
      rw [h0, Nat.zero_sub, pos_rows]
    · simp only [hnpos, if_false]
      obtain ⟨p0, hp0, xs0, hxs0⟩ : ∃ p, p ∈ is ∧ ∃ xs, p = print_min is :: xs := by
        rcases hatt with h | h
        · exact absurd h hnpos
        · exact h
      have hhead : ∃ p, p ∈ is ∧ p.head? = some (print_min is) :=
        ⟨p0, hp0, by rw [hxs0]; rfl⟩
      have hm0 : print_min is ∈ p0 := by rw [hxs0]; exact List.mem_cons_self _ _
      obtain ⟨hlast, hlt⟩ := (hok p0 hp0).2 _ hm0
      obtain ⟨hr1, hr2, hr3⟩ := print_row_spec (print_min is) is
      rw [hr3 hhead, hr2, hr1]
      simp only [Bool.false_eq_true, if_false]
      have hsub : size_sub (print_min is) last = print_min is - last := by
        have : print_min is < 2 ^ 64 := by
          have : npos < 2 ^ 64 := by decide
          omega
        rw [size_sub]
        omega
      have hsucc : (print_min is + 1) % 2 ^ 64 = print_min is + 1 := by
        apply Nat.mod_eq_of_lt
        have : npos + 1 = 2 ^ 64 := by decide
        omega
      rw [hsub, hsucc]
      have hok' : iters_ok (print_min is + 1) (is.map (pop (print_min is))) := by
        intro q hq
        obtain ⟨p, hp, rfl⟩ := List.mem_map.mp hq
        constructor
        · have hs := (hok p hp).1
          cases p with
          | nil => exact List.Pairwise.nil
          | cons y ys =>
            simp only [pop]
            split_ifs
            · exact (List.pairwise_cons.mp hs).2
            · exact hs
        · intro x hx
          obtain ⟨h1, h2⟩ := (mem_pop _ p (hok p hp).1 (hle p hp) x).1 hx
          have h3 := hle p hp x h1
          exact ⟨by omega, ((hok p hp).2 x h1).2⟩
      have hfuel' : total_ones (is.map (pop (print_min is))) < fuel := by
        have := (total_ones_pop (print_min is) is).2 hhead
        omega
      rw [print_loop_spec fuel _ _ hok' hfuel']
      have hH : height is = max (height (is.map (pop (print_min is)))) (print_min is + 1) := by
        apply Nat.le_antisymm
        · apply height_le_of
          intro p x hp hx
          by_cases hxm : x = print_min is
          · rw [hxm]; exact Nat.lt_of_lt_of_le (Nat.lt_succ_self _) (Nat.le_max_right _ _)
          · have hmem : x ∈ pop (print_min is) p :=
              (mem_pop _ p (hok p hp).1 (hle p hp) x).2 ⟨hx, hxm⟩
            exact Nat.lt_of_lt_of_le
              (lt_height _ _ x (List.mem_map.mpr ⟨p, hp, rfl⟩) hmem) (Nat.le_max_left _ _)
        · apply Nat.max_le.mpr
          constructor
          · apply height_le_of
            intro q x hq hx
            obtain ⟨p, hp, rfl⟩ := List.mem_map.mp hq
            exact lt_height is p x hp ((mem_pop _ p (hok p hp).1 (hle p hp) x).1 hx).1
          · exact lt_height is p0 _ hp0 hm0
      have hge : print_min is + 1 ≤ height is := lt_height is p0 _ hp0 hm0
      have hcount : height is - last =
          (print_min is - last) + (1 + (height (is.map (pop (print_min is))) -
            (print_min is + 1))) := by
        rw [hH] at hge ⊢
        omega
      rw [hcount, pos_rows_append, pos_rows_append]
      have hz : pos_rows is last (print_min is - last) =
          repeat_row (List.replicate is.length '0' ++ ['\n']) (print_min is - last) := by
        apply pos_rows_zero
        intro j h1 h2 p hp hj
        have := hle p hp j hj
        omega
      have hrow : pos_rows is (last + (print_min is - last)) 1 =
          is.map (fun p => if p.head? = some (print_min is) then '1' else '0') ++ ['\n'] := by
        rw [show last + (print_min is - last) = print_min is by omega, pos_rows, pos_rows,
          List.append_nil, pos_row]
        congr 1
        apply List.map_congr_left
        intro p hp
        by_cases hmem : print_min is ∈ p
        · rw [if_pos hmem, if_pos ((mem_iff_head _ p (hok p hp).1 (hle p hp)).1 hmem)]
        · rw [if_neg hmem, if_neg (fun h => hmem ((mem_iff_head _ p (hok p hp).1 (hle p hp)).2 h))]
      have hrest : pos_rows is (last + (print_min is - last) + 1)
            (height (is.map (pop (print_min is))) - (print_min is + 1)) =
          pos_rows (is.map (pop (print_min is))) (print_min is + 1)
            (height (is.map (pop (print_min is))) - (print_min is + 1)) := by
        rw [show last + (print_min is - last) + 1 = print_min is + 1 by omega]
        apply pos_rows_congr
        intro j h1 _
        rw [pos_row, pos_row, List.map_map]
        congr 1
        apply List.map_congr_left
        intro p hp
        have hiff := mem_pop (print_min is) p (hok p hp).1 (hle p hp) j
        show _ = if j ∈ pop (print_min is) p then '1' else '0'
        by_cases hmem : j ∈ p
        · rw [if_pos hmem, if_pos (hiff.2 ⟨hmem, by omega⟩)]
        · rw [if_neg hmem, if_neg (fun h => hmem (hiff.1 h).1)]
      rw [hz, hrow, hrest, List.append_assoc]

/-- The positions of the set bits: those at which the bit is set. -/
theorem mem_ones_from :
    ∀ (b : List Bool) (off i : Nat),
      i ∈ ones_from off b ↔ off ≤ i ∧ b.getD (i - off) false = true
  | [], off, i => by simp [ones_from]
  | c :: b, off, i => by
    have ih := mem_ones_from b (off + 1) i
    have hstep : (off + 1 ≤ i ∧ b.getD (i - (off + 1)) false = true) ↔
        (off < i ∧ (c :: b).getD (i - off) false = true) := by
      constructor
      · rintro ⟨h1, h2⟩
        refine ⟨h1, ?_⟩
        rw [show i - off = (i - (off + 1)) + 1 by omega, List.getD_cons_succ]
        exact h2
      · rintro ⟨h1, h2⟩
        refine ⟨h1, ?_⟩
        rw [show i - off = (i - (off + 1)) + 1 by omega, List.getD_cons_succ] at h2
        exact h2
    rw [ones_from]
    cases c with
    | true =>
      simp only [if_true, List.mem_cons, ih, hstep]
      constructor
      · rintro (h | ⟨h1, h2⟩)
        · subst h; simp
        · exact ⟨Nat.le_of_lt h1, h2⟩
      · rintro ⟨h1, h2⟩
        rcases Nat.eq_or_lt_of_le h1 with h | h
        · exact Or.inl h.symm
        · exact Or.inr ⟨h, h2⟩
    | false =>
      simp only [Bool.false_eq_true, if_false, ih, hstep]
      constructor
      · rintro ⟨h1, h2⟩
        exact ⟨Nat.le_of_lt h1, h2⟩
      · rintro ⟨h1, h2⟩
        rcases Nat.eq_or_lt_of_le h1 with h | h
        · subst h; simp at h2
        · exact ⟨h, h2⟩

/-- The positions of the set bits are ascending. -/
theorem ones_from_sorted :
    ∀ (b : List Bool) (off : Nat), (ones_from off b).Pairwise (fun x y => x < y)
  | [], _ => List.Pairwise.nil
  | c :: b, off => by
    rw [ones_from]
    cases c with
    | true =>
      simp only [if_true]
      rw [List.pairwise_cons]
      refine ⟨fun x hx => ?_, ones_from_sorted b (off + 1)⟩
      exact ((mem_ones_from b (off + 1) x).1 hx).1
    | false =>
      simp only [Bool.false_eq_true, if_false]
      exact ones_from_sorted b (off + 1)

/-- A set bit lies below the size. -/
theorem getD_true_lt (b : List Bool) (i : Nat) (h : b.getD i false = true) : i < b.length := by
  by_contra hge
  rw [List.getD_eq_default _ _ (Nat.le_of_not_lt hge)] at h
  cases h

/-- The lines for the positions of the set bits are the lines of the
matrix. -/
theorem pos_rows_ones (v : List (List Bool)) :
    ∀ (k i : Nat), pos_rows (v.map (ones_from 0)) i k = bit_rows v i k
  | 0, _ => rfl
  | k + 1, i => by
    rw [pos_rows, bit_rows, pos_rows_ones v k (i + 1), pos_row, bit_row, List.map_map]
    congr 2
    apply List.map_congr_left
    intro b _
    show (if i ∈ ones_from 0 b then '1' else '0') = _
    have h := mem_ones_from b 0 i
    simp only [Nat.zero_le, true_and, Nat.sub_zero] at h
    by_cases hb : b.getD i false = true
    · rw [if_pos (h.2 hb), if_pos hb]
    · rw [if_neg (fun hm => hb (h.1 hm)), if_neg hb]

/-- C25: for bitstreams of sizes within `size_type`, `print` writes the lines
0 to `h - 1` of the transposed matrix, where `h` is one more than the largest
position at which one of the bitstreams has a set bit, and 0 if no bit is set:
nothing for an empty vector or for bitstreams without a set bit. Line `i` holds
for each bitstream '1' if bit `i` is set and '0' otherwise, followed by a
newline. -/
theorem print_transposes (v : List (List Bool)) (hv : ∀ b, b ∈ v → b.length < 2 ^ 64) :
    print [] = [] ∧
    (∃ h, print v = bit_rows v 0 h ∧
      (∀ b i, b ∈ v → b.getD i false = true → i < h) ∧
      (h = 0 ∨ ∃ b, b ∈ v ∧ b.getD (h - 1) false = true)) ∧
    ((∀ b i, b ∈ v → b.getD i false = false) → print v = []) ∧
    (∀ i, (bit_row v i).length = v.length + 1 ∧
      (bit_row v i).getLast? = some '\n' ∧
      ∀ j (hj : j < v.length),
        (bit_row v i)[j]? = some (if (v.get ⟨j, hj⟩).getD i false then '1' else '0')) := by
  have hmem : ∀ b i, b ∈ v → (i ∈ ones_from 0 b ↔ b.getD i false = true) := by
    intro b i _
    have h := mem_ones_from b 0 i
    simpa using h
  have hok : iters_ok 0 (v.map (ones_from 0)) := by
    intro p hp
    obtain ⟨b, hb, rfl⟩ := List.mem_map.mp hp
    refine ⟨ones_from_sorted b 0, fun x hx => ⟨Nat.zero_le _, ?_⟩⟩
    have h1 := getD_true_lt b x ((hmem b x hb).1 hx)
    have h2 := hv b hb
    have : npos + 1 = 2 ^ 64 := by decide
    omega
  have hprint : print v = bit_rows v 0 (height (v.map (ones_from 0))) := by
    rw [print]
    cases hvv : v with
    | nil => rfl
    | cons a l =>
      rw [← hvv]
      have he : v.isEmpty = false := by rw [hvv]; rfl
      simp only [he, Bool.false_eq_true, if_false]
      rw [print_loop_spec _ _ 0 hok (Nat.lt_succ_self _), Nat.sub_zero, pos_rows_ones]
  have hupper : ∀ b i, b ∈ v → b.getD i false = true → i < height (v.map (ones_from 0)) :=
    fun b i hb hi =>
      lt_height _ _ i (List.mem_map.mpr ⟨b, hb, rfl⟩) ((hmem b i hb).2 hi)
  refine ⟨rfl, ⟨_, hprint, hupper, ?_⟩, fun hzero => ?_, fun i => ⟨?_, ?_, fun j hj => ?_⟩⟩
  · rcases height_attained (v.map (ones_from 0)) with h | ⟨p, x, hp, hx, h⟩
    · exact Or.inl h
    · obtain ⟨b, hb, rfl⟩ := List.mem_map.mp hp
      refine Or.inr ⟨b, hb, ?_⟩
      rw [h, Nat.add_sub_cancel]
      exact (hmem b x hb).1 hx
  · rw [hprint]
    have h0 : height (v.map (ones_from 0)) = 0 := by
      refine Nat.le_zero.mp (height_le_of _ 0 (fun p x hp hx => ?_))
      obtain ⟨b, hb, rfl⟩ := List.mem_map.mp hp
      have h1 := (hmem b x hb).1 hx
      rw [hzero b x hb] at h1
      cases h1
    rw [h0, bit_rows]
  · rw [bit_row, List.length_append, List.length_map, List.length_singleton]
  · rw [bit_row, List.getLast?_append]
    rfl
  · rw [bit_row, List.getElem?_append_left (by rw [List.length_map]; exact hj),
      List.getElem?_map, List.getElem?_eq_getElem hj]
    rfl

/-- C25 on the three bitstreams of the unit test `null_operations`. -/
theorem print_transposes_witness :
    ∃ h, print
        [[true, true, true, false, false, false, false, false, false, false, true],
          [true, true, false, false, false, false, true, true, true, false, true],
          [false, false, true, false, false, false, false, false, false, false, false]] =
      bit_rows
        [[true, true, true, false, false, false, false, false, false, false, true],
          [true, true, false, false, false, false, true, true, true, false, true],
          [false, false, true, false, false, false, false, false, false, false, false]] 0 h ∧
      (∀ b i, b ∈
        [[true, true, true, false, false, false, false, false, false, false, true],
          [true, true, false, false, false, false, true, true, true, false, true],
          [false, false, true, false, false, false, false, false, false, false, false]] →
        b.getD i false = true → i < h) ∧
      (h = 0 ∨ ∃ b, b ∈
        [[true, true, true, false, false, false, false, false, false, false, true],
          [true, true, false, false, false, false, true, true, true, false, true],
          [false, false, true, false, false, false, false, false, false, false, false]] ∧
        b.getD (h - 1) false = true) :=
  (print_transposes _ (fun b hb => by
    have : b.length = 11 := by
      simp only [List.mem_cons, List.mem_singleton, List.not_mem_nil, or_false] at hb
      rcases hb with h | h | h <;> rw [h] <;> rfl
    rw [this]
    decide)).2.1

/-! # Searching a bitstream -/

/-- What the forward bit scan returns. -/
theorem lowest_bit_spec (d : Nat) :
    ∀ (c j : Nat),
      (lowest_bit d c j = none → ∀ k, j ≤ k → k < j + c → d.testBit k = false) ∧
      (∀ r, lowest_bit d c j = some r →
        j ≤ r ∧ r < j + c ∧ d.testBit r = true ∧ ∀ k, j ≤ k → k < r → d.testBit k = false)
  | 0, j => ⟨fun _ k h1 h2 => absurd h2 (by omega), fun r h => nomatch h⟩
  | c + 1, j => by
    obtain ⟨ih1, ih2⟩ := lowest_bit_spec d c (j + 1)
    rw [lowest_bit]
    by_cases hb : d.testBit j = true
    · rw [if_pos hb]
      refine ⟨(fun h => nomatch h), fun r h => ?_⟩
      cases h
      exact ⟨Nat.le_refl _, by omega, hb, fun k h1 h2 => absurd h2 (by omega)⟩
    · rw [if_neg hb]
      refine ⟨fun h k h1 h2 => ?_, fun r h => ?_⟩
      · rcases Nat.eq_or_lt_of_le h1 with h3 | h3
        · rw [← h3]; exact Bool.not_eq_true _ ▸ hb
        · exact ih1 h k h3 (by omega)
      · obtain ⟨h1, h2, h3, h4⟩ := ih2 r h
        refine ⟨by omega, by omega, h3, fun k h5 h6 => ?_⟩
        rcases Nat.eq_or_lt_of_le h5 with h7 | h7
        · rw [← h7]; exact Bool.not_eq_true _ ▸ hb
        · exact h4 k h7 h6

/-- What the backward bit scan returns. -/
theorem highest_bit_spec (d : Nat) :
    ∀ c : Nat,
      (highest_bit d c = none → ∀ k, k < c → d.testBit k = false) ∧
      (∀ r, highest_bit d c = some r →
        r < c ∧ d.testBit r = true ∧ ∀ k, r < k → k < c → d.testBit k = false)
  | 0 => ⟨fun _ k h => absurd h (Nat.not_lt_zero _), fun r h => nomatch h⟩
  | c + 1 => by
    obtain ⟨ih1, ih2⟩ := highest_bit_spec d c
    rw [highest_bit]
    by_cases hb : d.testBit c = true
    · rw [if_pos hb]
      refine ⟨(fun h => nomatch h), fun r h => ?_⟩
      cases h
      exact ⟨Nat.lt_succ_self _, hb, fun k h1 h2 => absurd h2 (by omega)⟩
    · rw [if_neg hb]
      refine ⟨fun h k h1 => ?_, fun r h => ?_⟩
      · rcases Nat.eq_or_lt_of_le (Nat.le_of_lt_succ h1) with h3 | h3
        · rw [h3]; exact Bool.not_eq_true _ ▸ hb
        · exact ih1 h k h3
      · obtain ⟨h1, h2, h3⟩ := ih2 r h
        refine ⟨by omega, h2, fun k h5 h6 => ?_⟩
        rcases Nat.eq_or_lt_of_le (Nat.le_of_lt_succ h6) with h7 | h7
        · rw [h7]; exact Bool.not_eq_true _ ▸ hb
        · exact h3 k h5 h7

/-- The bits of a sequence, one by one. -/
theorem rem_getD (s : bitsequence) (l k : Nat) (hk : k < l) :
    (s.rem l).getD k false = s.bit k := by
  rw [bitsequence.rem, bitsequence.bit]
  split_ifs
  · rw [List.getD_eq_getElem?_getD, List.getElem?_replicate, if_pos hk]
    rfl
  · rw [List.getD_eq_getElem?_getD, block_bits_getElem? _ _ _ hk]
    rfl

/-- The sequences of a list laid out from `off` on start at or after `off`. -/
theorem offsets_ge :
    ∀ (seqs : List bitsequence) (off : Nat), offsets_from off seqs →
      ∀ s, s ∈ seqs → off ≤ s.offset
  | [], _, _, s, hs => absurd hs (List.not_mem_nil _)
  | t :: ts, off, h, s, hs => by
    rcases List.mem_cons.mp hs with h1 | h1
    · rw [h1, h.1]
    · exact Nat.le_trans (Nat.le_add_right _ _) (offsets_ge ts _ h.2 s h1)

/-- A set position lies at or after the start of the sequences. -/
theorem set_in_ge (seqs : List bitsequence) (off : Nat) (h : offsets_from off seqs) (j : Nat)
    (hj : set_in seqs j) : off ≤ j := by
  obtain ⟨s, hs, h1, _, _⟩ := hj
  exact Nat.le_trans (offsets_ge seqs off h s hs) h1

/-- A position is set in a list of sequences when it is set in the first or in
one of the others. -/
theorem set_in_cons (s : bitsequence) (ss : List bitsequence) (j : Nat) :
    set_in (s :: ss) j ↔
      (s.offset ≤ j ∧ j < s.offset + s.length ∧ s.bit (j - s.offset) = true) ∨ set_in ss j := by
  constructor
  · rintro ⟨t, ht, h⟩
    rcases List.mem_cons.mp ht with h1 | h1
    · subst h1; exact Or.inl h
    · exact Or.inr ⟨t, h1, h⟩
  · rintro (h | ⟨t, ht, h⟩)
    · exact ⟨s, List.mem_cons_self _ _, h⟩
    · exact ⟨t, List.mem_cons_of_mem _ ht, h⟩

/-- The positions that are set in the sequences are the set bits of the bits
they denote. -/
theorem set_in_denote :
    ∀ (seqs : List bitsequence) (off : Nat), offsets_from off seqs →
      ∀ j, set_in seqs j ↔ off ≤ j ∧ (denote seqs).getD (j - off) false = true
  | [], off, _, j => by
    constructor
    · rintro ⟨s, hs, _⟩; exact absurd hs (List.not_mem_nil _)
    · rintro ⟨_, h⟩; simp [denote] at h
  | s :: ss, off, h, j => by
    have ih := set_in_denote ss (off + s.length) h.2 j
    have hoff : s.offset = off := h.1
    rw [set_in_cons, ih, hoff, denote]
    by_cases hlt : j - off < s.length
    · rw [List.getD_append _ _ _ _ (by rw [rem_length]; exact hlt), rem_getD _ _ _ hlt]
      constructor
      · rintro (⟨h1, _, h3⟩ | ⟨h1, _⟩)
        · exact ⟨h1, h3⟩
        · omega
      · rintro ⟨h1, h2⟩
        exact Or.inl ⟨h1, by omega, h2⟩
    · rw [List.getD_append_right _ _ _ _ (by rw [rem_length]; omega), rem_length]
      constructor
      · rintro (⟨h1, h2, _⟩ | ⟨h1, h2⟩)
        · omega
        · refine ⟨by omega, ?_⟩
          rw [show j - off - s.length = j - (off + s.length) by omega]
          exact h2
      · rintro ⟨h1, h2⟩
        by_cases hge : off + s.length ≤ j
        · right
          refine ⟨hge, ?_⟩
          rw [show j - (off + s.length) = j - off - s.length by omega]
          exact h2
        · omega

/-- The forward search returns the first set position at or after `i`. -/
theorem first_from_spec :
    ∀ (seqs : List bitsequence) (off i : Nat), offsets_from off seqs → tail_wf seqs →
      (first_from seqs i = none → ∀ j, i ≤ j → ¬ set_in seqs j) ∧
      (∀ r, first_from seqs i = some r →
        i ≤ r ∧ set_in seqs r ∧ ∀ j, i ≤ j → j < r → ¬ set_in seqs j)
  | [], _, _, _, _ =>
    ⟨fun _ j _ ⟨s, hs, _⟩ => absurd hs (List.not_mem_nil _), fun r h => nomatch h⟩
  | s :: ss, off, i, ho, hw => by
    obtain ⟨ih1, ih2⟩ := first_from_spec ss (off + s.length) i ho.2 hw.2
    have hoff : s.offset = off := ho.1
    have hpos : 0 < s.length := hw.1.1
    have hrest : ∀ j, set_in ss j → s.offset + s.length ≤ j := by
      intro j hj
      rw [hoff]
      exact set_in_ge ss _ ho.2 j hj
    rw [first_from]
    by_cases hskip : s.offset + s.length ≤ i
    · rw [if_pos hskip]
      refine ⟨fun h j hj hset => ?_, fun r h => ?_⟩
      · rcases (set_in_cons s ss j).1 hset with h1 | h1
        · omega
        · exact ih1 h j hj h1
      · obtain ⟨h1, h2, h3⟩ := ih2 r h
        refine ⟨h1, (set_in_cons s ss r).2 (Or.inr h2), fun j hj hjr hset => ?_⟩
        rcases (set_in_cons s ss j).1 hset with h4 | h4
        · omega
        · exact h3 j hj hjr h4
    · rw [if_neg hskip]
      by_cases hfill : s.is_fill = true
      · rw [if_pos hfill]
        by_cases hone : (s.data != 0) = true
        · rw [if_pos hone]
          refine ⟨(fun h => nomatch h), fun r h => ?_⟩
          cases h
          refine ⟨Nat.le_max_left _ _, (set_in_cons s ss _).2 (Or.inl ⟨Nat.le_max_right _ _, ?_, ?_⟩),
            fun j hj hjr hset => ?_⟩
          · rcases Nat.le_total i s.offset with h1 | h1
            · rw [Nat.max_eq_right h1]; omega
            · rw [Nat.max_eq_left h1]; omega
          · rw [bitsequence.bit, if_pos hfill]; exact hone
          · have := set_in_ge (s :: ss) off ho j hset
            rcases Nat.le_total i s.offset with h1 | h1
            · rw [Nat.max_eq_right h1] at hjr; omega
            · rw [Nat.max_eq_left h1] at hjr; omega
        · rw [if_neg hone]
          have hzero : ∀ k, s.bit k = false := by
            intro k
            rw [bitsequence.bit, if_pos hfill]
            exact Bool.not_eq_true _ ▸ hone
          refine ⟨fun h j hj hset => ?_, fun r h => ?_⟩
          · rcases (set_in_cons s ss j).1 hset with h1 | h1
            · rw [hzero] at h1; exact absurd h1.2.2 (by decide)
            · exact ih1 h j hj h1
          · obtain ⟨h1, h2, h3⟩ := ih2 r h
            refine ⟨h1, (set_in_cons s ss r).2 (Or.inr h2), fun j hj hjr hset => ?_⟩
            rcases (set_in_cons s ss j).1 hset with h4 | h4
            · rw [hzero] at h4; exact absurd h4.2.2 (by decide)
            · exact h3 j hj hjr h4
      · rw [if_neg hfill]
        have hbit : ∀ k, s.bit k = s.data.testBit k := by
          intro k
          rw [bitsequence.bit, if_neg hfill]
        obtain ⟨hl1, hl2⟩ := lowest_bit_spec s.data (s.length - (i - s.offset)) (i - s.offset)
        cases hlow : lowest_bit s.data (s.length - (i - s.offset)) (i - s.offset) with
        | some k =>
          obtain ⟨h1, h2, h3, h4⟩ := hl2 k hlow
          refine ⟨(fun h => nomatch h), fun r h => ?_⟩
          cases h
          refine ⟨by omega, (set_in_cons s ss _).2 (Or.inl ⟨Nat.le_add_right _ _, by omega, ?_⟩),
            fun j hj hjr hset => ?_⟩
          · rw [Nat.add_sub_cancel_left, hbit]; exact h3
          · rcases (set_in_cons s ss j).1 hset with h5 | h5
            · have := h4 (j - s.offset) (by omega) (by omega)
              rw [hbit, this] at h5
              exact absurd h5.2.2 (by decide)
            · have := hrest j h5
              omega
        | none =>
          have hnone := hl1 hlow
          refine ⟨fun h j hj hset => ?_, fun r h => ?_⟩
          · rcases (set_in_cons s ss j).1 hset with h1 | h1
            · have := hnone (j - s.offset) (by omega) (by omega)
              rw [hbit, this] at h1
              exact absurd h1.2.2 (by decide)
            · exact ih1 h j hj h1
          · obtain ⟨h1, h2, h3⟩ := ih2 r h
            refine ⟨h1, (set_in_cons s ss r).2 (Or.inr h2), fun j hj hjr hset => ?_⟩
            rcases (set_in_cons s ss j).1 hset with h4 | h4
            · have := hnone (j - s.offset) (by omega) (by omega)
              rw [hbit, this] at h4
              exact absurd h4.2.2 (by decide)
            · exact h3 j hj hjr h4

/-- The backward search returns the last set position at or before `i`. -/
theorem last_upto_spec :
    ∀ (seqs : List bitsequence) (off i : Nat), offsets_from off seqs → tail_wf seqs →
      (last_upto seqs i = none → ∀ j, j ≤ i → ¬ set_in seqs j) ∧
      (∀ r, last_upto seqs i = some r →
        r ≤ i ∧ set_in seqs r ∧ ∀ j, r < j → j ≤ i → ¬ set_in seqs j)
  | [], _, _, _, _ =>
    ⟨fun _ j _ ⟨s, hs, _⟩ => absurd hs (List.not_mem_nil _), fun r h => nomatch h⟩
  | s :: ss, off, i, ho, hw => by
    obtain ⟨ih1, ih2⟩ := last_upto_spec ss (off + s.length) i ho.2 hw.2
    have hoff : s.offset = off := ho.1
    have hpos : 0 < s.length := hw.1.1
    have hrest : ∀ j, set_in ss j → s.offset + s.length ≤ j := by
      intro j hj
      rw [hoff]
      exact set_in_ge ss _ ho.2 j hj
    rw [last_upto]
    by_cases habove : i < s.offset
    · rw [if_pos habove]
      refine ⟨fun _ j hj hset => ?_, fun r h => nomatch h⟩
      have := set_in_ge (s :: ss) off ho j hset
      omega
    · rw [if_neg habove]
      cases hlast : last_upto ss i with
      | some r0 =>
        obtain ⟨h1, h2, h3⟩ := ih2 r0 hlast
        refine ⟨(fun h => nomatch h), fun r h => ?_⟩
        cases h
        refine ⟨h1, (set_in_cons s ss _).2 (Or.inr h2), fun j hj hji hset => ?_⟩
        rcases (set_in_cons s ss j).1 hset with h4 | h4
        · have := hrest _ h2
          omega
        · exact h3 j hj hji h4
      | none =>
        have hnone := ih1 hlast
        dsimp only
        by_cases hfill : s.is_fill = true
        · rw [if_pos hfill]
          by_cases hone : (s.data != 0) = true
          · rw [if_pos hone]
            refine ⟨(fun h => nomatch h), fun r h => ?_⟩
            cases h
            refine ⟨Nat.min_le_left _ _,
              (set_in_cons s ss _).2 (Or.inl ⟨?_, ?_, ?_⟩), fun j hj hji hset => ?_⟩
            · exact Nat.le_min.mpr ⟨by omega, by omega⟩
            · exact Nat.lt_of_le_of_lt (Nat.min_le_right _ _) (by omega)
            · rw [bitsequence.bit, if_pos hfill]; exact hone
            · rcases (set_in_cons s ss j).1 hset with h4 | h4
              · rcases Nat.le_total i (s.offset + s.length - 1) with h5 | h5
                · rw [Nat.min_eq_left h5] at hj; omega
                · rw [Nat.min_eq_right h5] at hj; omega
              · exact hnone j hji h4
          · rw [if_neg hone]
            have hzero : ∀ k, s.bit k = false := by
              intro k
              rw [bitsequence.bit, if_pos hfill]
              exact Bool.not_eq_true _ ▸ hone
            refine ⟨fun _ j hj hset => ?_, fun r h => nomatch h⟩
            rcases (set_in_cons s ss j).1 hset with h1 | h1
            · rw [hzero] at h1; exact absurd h1.2.2 (by decide)
            · exact hnone j hj h1
        · rw [if_neg hfill]
          have hbit : ∀ k, s.bit k = s.data.testBit k := by
            intro k
            rw [bitsequence.bit, if_neg hfill]
          obtain ⟨hl1, hl2⟩ := highest_bit_spec s.data (min s.length (i - s.offset + 1))
          cases hhigh : highest_bit s.data (min s.length (i - s.offset + 1)) with
          | some k =>
            obtain ⟨h1, h2, h3⟩ := hl2 k hhigh
            have hk1 : k < s.length := Nat.lt_of_lt_of_le h1 (Nat.min_le_left _ _)
            have hk2 : k < i - s.offset + 1 := Nat.lt_of_lt_of_le h1 (Nat.min_le_right _ _)
            refine ⟨(fun h => nomatch h), fun r h => ?_⟩
            cases h
            refine ⟨by omega,
              (set_in_cons s ss _).2 (Or.inl ⟨Nat.le_add_right _ _, by omega, ?_⟩),
              fun j hj hji hset => ?_⟩
            · rw [Nat.add_sub_cancel_left, hbit]; exact h2
            · rcases (set_in_cons s ss j).1 hset with h5 | h5
              · have := h3 (j - s.offset) (by omega) (Nat.lt_min.mpr ⟨by omega, by omega⟩)
                rw [hbit, this] at h5
                exact absurd h5.2.2 (by decide)
              · exact hnone j hji h5
          | none =>
            have hno := hl1 hhigh
            refine ⟨fun _ j hj hset => ?_, fun r h => nomatch h⟩
            rcases (set_in_cons s ss j).1 hset with h1 | h1
            · have := hno (j - s.offset) (Nat.lt_min.mpr ⟨by omega, by omega⟩)
              rw [hbit, this] at h1
              exact absurd h1.2.2 (by decide)
            · exact hnone j hj h1

/-- The bits of a bitstream in terms of its sequences. -/
theorem set_in_bits {B : Bitstream} (hB : B.Contract) (x : B.carrier) (j : Nat) :
    set_in (B.sequence_range x) j ↔ (B.bits x).getD j false = true := by
  rw [set_in_denote _ 0 (hB.seq_offsets x), hB.seq_denote]
  simp

/-- The searches of a bitstream of a size within `size_type` return the
positions of set bits, or `npos` where there is none. -/
theorem find_spec {B : Bitstream} (hB : B.Contract) (x : B.carrier) (hx : B.size x ≤ npos) :
    ((B.find_first x = npos ∧ ∀ j, (B.bits x).getD j false = false) ∨
      ((B.bits x).getD (B.find_first x) false = true ∧
        ∀ j, j < B.find_first x → (B.bits x).getD j false = false)) ∧
    (∀ i,
      (B.find_next x i = npos ∧ ∀ j, i < j → (B.bits x).getD j false = false) ∨
      (i < B.find_next x i ∧ (B.bits x).getD (B.find_next x i) false = true ∧
        ∀ j, i < j → j < B.find_next x i → (B.bits x).getD j false = false)) ∧
    ((B.find_last x = npos ∧ ∀ j, (B.bits x).getD j false = false) ∨
      ((B.bits x).getD (B.find_last x) false = true ∧
        ∀ j, B.find_last x < j → (B.bits x).getD j false = false)) ∧
    (∀ i,
      (B.find_prev x i = npos ∧ ∀ j, j < i → (B.bits x).getD j false = false) ∨
      (B.find_prev x i < i ∧ (B.bits x).getD (B.find_prev x i) false = true ∧
        ∀ j, B.find_prev x i < j → j < i → (B.bits x).getD j false = false)) := by
  have hlen : (B.bits x).length ≤ npos := by rw [← size_bits hB]; exact hx
  have hfalse : ∀ j, ¬ set_in (B.sequence_range x) j → (B.bits x).getD j false = false := by
    intro j h
    rw [set_in_bits hB] at h
    exact Bool.not_eq_true _ ▸ h
  have hbound : ∀ j, (B.bits x).getD j false = true → j < npos := by
    intro j h
    exact Nat.lt_of_lt_of_le (getD_true_lt _ j h) hlen
  have hff := fun i => first_from_spec (B.sequence_range x) 0 i (hB.seq_offsets x) (hB.seq_wf x)
  have hlu := fun i => last_upto_spec (B.sequence_range x) 0 i (hB.seq_offsets x) (hB.seq_wf x)
  refine ⟨?_, fun i => ?_, ?_, fun i => ?_⟩
  · rw [Bitstream.find_first, Bitstream.find_first_impl]
    cases h : first_from (B.sequence_range x) 0 with
    | none => exact Or.inl ⟨rfl, fun j => hfalse j ((hff 0).1 h j (Nat.zero_le _))⟩
    | some r =>
      obtain ⟨_, h2, h3⟩ := (hff 0).2 r h
      exact Or.inr ⟨(set_in_bits hB x r).1 h2, fun j hj => hfalse j (h3 j (Nat.zero_le _) hj)⟩
  · rw [Bitstream.find_next, Bitstream.find_next_impl]
    by_cases hi : i = npos
    · rw [if_pos hi]
      refine Or.inl ⟨rfl, fun j hj => ?_⟩
      cases hb : (B.bits x).getD j false with
      | false => rfl
      | true => have := hbound j hb; omega
    · rw [if_neg hi]
      cases h : first_from (B.sequence_range x) (i + 1) with
      | none => exact Or.inl ⟨rfl, fun j hj => hfalse j ((hff (i + 1)).1 h j hj)⟩
      | some r =>
        obtain ⟨h1, h2, h3⟩ := (hff (i + 1)).2 r h
        exact Or.inr ⟨h1, (set_in_bits hB x r).1 h2, fun j hj hjr => hfalse j (h3 j hj hjr)⟩
  · rw [Bitstream.find_last, Bitstream.find_last_impl]
    cases h : last_upto (B.sequence_range x) npos with
    | none =>
      refine Or.inl ⟨rfl, fun j => ?_⟩
      cases hb : (B.bits x).getD j false with
      | false => rfl
      | true =>
        have h1 := hbound j hb
        have h2 := (hlu npos).1 h j (Nat.le_of_lt h1)
        rw [set_in_bits hB] at h2
        exact absurd hb h2
    | some r =>
      obtain ⟨_, h2, h3⟩ := (hlu npos).2 r h
      refine Or.inr ⟨(set_in_bits hB x r).1 h2, fun j hj => ?_⟩
      cases hb : (B.bits x).getD j false with
      | false => rfl
      | true =>
        have h1 := hbound j hb
        have h4 := h3 j hj (Nat.le_of_lt h1)
        rw [set_in_bits hB] at h4
        exact absurd hb h4
  · rw [Bitstream.find_prev, Bitstream.find_prev_impl]
    by_cases hi : i = 0
    · rw [if_pos hi]
      exact Or.inl ⟨rfl, fun j hj => absurd hj (by omega)⟩
    · rw [if_neg hi]
      cases h : last_upto (B.sequence_range x) (i - 1) with
      | none => exact Or.inl ⟨rfl, fun j hj => hfalse j ((hlu (i - 1)).1 h j (by omega))⟩
      | some r =>
        obtain ⟨h1, h2, h3⟩ := (hlu (i - 1)).2 r h
        exact Or.inr ⟨by show r < i; omega, (set_in_bits hB x r).1 h2,
          fun j hj hji => hfalse j (h3 j hj (by omega))⟩

/-! # Complementing and trimming a bitstream -/

theorem block_bits_not (d n : Nat) (hn : n ≤ 64) :
    block_bits (block_not d) n = (block_bits d n).map (fun b => !b) := by
  unfold block_bits
  rw [List.map_map]
  apply List.map_congr_left
  intro j hj
  have hj64 : j < 64 := Nat.lt_of_lt_of_le (List.mem_range.1 hj) hn
  show (block_not d).testBit j = !(d.testBit j)
  unfold block_not
  rw [Nat.testBit_xor, all_one_testBit j hj64]
  cases d.testBit j <;> rfl

theorem rem_not (s : bitsequence) (hs : s.type = block_type.literal → s.length ≤ block_width) :
    (if s.is_fill then List.replicate s.length (!(s.data != 0))
      else block_bits (block_not s.data) s.length) =
    (s.rem s.length).map (fun b => !b) := by
  unfold bitsequence.rem
  cases ht : s.type with
  | fill =>
    have hf : s.is_fill = true := by simp [bitsequence.is_fill, ht]
    rw [if_pos hf, if_pos hf, List.map_replicate]
  | literal =>
    have hf : ¬ s.is_fill = true := by simp [bitsequence.is_fill, ht]
    rw [if_neg hf, if_neg hf]
    exact block_bits_not _ _ (hs ht)

/-- The complement of a range of sequences appends the negated bits. -/
theorem complement_into_bits {B : Bitstream} (hB : B.Contract) :
    ∀ (seqs : List bitsequence) (acc : B.carrier), tail_wf seqs →
      (B.bits acc).length + (denote seqs).length ≤ npos →
      B.bits (complement_into B seqs acc) =
        B.bits acc ++ (denote seqs).map (fun b => !b)
  | [], acc, _, _ => by simp [complement_into, denote]
  | s :: ss, acc, hw, hlen => by
    have hlit : s.type = block_type.literal → s.length ≤ block_width :=
      fun ht => (hw.1.2.2 ht).2.1
    have hl : (denote (s :: ss)).length = s.length + (denote ss).length := by
      rw [denote, List.length_append, rem_length]
    rw [hl] at hlen
    have hstep : B.bits (if s.is_fill then (B.append acc s.length (!(s.data != 0))).2
        else (B.append_block acc (block_not s.data) s.length).2) =
        B.bits acc ++ (s.rem s.length).map (fun b => !b) := by
      rw [← rem_not s hlit]
      by_cases hf : s.is_fill = true
      · rw [if_pos hf, if_pos hf]
        exact append_bits hB acc _ _ (by omega)
      · rw [if_neg hf, if_neg hf]
        have ht : s.type = block_type.literal := by
          cases h : s.type with
          | fill => exact absurd (by simp [bitsequence.is_fill, h]) hf
          | literal => rfl
        exact append_block_bits hB acc _ _ (hlit ht) (by omega)
    rw [complement_into, complement_into_bits hB ss _ hw.2, hstep, denote, List.map_append,
      List.append_assoc]
    rw [hstep, List.length_append, List.length_map, rem_length]
    omega

theorem rem_take (s : bitsequence) (n : Nat) :
    (if s.is_fill then List.replicate (min s.length n) (s.data != 0)
      else block_bits s.data (min s.length n)) = (s.rem s.length).take n := by
  unfold bitsequence.rem
  by_cases hf : s.is_fill = true
  · rw [if_pos hf, if_pos hf, List.take_replicate, Nat.min_comm]
  · rw [if_neg hf, if_neg hf]
    unfold block_bits
    rw [← List.map_take, List.take_range, Nat.min_comm]

/-- The prefix of a range of sequences appends the bits below the limit. -/
theorem prefix_into_bits {B : Bitstream} (hB : B.Contract) (limit : Nat) :
    ∀ (seqs : List bitsequence) (off : Nat) (acc : B.carrier), offsets_from off seqs →
      tail_wf seqs →
      (B.bits acc).length + min (limit - off) (denote seqs).length ≤ npos →
      B.bits (prefix_into B limit seqs acc) =
        B.bits acc ++ (denote seqs).take (limit - off)
  | [], _, acc, _, _, _ => by simp [prefix_into, denote]
  | s :: ss, off, acc, ho, hw, hlen => by
    have hoff : s.offset = off := ho.1
    have hlit : s.type = block_type.literal → s.length ≤ block_width :=
      fun ht => (hw.1.2.2 ht).2.1
    have hl : (denote (s :: ss)).length = s.length + (denote ss).length := by
      rw [denote, List.length_append, rem_length]
    rw [hl] at hlen
    rw [prefix_into]
    by_cases hlim : limit ≤ s.offset
    · rw [if_pos hlim]
      have : limit - off = 0 := by omega
      rw [this, List.take_zero, List.append_nil]
    · rw [if_neg hlim]
      have hstep : B.bits (if s.is_fill then
            (B.append acc (min s.length (limit - s.offset)) (s.data != 0)).2
          else (B.append_block acc s.data (min s.length (limit - s.offset))).2) =
          B.bits acc ++ (s.rem s.length).take (limit - s.offset) := by
        rw [← rem_take s _]
        by_cases hf : s.is_fill = true
        · rw [if_pos hf, if_pos hf]
          exact append_bits hB acc _ _ (by rw [hoff]; omega)
        · rw [if_neg hf, if_neg hf]
          have ht : s.type = block_type.literal := by
            cases h : s.type with
            | fill => exact absurd (by simp [bitsequence.is_fill, h]) hf
            | literal => rfl
          exact append_block_bits hB acc _ _
            (Nat.le_trans (Nat.min_le_left _ _) (hlit ht)) (by rw [hoff]; omega)
      rw [prefix_into_bits hB limit ss (off + s.length) _ ho.2 hw.2, hstep, denote,
        List.take_append_eq_append_take, rem_length, List.append_assoc, hoff, Nat.sub_sub]
      rw [hstep, List.length_append, List.length_take, rem_length, hoff]
      omega

theorem count_map_not : ∀ (l : List Bool),
    (l.map (fun b => !b)).count true = l.length - l.count true
  | [] => rfl
  | b :: l => by
    have h := count_map_not l
    have hle : l.count true ≤ l.length := List.count_le_length _ _
    cases b
    · simp only [List.map_cons, Bool.not_false, List.count_cons_self, List.length_cons, h]
      rw [List.count_cons_of_ne (by decide)]
      omega
    · simp only [List.map_cons, Bool.not_true, List.length_cons, List.count_cons_self]
      rw [List.count_cons_of_ne (by decide), h]
      omega

theorem map_not_not (l : List Bool) : (l.map (fun b => !b)).map (fun b => !b) = l := by
  rw [List.map_map]
  conv => rhs; rw [← List.map_id l]
  apply List.map_congr_left
  intro b _
  cases b <;> rfl

/-- The bits of the complement of a bitstream. -/
theorem operator_not_bits {B : Bitstream} (hB : B.Contract) (x : B.carrier)
    (hx : B.size x ≤ npos) :
    B.bits (B.operator_not x) = (B.bits x).map (fun b => !b) := by
  have h := complement_into_bits hB (B.sequence_range x) B.dflt (hB.seq_wf x)
    (by rw [hB.seq_denote, hB.bits_dflt, ← size_bits hB]; simpa using hx)
  rw [hB.seq_denote, hB.bits_dflt, List.nil_append] at h
  exact h

/-- The bits of a trimmed bitstream: none if the bitstream has no set bit,
and otherwise the bits up to the last set bit. -/
theorem trim_bits {B : Bitstream} (hB : B.Contract) (x : B.carrier) (hx : B.size x ≤ npos) :
    (B.bits (B.trim x) = [] ∧ ∀ j, (B.bits x).getD j false = false) ∨
    (∃ r, (B.bits x).getD r false = true ∧
      (∀ j, r < j → (B.bits x).getD j false = false) ∧
      B.bits (B.trim x) = (B.bits x).take (r + 1)) := by
  have hlen : (B.bits x).length ≤ npos := by rw [← size_bits hB]; exact hx
  have hbound : ∀ j, (B.bits x).getD j false = true → j < npos := by
    intro j h
    exact Nat.lt_of_lt_of_le (getD_true_lt _ j h) hlen
  obtain ⟨h1, h2⟩ :=
    last_upto_spec (B.sequence_range x) 0 npos (hB.seq_offsets x) (hB.seq_wf x)
  have hunset : ∀ j, (¬ (j < npos) ∨ ¬ set_in (B.sequence_range x) j) →
      (B.bits x).getD j false = false := by
    intro j h
    cases hb : (B.bits x).getD j false with
    | false => rfl
    | true =>
      rcases h with h | h
      · exact absurd (hbound j hb) h
      · exact absurd ((set_in_bits hB x j).2 hb) h
  rw [Bitstream.trim, Bitstream.trim_impl]
  cases h : last_upto (B.sequence_range x) npos with
  | none =>
    refine Or.inl ⟨hB.bits_dflt, fun j => ?_⟩
    by_cases hj : j < npos
    · exact hunset j (Or.inr (h1 h j (Nat.le_of_lt hj)))
    · exact hunset j (Or.inl hj)
  | some r =>
    obtain ⟨_, h3, h4⟩ := h2 r h
    refine Or.inr ⟨r, (set_in_bits hB x r).1 h3, fun j hj => ?_, ?_⟩
    · by_cases hjn : j < npos
      · exact hunset j (Or.inr (h4 j hj (Nat.le_of_lt hjn)))
      · exact hunset j (Or.inl hjn)
    · have hp := prefix_into_bits hB (r + 1) (B.sequence_range x) 0 B.dflt
        (hB.seq_offsets x) (hB.seq_wf x)
        (by rw [hB.seq_denote, hB.bits_dflt]
            exact Nat.le_trans (by simp) hlen)
      rw [hB.seq_denote, hB.bits_dflt, List.nil_append] at hp
      exact hp

theorem getD_getLast (l : List Bool) (b : Bool) (h : l.getLast? = some b) :
    0 < l.length ∧ l.getD (l.length - 1) false = b := by
  cases l with
  | nil => exact absurd h (by simp)
  | cons a l =>
    refine ⟨Nat.succ_pos _, ?_⟩
    rw [List.getLast?_eq_getElem?] at h
    rw [List.getD_eq_getElem?_getD, h]
    rfl

theorem getD_replicate_false (n j : Nat) : (List.replicate n false).getD j false = false := by
  rw [List.getD_eq_getElem?_getD]
  by_cases hj : j < n
  · rw [List.getElem?_replicate_of_lt hj]; rfl
  · rw [List.getElem?_eq_none (by simpa using hj)]; rfl

/-- Claim C22: on a bitstream of any encoding that meets the contract of the
spec (the EWAH encoding among them), of a size within `size_type` as every
bitstream built by appends is, `find_first` returns the smallest position of a
set bit, `find_next(i)` the smallest such position greater than `i`,
`find_last` the largest position of a set bit and `find_prev(i)` the largest
such position below `i`, and each returns `npos` when there is no such
position. After the appends (10, 1), (20, 0), (40, 1) to an empty bitstream
the size is 70, the count 50, `find_first` is 0, `find_next(9)` is 30 and
`find_last` is 69. -/
theorem find_positions_of_set_bits (B : Bitstream) (hB : B.Contract) (x : B.carrier)
    (hx : B.size x ≤ npos) :
    ((B.find_first x = npos ∧ ∀ j, (B.bits x).getD j false = false) ∨
      ((B.bits x).getD (B.find_first x) false = true ∧
        ∀ j, j < B.find_first x → (B.bits x).getD j false = false)) ∧
    (∀ i,
      (B.find_next x i = npos ∧ ∀ j, i < j → (B.bits x).getD j false = false) ∨
      (i < B.find_next x i ∧ (B.bits x).getD (B.find_next x i) false = true ∧
        ∀ j, i < j → j < B.find_next x i → (B.bits x).getD j false = false)) ∧
    ((B.find_last x = npos ∧ ∀ j, (B.bits x).getD j false = false) ∨
      ((B.bits x).getD (B.find_last x) false = true ∧
        ∀ j, B.find_last x < j → (B.bits x).getD j false = false)) ∧
    (∀ i,
      (B.find_prev x i = npos ∧ ∀ j, j < i → (B.bits x).getD j false = false) ∨
      (B.find_prev x i < i ∧ (B.bits x).getD (B.find_prev x i) false = true ∧
        ∀ j, B.find_prev x i < j → j < i → (B.bits x).getD j false = false)) ∧
    B.size (B.append (B.append (B.append B.dflt 10 true).2 20 false).2 40 true).2 = 70 ∧
    B.count (B.append (B.append (B.append B.dflt 10 true).2 20 false).2 40 true).2 = 50 ∧
    B.find_first (B.append (B.append (B.append B.dflt 10 true).2 20 false).2 40 true).2 = 0 ∧
    B.find_next (B.append (B.append (B.append B.dflt 10 true).2 20 false).2 40 true).2 9 =
      30 ∧
    B.find_last (B.append (B.append (B.append B.dflt 10 true).2 20 false).2 40 true).2 =
      69 := by
  obtain ⟨h1, h2, h3, h4⟩ := find_spec hB x hx
  refine ⟨h1, h2, h3, h4, ?_⟩
  generalize hb : (B.append (B.append (B.append B.dflt 10 true).2 20 false).2 40 true).2 = b
  have hbits : B.bits b =
      List.replicate 10 true ++ List.replicate 20 false ++ List.replicate 40 true := by
    have e1 : B.bits (B.append B.dflt 10 true).2 = List.replicate 10 true := by
      rw [append_bits hB _ _ _ (by rw [hB.bits_dflt]; decide), hB.bits_dflt, List.nil_append]
    have e2 : B.bits (B.append (B.append B.dflt 10 true).2 20 false).2 =
        List.replicate 10 true ++ List.replicate 20 false := by
      rw [append_bits hB _ _ _ (by rw [e1]; decide), e1]
    rw [← hb, append_bits hB _ _ _ (by rw [e2]; decide), e2]
  have hsize : B.size b = 70 := by rw [size_bits hB, hbits]; rfl
  have hzero : ∀ r, r < 30 → 9 < r →
      (List.replicate 10 true ++ List.replicate 20 false ++ List.replicate 40 true).getD r
        false = false := by decide
  obtain ⟨g1, g2, g3, _⟩ := find_spec hB b (by rw [hsize]; decide)
  rw [hbits] at g1 g2 g3
  refine ⟨hsize, by rw [count_bits hB, hbits]; rfl, ?_, ?_, ?_⟩
  · rcases g1 with ⟨_, g⟩ | ⟨_, g⟩
    · exact absurd (g 0) (by decide)
    · rcases Nat.eq_zero_or_pos (B.find_first b) with h | h
      · exact h
      · exact absurd (g 0 h) (by decide)
  · rcases g2 9 with ⟨_, g⟩ | ⟨ga, gb, gc⟩
    · exact absurd (g 30 (by decide)) (by decide)
    · rcases Nat.lt_trichotomy (B.find_next b 9) 30 with h | h | h
      · rw [hzero _ h ga] at gb
        exact absurd gb (by decide)
      · exact h
      · exact absurd (gc 30 (by decide) h) (by decide)
  · rcases g3 with ⟨_, g⟩ | ⟨ga, gb⟩
    · exact absurd (g 69) (by decide)
    · have hlt := getD_true_lt _ _ ga
      rcases Nat.lt_or_ge (B.find_last b) 69 with h | h
      · exact absurd (gb 69 h) (by decide)
      · exact Nat.le_antisymm (Nat.le_of_lt_succ hlt) h

/-- C22 on the uncompressed encoding: the searches in 0101, and the example of
the three appends. -/
theorem find_positions_of_set_bits_witness :
    ((null_bitstream.find_next [false, true, false, true] 1 = npos ∧
        ∀ j, 1 < j →
          (null_bitstream.bits [false, true, false, true]).getD j false = false) ∨
      (1 < null_bitstream.find_next [false, true, false, true] 1 ∧
        (null_bitstream.bits [false, true, false, true]).getD
          (null_bitstream.find_next [false, true, false, true] 1) false = true ∧
        ∀ j, 1 < j → j < null_bitstream.find_next [false, true, false, true] 1 →
          (null_bitstream.bits [false, true, false, true]).getD j false = false)) ∧
    null_bitstream.find_next [false, true, false, true] 1 = 3 ∧
    null_bitstream.find_prev [false, true, false, true] 1 = npos ∧
    null_bitstream.find_next (null_bitstream.append (null_bitstream.append
      (null_bitstream.append null_bitstream.dflt 10 true).2 20 false).2 40 true).2 9 = 30 :=
  ⟨(find_positions_of_set_bits null_bitstream null_bitstream_contract
      [false, true, false, true] (by decide)).2.1 1,
    by decide, by decide,
    (find_positions_of_set_bits null_bitstream null_bitstream_contract
      [false, true, false, true] (by decide)).2.2.2.2.2.2.2.1⟩

/-- Claim C24: for a bitstream `b` of any encoding that meets the contract of
the spec, of a size within `size_type`: `~b` has the size of `b`, bit `i` of
`~b` is the negation of bit `i` of `b` for every `i < b.size`, the count of
`~b` is `b.size - b.count` (and `b.count + (b.size - b.count) = b.size`), and
`~~b` has the bits of `b`, hence is `b` where the representation is determined
by the bits, as it is in the uncompressed encoding. The complement of
1, 0, thirty 1s, 0 is 0, 1, thirty 0s, 1. -/
theorem complement_negates_bits (B : Bitstream) (hB : B.Contract) (x : B.carrier)
    (hx : B.size x ≤ npos) :
    B.size (B.operator_not x) = B.size x ∧
    (∀ i, i < B.size x →
      (B.bits (B.operator_not x)).getD i false = !((B.bits x).getD i false)) ∧
    B.count (B.operator_not x) = B.size x - B.count x ∧
    B.count x + (B.size x - B.count x) = B.size x ∧
    B.bits (B.operator_not (B.operator_not x)) = B.bits x ∧
    (Function.Injective B.bits → B.operator_not (B.operator_not x) = x) ∧
    B.bits (B.operator_not (B.append (B.append (B.append (B.append B.dflt 1 true).2
        1 false).2 30 true).2 1 false).2) =
      B.bits (B.append (B.append (B.append (B.append B.dflt 1 false).2
        1 true).2 30 false).2 1 true).2 := by
  have hbits := operator_not_bits hB x hx
  have hsize : B.size (B.operator_not x) = B.size x := by
    rw [size_bits hB, size_bits hB, hbits, List.length_map]
  have hnn : B.bits (B.operator_not (B.operator_not x)) = B.bits x := by
    rw [operator_not_bits hB _ (by rw [hsize]; exact hx), hbits, map_not_not]
  have hcount : B.count x ≤ B.size x := by
    rw [count_bits hB, size_bits hB]
    exact List.count_le_length _ _
  have four : ∀ (a b c d : Bool),
      B.bits (B.append (B.append (B.append (B.append B.dflt 1 a).2 1 b).2 30 c).2 1 d).2 =
        [a] ++ [b] ++ List.replicate 30 c ++ [d] := by
    intro a b c d
    have e1 : B.bits (B.append B.dflt 1 a).2 = [a] := by
      rw [append_bits hB _ _ _ (by rw [hB.bits_dflt]; decide), hB.bits_dflt]
      rfl
    have e2 : B.bits (B.append (B.append B.dflt 1 a).2 1 b).2 = [a] ++ [b] := by
      rw [append_bits hB _ _ _ (by rw [e1]; show 1 + 1 ≤ npos; decide), e1]
      rfl
    have e3 : B.bits (B.append (B.append (B.append B.dflt 1 a).2 1 b).2 30 c).2 =
        [a] ++ [b] ++ List.replicate 30 c := by
      rw [append_bits hB _ _ _ (by rw [e2]; show 2 + 30 ≤ npos; decide), e2]
    rw [append_bits hB _ _ _ (by rw [e3]; show 32 + 1 ≤ npos; decide), e3]
    rfl
  refine ⟨hsize, fun i hi => ?_, ?_, Nat.add_sub_cancel' hcount, hnn,
    fun hinj => hinj hnn, ?_⟩
  · rw [size_bits hB] at hi
    rw [hbits, List.getD_eq_getElem?_getD, List.getD_eq_getElem?_getD, List.getElem?_map,
      List.getElem?_eq_getElem hi]
    rfl
  · rw [count_bits hB, hbits, count_map_not, size_bits hB, count_bits hB]
  · rw [operator_not_bits hB _ (by rw [size_bits hB, four]; decide), four, four]
    rfl

/-- C24 on the uncompressed encoding: the complement of 101 is 010, and its
complement is 101 again. -/
theorem complement_negates_bits_witness :
    null_bitstream.operator_not (null_bitstream.operator_not [true, false, true]) =
      [true, false, true] ∧
    null_bitstream.operator_not [true, false, true] = [false, true, false] :=
  ⟨(complement_negates_bits null_bitstream null_bitstream_contract [true, false, true]
      (by decide)).2.2.2.2.2.1 (fun _ _ h => h),
    by decide⟩

/-- Claim C23: for a bitstream `b` of any encoding that meets the contract of
the spec, of a size within `size_type`: after `trim` the size is the position
of the last set bit of `b` plus one and the bits below the new size are those
of `b`; a bitstream of zeros only trims to size 0; a bitstream whose last bit
is 1 keeps its bits, hence is left equal to itself where the representation is
determined by the bits, as it is in the uncompressed encoding. The bitstream
0, 1 and 1337 zeros trims to 01, and twenty zeros trim to the empty
bitstream. -/
theorem trim_drops_trailing_zeros (B : Bitstream) (hB : B.Contract) (x : B.carrier)
    (hx : B.size x ≤ npos) :
    (∀ r, (B.bits x).getD r false = true →
      (∀ j, r < j → (B.bits x).getD j false = false) → B.size (B.trim x) = r + 1) ∧
    B.bits (B.trim x) = (B.bits x).take (B.size (B.trim x)) ∧
    ((∀ j, (B.bits x).getD j false = false) → B.size (B.trim x) = 0) ∧
    ((B.bits x).getLast? = some true → B.bits (B.trim x) = B.bits x) ∧
    ((B.bits x).getLast? = some true → Function.Injective B.bits → B.trim x = x) ∧
    B.bits (B.trim (B.append (B.append (B.append B.dflt 1 false).2 1 true).2
      1337 false).2) = [false, true] ∧
    B.size (B.trim (B.append B.dflt 20 false).2) = 0 := by
  have key : ∀ (y : B.carrier), B.size y ≤ npos →
      (∀ r, (B.bits y).getD r false = true →
        (∀ j, r < j → (B.bits y).getD j false = false) →
        B.bits (B.trim y) = (B.bits y).take (r + 1)) ∧
      ((∀ j, (B.bits y).getD j false = false) → B.bits (B.trim y) = []) := by
    intro y hy
    rcases trim_bits hB y hy with ⟨h1, h2⟩ | ⟨r, h1, h2, h3⟩
    · exact ⟨fun r hr _ => absurd hr (by rw [h2 r]; decide), fun _ => h1⟩
    · refine ⟨fun q hq habove => ?_, fun h => absurd h1 (by rw [h r]; decide)⟩
      rcases Nat.lt_trichotomy q r with h | h | h
      · exact absurd h1 (by rw [habove r h]; decide)
      · rw [h]; exact h3
      · exact absurd hq (by rw [h2 q h]; decide)
  obtain ⟨k1, k2⟩ := key x hx
  have hsize : ∀ r, (B.bits x).getD r false = true →
      (∀ j, r < j → (B.bits x).getD j false = false) → B.size (B.trim x) = r + 1 := by
    intro r hr hab
    rw [size_bits hB, k1 r hr hab, List.length_take]
    exact Nat.min_eq_left (getD_true_lt _ _ hr)
  have hlast : (B.bits x).getLast? = some true → B.bits (B.trim x) = B.bits x := by
    intro h
    obtain ⟨hpos, hbit⟩ := getD_getLast _ _ h
    rw [k1 _ hbit (fun j hj => by
      rw [List.getD_eq_getElem?_getD, List.getElem?_eq_none (by omega)]; rfl)]
    exact List.take_of_length_le (by omega)
  refine ⟨hsize, ?_, fun h => by rw [size_bits hB, k2 h]; rfl, hlast,
    fun h hinj => hinj (hlast h), ?_, ?_⟩
  · rcases trim_bits hB x hx with ⟨h1, _⟩ | ⟨r, h1, h2, h3⟩
    · rw [size_bits hB, h1]; rfl
    · rw [hsize r h1 h2, h3]
  · have e1 : B.bits (B.append B.dflt 1 false).2 = [false] := by
      rw [append_bits hB _ _ _ (by rw [hB.bits_dflt]; decide), hB.bits_dflt]
      rfl
    have e2 : B.bits (B.append (B.append B.dflt 1 false).2 1 true).2 = [false, true] := by
      rw [append_bits hB _ _ _ (by rw [e1]; decide), e1]
      rfl
    have e3 : B.bits (B.append (B.append (B.append B.dflt 1 false).2 1 true).2
        1337 false).2 = [false, true] ++ List.replicate 1337 false := by
      rw [append_bits hB _ _ _ (by rw [e2]; decide), e2]
    have hz := (key _ (by
      rw [size_bits hB, e3, List.length_append, List.length_replicate]; decide)).1 1
      (by rw [e3]; rfl)
      (fun j hj => by
        rw [e3, List.getD_append_right _ _ _ _ (by simpa using hj)]
        exact getD_replicate_false _ _)
    rw [hz, e3]
    rfl
  · have e1 : B.bits (B.append B.dflt 20 false).2 = List.replicate 20 false := by
      rw [append_bits hB _ _ _ (by rw [hB.bits_dflt]; decide), hB.bits_dflt, List.nil_append]
    rw [size_bits hB, (key _ (by rw [size_bits hB, e1]; decide)).2
      (fun j => by rw [e1]; exact getD_replicate_false _ _)]
    rfl

/-- C23 on the uncompressed encoding: 0100 trims to 01, and 011, whose last
bit is set, is left as it is. -/
theorem trim_drops_trailing_zeros_witness :
    null_bitstream.size (null_bitstream.trim [false, true, false, false]) = 2 ∧
    null_bitstream.trim [false, true, true] = [false, true, true] ∧
    null_bitstream.trim [false, true, false, false] = [false, true] :=
  ⟨(trim_drops_trailing_zeros null_bitstream null_bitstream_contract
      [false, true, false, false] (by decide)).1 1 rfl
      (fun j hj => by
        show ([false, true] ++ List.replicate 2 false).getD j false = false
        rw [List.getD_append_right _ _ _ _ (by simpa using hj)]
        exact getD_replicate_false _ _),
    (trim_drops_trailing_zeros null_bitstream null_bitstream_contract
      [false, true, true] (by decide)).2.2.2.2.1 rfl (fun _ _ h => h),
    by decide⟩

/-! # Marker words of the EWAH encoding -/

theorem testBit_of_lt_64 (x j : Nat) (hx : x < 2 ^ 64) (hj : 64 ≤ j) : x.testBit j = false :=
  Nat.testBit_eq_false_of_lt (Nat.lt_of_lt_of_le hx (Nat.pow_le_pow_right (by decide) hj))

theorem block_not_testBit (x j : Nat) (hx : x < 2 ^ 64) :
    (block_not x).testBit j = (decide (j < 64) && !x.testBit j) := by
  unfold block_not all_one
  rw [Nat.testBit_xor, Nat.testBit_two_pow_sub_one]
  by_cases hj : j < 64
  · simp [hj]
  · simp [hj, testBit_of_lt_64 x j hx (by omega)]

theorem marker_dirty_mask_eq : marker_dirty_mask = 2 ^ 31 - 1 := by decide

theorem marker_clean_mask_eq : marker_clean_mask = (2 ^ 32 - 1) <<< 31 := by decide

theorem marker_dirty_mask_testBit (j : Nat) : marker_dirty_mask.testBit j = decide (j < 31) := by
  rw [marker_dirty_mask_eq, Nat.testBit_two_pow_sub_one]

theorem marker_clean_mask_testBit (j : Nat) :
    marker_clean_mask.testBit j = (decide (31 ≤ j) && decide (j < 63)) := by
  rw [marker_clean_mask_eq, Nat.testBit_shiftLeft, Nat.testBit_two_pow_sub_one]
  by_cases h1 : 31 ≤ j <;> by_cases h2 : j < 63 <;> simp [h1, h2] <;> omega

theorem msb_one_testBit (j : Nat) : msb_one.testBit j = decide (j = 63) := by
  unfold msb_one
  rw [Nat.testBit_two_pow]
  by_cases h : j = 63
  · simp [h]
  · simp [h, Ne.symm h]

theorem testBit_of_lt (x k j : Nat) (hx : x < 2 ^ k) (hj : k ≤ j) : x.testBit j = false :=
  Nat.testBit_eq_false_of_lt (Nat.lt_of_lt_of_le hx (Nat.pow_le_pow_right (by decide) hj))

theorem marker_type_testBit (m : Nat) : marker_type m = m.testBit 63 := by
  unfold marker_type
  cases h : m.testBit 63
  · have h0 : m &&& msb_one = 0 := by
      apply Nat.eq_of_testBit_eq
      intro j
      rw [Nat.testBit_and, msb_one_testBit, Nat.zero_testBit]
      by_cases hj : j = 63
      · subst hj; simp [h]
      · simp [hj]
    rw [h0]
    decide
  · have h1 : m &&& msb_one = msb_one := by
      apply Nat.eq_of_testBit_eq
      intro j
      rw [Nat.testBit_and, msb_one_testBit]
      by_cases hj : j = 63
      · subst hj; simp [h]
      · simp [hj]
    rw [h1]
    exact beq_self_eq_true _

theorem marker_type_set_testBit (m : Nat) (t : Bool) (j : Nat) :
    (marker_type_set m t).testBit j =
      ((m.testBit j && decide (j < 63)) || (t && decide (j = 63))) := by
  unfold marker_type_set
  rw [Nat.testBit_or, Nat.testBit_and, block_not_testBit _ _ (by decide), msb_one_testBit]
  have h2 : (if t = true then msb_one else 0).testBit j = (t && decide (j = 63)) := by
    cases t
    · simp
    · simp [msb_one_testBit]
  rw [h2]
  by_cases h63 : j = 63
  · subst h63; simp
  · by_cases hlt : j < 63
    · have : j < 64 := by omega
      simp [h63, hlt, this]
    · have : ¬ j < 64 := by omega
      simp [h63, hlt, this]

theorem marker_num_clean_testBit (m j : Nat) :
    (marker_num_clean m).testBit j = (m.testBit (31 + j) && decide (j < 32)) := by
  unfold marker_num_clean
  have hd : clean_dirty_divide = 31 := by decide
  rw [hd, Nat.testBit_shiftRight, Nat.testBit_and, marker_clean_mask_testBit]
  by_cases h : j < 32
  · have h1 : 31 + j < 63 := by omega
    simp [h, h1]
  · have h1 : ¬ 31 + j < 63 := by omega
    simp [h, h1]

theorem marker_num_clean_set_testBit (m n j : Nat) :
    (marker_num_clean_set m n).testBit j =
      ((m.testBit j && (decide (j < 31) || decide (j = 63))) ||
        (decide (31 ≤ j) && decide (j < 64) && n.testBit (j - 31))) := by
  unfold marker_num_clean_set
  have hd : clean_dirty_divide = 31 := by decide
  rw [hd, Nat.testBit_or, Nat.testBit_and, block_not_testBit _ _ (by decide),
    marker_clean_mask_testBit, Nat.testBit_mod_two_pow, Nat.testBit_shiftLeft]
  by_cases h31 : j < 31
  · have h1 : ¬ 31 ≤ j := by omega
    have h2 : j < 64 := by omega
    simp [h31, h1, h2]
  · by_cases h63 : j < 63
    · have h1 : 31 ≤ j := by omega
      have h2 : j < 64 := by omega
      have h3 : ¬ j = 63 := by omega
      simp [h31, h1, h2, h3, h63]
    · by_cases h64 : j = 63
      · subst h64; simp
      · have h2 : ¬ j < 64 := by omega
        simp [h31, h63, h64, h2]

theorem marker_num_dirty_testBit (m j : Nat) :
    (marker_num_dirty m).testBit j = (m.testBit j && decide (j < 31)) := by
  unfold marker_num_dirty
  rw [Nat.testBit_and, marker_dirty_mask_testBit]

theorem marker_num_dirty_set_testBit (m n j : Nat) :
    (marker_num_dirty_set m n).testBit j =
      ((m.testBit j && decide (31 ≤ j) && decide (j < 64)) || n.testBit j) := by
  unfold marker_num_dirty_set
  rw [Nat.testBit_or, Nat.testBit_and, block_not_testBit _ _ (by decide),
    marker_dirty_mask_testBit]
  by_cases h31 : j < 31
  · have h1 : ¬ 31 ≤ j := by omega
    simp [h31, h1]
  · have h1 : 31 ≤ j := by omega
    by_cases h64 : j < 64
    · simp [h31, h1, h64]
    · simp [h31, h1, h64]

/-- The largest clean count is not `2^(block_width/2 - 1) - 1`. -/
theorem marker_clean_max_counterexample :
    marker_clean_max ≠ 2 ^ (block_width / 2 - 1) - 1 := by decide

/-- Claim C35, amended: with 64-bit blocks the largest number of clean words a
marker holds, `marker_clean_max`, is `2^(block_width/2) - 1 = 2^32 - 1`: the
clean counter is the 32 bits between the dirty counter, bits 0 to 30, and the
type bit, bit 63. `2^(block_width/2 - 1) - 1 = 2^31 - 1` is the largest number
of dirty words, `marker_dirty_max`. -/
theorem marker_clean_max_value :
    marker_clean_max = 2 ^ (block_width / 2) - 1 ∧
    marker_clean_max = 2 ^ 32 - 1 ∧
    marker_clean_mask = 2 ^ 63 - 2 ^ 31 ∧
    marker_dirty_max = 2 ^ (block_width / 2 - 1) - 1 ∧
    marker_dirty_max = 2 ^ 31 - 1 ∧
    clean_dirty_divide = 31 := by decide

/-- Claim C36: for every 64-bit marker block `m`, reading a field after
setting it returns the value set (a clean count up to `marker_clean_max`, a
dirty count up to `marker_dirty_max`, a type), each setter leaves the other two
fields as they are and returns a 64-bit block, and the type bit, the clean
counter and the dirty counter occupy disjoint bits that together cover the
block. -/
theorem marker_fields_independent (m : Nat) (hm : m < 2 ^ 64) :
    (∀ n, n ≤ marker_clean_max →
      marker_num_clean (marker_num_clean_set m n) = n ∧
      marker_num_dirty (marker_num_clean_set m n) = marker_num_dirty m ∧
      marker_type (marker_num_clean_set m n) = marker_type m ∧
      marker_num_clean_set m n < 2 ^ 64) ∧
    (∀ n, n ≤ marker_dirty_max →
      marker_num_dirty (marker_num_dirty_set m n) = n ∧
      marker_num_clean (marker_num_dirty_set m n) = marker_num_clean m ∧
      marker_type (marker_num_dirty_set m n) = marker_type m ∧
      marker_num_dirty_set m n < 2 ^ 64) ∧
    (∀ t,
      marker_type (marker_type_set m t) = t ∧
      marker_num_clean (marker_type_set m t) = marker_num_clean m ∧
      marker_num_dirty (marker_type_set m t) = marker_num_dirty m ∧
      marker_type_set m t < 2 ^ 64) ∧
    msb_one &&& marker_clean_mask = 0 ∧
    msb_one &&& marker_dirty_mask = 0 ∧
    marker_clean_mask &&& marker_dirty_mask = 0 ∧
    msb_one ||| marker_clean_mask ||| marker_dirty_mask = all_one := by
  have hhigh : ∀ j, 64 ≤ j → m.testBit j = false := fun j hj => testBit_of_lt_64 m j hm hj
  have hbound : ∀ x : Nat, (∀ j, 64 ≤ j → x.testBit j = false) → x < 2 ^ 64 := by
    intro x hx
    apply Nat.lt_pow_two_of_testBit
    intro j hj
    exact hx j hj
  refine ⟨fun n hn => ?_, fun n hn => ?_, fun t => ?_, by decide, by decide, by decide,
    by decide⟩
  · have hn32 : n < 2 ^ 32 := Nat.lt_of_le_of_lt hn (by decide)
    refine ⟨?_, ?_, ?_, ?_⟩
    · apply Nat.eq_of_testBit_eq
      intro j
      rw [marker_num_clean_testBit, marker_num_clean_set_testBit]
      by_cases h : j < 32
      · have h1 : ¬ 31 + j < 31 := by omega
        have h2 : ¬ 31 + j = 63 := by omega
        have h3 : 31 + j < 64 := by omega
        simp [h, h1, h2, h3]
      · simp [h, testBit_of_lt n 32 j hn32 (by omega)]
    · apply Nat.eq_of_testBit_eq
      intro j
      rw [marker_num_dirty_testBit, marker_num_dirty_testBit, marker_num_clean_set_testBit]
      by_cases h : j < 31
      · have h1 : ¬ 31 ≤ j := by omega
        simp [h, h1]
      · simp [h]
    · rw [marker_type_testBit, marker_type_testBit, marker_num_clean_set_testBit]
      simp [testBit_of_lt n 32 32 hn32 (Nat.le_refl _)]
    · apply hbound
      intro j hj
      rw [marker_num_clean_set_testBit, hhigh j hj]
      have : ¬ j < 64 := by omega
      simp [this]
  · have hn31 : n < 2 ^ 31 := Nat.lt_of_le_of_lt hn (by decide)
    refine ⟨?_, ?_, ?_, ?_⟩
    · apply Nat.eq_of_testBit_eq
      intro j
      rw [marker_num_dirty_testBit, marker_num_dirty_set_testBit]
      by_cases h : j < 31
      · have h1 : ¬ 31 ≤ j := by omega
        simp [h, h1]
      · simp [h, testBit_of_lt n 31 j hn31 (by omega)]
    · apply Nat.eq_of_testBit_eq
      intro j
      rw [marker_num_clean_testBit, marker_num_clean_testBit, marker_num_dirty_set_testBit]
      by_cases h : j < 32
      · have h3 : 31 + j < 64 := by omega
        simp [h, h3, testBit_of_lt n 31 (31 + j) hn31 (by omega)]
      · simp [h]
    · rw [marker_type_testBit, marker_type_testBit, marker_num_dirty_set_testBit]
      simp [testBit_of_lt n 31 63 hn31 (by decide)]
    · apply hbound
      intro j hj
      rw [marker_num_dirty_set_testBit, hhigh j hj, testBit_of_lt n 31 j hn31 (by omega)]
      rfl
  · refine ⟨?_, ?_, ?_, ?_⟩
    · rw [marker_type_testBit, marker_type_set_testBit]
      simp
    · apply Nat.eq_of_testBit_eq
      intro j
      rw [marker_num_clean_testBit, marker_num_clean_testBit, marker_type_set_testBit]
      by_cases h : j < 32
      · have h1 : 31 + j < 63 := by omega
        have h2 : ¬ 31 + j = 63 := by omega
        simp [h, h1, h2]
      · simp [h]
    · apply Nat.eq_of_testBit_eq
      intro j
      rw [marker_num_dirty_testBit, marker_num_dirty_testBit, marker_type_set_testBit]
      by_cases h : j < 31
      · have h1 : j < 63 := by omega
        have h2 : ¬ j = 63 := by omega
        simp [h, h1, h2]
      · simp [h]
    · apply hbound
      intro j hj
      rw [marker_type_set_testBit, hhigh j hj]
      have : ¬ j = 63 := by omega
      simp [this]

/-- C36 on the marker with all bits set: a clean count of 5, a dirty count of
7 and the type 0 are read back, and setting the clean count keeps the type. -/
theorem marker_fields_independent_witness :
    marker_num_clean (marker_num_clean_set all_one 5) = 5 ∧
    marker_num_dirty (marker_num_dirty_set all_one 7) = 7 ∧
    marker_type (marker_type_set all_one false) = false ∧
    marker_type (marker_num_clean_set all_one 5) = marker_type all_one :=
  ⟨((marker_fields_independent all_one (by decide)).1 5 (by decide)).1,
    ((marker_fields_independent all_one (by decide)).2.1 7 (by decide)).1,
    ((marker_fields_independent all_one (by decide)).2.2.1 false).1,
    ((marker_fields_independent all_one (by decide)).1 5 (by decide)).2.2.1⟩

/-! # The functions of `in`, `ni` and `~` -/

/-- Claim C33: for all values `x` and `y` the function of `in` on `(x, y)` is
the function of `ni` on `(y, x)`, and the function of `!in` on `(x, y)` is the
function of `!ni` on `(y, x)`; `in` is false and `!in` true unless the pair is
string/string, string/regex or address/prefix, `ni` is false and `!ni` true
unless the pair is string/string, regex/string or prefix/address, and `~` is
false and `!~` true unless the pair is string/regex. -/
theorem in_ni_mirror (rx : regex_engine) (x y : value) :
    make_predicate rx relational_operator.in_op x y =
      make_predicate rx relational_operator.ni y x ∧
    make_predicate rx relational_operator.not_in x y =
      make_predicate rx relational_operator.not_ni y x ∧
    ((∀ a b, ¬ (x = value.string a ∧ y = value.string b)) →
      (∀ a b, ¬ (x = value.string a ∧ y = value.regex b)) →
      (∀ a n l, ¬ (x = value.address a ∧ y = value.pfx n l)) →
      make_predicate rx relational_operator.in_op x y = false ∧
      make_predicate rx relational_operator.not_in x y = true ∧
      make_predicate rx relational_operator.ni y x = false ∧
      make_predicate rx relational_operator.not_ni y x = true) ∧
    ((∀ a b, ¬ (x = value.string a ∧ y = value.regex b)) →
      make_predicate rx relational_operator.match_op x y = false ∧
      make_predicate rx relational_operator.not_match x y = true) := by
  have hmirror : in_visitor rx x y = ni_visitor rx y x := by
    cases x <;> cases y <;> rfl
  refine ⟨hmirror, congrArg (fun b => !b) hmirror, fun h1 h2 h3 => ?_, fun h => ?_⟩
  · have hin : in_visitor rx x y = false := by
      cases x <;> cases y <;>
        first
        | rfl
        | exact absurd ⟨rfl, rfl⟩ (h1 _ _)
        | exact absurd ⟨rfl, rfl⟩ (h2 _ _)
        | exact absurd ⟨rfl, rfl⟩ (h3 _ _ _)
    have hni : ni_visitor rx y x = false := by rw [← hmirror]; exact hin
    refine ⟨hin, ?_, hni, ?_⟩
    · show (!in_visitor rx x y) = true
      rw [hin]; rfl
    · show (!ni_visitor rx y x) = true
      rw [hni]; rfl
  · have hm : match_visitor rx x y = false := by
      cases x <;> cases y <;>
        first
        | rfl
        | exact absurd ⟨rfl, rfl⟩ (h _ _)
    refine ⟨hm, ?_⟩
    show (!match_visitor rx x y) = true
    rw [hm]; rfl

/-- C33 on an integer and a string: `in`, `ni` and `~` are false. -/
theorem in_ni_mirror_witness :
    make_predicate no_regex relational_operator.in_op (value.int 1) (value.string "a") =
      false ∧
    make_predicate no_regex relational_operator.not_ni (value.string "a") (value.int 1) =
      true ∧
    make_predicate no_regex relational_operator.match_op (value.int 1) (value.string "a") =
      false :=
  ⟨((in_ni_mirror no_regex (value.int 1) (value.string "a")).2.2.1
      (fun _ _ h => nomatch h.1) (fun _ _ h => nomatch h.1) (fun _ _ _ h => nomatch h.1)).1,
    ((in_ni_mirror no_regex (value.int 1) (value.string "a")).2.2.1
      (fun _ _ h => nomatch h.1) (fun _ _ h => nomatch h.1) (fun _ _ _ h => nomatch h.1)).2.2.2,
    ((in_ni_mirror no_regex (value.int 1) (value.string "a")).2.2.2
      (fun _ _ h => nomatch h.1)).1⟩

/-! # Exchanging the operands of `and_`, `or_` and `xor_` -/

theorem zip_pad_comm (f : Bool → Bool → Bool) (hf : ∀ x y, f x y = f y x) :
    ∀ (a b : List Bool), zip_pad f a b = zip_pad f b a
  | [], [] => rfl
  | [], b :: r => by
    rw [zip_pad_nil_cons, zip_pad_cons_nil, hf false b, zip_pad_comm f hf [] r]
  | a :: l, [] => by
    rw [zip_pad_nil_cons, zip_pad_cons_nil, hf a false, zip_pad_comm f hf l []]
  | a :: l, b :: r => by
    rw [zip_pad_cons_cons, zip_pad_cons_cons, hf a b, zip_pad_comm f hf l r]

/-- With a commutative block operation, `apply` yields the same bits whichever
operand comes first. -/
theorem apply_comm_bits {B : Bitstream} (hB : B.Contract) {op : Nat → Nat → Nat}
    {f : Bool → Bool → Bool} (hop : op_spec op f) (fill : Bool)
    (ht : tail_spec f fill fill) (hf : ∀ x y, f x y = f y x) (a b : B.carrier)
    (has : B.size a ≤ npos) (hbs : B.size b ≤ npos) :
    B.bits (apply B a b fill fill op) = B.bits (apply B b a fill fill op) := by
  by_cases ha : B.bits a = []
  · by_cases hb : B.bits b = []
    · rw [(apply_empty_right hB a b fill fill op hb).2 ha,
        (apply_empty_right hB b a fill fill op ha).2 hb]
    · rw [(apply_empty_left hB b a fill fill op ha).1 hb,
        (apply_empty_right hB b a fill fill op ha).1 hb]
  · by_cases hb : B.bits b = []
    · rw [(apply_empty_right hB a b fill fill op hb).1 ha,
        (apply_empty_left hB a b fill fill op hb).1 ha]
    · rw [apply_spec hB hop fill fill ht a b ha hb has hbs,
        apply_spec hB hop fill fill ht b a hb ha hbs has, zip_pad_comm f hf]

/-- Claim C34: for two bitstreams `a` and `b` of one encoding, `and_(a, b)`,
`or_(a, b)` and `xor_(a, b)` have the size and the bits of `and_(b, a)`,
`or_(b, a)` and `xor_(b, a)`. -/
theorem and_or_xor_commute (B : Bitstream) (hB : B.Contract) (a b : B.carrier)
    (has : B.size a ≤ npos) (hbs : B.size b ≤ npos) :
    (B.bits (and_ B a b) = B.bits (and_ B b a) ∧
      B.size (and_ B a b) = B.size (and_ B b a)) ∧
    (B.bits (or_ B a b) = B.bits (or_ B b a) ∧
      B.size (or_ B a b) = B.size (or_ B b a)) ∧
    (B.bits (xor_ B a b) = B.bits (xor_ B b a) ∧
      B.size (xor_ B a b) = B.size (xor_ B b a)) := by
  have h1 : B.bits (and_ B a b) = B.bits (and_ B b a) :=
    apply_comm_bits hB and_op_spec false and_tail_spec Bool.and_comm a b has hbs
  have h2 : B.bits (or_ B a b) = B.bits (or_ B b a) :=
    apply_comm_bits hB or_op_spec true or_tail_spec Bool.or_comm a b has hbs
  have h3 : B.bits (xor_ B a b) = B.bits (xor_ B b a) :=
    apply_comm_bits hB xor_op_spec true xor_tail_spec Bool.xor_comm a b has hbs
  refine ⟨⟨h1, ?_⟩, ⟨h2, ?_⟩, ⟨h3, ?_⟩⟩
  · rw [size_bits hB, size_bits hB, h1]
  · rw [size_bits hB, size_bits hB, h2]
  · rw [size_bits hB, size_bits hB, h3]

/-- C34 on the uncompressed encoding: `xor_` of 1100 and 101 in both orders. -/
theorem and_or_xor_commute_witness :
    null_bitstream.bits (xor_ null_bitstream [true, true, false, false] [true, false, true]) =
      null_bitstream.bits
        (xor_ null_bitstream [true, false, true] [true, true, false, false]) :=
  (and_or_xor_commute null_bitstream null_bitstream_contract [true, true, false, false]
    [true, false, true] (by decide) (by decide)).2.2.1

/-! # Parsing a time range -/

/-- C40: after an integer literal `i`, `time_range::parse` returns true on
the empty suffix and on `ns`, `us`, `ms`, `m`, `s` and `h` with `i` seconds,
nanoseconds, microseconds, milliseconds, minutes, seconds and hours, and false
on a suffix that starts with another character than `n`, `u`, `m`, `s`, `h`.
But it also returns true on the suffixes `n`, `u`, `nx` and `ux`, leaving the
time range as it was, and on `mx`, with `i` minutes: in each case the whole
suffix is consumed. It returns true whenever the suffix starts with one of
`n`, `u`, `m`, `s`, `h`. -/
theorem parse_accepts_incomplete_suffix (self : time_range) (i : Int) :
    time_range.parse self i [] = (true, time_range.seconds i, []) ∧
    time_range.parse self i ['n', 's'] = (true, time_range.nanoseconds i, []) ∧
    time_range.parse self i ['u', 's'] = (true, time_range.microseconds i, []) ∧
    time_range.parse self i ['m', 's'] = (true, time_range.milliseconds i, []) ∧
    time_range.parse self i ['m'] = (true, time_range.minutes i, []) ∧
    time_range.parse self i ['s'] = (true, time_range.seconds i, []) ∧
    time_range.parse self i ['h'] = (true, time_range.hours i, []) ∧
    (∀ c rest, c ≠ 'n' → c ≠ 'u' → c ≠ 'm' → c ≠ 's' → c ≠ 'h' →
      time_range.parse self i (c :: rest) = (false, self, rest)) ∧
    time_range.parse self i ['n'] = (true, self, []) ∧
    time_range.parse self i ['u'] = (true, self, []) ∧
    time_range.parse self i ['n', 'x'] = (true, self, []) ∧
    time_range.parse self i ['u', 'x'] = (true, self, []) ∧
    time_range.parse self i ['m', 'x'] = (true, time_range.minutes i, []) ∧
    (∀ c rest, (c = 'n' ∨ c = 'u' ∨ c = 'm' ∨ c = 's' ∨ c = 'h') →
      (time_range.parse self i (c :: rest)).1 = true) := by
  refine ⟨rfl, rfl, rfl, rfl, rfl, rfl, rfl, ?_, rfl, rfl, rfl, rfl, rfl, ?_⟩
  · intro c rest hn hu hm hs hh
    simp only [time_range.parse, if_neg hn, if_neg hu, if_neg hm, if_neg hs, if_neg hh]
  · intro c rest h
    rcases h with h | h | h | h | h <;> subst h
    · cases rest with
      | nil => rfl
      | cons d rest1 => by_cases hd : d = 's' <;> simp [time_range.parse, hd]
    · cases rest with
      | nil => rfl
      | cons d rest1 => by_cases hd : d = 's' <;> simp [time_range.parse, hd]
    · cases rest with
      | nil => rfl
      | cons d rest1 => by_cases hd : d = 's' <;> simp [time_range.parse, hd]
    · rfl
    · rfl

/-! # Substitution in a string -/

/-- The search of `sub` from index `i` on finds nothing when the pattern does
not occur at an index from `i` up to the last index the loop tests. -/
theorem sub_search_none (s pat : List Char) :
    ∀ (fuel i : Nat), (∀ k, i ≤ k → k < s.length - pat.length → equal_at s pat k = false) →
      i ≤ s.length - pat.length → s.length - pat.length - i ≤ fuel →
      sub_search s pat fuel i = none
  | 0, _, _, _, _ => rfl
  | fuel + 1, i, h, hi, hf => by
    rw [sub_search]
    by_cases hend : i = s.length - pat.length
    · rw [if_neg (not_not.2 hend)]
    · rw [if_pos hend, h i (Nat.le_refl _) (by omega)]
      exact sub_search_none s pat fuel (i + 1) (fun k hk => h k (by omega)) (by omega)
        (by omega)

/-- C39: `sub` replaces the leftmost occurrence of the pattern when it is not
at the end of the string ("abc" with "b" replaced by "x" is "axc"), but never
an occurrence at the end, which its loop `i != end() - pat.size()` does not
test: "ab" with "b" replaced by "x" stays "ab", "ab" with "ab" replaced by "x"
stays "ab", and in general a string `pre ++ pat` in which the pattern does not
occur earlier is returned as it is. When the pattern occurs both earlier and at
the end, the earlier occurrence is replaced. -/
theorem sub_misses_occurrence_at_end (pre pat repl : List Char) :
    string_sub "abc".data "b".data "x".data = "axc".data ∧
    string_sub "ab".data "b".data "x".data = "ab".data ∧
    string_sub "ab".data "ab".data "x".data = "ab".data ∧
    string_sub "abab".data "ab".data "x".data = "xab".data ∧
    ((∀ k, k < pre.length → equal_at (pre ++ pat) pat k = false) →
      equal_at (pre ++ pat) pat pre.length = true ∧
      string_sub (pre ++ pat) pat repl = pre ++ pat) := by
  refine ⟨by decide, by decide, by decide, by decide, fun h => ⟨?_, ?_⟩⟩
  · simp [equal_at]
  · have hlen : (pre ++ pat).length - pat.length = pre.length := by simp
    have hnone : sub_search (pre ++ pat) pat (pre ++ pat).length 0 = none :=
      sub_search_none _ _ _ 0 (fun k _ hk => h k (by omega)) (Nat.zero_le _)
        (by simp)
    rw [string_sub, hnone]
    simp

/-! # `string::find` -/

theorem occurs_at_bound (h n : List Char) (i : Nat) (hn : n ≠ []) (ho : occurs_at h n i) :
    i + n.length ≤ h.length := by
  have hl := congrArg List.length ho
  have hpos : 0 < n.length := List.length_pos.2 hn
  rw [List.length_take, List.length_drop] at hl
  omega

theorem occurs_at_iff_prefix (h n : List Char) (i : Nat) :
    occurs_at h n i ↔ n <+: h.drop i := by
  unfold occurs_at
  constructor
  · intro ho
    rw [← ho]
    exact List.take_prefix _ _
  · intro hp
    exact List.prefix_iff_eq_take.1 hp |>.symm

/-- The inner loop of `find` leaves `sub` at the end of the needle exactly
when the rest of the needle is found at `cand`. -/
theorem bounded_advance_spec (h n : List Char) :
    ∀ (k sub cand : Nat), sub ≤ n.length → n.length - sub < k →
      (bounded_advance h n k sub cand = n.length ↔ n.drop sub <+: h.drop cand)
  | 0, _, _, _, hk => absurd hk (Nat.not_lt_zero _)
  | k + 1, sub, cand, hs, hk => by
    rw [bounded_advance]
    by_cases hend : sub = n.length
    · have hc : ¬ (n[sub]? = h[cand]? ∧ sub ≠ n.length) := fun hc => hc.2 hend
      rw [if_neg hc, hend, List.drop_length]
      exact ⟨fun _ => List.nil_prefix, fun _ => rfl⟩
    · have hlt : sub < n.length := Nat.lt_of_le_of_ne hs hend
      have hn : n.drop sub = n[sub] :: n.drop (sub + 1) := List.drop_eq_getElem_cons hlt
      by_cases heq : n[sub]? = h[cand]?
      · rw [if_pos ⟨heq, hend⟩]
        rw [List.getElem?_eq_getElem hlt] at heq
        have hcl : cand < h.length := by
          by_contra hc
          rw [List.getElem?_eq_none (by omega)] at heq
          cases heq
        rw [List.getElem?_eq_getElem hcl] at heq
        have hh : h.drop cand = h[cand] :: h.drop (cand + 1) := List.drop_eq_getElem_cons hcl
        rw [bounded_advance_spec h n k (sub + 1) (cand + 1) hlt (by omega), hn, hh,
          Option.some.inj heq]
        exact (List.cons_prefix_cons.trans ⟨fun hp => hp.2, fun hp => ⟨rfl, hp⟩⟩).symm
      · rw [if_neg (fun hc => heq hc.1)]
        refine ⟨fun hc => absurd hc hend, fun hp => ?_⟩
        exfalso
        apply heq
        rw [hn] at hp
        rw [List.getElem?_eq_getElem hlt]
        cases hd : h.drop cand with
        | nil => rw [hd] at hp; exact absurd (List.prefix_nil.1 hp) (List.cons_ne_nil _ _)
        | cons c rest =>
          rw [hd] at hp
          have hc := (List.cons_prefix_cons.1 hp).1
          have hcl : cand < h.length := by
            by_contra hcl
            rw [List.drop_eq_nil_of_le (by omega)] at hd
            cases hd
          rw [List.drop_eq_getElem_cons hcl] at hd
          rw [List.getElem?_eq_getElem hcl, hc, (List.cons.inj hd).1]

/-- The outer loop of `find` returns the first index from `pos` on at which the
needle occurs, and `npos` when there is none. -/
theorem bounded_loop_spec (h n : List Char) (hn : n ≠ []) (hlen : h.length < string_npos) :
    ∀ (k pos : Nat), h.length - pos ≤ k →
      (bounded_loop h n k pos = string_npos ∧ ∀ i, pos ≤ i → ¬ occurs_at h n i) ∨
      (pos ≤ bounded_loop h n k pos ∧ occurs_at h n (bounded_loop h n k pos) ∧
        ∀ i, pos ≤ i → i < bounded_loop h n k pos → ¬ occurs_at h n i)
  | k, pos, hk => by
    have hnpos : 0 < n.length := List.length_pos.2 hn
    have hout : ∀ i, h.length ≤ i → ¬ occurs_at h n i := by
      intro i hi ho
      have := occurs_at_bound h n i hn ho
      omega
    cases k with
    | zero =>
      left
      exact ⟨rfl, fun i hi => hout i (by omega)⟩
    | succ k =>
      rw [bounded_loop]
      by_cases hp : pos < h.length
      · rw [if_pos hp]
        have hadv := bounded_advance_spec h n (n.length + 1) 0 pos (Nat.zero_le _) (by omega)
        rw [List.drop_zero, ← occurs_at_iff_prefix] at hadv
        by_cases hocc : occurs_at h n pos
        · rw [if_pos (hadv.2 hocc)]
          right
          exact ⟨Nat.le_refl _, hocc, fun i h1 h2 => absurd h1 (by omega)⟩
        · rw [if_neg (fun hc => hocc (hadv.1 hc))]
          rcases bounded_loop_spec h n hn hlen k (pos + 1) (by omega) with ⟨h1, h2⟩ | ⟨h1, h2, h3⟩
          · left
            refine ⟨h1, fun i hi => ?_⟩
            rcases Nat.eq_or_lt_of_le hi with he | hl
            · rw [← he]; exact hocc
            · exact h2 i hl
          · right
            refine ⟨by omega, h2, fun i hi hlt => ?_⟩
            rcases Nat.eq_or_lt_of_le hi with he | hl
            · rw [← he]; exact hocc
            · exact h3 i hl hlt
      · rw [if_neg hp]
        left
        exact ⟨rfl, fun i hi => hout i (by omega)⟩

/-- What `find` returns when no byte behind the string is compared equal to a
character of the needle: the first index from `pos` on at which the needle
occurs, and `npos` when there is none. -/
theorem bounded_find_spec (h n : List Char) (pos : Nat) (hn : n ≠ []) (hpos : pos ≤ h.length)
    (hlen : h.length < string_npos) :
    (bounded_find h n pos = string_npos ∧ ∀ i, pos ≤ i → ¬ occurs_at h n i) ∨
    (pos ≤ bounded_find h n pos ∧ bounded_find h n pos < string_npos ∧
      occurs_at h n (bounded_find h n pos) ∧
      ∀ i, pos ≤ i → i < bounded_find h n pos → ¬ occurs_at h n i) := by
  have hp : ¬ pos = string_npos := by omega
  unfold bounded_find
  simp only [if_neg hp]
  by_cases hg : h.isEmpty ∨ n.isEmpty ∨ pos + n.length > h.length
  · rw [if_pos hg]
    left
    refine ⟨rfl, fun i hi ho => ?_⟩
    have hb := occurs_at_bound h n i hn ho
    have hnpos : 0 < n.length := List.length_pos.2 hn
    rcases hg with hg | hg | hg
    · rw [List.isEmpty_iff] at hg
      rw [hg, List.length_nil] at hb
      omega
    · rw [List.isEmpty_iff] at hg
      exact hn hg
    · omega
  · rw [if_neg hg]
    rcases bounded_loop_spec h n hn hlen h.length pos (by omega) with h1 | ⟨h1, h2, h3⟩
    · exact Or.inl h1
    · right
      refine ⟨h1, ?_, h2, h3⟩
      have := occurs_at_bound h n _ hn h2
      omega

/-- The inner loop on the buffers is the inner loop on the strings when no byte
behind the string equals a character of the needle. -/
theorem find_advance_mem_eq (h : List Char) (hpast : Nat → Char) (n : List Char)
    (npast : Nat → Char) (hdiff : ∀ k c, c ∈ n → hpast k ≠ c) :
    ∀ (k sub cand : Nat), sub ≤ n.length →
      find_advance_mem h hpast n npast k sub cand = bounded_advance h n k sub cand
  | 0, _, _, _ => rfl
  | k + 1, sub, cand, hs => by
    rw [find_advance_mem, bounded_advance]
    by_cases hend : sub = n.length
    · rw [if_neg (fun hc => hc.2 hend), if_neg (fun hc => hc.2 hend)]
    · have hlt : sub < n.length := Nat.lt_of_le_of_ne hs hend
      have hiff : (read_at n npast sub = read_at h hpast cand ∧ sub ≠ n.length) ↔
          (n[sub]? = h[cand]? ∧ sub ≠ n.length) := by
        have hr : read_at n npast sub = n[sub] := by
          rw [read_at, List.getElem?_eq_getElem hlt]
        rw [hr, List.getElem?_eq_getElem hlt]
        by_cases hcl : cand < h.length
        · have hc : read_at h hpast cand = h[cand] := by
            rw [read_at, List.getElem?_eq_getElem hcl]
          rw [hc, List.getElem?_eq_getElem hcl]
          exact and_congr_left (fun _ => ⟨fun e => congrArg some e, fun e => Option.some.inj e⟩)
        · have hc : read_at h hpast cand = hpast (cand - h.length) := by
            rw [read_at, List.getElem?_eq_none (by omega)]
          rw [hc, List.getElem?_eq_none (by omega)]
          constructor
          · intro e
            exact absurd e.1.symm (hdiff _ _ (List.getElem_mem _))
          · intro e
            exact absurd e.1 (by simp)
      by_cases hc : n[sub]? = h[cand]? ∧ sub ≠ n.length
      · rw [if_pos (hiff.2 hc), if_pos hc]
        exact find_advance_mem_eq h hpast n npast hdiff k (sub + 1) (cand + 1) hlt
      · rw [if_neg (fun e => hc (hiff.1 e)), if_neg hc]

theorem find_loop_mem_eq (h : List Char) (hpast : Nat → Char) (n : List Char)
    (npast : Nat → Char) (hdiff : ∀ k c, c ∈ n → hpast k ≠ c) :
    ∀ (k pos : Nat), find_loop_mem h hpast n npast k pos = bounded_loop h n k pos
  | 0, _ => rfl
  | k + 1, pos => by
    rw [find_loop_mem, bounded_loop,
      find_advance_mem_eq h hpast n npast hdiff _ 0 pos (Nat.zero_le _),
      find_loop_mem_eq h hpast n npast hdiff k (pos + 1)]

theorem string_find_mem_eq (h : List Char) (hpast : Nat → Char) (n : List Char)
    (npast : Nat → Char) (hdiff : ∀ k c, c ∈ n → hpast k ≠ c) (pos : Nat) :
    string_find_mem h hpast n npast pos = bounded_find h n pos := by
  unfold string_find_mem bounded_find
  simp only [find_loop_mem_eq h hpast n npast hdiff]

/-- C37: `find` compares `*sub == *cand` without comparing `cand` with the end
of the string, so it reads the bytes behind the string. With the byte `'\0'`
behind "ab" (as `prepare` writes it behind a string on the heap, and as the
zeroed in-situ buffer holds it), searching "ab" for the two characters `b`,
`'\0'` returns 1, although the needle occurs nowhere in "ab". When no byte
behind the string equals a character of the needle (a needle without `'\0'`
in zeroed memory, say), `find` returns the least index from `pos` on at which
the needle occurs, and `npos` when there is none; and it returns `npos` when
the string or the needle is empty. -/
theorem find_matches_past_the_end (hpast npast : Nat → Char) :
    (hpast 0 = Char.ofNat 0 →
      string_find_mem "ab".data hpast ['b', Char.ofNat 0] npast 0 = 1) ∧
    (∀ i, ¬ occurs_at "ab".data ['b', Char.ofNat 0] i) ∧
    (∀ h n pos, n ≠ [] → pos ≤ h.length → h.length < string_npos →
      (∀ k c, c ∈ n → hpast k ≠ c) →
      (string_find_mem h hpast n npast pos = string_npos ∧
        ∀ i, pos ≤ i → ¬ occurs_at h n i) ∨
      (pos ≤ string_find_mem h hpast n npast pos ∧
        string_find_mem h hpast n npast pos < string_npos ∧
        occurs_at h n (string_find_mem h hpast n npast pos) ∧
        ∀ i, pos ≤ i → i < string_find_mem h hpast n npast pos → ¬ occurs_at h n i)) ∧
    (∀ h n pos, h = [] ∨ n = [] → string_find_mem h hpast n npast pos = string_npos) := by
  refine ⟨fun h0 => ?_, fun i ho => ?_, fun h n pos hn hpos hlen hdiff => ?_,
    fun h n pos he => ?_⟩
  · have e1 : find_advance_mem "ab".data hpast ['b', Char.ofNat 0] npast 3 0 0 = 0 := by
      rw [find_advance_mem, if_neg]
      intro hc
      have hne : ¬ ('b' = 'a') := by decide
      exact hne hc.1
    have e2 : find_advance_mem "ab".data hpast ['b', Char.ofNat 0] npast 3 0 1 = 2 := by
      rw [find_advance_mem, if_pos ⟨rfl, by decide⟩, find_advance_mem,
        if_pos ⟨h0.symm, by decide⟩, find_advance_mem, if_neg (fun hc => hc.2 rfl)]
    show find_loop_mem "ab".data hpast ['b', Char.ofNat 0] npast 2 0 = 1
    have e3 : find_loop_mem "ab".data hpast ['b', Char.ofNat 0] npast 1 1 = 1 := by
      rw [find_loop_mem, if_pos (by decide)]
      show (if find_advance_mem "ab".data hpast ['b', Char.ofNat 0] npast 3 0 1 = 2 then 1
        else _) = 1
      rw [e2, if_pos rfl]
    rw [find_loop_mem, if_pos (by decide)]
    show (if find_advance_mem "ab".data hpast ['b', Char.ofNat 0] npast 3 0 0 = 2 then 0
      else find_loop_mem "ab".data hpast ['b', Char.ofNat 0] npast 1 1) = 1
    rw [e1, if_neg (by decide), e3]
  · have hb := occurs_at_bound _ _ i (by simp) ho
    have hi : i = 0 := by
      have : i + 2 ≤ 2 := hb
      omega
    subst hi
    have hne : ¬ ((("ab".data.drop 0).take 2) = ['b', Char.ofNat 0]) := by decide
    exact hne ho
  · rw [string_find_mem_eq h hpast n npast hdiff]
    exact bounded_find_spec h n pos hn hpos hlen
  · unfold string_find_mem
    rcases he with he | he
    · subst he; simp
    · subst he; simp

/-- C37 in zeroed memory: the needle `b`, `'\0'` is found in "ab" at index
1. -/
theorem find_matches_past_the_end_witness :
    string_find_mem "ab".data (fun _ => Char.ofNat 0) ['b', Char.ofNat 0]
      (fun _ => Char.ofNat 0) 0 = 1 :=
  (find_matches_past_the_end (fun _ => Char.ofNat 0) (fun _ => Char.ofNat 0)).1 rfl

/-! # Escaping and unescaping a string -/

theorem drop_eq_char_at_cons (s : List Char) (i : Nat) (hi : i < s.length) :
    s.drop i = char_at s i :: s.drop (i + 1) := by
  rw [List.drop_eq_getElem_cons hi, char_at, List.getD_eq_getElem?_getD,
    List.getElem?_eq_getElem hi]
  rfl

theorem take_drop_succ (s : List Char) (prev i : Nat) (hp : prev ≤ i) (hi : i < s.length) :
    (s.drop prev).take (i + 1 - prev) = (s.drop prev).take (i - prev) ++ [char_at s i] := by
  have h1 : i + 1 - prev = (i - prev) + 1 := by omega
  have h2 : i - prev < (s.drop prev).length := by rw [List.length_drop]; omega
  rw [h1, List.take_succ, List.getElem?_eq_getElem h2]
  have h3 : (s.drop prev)[i - prev] = char_at s i := by
    rw [List.getElem_drop, char_at, List.getD_eq_getElem?_getD, List.getElem?_eq_getElem hi]
    simp only [Option.getD_some]
    congr 1
    omega
  rw [h3]
  rfl

/-- The two loops of `escape` together escape the string character by
character. -/
theorem escape_copy_eq (isprint : Char → Bool) (all : Bool) (s : List Char) :
    ∀ (fuel i prev : Nat) (data : List Char), prev ≤ i → i ≤ s.length →
      s.length - i ≤ fuel →
      escape_copy s (escape_positions isprint all s fuel i) prev data =
        data ++ (s.drop prev).take (i - prev) ++ escaped isprint all (s.drop i)
  | 0, i, prev, data, _, hi, hf => by
    have he : i = s.length := by omega
    subst he
    rw [escape_positions, escape_copy, List.drop_length, escaped, List.append_nil,
      List.take_of_length_le (by rw [List.length_drop])]
  | fuel + 1, i, prev, data, hp, hi, hf => by
    rw [escape_positions]
    by_cases he : i = s.length
    · subst he
      rw [if_neg (not_not.2 rfl), escape_copy, List.drop_length, escaped, List.append_nil,
        List.take_of_length_le (by rw [List.length_drop])]
    · have hlt : i < s.length := Nat.lt_of_le_of_ne hi he
      rw [if_pos he, drop_eq_char_at_cons s i hlt, escaped]
      by_cases hm : (all || !isprint (char_at s i) ||
          is_escape_seq (char_at s i :: s.drop (i + 1))) = true
      · rw [if_pos hm, if_pos hm, escape_copy,
          escape_copy_eq isprint all s fuel (i + 1) (i + 1) _ (Nat.le_refl _) hlt (by omega),
          Nat.sub_self, List.take_zero, List.append_nil, List.append_assoc]
      · rw [if_neg hm, if_neg hm,
          escape_copy_eq isprint all s fuel (i + 1) prev data (by omega) hlt (by omega),
          take_drop_succ s prev i hp hlt]
        simp only [List.append_assoc, List.singleton_append]

/-- The function `escape` escapes the string character by character. -/
theorem string_escape_eq (isprint : Char → Bool) (all : Bool) (s : List Char) :
    string_escape isprint all s = escaped isprint all s := by
  unfold string_escape
  cases s with
  | nil => rfl
  | cons c rest =>
    have h := escape_copy_eq isprint all (c :: rest) (c :: rest).length 0 0 []
      (Nat.le_refl _) (Nat.zero_le _) (by omega)
    rw [if_neg (by simp), h]
    rfl

theorem is_escape_seq_length (r : List Char) (h : is_escape_seq r = true) : 4 ≤ r.length := by
  match r, h with
  | _ :: _ :: _ :: _ :: _, _ => simp

/-- The two loops of `unescape` together unescape the string escape sequence by
escape sequence. -/
theorem unescape_copy_eq (hex_to_byte : Char → Char → Char) (s : List Char) :
    ∀ (fuel i prev : Nat) (data : List Char), prev ≤ i → i ≤ s.length →
      s.length - i ≤ fuel →
      unescape_copy hex_to_byte s (unescape_positions s fuel i) prev data =
        data ++ (s.drop prev).take (i - prev) ++ unescaped hex_to_byte fuel (s.drop i)
  | 0, i, prev, data, _, hi, hf => by
    have he : i = s.length := by omega
    subst he
    rw [unescape_positions, unescape_copy, unescaped, List.append_nil,
      List.take_of_length_le (by rw [List.length_drop])]
  | fuel + 1, i, prev, data, hp, hi, hf => by
    rw [unescape_positions]
    by_cases he : i = s.length
    · subst he
      rw [if_neg (not_not.2 rfl), unescape_copy, List.drop_length, unescaped, List.append_nil,
        List.take_of_length_le (by rw [List.length_drop])]
    · have hlt : i < s.length := Nat.lt_of_le_of_ne hi he
      rw [if_pos he]
      by_cases hm : is_escape_seq (s.drop i) = true
      · have h4 := is_escape_seq_length _ hm
        rw [List.length_drop] at h4
        have hrest : (s.drop (i + 1)).drop 3 = s.drop (i + 4) := by
          rw [List.drop_drop]
        have hc2 : char_at (s.drop (i + 1)) 1 = char_at s (i + 2) := by
          unfold char_at
          rw [List.getD_eq_getElem?_getD, List.getD_eq_getElem?_getD, List.getElem?_drop]
        have hc3 : char_at (s.drop (i + 1)) 2 = char_at s (i + 3) := by
          unfold char_at
          rw [List.getD_eq_getElem?_getD, List.getD_eq_getElem?_getD, List.getElem?_drop]
        rw [if_pos hm, unescape_copy,
          unescape_copy_eq hex_to_byte s fuel (i + 4) (i + 4) _ (Nat.le_refl _) (by omega)
            (by omega),
          Nat.sub_self, List.take_zero, List.append_nil]
        rw [drop_eq_char_at_cons s i hlt] at hm ⊢
        rw [unescaped, if_pos hm, hrest, hc2, hc3]
        simp only [List.append_assoc, List.singleton_append]
      · rw [if_neg hm,
          unescape_copy_eq hex_to_byte s fuel (i + 1) prev data (by omega) hlt (by omega),
          take_drop_succ s prev i hp hlt]
        rw [drop_eq_char_at_cons s i hlt] at hm ⊢
        rw [unescaped, if_neg hm]
        simp only [List.append_assoc, List.singleton_append]

/-- The function `unescape` unescapes the string escape sequence by escape
sequence. -/
theorem string_unescape_eq (hex_to_byte : Char → Char → Char) (s : List Char) :
    string_unescape hex_to_byte s = unescaped hex_to_byte s.length s := by
  have h := unescape_copy_eq hex_to_byte s s.length 0 0 [] (Nat.le_refl _) (Nat.zero_le _)
    (by omega)
  rw [Nat.sub_self, List.take_zero, List.drop_zero, List.nil_append, List.nil_append] at h
  unfold string_unescape
  by_cases he : (unescape_positions s s.length 0).isEmpty = true
  · rw [if_pos he, ← h, List.isEmpty_iff.1 he, unescape_copy, List.drop_zero, List.nil_append]
  · rw [if_neg he, h]

theorem hex_at_isxdigit : ∀ k, k < 16 → isxdigit (hex_at k) = true := by decide

theorem hex_value_hex_at : ∀ k, k < 16 → hex_value (hex_at k) = k := by decide

theorem nibbles_lt (n : Nat) : (n &&& 0xf0) >>> 4 < 16 ∧ n &&& 0x0f < 16 := by
  have h1 : n &&& 0xf0 ≤ 0xf0 := Nat.and_le_right
  have h2 : n &&& 0x0f ≤ 0x0f := Nat.and_le_right
  rw [Nat.shiftRight_eq_div_pow]
  omega

set_option maxRecDepth 100000 in
theorem nibbles_value : ∀ n, n < 256 → 16 * ((n &&& 0xf0) >>> 4) + (n &&& 0x0f) = n := by
  decide

/-- The fixture `byte_of_hex` turns the two digits `escape` writes for a byte
back into the byte. -/
theorem byte_of_hex_escape (c : Char) (hc : c.toNat < 256) :
    byte_of_hex (hex_at ((c.toNat &&& 0xf0) >>> 4)) (hex_at (c.toNat &&& 0x0f)) = c := by
  unfold byte_of_hex
  rw [hex_value_hex_at _ (nibbles_lt c.toNat).1, hex_value_hex_at _ (nibbles_lt c.toNat).2,
    nibbles_value _ hc, Char.ofNat_toNat]

theorem is_escape_seq_escape_seq (c : Char) (t : List Char) :
    is_escape_seq (escape_seq c ++ t) = true := by
  show (decide (backslash = backslash) && decide ('x' = 'x') &&
    isxdigit (hex_at ((c.toNat &&& 0xf0) >>> 4)) && isxdigit (hex_at (c.toNat &&& 0x0f))) = true
  rw [hex_at_isxdigit _ (nibbles_lt c.toNat).1, hex_at_isxdigit _ (nibbles_lt c.toNat).2]
  rfl

/-- A character other than the backslash at the head of an escaped string is
the head of the string, unescaped. -/
theorem escaped_head (isprint : Char → Bool) (all : Bool) (r t : List Char) (d : Char)
    (hd : d ≠ backslash) (h : escaped isprint all r = d :: t) :
    ∃ r', r = d :: r' ∧ t = escaped isprint all r' := by
  cases r with
  | nil => cases h
  | cons e r' =>
    rw [escaped] at h
    by_cases hm : (all || !isprint e || is_escape_seq (e :: r')) = true
    · rw [if_pos hm] at h
      exact absurd (List.cons.inj h).1.symm hd
    · rw [if_neg hm] at h
      obtain ⟨h1, h2⟩ := List.cons.inj h
      exact ⟨r', by rw [h1], h2.symm⟩

/-- A character that `escape` copies does not start an escape sequence in the
escaped string. -/
theorem copied_no_escape_seq (isprint : Char → Bool) (all : Bool) (c : Char)
    (r : List Char) (hm : is_escape_seq (c :: r) = false) :
    is_escape_seq (c :: escaped isprint all r) = false := by
  cases hseq : is_escape_seq (c :: escaped isprint all r) with
  | false => rfl
  | true =>
    exfalso
    match hr : escaped isprint all r, hseq with
    | c1 :: c2 :: c3 :: _, hseq =>
      simp only [is_escape_seq, Bool.and_eq_true, decide_eq_true_eq] at hseq
      obtain ⟨⟨⟨h0, h1⟩, h2⟩, h3⟩ := hseq
      have hx : ('x' : Char) ≠ backslash := by decide
      have hdigit : ∀ d, isxdigit d = true → d ≠ backslash := by
        intro d hd he
        rw [he] at hd
        exact absurd hd (by decide)
      subst h1
      obtain ⟨r1, e1, t1⟩ := escaped_head isprint all r _ _ hx hr
      obtain ⟨r2, e2, t2⟩ := escaped_head isprint all r1 _ _ (hdigit _ h2) t1.symm
      obtain ⟨r3, e3, _⟩ := escaped_head isprint all r2 _ _ (hdigit _ h3) t2.symm
      rw [e1, e2, e3] at hm
      simp [is_escape_seq, h0, h2, h3] at hm

/-- Unescaping an escaped string of bytes gives the string back, when
`hex_to_byte` turns the two digits written for a byte back into the byte. -/
theorem unescaped_escaped (isprint : Char → Bool) (hex_to_byte : Char → Char → Char)
    (all : Bool)
    (hinv : ∀ c : Char, c.toNat < 256 →
      hex_to_byte (hex_at ((c.toNat &&& 0xf0) >>> 4)) (hex_at (c.toNat &&& 0x0f)) = c) :
    ∀ (s : List Char) (fuel : Nat), (∀ c, c ∈ s → c.toNat < 256) →
      (escaped isprint all s).length ≤ fuel →
      unescaped hex_to_byte fuel (escaped isprint all s) = s
  | [], fuel, _, _ => by
    cases fuel <;> rfl
  | c :: r, fuel, hb, hf => by
    have hbr : ∀ d, d ∈ r → d.toNat < 256 := fun d hd => hb d (List.mem_cons_of_mem _ hd)
    rw [escaped] at hf ⊢
    by_cases hm : (all || !isprint c || is_escape_seq (c :: r)) = true
    · rw [if_pos hm] at hf ⊢
      have hlen : (escape_seq c ++ escaped isprint all r).length =
          (escaped isprint all r).length + 4 := by
        rw [List.length_append]
        show 4 + _ = _
        omega
      rw [hlen] at hf
      obtain ⟨k, rfl⟩ : ∃ k, fuel = k + 1 := ⟨fuel - 1, by omega⟩
      have hseq := is_escape_seq_escape_seq c (escaped isprint all r)
      have hcons : escape_seq c ++ escaped isprint all r =
          backslash :: ('x' :: hex_at ((c.toNat &&& 0xf0) >>> 4) ::
            hex_at (c.toNat &&& 0x0f) :: escaped isprint all r) := rfl
      rw [hcons] at hseq ⊢
      rw [unescaped, if_pos hseq]
      show hex_to_byte (hex_at ((c.toNat &&& 0xf0) >>> 4)) (hex_at (c.toNat &&& 0x0f)) ::
        unescaped hex_to_byte k (escaped isprint all r) = c :: r
      rw [hinv c (hb c (List.mem_cons_self _ _)),
        unescaped_escaped isprint hex_to_byte all hinv r k hbr (by omega)]
    · rw [if_neg hm] at hf ⊢
      rw [List.length_cons] at hf
      obtain ⟨k, rfl⟩ : ∃ k, fuel = k + 1 := ⟨fuel - 1, by omega⟩
      have hno : is_escape_seq (c :: r) = false := by
        cases h : is_escape_seq (c :: r) with
        | false => rfl
        | true => rw [h] at hm; simp at hm
      rw [unescaped, if_neg (by rw [copied_no_escape_seq isprint all c r hno]; decide),
        unescaped_escaped isprint hex_to_byte all hinv r k hbr (by omega)]

/-- Claim C38: for every string `s` of bytes and both values of the flag
`all`, `s.escape(all).unescape()` is `s`, whatever `std::isprint` accepts, when
`util::hex_to_byte` turns the two hexadecimal digits `escape` writes for a byte
back into the byte. -/
theorem unescape_escape (isprint : Char → Bool) (hex_to_byte : Char → Char → Char)
    (all : Bool) (s : List Char)
    (hinv : ∀ c : Char, c.toNat < 256 →
      hex_to_byte (hex_at ((c.toNat &&& 0xf0) >>> 4)) (hex_at (c.toNat &&& 0x0f)) = c)
    (hs : ∀ c, c ∈ s → c.toNat < 256) :
    string_unescape hex_to_byte (string_escape isprint all s) = s := by
  rw [string_unescape_eq, string_escape_eq]
  exact unescaped_escaped isprint hex_to_byte all hinv s _ hs (Nat.le_refl _)

/-- C38 on the string `a\x41`, newline, `\x` with the printable ASCII
characters as `std::isprint`: escaped and unescaped again it is itself, and its
escaped form is `a\x5cx41\x0a\x`. -/
theorem unescape_escape_witness :
    string_unescape byte_of_hex
      (string_escape (fun c => 32 ≤ c.toNat && c.toNat < 127) false
        ['a', backslash, 'x', '4', '1', Char.ofNat 10, backslash, 'x']) =
      ['a', backslash, 'x', '4', '1', Char.ofNat 10, backslash, 'x'] ∧
    string_escape (fun c => 32 ≤ c.toNat && c.toNat < 127) false
        ['a', backslash, 'x', '4', '1', Char.ofNat 10, backslash, 'x'] =
      ['a', backslash, 'x', '5', 'c', 'x', '4', '1', backslash, 'x', '0', 'a',
        backslash, 'x'] :=
  ⟨unescape_escape (fun c => 32 ≤ c.toNat && c.toNat < 127) byte_of_hex false
      ['a', backslash, 'x', '4', '1', Char.ofNat 10, backslash, 'x']
      byte_of_hex_escape (by decide),
    by decide⟩

/-! # Equality and order of nodes -/

theorem exactly_one_of_lt (a b : Nat) :
    exactly_one (decide (a < b)) (decide (a = b)) (decide (b < a)) := by
  unfold exactly_one
  rcases Nat.lt_trichotomy a b with h | h | h
  · left; simp [h, Nat.ne_of_lt h, Nat.lt_asymm h]
  · right; left; simp [h]
  · right; right; simp [h, Nat.ne_of_gt h, Nat.lt_asymm h]

theorem exactly_one_hash (hash_code : node_class → Nat)
    (hinj : Function.Injective hash_code) (a b : node_class) (h : a ≠ b) :
    exactly_one (decide (hash_code a < hash_code b)) false
      (decide (hash_code b < hash_code a)) := by
  have hne : hash_code a ≠ hash_code b := fun e => h (hinj e)
  have := exactly_one_of_lt (hash_code a) (hash_code b)
  rw [decide_eq_false hne] at this
  exact this

theorem exactly_one_same (n : Nat) : exactly_one (decide (n < n)) true (decide (n < n)) := by
  unfold exactly_one
  right; left
  simp

theorem value_type_index_injective : Function.Injective value_type.index := by
  intro a b h
  cases a <;> cases b <;> first | rfl | exact absurd h (by decide)

theorem relational_operator_index_injective : Function.Injective relational_operator.index := by
  intro a b h
  cases a <;> cases b <;> first | rfl | exact absurd h (by decide)

theorem exactly_one_offset :
    ∀ (o p : List Nat), exactly_one (offset_less o p) (decide (o = p)) (offset_less p o)
  | [], [] => Or.inr (Or.inl ⟨rfl, rfl, rfl⟩)
  | [], _ :: _ => Or.inl ⟨rfl, rfl, rfl⟩
  | _ :: _, [] => Or.inr (Or.inr ⟨rfl, rfl, rfl⟩)
  | a :: as, b :: bs => by
    have ih := exactly_one_offset as bs
    unfold exactly_one at ih ⊢
    rw [offset_less, offset_less]
    rcases Nat.lt_trichotomy a b with h | h | h
    · left
      simp [h, Nat.ne_of_lt h, Nat.lt_asymm h]
    · subst h
      simp only [Nat.lt_irrefl, if_false, List.cons.injEq, true_and]
      exact ih
    · right; right
      simp [h, Nat.ne_of_gt h, Nat.lt_asymm h]

theorem exactly_one_tie (e f : String) (o p : List Nat) :
    exactly_one
      (if string_less e.data f.data then true
        else if string_less f.data e.data then false else offset_less o p)
      (decide (e = f) && decide (o = p))
      (if string_less f.data e.data then true
        else if string_less e.data f.data then false else offset_less p o) := by
  have hs := string_less_total e.data f.data
  have ho := exactly_one_offset o p
  have hd : decide (e = f) = decide (e.data = f.data) := by
    by_cases h : e = f
    · subst h; simp
    · have h2 : e.data ≠ f.data := fun hc => h (String.ext hc)
      simp [h, h2]
  rw [hd]
  rcases hs with ⟨a, b, c⟩ | ⟨a, b, c⟩ | ⟨a, b, c⟩ <;> rw [a, b, c]
  · exact Or.inl ⟨rfl, rfl, rfl⟩
  · simp only [Bool.false_eq_true, if_false, Bool.true_and]
    exact ho
  · exact Or.inr (Or.inr ⟨rfl, rfl, rfl⟩)

theorem exactly_one_cons (l e g ls es gs : Bool) (h1 : exactly_one l e g)
    (h2 : exactly_one ls es gs) :
    exactly_one (if l = true then true else if g = true then false else ls) (e && es)
      (if g = true then true else if l = true then false else gs) := by
  unfold exactly_one at h1 h2 ⊢
  rcases h1 with ⟨a, b, c⟩ | ⟨a, b, c⟩ | ⟨a, b, c⟩ <;> subst a <;> subst b <;> subst c <;>
    first | (simp; done) | (simp; exact h2)

theorem exactly_one_predicate (op oq : relational_operator) (ls es gs : Bool)
    (h : exactly_one ls es gs) :
    exactly_one (if op ≠ oq then decide (op.index < oq.index) else ls) (decide (op = oq) && es)
      (if oq ≠ op then decide (oq.index < op.index) else gs) := by
  by_cases he : op = oq
  · subst he
    simpa using h
  · have hi : op.index ≠ oq.index := fun e => he (relational_operator_index_injective e)
    have := exactly_one_of_lt op.index oq.index
    rw [decide_eq_false hi] at this
    simpa [he, Ne.symm he] using this

mutual
/-- The mirror image of `is_less_than` is `is_less_than` with the arguments
exchanged. -/
theorem node.is_greater_than_swap (hash_code : node_class → Nat) :
    ∀ x y : node,
      node.is_greater_than hash_code x y = node.is_less_than hash_code y x ∧
      node.is_less_than hash_code x y = node.is_greater_than hash_code y x
  | .constant _, y => by cases y <;> exact ⟨rfl, rfl⟩
  | .timestamp_extractor, y => by cases y <;> exact ⟨rfl, rfl⟩
  | .name_extractor, y => by cases y <;> exact ⟨rfl, rfl⟩
  | .id_extractor, y => by cases y <;> exact ⟨rfl, rfl⟩
  | .offset_extractor _ _, y => by cases y <;> exact ⟨rfl, rfl⟩
  | .type_extractor _, y => by cases y <;> exact ⟨rfl, rfl⟩
  | .predicate op _ xs, y => by
    cases y with
    | predicate oq _ ys =>
      obtain ⟨h1, h2⟩ := node.lexicographical_compare_swap hash_code xs ys
      constructor
      · show (if oq ≠ op then decide (oq.index < op.index)
            else node.lexicographical_compare_rev hash_code xs ys) =
          (if oq ≠ op then decide (oq.index < op.index)
            else node.lexicographical_compare hash_code ys xs)
        rw [h1]
      · show (if op ≠ oq then decide (op.index < oq.index)
            else node.lexicographical_compare hash_code xs ys) =
          (if op ≠ oq then decide (op.index < oq.index)
            else node.lexicographical_compare_rev hash_code ys xs)
        rw [h2]
    | _ => exact ⟨rfl, rfl⟩
  | .conjunction xs, y => by
    cases y with
    | conjunction ys => exact node.lexicographical_compare_swap hash_code xs ys
    | _ => exact ⟨rfl, rfl⟩
  | .disjunction xs, y => by
    cases y with
    | disjunction ys => exact node.lexicographical_compare_swap hash_code xs ys
    | _ => exact ⟨rfl, rfl⟩
/-- The comparison of two vectors in the other order. -/
theorem node.lexicographical_compare_swap (hash_code : node_class → Nat) :
    ∀ xs ys : List node,
      node.lexicographical_compare_rev hash_code xs ys =
        node.lexicographical_compare hash_code ys xs ∧
      node.lexicographical_compare hash_code xs ys =
        node.lexicographical_compare_rev hash_code ys xs
  | [], [] => ⟨rfl, rfl⟩
  | [], _ :: _ => ⟨rfl, rfl⟩
  | _ :: _, [] => ⟨rfl, rfl⟩
  | x :: xs, y :: ys => by
    obtain ⟨h1, h2⟩ := node.is_greater_than_swap hash_code x y
    obtain ⟨h3, h4⟩ := node.lexicographical_compare_swap hash_code xs ys
    constructor
    · rw [node.lexicographical_compare_rev, node.lexicographical_compare, h1, h2, h3]
    · rw [node.lexicographical_compare_rev, node.lexicographical_compare, h1, h2, h4]
end

/-- The comparison `is_greater_than` is `is_less_than` with the arguments
exchanged. -/
theorem node.is_greater_than_eq (hash_code : node_class → Nat) (x y : node) :
    node.is_greater_than hash_code x y = node.is_less_than hash_code y x :=
  (node.is_greater_than_swap hash_code x y).1

theorem constants_of_mem_cons (x : node) (xs : List node) (v : value) :
    v ∈ node.constants_of (x :: xs) ↔ v ∈ node.constants x ∨ v ∈ node.constants_of xs := by
  rw [node.constants_of, List.mem_append]

mutual
/-- Two nodes whose constants are comparable are equal or ordered one way, and
only one of the three. -/
theorem node.exactly_one_ordered (hash_code : node_class → Nat)
    (hinj : Function.Injective hash_code) :
    ∀ x y : node,
      (∀ v w, v ∈ x.constants → w ∈ y.constants →
        exactly_one (value.less v w) (value.equals v w) (value.less w v)) →
      exactly_one (node.is_less_than hash_code x y) (node.equals x y)
        (node.is_greater_than hash_code x y)
  | .constant v, y, h => by
    cases y with
    | constant w => exact h v w (List.mem_singleton.2 rfl) (List.mem_singleton.2 rfl)
    | _ => exact exactly_one_hash hash_code hinj _ _ (by intro h; cases h)
  | .timestamp_extractor, y, _ => by
    cases y with
    | timestamp_extractor => exact exactly_one_same _
    | _ => exact exactly_one_hash hash_code hinj _ _ (by intro h; cases h)
  | .name_extractor, y, _ => by
    cases y with
    | name_extractor => exact exactly_one_same _
    | _ => exact exactly_one_hash hash_code hinj _ _ (by intro h; cases h)
  | .id_extractor, y, _ => by
    cases y with
    | id_extractor => exact exactly_one_same _
    | _ => exact exactly_one_hash hash_code hinj _ _ (by intro h; cases h)
  | .offset_extractor e o, y, _ => by
    cases y with
    | offset_extractor f p => exact exactly_one_tie e f o p
    | _ => exact exactly_one_hash hash_code hinj _ _ (by intro h; cases h)
  | .type_extractor t, y, _ => by
    cases y with
    | type_extractor u =>
      have hi := exactly_one_of_lt t.index u.index
      have he : decide (t.index = u.index) = decide (t = u) := by
        by_cases h : t = u
        · subst h; simp
        · have : t.index ≠ u.index := fun e => h (value_type_index_injective e)
          simp [h, this]
      rw [he] at hi
      exact hi
    | _ => exact exactly_one_hash hash_code hinj _ _ (by intro h; cases h)
  | .predicate op _ xs, y, h => by
    cases y with
    | predicate oq _ ys =>
      exact exactly_one_predicate op oq _ _ _
        (node.exactly_one_lexicographic hash_code hinj xs ys h)
    | _ => exact exactly_one_hash hash_code hinj _ _ (by intro h; cases h)
  | .conjunction xs, y, h => by
    cases y with
    | conjunction ys => exact node.exactly_one_lexicographic hash_code hinj xs ys h
    | _ => exact exactly_one_hash hash_code hinj _ _ (by intro h; cases h)
  | .disjunction xs, y, h => by
    cases y with
    | disjunction ys => exact node.exactly_one_lexicographic hash_code hinj xs ys h
    | _ => exact exactly_one_hash hash_code hinj _ _ (by intro h; cases h)
/-- Two vectors of operands whose constants are comparable are equal or ordered
one way, and only one of the three. -/
theorem node.exactly_one_lexicographic (hash_code : node_class → Nat)
    (hinj : Function.Injective hash_code) :
    ∀ xs ys : List node,
      (∀ v w, v ∈ node.constants_of xs → w ∈ node.constants_of ys →
        exactly_one (value.less v w) (value.equals v w) (value.less w v)) →
      exactly_one (node.lexicographical_compare hash_code xs ys)
        (node.equals_operands xs ys) (node.lexicographical_compare_rev hash_code xs ys)
  | [], [], _ => Or.inr (Or.inl ⟨rfl, rfl, rfl⟩)
  | [], _ :: _, _ => Or.inl ⟨rfl, rfl, rfl⟩
  | _ :: _, [], _ => Or.inr (Or.inr ⟨rfl, rfl, rfl⟩)
  | x :: xs, y :: ys, h => by
    have h1 := node.exactly_one_ordered hash_code hinj x y (fun v w hv hw =>
      h v w ((constants_of_mem_cons x xs v).2 (Or.inl hv))
        ((constants_of_mem_cons y ys w).2 (Or.inl hw)))
    have h2 := node.exactly_one_lexicographic hash_code hinj xs ys (fun v w hv hw =>
      h v w ((constants_of_mem_cons x xs v).2 (Or.inr hv))
        ((constants_of_mem_cons y ys w).2 (Or.inr hw)))
    rw [node.lexicographical_compare, node.lexicographical_compare_rev, node.equals_operands]
    exact exactly_one_cons _ _ _ _ _ _ h1 h2
end

theorem class_index_injective : Function.Injective class_index := by
  intro a b h
  cases a <;> cases b <;> first | rfl | exact absurd h (by decide)

theorem exactly_one_linear {α : Type} [LinearOrder α] (a b : α) [Decidable (a < b)]
    [Decidable (a = b)] [Decidable (b < a)] :
    exactly_one (decide (a < b)) (decide (a = b)) (decide (b < a)) := by
  unfold exactly_one
  rcases lt_trichotomy a b with h | h | h
  · left; simp [h, ne_of_lt h, lt_asymm h]
  · right; left; simp [h]
  · right; right; simp [h, ne_of_gt h, lt_asymm h]

theorem exactly_one_pair (a b l m : Nat) :
    exactly_one (decide (a < b ∨ (a = b ∧ l < m))) (decide (a = b ∧ l = m))
      (decide (b < a ∨ (b = a ∧ m < l))) := by
  unfold exactly_one
  rcases Nat.lt_trichotomy a b with h | h | h
  · left
    refine ⟨decide_eq_true (Or.inl h), decide_eq_false (by omega), decide_eq_false (by omega)⟩
  · subst h
    rcases Nat.lt_trichotomy l m with h | h | h
    · left
      exact ⟨decide_eq_true (by omega), decide_eq_false (by omega), decide_eq_false (by omega)⟩
    · right; left
      exact ⟨decide_eq_false (by omega), decide_eq_true (by omega), decide_eq_false (by omega)⟩
    · right; right
      exact ⟨decide_eq_false (by omega), decide_eq_false (by omega), decide_eq_true (by omega)⟩
  · right; right
    refine ⟨decide_eq_false (by omega), decide_eq_false (by omega), decide_eq_true (Or.inl h)⟩

theorem exactly_one_string (a b : String) :
    exactly_one (string_less a.data b.data) (decide (a = b)) (string_less b.data a.data) := by
  have hd : decide (a = b) = decide (a.data = b.data) := by
    by_cases h : a = b
    · subst h; simp
    · have h2 : a.data ≠ b.data := fun hc => h (String.ext hc)
      simp [h, h2]
  rw [hd]
  exact string_less_total a.data b.data

/-- Two set values of one discriminant that is not a container are equal or
ordered one way, and only one of the three. -/
theorem value.exactly_one_scalar (v w : value) (hv : v.engaged = true)
    (hw : w.engaged = true) (h : v.which = w.which) (hs : v.which.index < 12) :
    exactly_one (value.less v w) (value.equals v w) (value.less w v) := by
  cases v <;> cases w <;>
    first
    | (cases hv; done)
    | (cases hw; done)
    | (cases h; done)
    | (simp only [value.which, value_type.index] at hs; omega)
    | exact exactly_one_linear _ _
    | exact exactly_one_string _ _
    | exact exactly_one_pair _ _ _ _
    | skip
  case bool.bool a b => cases a <;> cases b <;> (unfold exactly_one; decide)

/-- Claim C32, the counterexample: the constants "foo" and 42, whose values
have different discriminants, are not equal and neither is less than the other,
whatever the hash codes of the classes. -/
theorem node_order_counterexample :
    ¬ ∃ hash_code : node_class → Nat,
      exactly_one
        (node.is_less_than hash_code (node.constant (value.string "foo"))
          (node.constant (value.int 42)))
        (node.equals (node.constant (value.string "foo")) (node.constant (value.int 42)))
        (node.is_less_than hash_code (node.constant (value.int 42))
          (node.constant (value.string "foo"))) := by
  rintro ⟨hash_code, h⟩
  rcases h with ⟨h, _, _⟩ | ⟨_, h, _⟩ | ⟨_, _, h⟩ <;> cases h

/-- Claim C32, amended: when different node classes have different hash codes,
two nodes `x` and `y` of which every constant of `x` is comparable with every
constant of `y` (their values are equal or ordered one way, and only one of the
three) satisfy exactly one of `x < y`, `x == y`, `y < x`, as nodes and as ASTs;
two set values of one discriminant that is not a container are comparable. An
AST without a node is neither equal to nor less than any AST, itself
included. -/
theorem node_order_total_on_comparable_constants (hash_code : node_class → Nat)
    (hinj : Function.Injective hash_code) (x y : node)
    (hcmp : ∀ v w, v ∈ x.constants → w ∈ y.constants →
      exactly_one (value.less v w) (value.equals v w) (value.less w v)) :
    exactly_one (node.is_less_than hash_code x y) (node.equals x y)
      (node.is_less_than hash_code y x) ∧
    exactly_one (ast.less hash_code ⟨some x⟩ ⟨some y⟩) (ast.equals ⟨some x⟩ ⟨some y⟩)
      (ast.less hash_code ⟨some y⟩ ⟨some x⟩) ∧
    (∀ v w : value, v.engaged = true → w.engaged = true → v.which = w.which →
      v.which.index < 12 →
      exactly_one (value.less v w) (value.equals v w) (value.less w v)) ∧
    (∀ a : ast, ast.equals ⟨none⟩ a = false ∧ ast.less hash_code ⟨none⟩ a = false ∧
      ast.equals a ⟨none⟩ = false ∧ ast.less hash_code a ⟨none⟩ = false) := by
  have h := node.exactly_one_ordered hash_code hinj x y hcmp
  rw [node.is_greater_than_eq] at h
  refine ⟨h, h, value.exactly_one_scalar, fun a => ?_⟩
  obtain ⟨n⟩ := a
  cases n <;> exact ⟨rfl, rfl, rfl, rfl⟩

/-- C32 on two conjunctions with the integer constants 1 and 2: the first is
less than the second, and nothing else. -/
theorem node_order_total_on_comparable_constants_witness :
    exactly_one
      (node.is_less_than class_index
        (node.conjunction [node.constant (value.int 1), node.name_extractor])
        (node.conjunction [node.constant (value.int 2)]))
      (node.equals (node.conjunction [node.constant (value.int 1), node.name_extractor])
        (node.conjunction [node.constant (value.int 2)]))
      (node.is_less_than class_index (node.conjunction [node.constant (value.int 2)])
        (node.conjunction [node.constant (value.int 1), node.name_extractor])) :=
  (node_order_total_on_comparable_constants class_index class_index_injective
    (node.conjunction [node.constant (value.int 1), node.name_extractor])
    (node.conjunction [node.constant (value.int 2)])
    (fun v w hv hw => by
      have ev : v = value.int 1 := by
        have : v ∈ [value.int 1] := hv
        exact List.mem_singleton.1 this
      have ew : w = value.int 2 := by
        have : w ∈ [value.int 2] := hw
        exact List.mem_singleton.1 this
      subst ev; subst ew
      exact Or.inl ⟨rfl, rfl, rfl⟩)).1

/-! # The assertions of the evaluator on a normalized AST -/

/-- One pass of the loop of the type extractor stays in bounds. -/
theorem type_extractor_step_in_bounds (t : value_type) (st : extractor_state)
    (h : st.in_bounds) :
    type_extractor_step t st ≠ loop_step.fault ∧
    (∀ v st1, type_extractor_step t st = loop_step.stop v st1 → st1.in_bounds) ∧
    (∀ st1, type_extractor_step t st = loop_step.again st1 → st1.in_bounds) := by
  obtain ⟨pos, complete⟩ := st
  cases pos with
  | nil =>
    refine ⟨(fun hc => nomatch hc), fun v st1 h1 => ?_, (fun st1 h1 => nomatch h1)⟩
    cases h1
    exact h
  | cons p rest =>
    obtain ⟨rec, idx⟩ := p
    have hidx : idx ≤ rec.length := h (rec, idx) (List.mem_cons_self _ _)
    have hrest : ∀ q, q ∈ rest → q.2 ≤ q.1.length :=
      fun q hq => h q (List.mem_cons_of_mem _ hq)
    have hpos : ∀ q, q ∈ (rec, idx + 1) :: rest → idx < rec.length → q.2 ≤ q.1.length := by
      intro q hq hlt
      rcases List.mem_cons.1 hq with e | e
      · rw [e]; exact hlt
      · exact hrest q e
    unfold type_extractor_step
    simp only
    by_cases hend : idx = rec.length
    · rw [if_pos hend]
      refine ⟨(fun hc => nomatch hc), (fun v st1 h1 => nomatch h1), fun st1 h1 => ?_⟩
      cases h1
      exact hrest
    · have hlt : idx < rec.length := Nat.lt_of_le_of_ne hidx hend
      rw [if_neg hend, List.getElem?_eq_getElem hlt]
      simp only
      by_cases heng : (!(rec[idx]).engaged) = true
      · rw [if_pos heng]
        refine ⟨(fun hc => nomatch hc), (fun v st1 h1 => nomatch h1), fun st1 h1 => ?_⟩
        cases h1
        exact fun q hq => hpos q hq hlt
      · rw [if_neg heng]
        split
        · refine ⟨(fun hc => nomatch hc), (fun v st1 h1 => nomatch h1), fun st1 h1 => ?_⟩
          cases h1
          intro q hq
          rcases List.mem_cons.1 hq with e | e
          · rw [e]; exact Nat.zero_le _
          · exact hpos q e hlt
        · by_cases hw : (rec[idx]).which = t
          · rw [if_pos hw]
            refine ⟨(fun hc => nomatch hc), fun v st1 h1 => ?_, (fun st1 h1 => nomatch h1)⟩
            cases h1
            exact fun q hq => hpos q hq hlt
          · rw [if_neg hw]
            refine ⟨(fun hc => nomatch hc), (fun v st1 h1 => nomatch h1), fun st1 h1 => ?_⟩
            cases h1
            exact fun q hq => hpos q hq hlt

/-- The loop of the type extractor never reads out of bounds. -/
theorem type_extractor_loop_in_bounds (t : value_type) :
    ∀ (fuel : Nat) (st : extractor_state), st.in_bounds →
      type_extractor_loop t fuel st ≠ outcome.failed ∧
      ∀ v st1, type_extractor_loop t fuel st = outcome.ok (v, st1) → st1.in_bounds
  | 0, _, _ => ⟨(fun hc => nomatch hc), (fun _ _ h => nomatch h)⟩
  | fuel + 1, st, h => by
    obtain ⟨h1, h2, h3⟩ := type_extractor_step_in_bounds t st h
    rw [type_extractor_loop]
    cases hs : type_extractor_step t st with
    | stop v st1 =>
      refine ⟨(fun hc => nomatch hc), fun w st2 hw => ?_⟩
      cases hw
      exact h2 v _ hs
    | again st1 => exact type_extractor_loop_in_bounds t fuel st1 (h3 st1 hs)
    | fault => exact absurd hs h1

/-- An extractor or a constant never fails and keeps the extractor state in
bounds. -/
theorem visit_operand_in_bounds (e : event) (fuel : Nat) (n : node) (s : evaluator)
    (hn : is_extractor n ∨ ∃ v, n = node.constant v) (hs : s.in_bounds) :
    visit e fuel n s ≠ outcome.failed ∧
    ∀ r, visit e fuel n s = outcome.ok r → r.in_bounds := by
  cases fuel with
  | zero => exact ⟨(fun hc => nomatch hc), (fun _ h => nomatch h)⟩
  | succ fuel =>
    have keep : ∀ v : value,
        (outcome.ok (⟨v, s.extractor_state_⟩ : evaluator) ≠ outcome.failed) ∧
        ∀ r, outcome.ok (⟨v, s.extractor_state_⟩ : evaluator) = outcome.ok r →
          r.in_bounds := by
      intro v
      refine ⟨(fun hc => nomatch hc), fun r hr => ?_⟩
      cases hr
      exact hs
    cases n with
    | constant val => exact keep val
    | timestamp_extractor => exact keep _
    | name_extractor => exact keep _
    | id_extractor => exact keep _
    | offset_extractor ev off =>
      have hv : visit e (fuel + 1) (node.offset_extractor ev off) s =
          (match record_at e.args off with
          | some v => outcome.ok (⟨v, s.extractor_state_⟩ : evaluator)
          | none => outcome.ok ⟨value.invalid, s.extractor_state_⟩) := rfl
      rw [hv]
      cases record_at e.args off with
      | some v => exact keep v
      | none => exact keep _
    | type_extractor t =>
      have key : ∀ st : extractor_state, st.in_bounds →
          (match type_extractor_loop t fuel st with
            | outcome.ok (v, st1) => outcome.ok (⟨v, some st1⟩ : evaluator)
            | outcome.out_of_fuel => outcome.out_of_fuel
            | outcome.failed => outcome.failed) ≠ outcome.failed ∧
          ∀ r, (match type_extractor_loop t fuel st with
            | outcome.ok (v, st1) => outcome.ok (⟨v, some st1⟩ : evaluator)
            | outcome.out_of_fuel => outcome.out_of_fuel
            | outcome.failed => outcome.failed) = outcome.ok r → r.in_bounds := by
        intro st hst
        obtain ⟨h1, h2⟩ := type_extractor_loop_in_bounds t fuel st hst
        cases hl : type_extractor_loop t fuel st with
        | ok r =>
          obtain ⟨v, st1⟩ := r
          refine ⟨(fun hc => nomatch hc), fun r hr => ?_⟩
          cases hr
          intro st2 hst2
          cases hst2
          exact h2 v _ hl
        | out_of_fuel => exact ⟨(fun hc => nomatch hc), (fun _ h => nomatch h)⟩
        | failed => exact absurd hl h1
      obtain ⟨res, x⟩ := s
      cases x with
      | none =>
        exact key ⟨[(e.args, 0)], false⟩ (fun p hp => by
          rw [List.mem_singleton.1 hp]
          exact Nat.zero_le _)
      | some st => exact key st (hs st rfl)
    | predicate op pred ops =>
      rcases hn with hn | ⟨v, hv⟩
      · exact absurd hn id
      · cases hv
    | conjunction ops =>
      rcases hn with hn | ⟨v, hv⟩
      · exact absurd hn id
      · cases hv
    | disjunction ops =>
      rcases hn with hn | ⟨v, hv⟩
      · exact absurd hn id
      · cases hv

/-- The algorithm `std::all_of` does not fail and keeps an invariant of the
state when the predicate does. -/
theorem all_of_safe {α σ : Type} (p : α → σ → outcome (Bool × σ)) (I : σ → Prop) :
    ∀ (l : List α) (s : σ),
      (∀ x, x ∈ l → ∀ s, I s →
        p x s ≠ outcome.failed ∧ ∀ b s1, p x s = outcome.ok (b, s1) → I s1) →
      I s →
      all_of p l s ≠ outcome.failed ∧ ∀ b t, all_of p l s = outcome.ok (b, t) → I t
  | [], s, _, hs => by
    refine ⟨(fun hc => nomatch hc), fun b t h => ?_⟩
    cases h
    exact hs
  | x :: xs, s, hp, hs => by
    obtain ⟨h1, h2⟩ := hp x (List.mem_cons_self _ _) s hs
    rw [all_of]
    cases hx : p x s with
    | ok r =>
      obtain ⟨c, s1⟩ := r
      cases c with
      | true =>
        exact all_of_safe p I xs s1 (fun y hy => hp y (List.mem_cons_of_mem _ hy))
          (h2 true s1 hx)
      | false =>
        refine ⟨(fun hc => nomatch hc), fun b t h => ?_⟩
        cases h
        exact h2 false _ hx
    | out_of_fuel => exact ⟨(fun hc => nomatch hc), (fun _ _ h => nomatch h)⟩
    | failed => exact absurd hx h1

/-- The algorithm `std::any_of` does not fail and keeps an invariant of the
state when the predicate does. -/
theorem any_of_safe {α σ : Type} (p : α → σ → outcome (Bool × σ)) (I : σ → Prop) :
    ∀ (l : List α) (s : σ),
      (∀ x, x ∈ l → ∀ s, I s →
        p x s ≠ outcome.failed ∧ ∀ b s1, p x s = outcome.ok (b, s1) → I s1) →
      I s →
      any_of p l s ≠ outcome.failed ∧ ∀ b t, any_of p l s = outcome.ok (b, t) → I t
  | [], s, _, hs => by
    refine ⟨(fun hc => nomatch hc), fun b t h => ?_⟩
    cases h
    exact hs
  | x :: xs, s, hp, hs => by
    obtain ⟨h1, h2⟩ := hp x (List.mem_cons_self _ _) s hs
    rw [any_of]
    cases hx : p x s with
    | ok r =>
      obtain ⟨c, s1⟩ := r
      cases c with
      | false =>
        exact any_of_safe p I xs s1 (fun y hy => hp y (List.mem_cons_of_mem _ hy))
          (h2 false s1 hx)
      | true =>
        refine ⟨(fun hc => nomatch hc), fun b t h => ?_⟩
        cases h
        exact h2 true _ hx
    | out_of_fuel => exact ⟨(fun hc => nomatch hc), (fun _ _ h => nomatch h)⟩
    | failed => exact absurd hx h1

/-- A predicate of an extractor and a constant never fails an assertion. -/
theorem visit_predicate_safe (e : event) (op : relational_operator)
    (pred : value → value → Bool) (lhs : node) (val : value) (hl : is_extractor lhs) :
    ∀ (fuel : Nat) (s : evaluator), s.in_bounds →
      visit e fuel (node.predicate op pred [lhs, node.constant val]) s ≠ outcome.failed
  | 0, _, _ => fun hc => nomatch hc
  | fuel + 1, s, hs => by
    obtain ⟨h1, h2⟩ := visit_operand_in_bounds e fuel lhs s (Or.inl hl) hs
    rw [visit_predicate_pair]
    cases hv : visit e fuel lhs s with
    | ok s1 =>
      have hs1 := h2 s1 hv
      obtain ⟨h3, h4⟩ := visit_operand_in_bounds e fuel (node.constant val) s1
        (Or.inr ⟨val, rfl⟩) hs1
      simp only
      cases hw : visit e fuel (node.constant val) s1 with
      | ok s2 =>
        have hs2 := h4 s2 hw
        simp only
        by_cases hp : pred s1.result_ s2.result_ = true
        · rw [if_pos hp]
          exact fun hc => nomatch hc
        · rw [if_neg hp]
          cases hx : s2.extractor_state_ with
          | none => exact fun hc => nomatch hc
          | some st =>
            simp only
            by_cases hc : (!st.complete) = true
            · rw [if_pos hc]
              exact visit_predicate_safe e op pred lhs val hl fuel s2 hs2
            · rw [if_neg hc]
              exact fun hc => nomatch hc
      | out_of_fuel => exact fun hc => nomatch hc
      | failed => exact absurd hw h3
    | out_of_fuel => exact fun hc => nomatch hc
    | failed => exact absurd hv h1

/-- A node of a normalized AST never fails an assertion of the evaluator, and
when its visit returns it leaves a set bool in `result_`. -/
theorem visit_normalized_safe (e : event) :
    ∀ (fuel : Nat) (n : node) (s : evaluator), normalized_node n → s.in_bounds →
      visit e fuel n s ≠ outcome.failed ∧
      ∀ r, visit e fuel n s = outcome.ok r → r.in_bounds ∧ ∃ b, r.result_ = value.bool b
  | 0, _, _, _, _ => ⟨(fun hc => nomatch hc), (fun _ h => nomatch h)⟩
  | fuel + 1, n, s, hn, hs => by
    have operand : ∀ ops : List node, (∀ m, m ∈ ops → normalized_node m) →
        ∀ x, x ∈ ops → ∀ s : evaluator, s.in_bounds →
          operand_bool (visit e fuel) x s ≠ outcome.failed ∧
          ∀ b s1, operand_bool (visit e fuel) x s = outcome.ok (b, s1) → s1.in_bounds := by
      intro ops hops x hx s hs
      obtain ⟨h1, h2⟩ := visit_normalized_safe e fuel x s (hops x hx) hs
      constructor
      · unfold operand_bool
        cases hv : visit e fuel x s with
        | ok s1 =>
          obtain ⟨_, b, hb⟩ := h2 s1 hv
          simp only [hb, value.as_bool]
          exact fun hc => nomatch hc
        | out_of_fuel => exact fun hc => nomatch hc
        | failed => exact absurd hv h1
      · intro b s1 h
        exact (h2 s1 ((operand_bool_ok _ _ _ _ _).1 h).1).1
    cases hn with
    | predicate op pred lhs val hl =>
      refine ⟨visit_predicate_safe e op pred lhs val hl (fuel + 1) s hs, fun r hr => ?_⟩
      have hnone := predicate_clean e op pred _ (fuel + 1) s r hr
      refine ⟨fun st hst => ?_, predicate_value e op pred _ (fuel + 1) s r hr⟩
      rw [hnone] at hst
      cases hst
    | conjunction ops hops =>
      obtain ⟨h1, h2⟩ := all_of_safe (operand_bool (visit e fuel)) evaluator.in_bounds ops s
        (operand ops hops) hs
      rw [visit_conjunction]
      cases ha : all_of (operand_bool (visit e fuel)) ops s with
      | ok r =>
        obtain ⟨b, t⟩ := r
        refine ⟨(fun hc => nomatch hc), fun r hr => ?_⟩
        cases hr
        exact ⟨h2 b t ha, b, rfl⟩
      | out_of_fuel => exact ⟨(fun hc => nomatch hc), (fun _ h => nomatch h)⟩
      | failed => exact absurd ha h1
    | disjunction ops hops =>
      obtain ⟨h1, h2⟩ := any_of_safe (operand_bool (visit e fuel)) evaluator.in_bounds ops s
        (operand ops hops) hs
      rw [visit_disjunction]
      cases ha : any_of (operand_bool (visit e fuel)) ops s with
      | ok r =>
        obtain ⟨b, t⟩ := r
        refine ⟨(fun hc => nomatch hc), fun r hr => ?_⟩
        cases hr
        exact ⟨h2 b t ha, b, rfl⟩
      | out_of_fuel => exact ⟨(fun hc => nomatch hc), (fun _ h => nomatch h)⟩
      | failed => exact absurd ha h1

/-- What a predicate of a query contributes is a node of a normalized AST. -/
theorem emit_normalized {τ : Type} (rx : regex_engine) (S : schema τ) :
    ∀ (p : query_predicate) (invert : Bool) (n : node),
      emit rx S invert p = Except.ok n → normalized_node n
  | .tag_predicate lhs _ _, _, n, h => by
    cases h
    exact normalized_node.predicate _ _ _ _ (by cases lhs <;> exact trivial)
  | .type_predicate _ _ _, _, n, h => by
    cases h
    exact normalized_node.predicate _ _ _ _ trivial
  | .offset_predicate _ _ _ _, _, n, h => by
    cases h
    exact normalized_node.predicate _ _ _ _ trivial
  | .schema_predicate lhs op rhs, invert, n, h => by
    rw [emit] at h
    cases hoffs : S.find_offsets lhs with
    | nil => rw [hoffs] at h; cases h
    | cons p0 offs =>
      rw [hoffs] at h
      simp only at h
      cases hf : ((p0 :: offs).map (fun p => S.find_type p.1 p.2)).find?
          (fun t => ! S.represents t (S.find_type p0.1 p0.2)) with
      | some t => rw [hf] at h; cases h
      | none =>
        rw [hf] at h
        cases h
        refine normalized_node.disjunction _ (fun d hd => ?_)
        obtain ⟨p, _, rfl⟩ := List.mem_map.1 hd
        exact normalized_node.predicate _ _ _ _ trivial
  | .negated_predicate operand, _, n, h => by
    rw [emit] at h
    exact emit_normalized rx S operand true n h

theorem emit_all_normalized {τ : Type} (rx : regex_engine) (S : schema τ) :
    ∀ (ps : List query_predicate) (ns : List node), emit_all rx S ps = Except.ok ns →
      ∀ n, n ∈ ns → normalized_node n
  | [], ns, h => by
    cases h
    exact fun n hn => absurd hn (List.not_mem_nil _)
  | p :: ps, ns, h => by
    rw [emit_all] at h
    cases hp : emit rx S false p with
    | error err => rw [hp] at h; cases h
    | ok n =>
      rw [hp] at h
      dsimp only at h
      cases hps : emit_all rx S ps with
      | error err => rw [hps] at h; cases h
      | ok ms =>
        rw [hps] at h
        cases h
        intro m hm
        rcases List.mem_cons.1 hm with e | e
        · rw [e]; exact emit_normalized rx S p false n hp
        · exact emit_all_normalized rx S ps ms hps m e

theorem emit_terms_normalized {τ : Type} (rx : regex_engine) (S : schema τ) :
    ∀ (ts : List query) (ms : List node), emit_terms rx S ts = Except.ok ms →
      ∀ m, m ∈ ms → normalized_node m
  | [], ms, h => by
    cases h
    exact fun m hm => absurd hm (List.not_mem_nil _)
  | t :: ts, ms, h => by
    rw [emit_terms] at h
    cases ht : emit_all rx S t.predicates with
    | error err => rw [ht] at h; cases h
    | ok ns =>
      rw [ht] at h
      dsimp only at h
      cases hts : emit_terms rx S ts with
      | error err => rw [hts] at h; cases h
      | ok ks =>
        rw [hts] at h
        cases h
        have hns := emit_all_normalized rx S _ ns ht
        intro m hm
        rcases List.mem_append.1 hm with e | e
        · by_cases hr : t.rest.isEmpty = true
          · rw [if_pos hr] at e
            exact hns m e
          · rw [if_neg hr] at e
            rw [List.mem_singleton.1 e]
            exact normalized_node.conjunction ns hns
        · exact emit_terms_normalized rx S ts ks hts m e

theorem except_map_ok {ε α β : Type} (f : α → β) (x : Except ε α) (y : β)
    (h : x.map f = Except.ok y) : ∃ a, x = Except.ok a ∧ f a = y := by
  cases x with
  | error err => cases h
  | ok a =>
    cases h
    exact ⟨a, rfl, rfl⟩

/-- The root of a normalized AST is a node of a normalized AST. -/
theorem apply_normalized {τ : Type} (rx : regex_engine) (S : schema τ) (q : query)
    (root : node) (h : expressionizer.apply rx S q = Except.ok (some root)) :
    normalized_node root := by
  rw [apply_eq_normal_form, normal_form] at h
  generalize terms_from ⟨q.first, []⟩ q.rest = ts at h
  have one : ∀ ands : query,
      (emit_all rx S ands.predicates).map (fun ns => some (node.conjunction ns)) =
        Except.ok (some root) → normalized_node root := by
    intro ands h1
    obtain ⟨ns, hns, he⟩ := except_map_ok _ _ _ h1
    cases he
    exact normalized_node.conjunction ns (emit_all_normalized rx S _ ns hns)
  have many : ∀ ors : List query,
      (emit_terms rx S ors).map (fun ms => some (node.disjunction ms)) =
        Except.ok (some root) → normalized_node root := by
    intro ors h1
    obtain ⟨ms, hms, he⟩ := except_map_ok _ _ _ h1
    cases he
    exact normalized_node.disjunction ms (emit_terms_normalized rx S _ ms hms)
  match ts, h with
  | [], h => exact many [] h
  | [ands], h => exact one ands h
  | t :: u :: us, h => exact many (t :: u :: us) h

theorem work_list_drop (rec : List value) (idx : Nat) (h : idx < rec.length) :
    value.work_list (rec.drop idx) =
      1 + value.work rec[idx] + value.work_list (rec.drop (idx + 1)) := by
  rw [List.drop_eq_getElem_cons h, value.work_list]

theorem getLast?_cons_of_ne_nil {α : Type} (a : α) (l : List α) (h : l ≠ []) :
    (a :: l).getLast? = l.getLast? := by
  cases l with
  | nil => exact absurd rfl h
  | cons b l => rfl

/-- One pass of the loop of the type extractor makes progress. -/
theorem type_extractor_step_progress (t : value_type) (st : extractor_state)
    (hb : st.in_bounds) (hp : st.pending) : step_progress st (type_extractor_step t st) := by
  obtain ⟨pos, complete⟩ := st
  cases pos with
  | nil => exact ⟨hb, hp, Nat.le_refl _, fun h => absurd rfl h⟩
  | cons p rest =>
    obtain ⟨rec, idx⟩ := p
    have hidx : idx ≤ rec.length := hb (rec, idx) (List.mem_cons_self _ _)
    have hrest : ∀ q, q ∈ rest → q.2 ≤ q.1.length :=
      fun q hq => hb q (List.mem_cons_of_mem _ hq)
    unfold type_extractor_step
    simp only
    by_cases hend : idx = rec.length
    · rw [if_pos hend]
      refine ⟨hrest, ?_, ?_⟩
      · rcases hp with hc | ⟨r, i, hl, hi⟩
        · exact Or.inl hc
        · right
          have hne : rest ≠ [] := by
            intro he
            subst he
            cases hl
            omega
          rw [getLast?_cons_of_ne_nil _ _ hne] at hl
          exact ⟨r, i, hl, hi⟩
      · show stack_work rest < 1 + value.work_list (rec.drop idx) + stack_work rest
        omega
    · have hlt : idx < rec.length := Nat.lt_of_le_of_ne hidx hend
      have hpos : (⟨(rec, idx + 1) :: rest, complete⟩ : extractor_state).in_bounds := by
        intro q hq
        rcases List.mem_cons.1 hq with e | e
        · rw [e]; exact hlt
        · exact hrest q e
      have hwork : stack_work ((rec, idx + 1) :: rest) + 1 + value.work rec[idx] =
          stack_work ((rec, idx) :: rest) := by
        show 1 + value.work_list (rec.drop (idx + 1)) + stack_work rest + 1 +
          value.work rec[idx] = 1 + value.work_list (rec.drop idx) + stack_work rest
        rw [work_list_drop rec idx hlt]
        omega
      have hpend : ∀ top : List (List value × Nat),
          (∀ q, q ∈ top → q.2 ≤ q.1.length) →
          (⟨top ++ (rec, idx + 1) :: rest,
            if ((rec, idx + 1) :: rest).length = 1 ∧ idx + 1 = rec.length then true
            else complete⟩ : extractor_state).pending := by
        intro top _
        by_cases hr : rest = []
        · subst hr
          by_cases hlast : idx + 1 = rec.length
          · left
            show (if ([(rec, idx + 1)] : List (List value × Nat)).length = 1 ∧
              idx + 1 = rec.length then true else complete) = true
            rw [if_pos ⟨rfl, hlast⟩]
          · right
            refine ⟨rec, idx + 1, ?_, by omega⟩
            show (top ++ [(rec, idx + 1)]).getLast? = some (rec, idx + 1)
            rw [List.getLast?_append]
            rfl
        · rcases hp with hc | ⟨r, i, hl, hi⟩
          · left
            show (if _ then true else complete) = true
            have hc1 : complete = true := hc
            rw [hc1]
            simp
          · right
            refine ⟨r, i, ?_, hi⟩
            rw [getLast?_cons_of_ne_nil _ _ hr] at hl
            show (top ++ (rec, idx + 1) :: rest).getLast? = some (r, i)
            rw [List.getLast?_append, getLast?_cons_of_ne_nil _ _ hr, hl]
            rfl
      have hpend0 := hpend [] (fun q hq => absurd hq (List.not_mem_nil _))
      rw [List.nil_append] at hpend0
      rw [if_neg hend, List.getElem?_eq_getElem hlt]
      simp only
      by_cases heng : (!(rec[idx]).engaged) = true
      · rw [if_pos heng]
        exact ⟨hpos, hpend0, by show stack_work ((rec, idx + 1) :: rest) < stack_work ((rec, idx) :: rest); omega⟩
      · rw [if_neg heng]
        split
        · rename_i r hrec
          refine ⟨?_, hpend [(r, 0)] (fun q hq => by
            rw [List.mem_singleton.1 hq]; exact Nat.zero_le _), ?_⟩
          · intro q hq
            rcases List.mem_cons.1 hq with e | e
            · rw [e]; exact Nat.zero_le _
            · exact hpos q e
          · show 1 + value.work_list (r.drop 0) + stack_work ((rec, idx + 1) :: rest) <
              stack_work ((rec, idx) :: rest)
            have hw : value.work rec[idx] = 1 + value.work_list r := by
              rw [hrec, value.work]
            rw [List.drop_zero]
            omega
        · by_cases hw : (rec[idx]).which = t
          · rw [if_pos hw]
            exact ⟨hpos, hpend0, by show stack_work ((rec, idx + 1) :: rest) ≤ stack_work ((rec, idx) :: rest); omega,
              fun _ => by show stack_work ((rec, idx + 1) :: rest) < stack_work ((rec, idx) :: rest); omega⟩
          · rw [if_neg hw]
            exact ⟨hpos, hpend0, by show stack_work ((rec, idx + 1) :: rest) < stack_work ((rec, idx) :: rest); omega⟩

/-- With more fuel than work left, the loop of the type extractor returns, and
with less work left unless it found the stack empty. -/
theorem type_extractor_loop_returns (t : value_type) :
    ∀ (fuel : Nat) (st : extractor_state), st.in_bounds → st.pending →
      stack_work st.pos < fuel →
      ∃ v st1, type_extractor_loop t fuel st = outcome.ok (v, st1) ∧
        st1.in_bounds ∧ st1.pending ∧ stack_work st1.pos ≤ stack_work st.pos ∧
        (st.pos ≠ [] → stack_work st1.pos < stack_work st.pos)
  | 0, _, _, _, h => absurd h (Nat.not_lt_zero _)
  | fuel + 1, st, hb, hp, hf => by
    have hstep := type_extractor_step_progress t st hb hp
    rw [type_extractor_loop]
    cases hs : type_extractor_step t st with
    | stop v st1 =>
      rw [hs] at hstep
      exact ⟨v, st1, rfl, hstep⟩
    | again st1 =>
      rw [hs] at hstep
      obtain ⟨h1, h2, h3⟩ := hstep
      obtain ⟨v, st2, e1, e2, e3, e4, _⟩ :=
        type_extractor_loop_returns t fuel st1 h1 h2 (by omega)
      exact ⟨v, st2, e1, e2, e3, by omega, fun _ => by omega⟩
    | fault =>
      rw [hs] at hstep
      exact absurd hstep id

/-- A predicate of a type extractor and a constant returns when the record of
the event still has an element to go through: every round of its loop takes
work off the stack of the extractor, and the flag `complete` is set before the
stack runs empty. -/
theorem type_predicate_returns (e : event) (op : relational_operator)
    (pred : value → value → Bool) (t : value_type) (c : value) :
    ∀ (fuel : Nat) (v0 : value) (st : extractor_state), st.in_bounds → st.pending →
      st.pos ≠ [] → 2 * stack_work st.pos + 3 ≤ fuel →
      ∃ b, visit e fuel (node.predicate op pred [node.type_extractor t, node.constant c])
        ⟨v0, some st⟩ = outcome.ok ⟨value.bool b, none⟩
  | 0, _, _, _, _, _, h => absurd h (by omega)
  | 1, _, _, _, _, _, h => absurd h (by omega)
  | g + 2, v0, st, hb, hp, hne, hf => by
    obtain ⟨v, st1, e1, e2, e3, _, e5⟩ := type_extractor_loop_returns t g st hb hp (by omega)
    have hlt := e5 hne
    have hl : visit e (g + 1) (node.type_extractor t) ⟨v0, some st⟩ =
        outcome.ok ⟨v, some st1⟩ := by
      rw [visit_type_extractor]
      show (match type_extractor_loop t g st with
        | outcome.ok (v, st1) => outcome.ok (⟨v, some st1⟩ : evaluator)
        | outcome.out_of_fuel => outcome.out_of_fuel
        | outcome.failed => outcome.failed) = _
      rw [e1]
    have hr : visit e (g + 1) (node.constant c) ⟨v, some st1⟩ =
        outcome.ok ⟨c, some st1⟩ := rfl
    rw [visit_predicate_pair, hl]
    simp only
    rw [hr]
    simp only
    by_cases hpred : pred v c = true
    · rw [if_pos hpred]
      exact ⟨true, rfl⟩
    · rw [if_neg hpred]
      by_cases hc : (!st1.complete) = true
      · rw [if_pos hc]
        have hne1 : st1.pos ≠ [] := by
          rcases e3 with h | ⟨r, i, hl1, _⟩
          · rw [h] at hc
            cases hc
          · intro h
            rw [h] at hl1
            cases hl1
        exact type_predicate_returns e op pred t c (g + 1) c st1 e2 e3 hne1 (by omega)
      · rw [if_neg hc]
        exact ⟨false, rfl⟩

/-- A predicate visited without extractor state starts the type extractor at
the first element of the record of the event. -/
theorem visit_predicate_fresh (e : event) (op : relational_operator)
    (pred : value → value → Bool) (t : value_type) (c : value) (fuel : Nat) (v0 : value) :
    visit e fuel (node.predicate op pred [node.type_extractor t, node.constant c])
        ⟨v0, none⟩ =
      visit e fuel (node.predicate op pred [node.type_extractor t, node.constant c])
        ⟨v0, some ⟨[(e.args, 0)], false⟩⟩ := by
  cases fuel with
  | zero => rfl
  | succ f =>
    rw [visit_predicate_pair, visit_predicate_pair]
    cases f with
    | zero => rfl
    | succ g => rfl

/-- On an event whose record is not empty, a predicate of a normalized AST
evaluates to a bool. -/
theorem normalized_predicate_evaluates (e : event) (he : e.args ≠ [])
    (op : relational_operator) (pred : value → value → Bool) (lhs : node) (val : value)
    (hl : is_extractor lhs) :
    ∃ b, evaluates e (node.predicate op pred [lhs, node.constant val]) (value.bool b) := by
  have simple : ∀ v : value,
      visit e 1 lhs ⟨value.invalid, none⟩ = outcome.ok ⟨v, none⟩ →
      ∃ b, evaluates e (node.predicate op pred [lhs, node.constant val]) (value.bool b) := by
    intro v hv
    refine ⟨pred v val, 2, ?_⟩
    rw [evaluate_ok]
    refine ⟨⟨value.bool (pred v val), none⟩, ?_, rfl⟩
    rw [visit_predicate_pair, hv]
    have hr : visit e 1 (node.constant val) ⟨v, none⟩ = outcome.ok ⟨val, none⟩ := rfl
    simp only
    rw [hr]
    simp only
    cases pred v val <;> rfl
  cases lhs with
  | timestamp_extractor => exact simple _ rfl
  | name_extractor => exact simple _ rfl
  | id_extractor => exact simple _ rfl
  | offset_extractor ev off =>
    cases h : record_at e.args off with
    | some v =>
      apply simple v
      show (match record_at e.args off with
        | some v => outcome.ok (⟨v, none⟩ : evaluator)
        | none => outcome.ok ⟨value.invalid, none⟩) = _
      rw [h]
    | none =>
      apply simple value.invalid
      show (match record_at e.args off with
        | some v => outcome.ok (⟨v, none⟩ : evaluator)
        | none => outcome.ok ⟨value.invalid, none⟩) = _
      rw [h]
  | type_extractor t =>
    have hpos : 0 < e.args.length := List.length_pos.2 he
    obtain ⟨b, hb⟩ := type_predicate_returns e op pred t val
      (2 * stack_work [(e.args, 0)] + 3) value.invalid ⟨[(e.args, 0)], false⟩
      (fun p hp => by rw [List.mem_singleton.1 hp]; exact Nat.zero_le _)
      (Or.inr ⟨e.args, 0, rfl, hpos⟩) (by simp) (Nat.le_refl _)
    refine ⟨b, 2 * stack_work [(e.args, 0)] + 3, ?_⟩
    rw [evaluate_ok]
    exact ⟨_, (visit_predicate_fresh e op pred t val _ _).trans hb, rfl⟩
  | constant _ => exact absurd hl id
  | predicate _ _ _ => exact absurd hl id
  | conjunction _ => exact absurd hl id
  | disjunction _ => exact absurd hl id

theorem normalized_boolean (n : node) (h : normalized_node n) : boolean_node n := by
  induction h with
  | predicate op pred lhs val _ => exact boolean_node.predicate _ _ _
  | conjunction ops _ ih => exact boolean_node.conjunction ops ih
  | disjunction ops _ ih => exact boolean_node.disjunction ops ih

/-- On an event whose record is not empty, every node of a normalized AST
evaluates to a bool. -/
theorem normalized_evaluates (e : event) (he : e.args ≠ []) (n : node)
    (h : normalized_node n) : ∃ b, evaluates e n (value.bool b) := by
  induction h with
  | predicate op pred lhs val hl => exact normalized_predicate_evaluates e he op pred lhs val hl
  | conjunction ops hops ih =>
    classical
    have hρ : ∀ n, n ∈ ops →
        evaluates e n (value.bool (decide (evaluates e n (value.bool true)))) := by
      intro n hn
      obtain ⟨b, hb⟩ := ih n hn
      cases b with
      | true => rw [decide_eq_true hb]; exact hb
      | false =>
        have hno : ¬ evaluates e n (value.bool true) := by
          intro ht
          have := evaluates_unique e n _ _ hb ht
          cases this
        rw [decide_eq_false hno]
        exact hb
    exact ⟨_, conjunction_total e _ ops (fun n hn => normalized_boolean n (hops n hn)) hρ⟩
  | disjunction ops hops ih =>
    have hbool : ∀ n, n ∈ ops → boolean_node n := fun n hn => normalized_boolean n (hops n hn)
    by_cases hex : ∃ n, n ∈ ops ∧ evaluates e n (value.bool true)
    · exact ⟨true, (disjunction_true_iff e ops hbool).2 (first_true e ops ih hex)⟩
    · refine ⟨false, (disjunction_false_iff e ops hbool).2 (fun n hn => ?_)⟩
      obtain ⟨b, hb⟩ := ih n hn
      cases b with
      | true => exact absurd ⟨n, hn, hb⟩ hex
      | false => exact hb

theorem evaluate_out_of_fuel (fuel : Nat) (n : node) (e : event) :
    evaluate fuel n e = outcome.out_of_fuel ↔
      visit e fuel n ⟨value.invalid, none⟩ = outcome.out_of_fuel := by
  unfold evaluate
  cases visit e fuel n ⟨value.invalid, none⟩ <;> simp

theorem evaluate_failed (fuel : Nat) (n : node) (e : event) :
    evaluate fuel n e = outcome.failed ↔
      visit e fuel n ⟨value.invalid, none⟩ = outcome.failed := by
  unfold evaluate
  cases visit e fuel n ⟨value.invalid, none⟩ <;> simp

/-- C31: the root of a normalized AST and every operand in it is a predicate
of an extractor and a constant, or a conjunction or disjunction of such nodes.
No assertion of the evaluator ever fails on such a node, a visit of it that
returns leaves a set bool in `result_`, and on an event whose record is not
empty it does evaluate to a bool. On an event whose record is empty, however,
the operand `:int == 42` of the normalized AST of the query `:int == 42`
evaluates to nothing: its evaluation never returns, whatever the fuel, and
neither does that of the root. -/
theorem operands_evaluate_unless_record_empty {τ : Type} (rx : regex_engine)
    (S : schema τ) :
    (∀ q root, expressionizer.apply rx S q = Except.ok (some root) →
      normalized_node root ∧
      (∀ e fuel, evaluate fuel root e ≠ outcome.failed) ∧
      (∀ e : event, e.args ≠ [] → ∃ b, evaluates e root (value.bool b))) ∧
    (∀ n, normalized_node n → ∀ e : event,
      (∀ fuel (s : evaluator), s.in_bounds →
        visit e fuel n s ≠ outcome.failed ∧
        ∀ r, visit e fuel n s = outcome.ok r → ∃ b, r.result_ = value.bool b) ∧
      (e.args ≠ [] → ∃ b, evaluates e n (value.bool b))) ∧
    expressionizer.apply rx S
        ⟨query_predicate.type_predicate value_type.int_value relational_operator.equal
          ⟨value.int 42⟩, []⟩ =
      Except.ok (some (node.conjunction
        [predicate_node rx relational_operator.equal
          (node.type_extractor value_type.int_value) (node.constant (value.int 42))])) ∧
    (∀ (id : Nat) (timestamp : Int) (name : String) (fuel : Nat),
      evaluate fuel
          (predicate_node rx relational_operator.equal
            (node.type_extractor value_type.int_value) (node.constant (value.int 42)))
          ⟨id, timestamp, name, []⟩ = outcome.out_of_fuel ∧
      evaluate fuel
          (node.conjunction
            [predicate_node rx relational_operator.equal
              (node.type_extractor value_type.int_value) (node.constant (value.int 42))])
          ⟨id, timestamp, name, []⟩ = outcome.out_of_fuel) := by
  have fresh : (⟨value.invalid, none⟩ : evaluator).in_bounds := fun st h => nomatch h
  refine ⟨fun q root h => ?_, fun n hn e => ?_, rfl, fun id timestamp name fuel => ?_⟩
  · have hn := apply_normalized rx S q root h
    refine ⟨hn, fun e fuel hf => ?_, fun e he => normalized_evaluates e he root hn⟩
    exact (visit_normalized_safe e fuel root _ hn fresh).1 ((evaluate_failed fuel root e).1 hf)
  · refine ⟨fun fuel s hs => ?_, fun he => normalized_evaluates e he n hn⟩
    obtain ⟨h1, h2⟩ := visit_normalized_safe e fuel n s hn hs
    exact ⟨h1, fun r hr => (h2 r hr).2⟩
  · have hp : ∀ fuel, evaluate fuel
        (predicate_node rx relational_operator.equal
          (node.type_extractor value_type.int_value) (node.constant (value.int 42)))
        ⟨id, timestamp, name, []⟩ = outcome.out_of_fuel :=
      predicate_on_empty_record id timestamp name relational_operator.equal
        (make_predicate rx relational_operator.equal) value_type.int_value (value.int 42) rfl
    refine ⟨hp fuel, ?_⟩
    cases fuel with
    | zero => rfl
    | succ k =>
      rw [evaluate_out_of_fuel, visit_conjunction]
      have hv := (evaluate_out_of_fuel k _ _).1 (hp k)
      simp only [all_of, operand_bool, hv]

/-! # The bool of `in` and `ni` does not depend on the memory behind the strings -/

/-- Where the needle fits into the string from `cand` on, the inner loop reads
nothing behind the string before it stops. -/
theorem find_advance_mem_in_bounds (h : List Char) (hpast : Nat → Char) (n : List Char)
    (npast : Nat → Char) :
    ∀ (k sub cand : Nat), sub ≤ n.length → cand + (n.length - sub) ≤ h.length →
      find_advance_mem h hpast n npast k sub cand = bounded_advance h n k sub cand
  | 0, _, _, _, _ => rfl
  | k + 1, sub, cand, hs, hfit => by
    rw [find_advance_mem, bounded_advance]
    by_cases hend : sub = n.length
    · rw [if_neg (fun hc => hc.2 hend), if_neg (fun hc => hc.2 hend)]
    · have hlt : sub < n.length := Nat.lt_of_le_of_ne hs hend
      have hcl : cand < h.length := by omega
      have hiff : (read_at n npast sub = read_at h hpast cand ∧ sub ≠ n.length) ↔
          (n[sub]? = h[cand]? ∧ sub ≠ n.length) := by
        have hr : read_at n npast sub = n[sub] := by
          rw [read_at, List.getElem?_eq_getElem hlt]
        have hc : read_at h hpast cand = h[cand] := by
          rw [read_at, List.getElem?_eq_getElem hcl]
        rw [hr, hc, List.getElem?_eq_getElem hlt, List.getElem?_eq_getElem hcl]
        exact and_congr_left (fun _ => ⟨fun e => congrArg some e, fun e => Option.some.inj e⟩)
      by_cases hc : n[sub]? = h[cand]? ∧ sub ≠ n.length
      · rw [if_pos (hiff.2 hc), if_pos hc]
        exact find_advance_mem_in_bounds h hpast n npast k (sub + 1) (cand + 1) hlt (by omega)
      · rw [if_neg (fun e => hc (hiff.1 e)), if_neg hc]

/-- The outer loop returns `npos` or a position from `pos` on. -/
theorem find_loop_mem_ge (h : List Char) (hpast : Nat → Char) (n : List Char)
    (npast : Nat → Char) :
    ∀ (k pos : Nat), find_loop_mem h hpast n npast k pos = string_npos ∨
      pos ≤ find_loop_mem h hpast n npast k pos
  | 0, _ => Or.inl rfl
  | k + 1, pos => by
    rw [find_loop_mem]
    split
    · split
      · exact Or.inr (Nat.le_refl _)
      · rcases find_loop_mem_ge h hpast n npast k (pos + 1) with h1 | h1
        · exact Or.inl h1
        · exact Or.inr (by omega)
    · exact Or.inl rfl

/-- Whether `find` returns 0 does not depend on the memory behind the two
strings: it does exactly when the search starts at 0 and the needle, which is
not empty, is a prefix of the string. -/
theorem string_find_mem_zero (h : List Char) (hpast : Nat → Char) (n : List Char)
    (npast : Nat → Char) (pos : Nat) :
    string_find_mem h hpast n npast pos = 0 ↔
      (pos = 0 ∨ pos = string_npos) ∧ n ≠ [] ∧ n <+: h := by
  have hnpos : string_npos ≠ 0 := by decide
  have hpz : (if pos = string_npos then 0 else pos) = 0 ↔ (pos = 0 ∨ pos = string_npos) := by
    by_cases h1 : pos = string_npos
    · rw [if_pos h1]; exact ⟨fun _ => Or.inr h1, fun _ => rfl⟩
    · rw [if_neg h1]; exact ⟨fun hc => Or.inl hc, fun hc => hc.resolve_right h1⟩
  unfold string_find_mem
  simp only
  rw [← hpz]
  generalize (if pos = string_npos then 0 else pos) = p
  by_cases hg : h.isEmpty ∨ n.isEmpty ∨ p + n.length > h.length
  · rw [if_pos hg]
    refine ⟨fun hc => absurd hc hnpos, fun hc => ?_⟩
    exfalso
    obtain ⟨hp, hn, hpre⟩ := hc
    have hle := hpre.length_le
    rw [hp] at hg
    rcases hg with h1 | h1 | h1
    · have : h = [] := List.isEmpty_iff.mp h1
      rw [this] at hle
      have : n.length = 0 := by simpa using hle
      exact hn (List.length_eq_zero.mp this)
    · exact hn (List.isEmpty_iff.mp h1)
    · omega
  · rw [if_neg hg]
    have hh : h ≠ [] := fun hc => hg (Or.inl (by rw [hc]; rfl))
    have hn : n ≠ [] := fun hc => hg (Or.inr (Or.inl (by rw [hc]; rfl)))
    have hfit : p + n.length ≤ h.length := by
      by_contra hc
      exact hg (Or.inr (Or.inr (by omega)))
    obtain ⟨k, hk⟩ : ∃ k, h.length = k + 1 :=
      ⟨h.length - 1, by have := List.length_pos.mpr hh; omega⟩
    have hnl : 0 < n.length := List.length_pos.mpr hn
    rw [hk, find_loop_mem, if_pos (by omega)]
    have hrest : find_loop_mem h hpast n npast k (p + 1) ≠ 0 := by
      intro hc
      rcases find_loop_mem_ge h hpast n npast k (p + 1) with h1 | h1
      · rw [h1] at hc; exact hnpos hc
      · omega
    by_cases hp0 : p = 0
    · subst hp0
      rw [find_advance_mem_in_bounds h hpast n npast _ 0 0 (Nat.zero_le _) (by omega)]
      have hspec := bounded_advance_spec h n (n.length + 1) 0 0 (Nat.zero_le _) (by omega)
      rw [List.drop_zero, List.drop_zero] at hspec
      by_cases hadv : bounded_advance h n (n.length + 1) 0 0 = n.length
      · rw [if_pos hadv]
        exact ⟨fun _ => ⟨rfl, hn, hspec.1 hadv⟩, fun _ => rfl⟩
      · rw [if_neg hadv]
        exact ⟨fun hc => absurd hc hrest, fun hc => absurd (hspec.2 hc.2.2) hadv⟩
    · constructor
      · intro hc
        exfalso
        by_cases hadv : find_advance_mem h hpast n npast (n.length + 1) 0 p = n.length
        · rw [if_pos hadv] at hc; exact hp0 hc
        · rw [if_neg hadv] at hc; exact hrest hc
      · intro hc
        exact absurd hc.1 hp0

/-- The functions of `in` and `ni` on two strings are the position that `find`
returns, converted to `bool`, whatever lies in the memory behind the two
strings. -/
theorem in_of_strings_whatever_memory (rx : regex_engine) (hpast npast : Nat → Char)
    (lhs rhs : String) :
    in_visitor rx (value.string lhs) (value.string rhs) =
      (string_find_mem rhs.data hpast lhs.data npast string_npos != 0) ∧
    ni_visitor rx (value.string lhs) (value.string rhs) =
      (string_find_mem lhs.data hpast rhs.data npast string_npos != 0) := by
  have key : ∀ h n : List Char,
      (string_find h n string_npos != 0) =
        (string_find_mem h hpast n npast string_npos != 0) := by
    intro h n
    have h1 := string_find_mem_zero h zeroed n zeroed string_npos
    have h2 := string_find_mem_zero h hpast n npast string_npos
    have h3 : string_find h n string_npos = 0 ↔
        string_find_mem h hpast n npast string_npos = 0 := h1.trans h2.symm
    by_cases hz : string_find h n string_npos = 0
    · rw [hz, h3.1 hz]
    · have hz2 : string_find_mem h hpast n npast string_npos ≠ 0 := fun hc => hz (h3.2 hc)
      rw [bne_iff_ne.mpr hz, bne_iff_ne.mpr hz2]
  exact ⟨key rhs.data lhs.data, key lhs.data rhs.data⟩

/-! # Short circuit of conjunctions and disjunctions -/

/-- Among operands that all return a bool, the first one that returns false is
preceded by operands that return true. -/
theorem first_false (e : event) :
    ∀ ops : List node, (∀ n, n ∈ ops → ∃ b, evaluates e n (value.bool b)) →
      (∃ n, n ∈ ops ∧ evaluates e n (value.bool false)) →
      ∃ pre n post, ops = pre ++ n :: post ∧
        (∀ m, m ∈ pre → evaluates e m (value.bool true)) ∧
        evaluates e n (value.bool false)
  | [], _, h => by
    obtain ⟨n, hn, _⟩ := h
    cases hn
  | a :: l, htot, h => by
    obtain ⟨b, hb⟩ := htot a (List.mem_cons_self _ _)
    cases b
    · exact ⟨[], a, l, rfl, fun _ hm => (nomatch hm), hb⟩
    · obtain ⟨n, hn, hnt⟩ := h
      have hnl : n ∈ l := by
        rcases List.mem_cons.1 hn with h1 | h1
        · rw [h1] at hnt
          have := evaluates_unique e a _ _ hb hnt
          cases this
        · exact h1
      obtain ⟨pre, m, post, e1, e2, e3⟩ := first_false e l
        (fun k hk => htot k (List.mem_cons_of_mem _ hk)) ⟨n, hnl, hnt⟩
      refine ⟨a :: pre, m, post, by rw [e1]; rfl, ?_, e3⟩
      intro k hk
      rcases List.mem_cons.1 hk with h1 | h1
      · rw [h1]; exact hb
      · exact e2 k h1

/-- C10: the operands of a conjunction or disjunction are evaluated in order
up to the first false one (conjunction) or the first true one (disjunction),
and the operands after it are not evaluated. So a conjunction yields true iff
every operand evaluates to true (true without operands), and a disjunction
yields false iff every operand evaluates to false (false without operands).
But a disjunction yields true iff one operand evaluates to true and every
operand before it evaluates to false: that "at least one operand evaluates to
true" is enough only when each operand evaluates to a bool, as each node of a
normalized AST does on an event whose record is not empty. On an event whose
record is empty, the disjunction of `:int == 0` and `&name == "foo"` does not
yield true although its second operand evaluates to true on the event foo: its
first operand never returns, and so the disjunction never returns. With the
two operands in the other order it yields true, the operand that never returns
not being evaluated. -/
theorem short_circuit_in_operand_order (e : event) :
    evaluates e (node.conjunction []) (value.bool true) ∧
    evaluates e (node.disjunction []) (value.bool false) ∧
    (∀ ops : List node, (∀ n, n ∈ ops → boolean_node n) →
      (evaluates e (node.conjunction ops) (value.bool true) ↔
        ∀ n, n ∈ ops → evaluates e n (value.bool true)) ∧
      (evaluates e (node.disjunction ops) (value.bool false) ↔
        ∀ n, n ∈ ops → evaluates e n (value.bool false)) ∧
      (evaluates e (node.disjunction ops) (value.bool true) ↔
        ∃ pre n post, ops = pre ++ n :: post ∧
          (∀ m, m ∈ pre → evaluates e m (value.bool false)) ∧
          evaluates e n (value.bool true)) ∧
      (evaluates e (node.conjunction ops) (value.bool false) ↔
        ∃ pre n post, ops = pre ++ n :: post ∧
          (∀ m, m ∈ pre → evaluates e m (value.bool true)) ∧
          evaluates e n (value.bool false)) ∧
      ((∀ n, n ∈ ops → ∃ b, evaluates e n (value.bool b)) →
        (evaluates e (node.disjunction ops) (value.bool true) ↔
          ∃ n, n ∈ ops ∧ evaluates e n (value.bool true)) ∧
        (evaluates e (node.conjunction ops) (value.bool false) ↔
          ∃ n, n ∈ ops ∧ evaluates e n (value.bool false)))) ∧
    (e.args ≠ [] → ∀ ops : List node, (∀ n, n ∈ ops → normalized_node n) →
      (evaluates e (node.conjunction ops) (value.bool true) ↔
        ∀ n, n ∈ ops → evaluates e n (value.bool true)) ∧
      (evaluates e (node.disjunction ops) (value.bool true) ↔
        ∃ n, n ∈ ops ∧ evaluates e n (value.bool true)) ∧
      ((∃ b, evaluates e (node.conjunction ops) (value.bool b)) ∧
        ∃ b, evaluates e (node.disjunction ops) (value.bool b))) ∧
    (∀ (fuel : Nat) (ops : List node) (s : evaluator) (x : Option extractor_state),
      (visit e (fuel + 1) (node.conjunction ops) s = outcome.ok ⟨value.bool true, x⟩ ↔
        ∃ t, each_yields (operand_bool (visit e fuel)) true ops s t ∧
          t.extractor_state_ = x) ∧
      (visit e (fuel + 1) (node.disjunction ops) s = outcome.ok ⟨value.bool true, x⟩ ↔
        ∃ pre n post s1 t, ops = pre ++ n :: post ∧
          each_yields (operand_bool (visit e fuel)) false pre s s1 ∧
          operand_bool (visit e fuel) n s1 = outcome.ok (true, t) ∧
          t.extractor_state_ = x)) ∧
    (∀ (fuel : Nat) (pre : List node) (n : node) (post : List node) (s s1 t : evaluator),
      (each_yields (operand_bool (visit e fuel)) true pre s s1 →
        operand_bool (visit e fuel) n s1 = outcome.ok (false, t) →
        visit e (fuel + 1) (node.conjunction (pre ++ n :: post)) s =
          outcome.ok ⟨value.bool false, t.extractor_state_⟩) ∧
      (each_yields (operand_bool (visit e fuel)) false pre s s1 →
        operand_bool (visit e fuel) n s1 = outcome.ok (true, t) →
        visit e (fuel + 1) (node.disjunction (pre ++ n :: post)) s =
          outcome.ok ⟨value.bool true, t.extractor_state_⟩)) ∧
    (∀ (rx : regex_engine) (id : Nat) (timestamp : Int),
      evaluates ⟨id, timestamp, "foo", []⟩
        (predicate_node rx relational_operator.equal node.name_extractor
          (node.constant (value.string "foo")))
        (value.bool true) ∧
      (∀ fuel, evaluate fuel
        (node.disjunction
          [predicate_node rx relational_operator.equal
              (node.type_extractor value_type.int_value) (node.constant (value.int 0)),
            predicate_node rx relational_operator.equal node.name_extractor
              (node.constant (value.string "foo"))])
        ⟨id, timestamp, "foo", []⟩ = outcome.out_of_fuel) ∧
      ¬ evaluates ⟨id, timestamp, "foo", []⟩
        (node.disjunction
          [predicate_node rx relational_operator.equal
              (node.type_extractor value_type.int_value) (node.constant (value.int 0)),
            predicate_node rx relational_operator.equal node.name_extractor
              (node.constant (value.string "foo"))])
        (value.bool true) ∧
      evaluates ⟨id, timestamp, "foo", []⟩
        (node.disjunction
          [predicate_node rx relational_operator.equal node.name_extractor
              (node.constant (value.string "foo")),
            predicate_node rx relational_operator.equal
              (node.type_extractor value_type.int_value) (node.constant (value.int 0))])
        (value.bool true)) := by
  have htot : ∀ ops : List node, (∀ n, n ∈ ops → boolean_node n) →
      (∀ n, n ∈ ops → ∃ b, evaluates e n (value.bool b)) →
      (evaluates e (node.disjunction ops) (value.bool true) ↔
        ∃ n, n ∈ ops ∧ evaluates e n (value.bool true)) ∧
      (evaluates e (node.conjunction ops) (value.bool false) ↔
        ∃ n, n ∈ ops ∧ evaluates e n (value.bool false)) := by
    intro ops hops hb
    constructor
    · rw [disjunction_true_iff e ops hops]
      constructor
      · rintro ⟨pre, n, post, e1, _, e3⟩
        exact ⟨n, by rw [e1]; simp, e3⟩
      · intro h
        exact first_true e ops hb h
    · rw [conjunction_false_iff e ops hops]
      constructor
      · rintro ⟨pre, n, post, e1, _, e3⟩
        exact ⟨n, by rw [e1]; simp, e3⟩
      · intro h
        exact first_false e ops hb h
  have hloop : ∀ (rx : regex_engine) (id : Nat) (timestamp : Int) (fuel : Nat),
      evaluate fuel
        (node.disjunction
          [predicate_node rx relational_operator.equal
              (node.type_extractor value_type.int_value) (node.constant (value.int 0)),
            predicate_node rx relational_operator.equal node.name_extractor
              (node.constant (value.string "foo"))])
        ⟨id, timestamp, "foo", []⟩ = outcome.out_of_fuel := by
    intro rx id timestamp fuel
    have hp : ∀ fuel, evaluate fuel
        (predicate_node rx relational_operator.equal
          (node.type_extractor value_type.int_value) (node.constant (value.int 0)))
        ⟨id, timestamp, "foo", []⟩ = outcome.out_of_fuel :=
      predicate_on_empty_record id timestamp "foo" relational_operator.equal
        (make_predicate rx relational_operator.equal) value_type.int_value (value.int 0) rfl
    cases fuel with
    | zero => rfl
    | succ k =>
      rw [evaluate_out_of_fuel, visit_disjunction]
      have hv := (evaluate_out_of_fuel k _ _).1 (hp k)
      simp only [any_of, operand_bool, hv]
  refine ⟨⟨1, rfl⟩, ⟨1, rfl⟩, fun ops hops => ?_, fun he ops hops => ?_,
    fun fuel ops s x => ?_, fun fuel pre n post s s1 t => ?_, fun rx id timestamp => ?_⟩
  · exact ⟨conjunction_true_iff e ops hops, disjunction_false_iff e ops hops,
      disjunction_true_iff e ops hops, conjunction_false_iff e ops hops, htot ops hops⟩
  · have hb : ∀ n, n ∈ ops → boolean_node n := fun n hn => normalized_boolean n (hops n hn)
    have hev : ∀ n, n ∈ ops → ∃ b, evaluates e n (value.bool b) :=
      fun n hn => normalized_evaluates e he n (hops n hn)
    exact ⟨conjunction_true_iff e ops hb, (htot ops hb hev).1,
      normalized_evaluates e he _ (normalized_node.conjunction ops hops),
      normalized_evaluates e he _ (normalized_node.disjunction ops hops)⟩
  · constructor
    · rw [visit_conjunction_ok]
      constructor
      · rintro ⟨t, h1, h2⟩
        exact ⟨t, (all_of_true_iff _ ops s t).1 h1, h2⟩
      · rintro ⟨t, h1, h2⟩
        exact ⟨t, (all_of_true_iff _ ops s t).2 h1, h2⟩
    · rw [visit_disjunction_ok]
      constructor
      · rintro ⟨t, h1, h2⟩
        obtain ⟨pre, n, post, s1, e1, e2, e3⟩ := (any_of_true_iff _ ops s t).1 h1
        exact ⟨pre, n, post, s1, t, e1, e2, e3, h2⟩
      · rintro ⟨pre, n, post, s1, t, e1, e2, e3, h2⟩
        exact ⟨t, (any_of_true_iff _ ops s t).2 ⟨pre, n, post, s1, e1, e2, e3⟩, h2⟩
  · constructor
    · intro h1 h2
      exact (visit_conjunction_ok e fuel _ s false _).2
        ⟨t, all_of_short_circuit _ pre n post s s1 t h1 h2, rfl⟩
    · intro h1 h2
      exact (visit_disjunction_ok e fuel _ s true _).2
        ⟨t, any_of_short_circuit _ pre n post s s1 t h1 h2, rfl⟩
  · refine ⟨⟨2, rfl⟩, hloop rx id timestamp, ?_, ⟨3, rfl⟩⟩
    rintro ⟨fuel, hf⟩
    rw [hloop rx id timestamp fuel] at hf
    cases hf

/-! # The shape of a normalized AST -/

/-- The terms of a list of nodes are one more than its ORs. -/
theorem node_terms_length :
    ∀ (tails : List (boolean_operator × node)) (cur : List node),
      (node_terms cur tails).length =
        (tails.filter (fun x => decide (x.1 = boolean_operator.logical_or))).length + 1
  | [], _ => rfl
  | (boolean_operator.logical_and, n) :: tails, cur => by
    rw [node_terms, node_terms_length tails (cur ++ [n])]
    rfl
  | (boolean_operator.logical_or, n) :: tails, cur => by
    rw [node_terms, List.length_cons, node_terms_length tails [n]]
    rfl

/-- The terms of a list of nodes, one after the other, are the nodes. -/
theorem node_terms_flatten :
    ∀ (tails : List (boolean_operator × node)) (cur : List node),
      (node_terms cur tails).flatten = cur ++ tails.map (fun x => x.2)
  | [], cur => by simp [node_terms]
  | (boolean_operator.logical_and, n) :: tails, cur => by
    rw [node_terms, node_terms_flatten tails (cur ++ [n])]
    simp
  | (boolean_operator.logical_or, n) :: tails, cur => by
    rw [node_terms, List.flatten_cons, node_terms_flatten tails [n]]
    simp

/-- Without an OR there is a single term. -/
theorem node_terms_no_or :
    ∀ (tails : List (boolean_operator × node)) (cur : List node),
      (∀ x, x ∈ tails → x.1 ≠ boolean_operator.logical_or) →
      node_terms cur tails = [cur ++ tails.map (fun x => x.2)]
  | [], cur, _ => by simp [node_terms]
  | (boolean_operator.logical_and, n) :: tails, cur, h => by
    rw [node_terms, node_terms_no_or tails (cur ++ [n])
      (fun x hx => h x (List.mem_cons_of_mem _ hx))]
    simp
  | (boolean_operator.logical_or, n) :: tails, cur, h =>
    absurd rfl (h _ (List.mem_cons_self _ _))

/-- The root of at least two terms is the disjunction of their operands. -/
theorem root_of_terms_two :
    ∀ T : List (List node), 2 ≤ T.length →
      root_of_terms T = node.disjunction (T.map term_operand)
  | [], h => by simp at h
  | [_], h => by simp at h
  | _ :: _ :: _, _ => rfl

/-- The normalized AST of a query from the nodes of its predicates. -/
theorem apply_of_nodes {τ : Type} (rx : regex_engine) (S : schema τ) (q : query)
    (n0 : node) (ns : List node) (h0 : emit rx S false q.first = Except.ok n0)
    (hns : emit_all rx S (q.rest.map (fun pred => pred.operand)) = Except.ok ns) :
    expressionizer.apply rx S q = Except.ok (some (root_of_terms
      (node_terms [n0] ((q.rest.map (fun pred => pred.op)).zip ns)))) := by
  have hone : emit_all rx S (query.mk q.first []).predicates = Except.ok [n0] := by
    show emit_all rx S [q.first] = _
    rw [emit_all, h0]
    rfl
  rw [apply_eq_normal_form]
  exact normal_form_of_nodes rx S q _ (terms_emit rx S q.rest _ [n0] ns hone hns)

/-- A query whose normalization succeeds has a node for each predicate. -/
theorem apply_nodes {τ : Type} (rx : regex_engine) (S : schema τ) (q : query)
    (root : Option node) (h : expressionizer.apply rx S q = Except.ok root) :
    ∃ n0 ns, emit rx S false q.first = Except.ok n0 ∧
      emit_all rx S (q.rest.map (fun pred => pred.operand)) = Except.ok ns := by
  have hp : ∀ p, p ∈ q.predicates → ∃ n, emit rx S false p = Except.ok n := by
    intro p hp
    cases hp1 : emit rx S false p with
    | ok n => exact ⟨n, rfl⟩
    | error err =>
      obtain ⟨e1, he1⟩ := apply_fails rx S q p err hp hp1
      rw [he1] at h
      cases h
  obtain ⟨n0, h0⟩ := hp q.first (List.mem_cons_self _ _)
  obtain ⟨ns, hns⟩ := emit_all_succeeds rx S (q.rest.map (fun pred => pred.operand))
    (fun p hp1 => hp p (List.mem_cons_of_mem _ hp1))
  exact ⟨n0, ns, h0, hns⟩

/-- The node of a schema predicate whose normalization succeeds: a disjunction
with one predicate for each offset, in the order of the offsets. -/
theorem emit_schema_predicate {τ : Type} (rx : regex_engine) (S : schema τ) (invert : Bool)
    (lhs : List String) (op : relational_operator) (rhs : value_expr) (n : node)
    (h : emit rx S invert (query_predicate.schema_predicate lhs op rhs) = Except.ok n) :
    n = node.disjunction ((S.find_offsets lhs).map (fun p =>
      predicate_node rx (if invert then negate op else op)
        (node.offset_extractor p.1 p.2) (node.constant (fold rhs)))) := by
  rw [emit] at h
  cases hoffs : S.find_offsets lhs with
  | nil => rw [hoffs] at h; cases h
  | cons p0 offs =>
    rw [hoffs] at h
    dsimp only at h
    cases hfind : ((p0 :: offs).map (fun p => S.find_type p.1 p.2)).find?
        (fun t => ! S.represents t (S.find_type p0.1 p0.2)) with
    | some u => rw [hfind] at h; cases h
    | none =>
      rw [hfind] at h
      cases h
      rfl

/-- C12 as amended: when the normalization of a query succeeds, each of its
predicates has a node (`n0` for the head, `ns` for the tails, in order), and
the root is built from the terms into which the ORs split these nodes
(`node_terms`: one term more than there are ORs, the terms one after the other
being all the nodes, none empty). Without an OR the root is the conjunction of
all the nodes. With an OR the root is a disjunction with one operand for each
term, at least two: the node itself for a term of a single predicate, the
conjunction of its nodes for a term with AND tails. The node of a tag, type or
offset predicate is a predicate of an extractor and the constant, the node of a
schema predicate a disjunction with one such predicate for each offset, and the
node of a negated predicate that of its operand with the complement of the
operator. -/
theorem normalized_shape {τ : Type} (rx : regex_engine) (S : schema τ) (q : query)
    (root : Option node) (h : expressionizer.apply rx S q = Except.ok root) :
    (∃ n0 ns,
      emit rx S false q.first = Except.ok n0 ∧
      emit_all rx S (q.rest.map (fun pred => pred.operand)) = Except.ok ns ∧
      ns.length = q.rest.length ∧
      (∀ n, n ∈ n0 :: ns → emitted_node n) ∧
      root = some (root_of_terms
        (node_terms [n0] ((q.rest.map (fun pred => pred.op)).zip ns))) ∧
      (node_terms [n0] ((q.rest.map (fun pred => pred.op)).zip ns)).length =
        (q.rest.filter (fun pred => decide (pred.op = boolean_operator.logical_or))).length
          + 1 ∧
      (node_terms [n0] ((q.rest.map (fun pred => pred.op)).zip ns)).flatten = n0 :: ns ∧
      (∀ t, t ∈ node_terms [n0] ((q.rest.map (fun pred => pred.op)).zip ns) → t ≠ []) ∧
      ((∀ pred, pred ∈ q.rest → pred.op ≠ boolean_operator.logical_or) →
        root = some (node.conjunction (n0 :: ns))) ∧
      ((∃ pred, pred ∈ q.rest ∧ pred.op = boolean_operator.logical_or) →
        root = some (node.disjunction
          ((node_terms [n0] ((q.rest.map (fun pred => pred.op)).zip ns)).map term_operand)) ∧
        2 ≤ ((node_terms [n0] ((q.rest.map (fun pred => pred.op)).zip ns)).map
          term_operand).length)) ∧
    (∀ n : node, term_operand [n] = n) ∧
    (∀ (a b : node) (l : List node),
      term_operand (a :: b :: l) = node.conjunction (a :: b :: l)) ∧
    (∀ invert lhs op rhs, emit rx S invert (query_predicate.tag_predicate lhs op rhs) =
      Except.ok (predicate_node rx (if invert then negate op else op) lhs.extractor
        (node.constant (fold rhs)))) ∧
    (∀ invert lhs op rhs, emit rx S invert (query_predicate.type_predicate lhs op rhs) =
      Except.ok (predicate_node rx (if invert then negate op else op)
        (node.type_extractor lhs) (node.constant (fold rhs)))) ∧
    (∀ invert event off op rhs,
      emit rx S invert (query_predicate.offset_predicate event off op rhs) =
        Except.ok (predicate_node rx (if invert then negate op else op)
          (node.offset_extractor event off) (node.constant (fold rhs)))) ∧
    (∀ invert lhs op rhs n,
      emit rx S invert (query_predicate.schema_predicate lhs op rhs) = Except.ok n →
      n = node.disjunction ((S.find_offsets lhs).map (fun p =>
        predicate_node rx (if invert then negate op else op)
          (node.offset_extractor p.1 p.2) (node.constant (fold rhs))))) ∧
    (∀ invert p, emit rx S invert (query_predicate.negated_predicate p) =
      emit rx S true p) := by
  refine ⟨?_, fun _ => rfl, fun _ _ _ => rfl, fun _ _ _ _ => rfl, fun _ _ _ _ => rfl,
    fun _ _ _ _ _ => rfl, fun invert lhs op rhs n hn =>
      emit_schema_predicate rx S invert lhs op rhs n hn, fun _ _ => by rw [emit]⟩
  obtain ⟨n0, ns, h0, hns⟩ := apply_nodes rx S q root h
  have hroot := apply_of_nodes rx S q n0 ns h0 hns
  rw [h] at hroot
  have hr : root = some (root_of_terms
      (node_terms [n0] ((q.rest.map (fun pred => pred.op)).zip ns))) := by
    injection hroot
  have hlen : ns.length = q.rest.length := by
    rw [(emit_all_emitted rx S _ ns hns).1, List.length_map]
  have hlen2 : ns.length ≤ (q.rest.map (fun pred => pred.op)).length := by
    rw [List.length_map, hlen]
  have hsnd : ((q.rest.map (fun pred => pred.op)).zip ns).map (fun x => x.2) = ns := by
    have := List.map_snd_zip (q.rest.map (fun pred => pred.op)) ns hlen2
    simpa using this
  have hfst : ((q.rest.map (fun pred => pred.op)).zip ns).map (fun x => x.1) =
      q.rest.map (fun pred => pred.op) := by
    have := List.map_fst_zip (q.rest.map (fun pred => pred.op)) ns
      (by rw [List.length_map, hlen])
    simpa using this
  have hcount : (node_terms [n0] ((q.rest.map (fun pred => pred.op)).zip ns)).length =
      (q.rest.filter (fun pred => decide (pred.op = boolean_operator.logical_or))).length
        + 1 := by
    rw [node_terms_length]
    congr 1
    have h1 : (((q.rest.map (fun pred => pred.op)).zip ns).filter
        (fun x => decide (x.1 = boolean_operator.logical_or))).length =
        ((((q.rest.map (fun pred => pred.op)).zip ns).map (fun x => x.1)).filter
          (fun o => decide (o = boolean_operator.logical_or))).length := by
      rw [List.filter_map, List.length_map]
      rfl
    rw [h1, hfst, List.filter_map, List.length_map]
    rfl
  refine ⟨n0, ns, h0, hns, hlen, ?_, hr, hcount, ?_, ?_, ?_, ?_⟩
  · intro n hn
    rcases List.mem_cons.mp hn with h1 | h1
    · rw [h1]; exact emit_emitted rx S q.first false n0 h0
    · exact (emit_all_emitted rx S _ ns hns).2 n h1
  · rw [node_terms_flatten, hsnd]
    rfl
  · intro t ht
    exact (node_terms_mem _ [n0] (by simp) t ht).1
  · intro hno
    rw [hr, node_terms_no_or _ [n0] (fun x hx => by
      have hx1 : x.1 ∈ q.rest.map (fun pred => pred.op) := by
        rw [← hfst]
        exact List.mem_map.mpr ⟨x, hx, rfl⟩
      obtain ⟨pred, hp, hop⟩ := List.mem_map.mp hx1
      rw [← hop]
      exact hno pred hp), hsnd]
    rfl
  · rintro ⟨pred, hp, hop⟩
    have h2 : 2 ≤ (node_terms [n0] ((q.rest.map (fun pred => pred.op)).zip ns)).length := by
      rw [hcount]
      have : 0 < (q.rest.filter
          (fun pred => decide (pred.op = boolean_operator.logical_or))).length :=
        List.length_pos_of_mem (List.mem_filter.mpr ⟨hp, by simp [hop]⟩)
      omega
    refine ⟨?_, by rw [List.length_map]; exact h2⟩
    rw [hr, root_of_terms_two _ h2]

/-- C12 as amended, on the query `a && b || c`: the root, the disjunction of
the conjunction of the nodes of `a` and `b` and of the node of `c`, is the
disjunction of the operands of the two terms of the nodes. -/
theorem normalized_shape_witness :
    ∃ n0 ns,
      emit no_regex no_schema false
        (query_predicate.tag_predicate tag.name relational_operator.equal ⟨value.string "a"⟩) =
        Except.ok n0 ∧
      some (node.disjunction
        [node.conjunction
          [predicate_node no_regex relational_operator.equal node.name_extractor
              (node.constant (value.string "a")),
            predicate_node no_regex relational_operator.equal node.name_extractor
              (node.constant (value.string "b"))],
          predicate_node no_regex relational_operator.equal node.name_extractor
            (node.constant (value.string "c"))]) =
        some (node.disjunction
          ((node_terms [n0]
            ([boolean_operator.logical_and, boolean_operator.logical_or].zip ns)).map
            term_operand)) ∧
      (node_terms [n0]
        ([boolean_operator.logical_and, boolean_operator.logical_or].zip ns)).length = 2 := by
  obtain ⟨n0, ns, h0, _, _, _, _, hcount, _, _, _, hor⟩ :=
    (normalized_shape no_regex no_schema
      ⟨query_predicate.tag_predicate tag.name relational_operator.equal ⟨value.string "a"⟩,
        [⟨boolean_operator.logical_and,
            query_predicate.tag_predicate tag.name relational_operator.equal
              ⟨value.string "b"⟩⟩,
          ⟨boolean_operator.logical_or,
            query_predicate.tag_predicate tag.name relational_operator.equal
              ⟨value.string "c"⟩⟩]⟩
      (some (node.disjunction
        [node.conjunction
          [predicate_node no_regex relational_operator.equal node.name_extractor
              (node.constant (value.string "a")),
            predicate_node no_regex relational_operator.equal node.name_extractor
              (node.constant (value.string "b"))],
          predicate_node no_regex relational_operator.equal node.name_extractor
            (node.constant (value.string "c"))]))
      rfl).1
  exact ⟨n0, ns, h0,
    (hor ⟨_, List.mem_cons_of_mem _ (List.mem_cons_self _ _), rfl⟩).1, hcount⟩

/-! # Type clashes of schema predicates -/

/-- C17, the claim as it stands, fails on the record ("x", 42, -4711,
10.1.1.2) as the repository writes it, where `42` is an unsigned integer (a
signed one is written `+42`) and the only int member is -4711: the normalized
AST of `:int == 42` evaluates to false and not to true, whether the constant of
the query is the int 42 or the unsigned 42. -/
theorem type_query_counterexample :
    expressionizer.apply no_regex no_schema
        ⟨query_predicate.type_predicate value_type.int_value relational_operator.equal
          ⟨value.int 42⟩, []⟩ =
      Except.ok (some (node.conjunction
        [predicate_node no_regex relational_operator.equal
          (node.type_extractor value_type.int_value) (node.constant (value.int 42))])) ∧
    evaluates
      ⟨1, 0, "foo",
        [value.string "x", value.uint 42, value.int (-4711),
          value.address (10 * 2 ^ 24 + 1 * 2 ^ 16 + 1 * 2 ^ 8 + 2)]⟩
      (node.conjunction
        [predicate_node no_regex relational_operator.equal
          (node.type_extractor value_type.int_value) (node.constant (value.int 42))])
      (value.bool false) ∧
    ¬ evaluates
      ⟨1, 0, "foo",
        [value.string "x", value.uint 42, value.int (-4711),
          value.address (10 * 2 ^ 24 + 1 * 2 ^ 16 + 1 * 2 ^ 8 + 2)]⟩
      (node.conjunction
        [predicate_node no_regex relational_operator.equal
          (node.type_extractor value_type.int_value) (node.constant (value.int 42))])
      (value.bool true) ∧
    evaluates
      ⟨1, 0, "foo",
        [value.string "x", value.uint 42, value.int (-4711),
          value.address (10 * 2 ^ 24 + 1 * 2 ^ 16 + 1 * 2 ^ 8 + 2)]⟩
      (node.conjunction
        [predicate_node no_regex relational_operator.equal
          (node.type_extractor value_type.int_value) (node.constant (value.uint 42))])
      (value.bool false) := by
  have hf : evaluates
      ⟨1, 0, "foo",
        [value.string "x", value.uint 42, value.int (-4711),
          value.address (10 * 2 ^ 24 + 1 * 2 ^ 16 + 1 * 2 ^ 8 + 2)]⟩
      (node.conjunction
        [predicate_node no_regex relational_operator.equal
          (node.type_extractor value_type.int_value) (node.constant (value.int 42))])
      (value.bool false) := ⟨12, rfl⟩
  refine ⟨rfl, hf, fun ht => ?_, ⟨12, rfl⟩⟩
  have := evaluates_unique _ _ _ _ hf ht
  cases this

/-- C17 as amended: on the event foo, for any schema and regex engine, the
query `:addr in 10.0.0.0/8` normalizes to an AST that evaluates to true and
`:addr in 192.168.0.0/16` to one that evaluates to false, whether the 42 of
the record ("x", 42, -4711, 10.1.1.2) is unsigned or signed. With the unsigned
42 the query `:int == 42` evaluates to false (the int extractor yields only
-4711), with the int constant 42 and with the unsigned one, while
`:int == -4711` and `:uint == 42` evaluate to true; with a signed 42 in the
record `:int == 42` evaluates to true. -/
theorem type_queries_on_foo (rx : regex_engine) (τ : Type) (S : schema τ) (id : Nat)
    (timestamp : Int) (fuel : Nat) :
    (∀ v42 : value, v42 = value.uint 42 ∨ v42 = value.int 42 →
      (∃ root,
        expressionizer.apply rx S
          ⟨query_predicate.type_predicate value_type.address_value relational_operator.in_op
            ⟨value.pfx (10 * 2 ^ 24) 8⟩, []⟩ = Except.ok (some root) ∧
        evaluate (fuel + 12) root
          ⟨id, timestamp, "foo",
            [value.string "x", v42, value.int (-4711),
              value.address (10 * 2 ^ 24 + 1 * 2 ^ 16 + 1 * 2 ^ 8 + 2)]⟩ =
          outcome.ok (value.bool true)) ∧
      (∃ root,
        expressionizer.apply rx S
          ⟨query_predicate.type_predicate value_type.address_value relational_operator.in_op
            ⟨value.pfx (192 * 2 ^ 24 + 168 * 2 ^ 16) 16⟩, []⟩ = Except.ok (some root) ∧
        evaluate (fuel + 12) root
          ⟨id, timestamp, "foo",
            [value.string "x", v42, value.int (-4711),
              value.address (10 * 2 ^ 24 + 1 * 2 ^ 16 + 1 * 2 ^ 8 + 2)]⟩ =
          outcome.ok (value.bool false))) ∧
    (∀ c : value, c = value.int 42 ∨ c = value.uint 42 →
      ∃ root,
        expressionizer.apply rx S
          ⟨query_predicate.type_predicate value_type.int_value relational_operator.equal
            ⟨c⟩, []⟩ = Except.ok (some root) ∧
        evaluate (fuel + 12) root
          ⟨id, timestamp, "foo",
            [value.string "x", value.uint 42, value.int (-4711),
              value.address (10 * 2 ^ 24 + 1 * 2 ^ 16 + 1 * 2 ^ 8 + 2)]⟩ =
          outcome.ok (value.bool false)) ∧
    (∃ root,
      expressionizer.apply rx S
        ⟨query_predicate.type_predicate value_type.int_value relational_operator.equal
          ⟨value.int (-4711)⟩, []⟩ = Except.ok (some root) ∧
      evaluate (fuel + 12) root
        ⟨id, timestamp, "foo",
          [value.string "x", value.uint 42, value.int (-4711),
            value.address (10 * 2 ^ 24 + 1 * 2 ^ 16 + 1 * 2 ^ 8 + 2)]⟩ =
        outcome.ok (value.bool true)) ∧
    (∃ root,
      expressionizer.apply rx S
        ⟨query_predicate.type_predicate value_type.uint_value relational_operator.equal
          ⟨value.uint 42⟩, []⟩ = Except.ok (some root) ∧
      evaluate (fuel + 12) root
        ⟨id, timestamp, "foo",
          [value.string "x", value.uint 42, value.int (-4711),
            value.address (10 * 2 ^ 24 + 1 * 2 ^ 16 + 1 * 2 ^ 8 + 2)]⟩ =
        outcome.ok (value.bool true)) ∧
    (∃ root,
      expressionizer.apply rx S
        ⟨query_predicate.type_predicate value_type.int_value relational_operator.equal
          ⟨value.int 42⟩, []⟩ = Except.ok (some root) ∧
      evaluate (fuel + 12) root
        ⟨id, timestamp, "foo",
          [value.string "x", value.int 42, value.int (-4711),
            value.address (10 * 2 ^ 24 + 1 * 2 ^ 16 + 1 * 2 ^ 8 + 2)]⟩ =
        outcome.ok (value.bool true)) := by
  refine ⟨fun v42 hv => ?_, fun c hc => ?_, ⟨_, rfl, rfl⟩, ⟨_, rfl, rfl⟩, ⟨_, rfl, rfl⟩⟩
  · rcases hv with h | h <;> subst h <;> exact ⟨⟨_, rfl, rfl⟩, ⟨_, rfl, rfl⟩⟩
  · rcases hc with h | h <;> subst h <;> exact ⟨_, rfl, rfl⟩

end vast
